import Mathlib

/-!
Elimination sets and the CAD check procedure of carl.

A shallow embedding of `src/carl/cad/EliminationSet.{h,tpp}` and of the lifting
phase, the sample construction and the sample-tree maintenance of
`src/carl/cad/CAD.tpp`, followed by the properties proved about them.

Polynomial pointers (`UnivariatePolynomialPtr`, a shared pointer in the source)
are handles: natural numbers, `0` being `nullptr`.  Hash sets are duplicate-free
lists, hash maps are partial functions on handles, `std::list` queues are lists.
-/

namespace carl
namespace cad

/-! ## Data model of `EliminationSet` -/

/-- Handle of a shared polynomial object. -/
abbrev UnivariatePolynomialPtr := Nat

/-- The null handle. -/
abbrev nullptr : UnivariatePolynomialPtr := 0

/-- Pair of ancestors of a polynomial (`EliminationSet.h:42`). -/
abbrev PolynomialPair := UnivariatePolynomialPtr × UnivariatePolynomialPtr

/-- Comparator function pointer (`EliminationSet.h:77`). -/
abbrev PolynomialComparator := UnivariatePolynomialPtr → UnivariatePolynomialPtr → Bool

/-- The type `PolynomialSet`: an `unordered_set` as a duplicate-free list. -/
abbrev PolynomialSet := List UnivariatePolynomialPtr

/-- The type `parentbucket`: a `std::set` of pairs, kept as the sorted list of its elements. -/
abbrev parentbucket := List PolynomialPair

/-- Length of a parent pair, `PolynomialPairIsLess::length` (`EliminationSet.h:44`). -/
def PolynomialPairIsLess.length (p : PolynomialPair) : Nat :=
  if p.1 = nullptr ∧ p.2 = nullptr then 0
  else if p.1 = nullptr ∨ p.2 = nullptr then 1
  else 2

/-- Order of the parent buckets, `PolynomialPairIsLess::operator()` (`EliminationSet.h:49`).
The pointer order `less` it calls is declared outside the given sources and is a parameter. -/
def PolynomialPairIsLess (less : PolynomialComparator) (a b : PolynomialPair) : Bool :=
  let l1 := PolynomialPairIsLess.length a
  let l2 := PolynomialPairIsLess.length b
  if l1 < l2 then true
  else if l2 < l1 then false
  else if less a.1 b.1 then true
  else if a.1 = b.1 then less a.2 b.2
  else false

/-- Insertion into a parent bucket, `std::set::emplace` under `PolynomialPairIsLess`: the pair is
placed at its sorted position unless an equivalent pair is present. -/
def parentbucket.emplace (less : PolynomialComparator) :
    parentbucket → PolynomialPair → parentbucket
  | [], x => [x]
  | y :: ys, x =>
    if PolynomialPairIsLess less x y then x :: y :: ys
    else if PolynomialPairIsLess less y x then y :: parentbucket.emplace less ys x
    else y :: ys

/-- Modelled from the spec: the predicate `EliminationParentsContain(parent)`, declared outside
the given sources; it holds of a parent pair that has `parent` as single parent or as one member
of the pair. -/
def EliminationParentsContain (parent : UnivariatePolynomialPtr) (pair : PolynomialPair) : Bool :=
  pair.1 == parent || pair.2 == parent

/-- Insertion into a `PolynomialSet` (`unordered_set::insert`). -/
def PolynomialSet.insert (l : PolynomialSet) (p : UnivariatePolynomialPtr) : PolynomialSet :=
  if p ∈ l then l else l ++ [p]

/-- Removal from a `PolynomialSet` (`unordered_set::erase`). -/
def PolynomialSet.erase (l : PolynomialSet) (p : UnivariatePolynomialPtr) : PolynomialSet :=
  l.filter (fun q => q != p)

/-- The class `EliminationSet` (`EliminationSet.h:33`). -/
structure EliminationSet where
  /-- Set of polynomials. -/
  polynomials : PolynomialSet
  /-- Order of the polynomials in the elimination queues. -/
  eliminationOrder : PolynomialComparator
  /-- Order of the polynomials in the lifting queue. -/
  liftingOrder : PolynomialComparator
  /-- Polynomials not yet considered for non-paired elimination. -/
  mSingleEliminationQueue : List UnivariatePolynomialPtr
  /-- Polynomials not yet considered for paired elimination. -/
  mPairedEliminationQueue : List UnivariatePolynomialPtr
  /-- Polynomials not yet considered for lifting. -/
  mLiftingQueue : List UnivariatePolynomialPtr
  /-- Reset state of the lifting queue. -/
  mLiftingQueueReset : List UnivariatePolynomialPtr
  /-- Children of each parent; `none` when the map has no entry for the key. -/
  childrenPerParent : UnivariatePolynomialPtr → Option PolynomialSet
  /-- Parent pairs of each polynomial; `none` when the map has no entry for the key. -/
  parentsPerChild : UnivariatePolynomialPtr → Option parentbucket
  /-- Whether the set holds polynomials valid only within bounds. -/
  bounded : Bool

/-- The set built by `EliminationSet(liftingOrder, eliminationOrder)`: no polynomials. -/
def EliminationSet.empty (liftingOrder eliminationOrder : PolynomialComparator) : EliminationSet :=
  { polynomials := [], eliminationOrder := eliminationOrder, liftingOrder := liftingOrder,
    mSingleEliminationQueue := [], mPairedEliminationQueue := [], mLiftingQueue := [],
    mLiftingQueueReset := [], childrenPerParent := fun _ => none,
    parentsPerChild := fun _ => none, bounded := false }

/-! ## `std::lower_bound` and the queue updates built on it -/

/-- Loop of `std::lower_bound` on a forward range: `first` is the index of the range start and
`count` its length; the first argument bounds the number of halvings. -/
def lower_boundLoop {α β : Type} (comp : α → β → Bool) (l : List α)
    (value : β) : Nat → Nat → Nat → Nat
  | 0, first, _ => first
  | fuel + 1, first, count =>
    if count = 0 then first
    else
      let step := count / 2
      match l[first + step]? with
      | none => first
      | some x =>
        if comp x value then lower_boundLoop comp l value fuel (first + step + 1) (count - (step + 1))
        else lower_boundLoop comp l value fuel first step

/-- Index returned by `std::lower_bound(l.begin(), l.end(), value, comp)`; `l.length` is `end`. -/
def lower_bound {α β : Type} (comp : α → β → Bool) (l : List α) (value : β) : Nat :=
  lower_boundLoop comp l value l.length 0 l.length

/-- Queue insertion of `insert` (`EliminationSet.tpp:66-71`): at the lower bound, or at the back. -/
def queueInsert (comp : PolynomialComparator) (q : List UnivariatePolynomialPtr)
    (p : UnivariatePolynomialPtr) : List UnivariatePolynomialPtr :=
  let queuePosition := lower_bound comp q p
  if queuePosition = q.length then q ++ [p]
  else q.take queuePosition ++ p :: q.drop queuePosition

/-- Queue removal of `erase` (`EliminationSet.tpp:176-180`): the element at the lower bound is
erased when it equals `p`. -/
def queueErase (comp : PolynomialComparator) (q : List UnivariatePolynomialPtr)
    (p : UnivariatePolynomialPtr) : List UnivariatePolynomialPtr :=
  let queuePosition := lower_bound comp q p
  match q[queuePosition]? with
  | none => q
  | some x => if x = p then q.eraseIdx queuePosition else q

/-- Queue removal of `removeByParent` (`EliminationSet.tpp:218-221`): the element at the lower
bound is erased whenever the lower bound is not `end`. -/
def queueEraseAtLowerBound (comp : PolynomialComparator) (q : List UnivariatePolynomialPtr)
    (p : UnivariatePolynomialPtr) : List UnivariatePolynomialPtr :=
  let queuePosition := lower_bound comp q p
  if queuePosition ≠ q.length then q.eraseIdx queuePosition else q

/-- Insertion step of `std::list::sort`: `x` goes before the first element not less than it. -/
def sortedInsert (comp : PolynomialComparator) (x : UnivariatePolynomialPtr) :
    List UnivariatePolynomialPtr → List UnivariatePolynomialPtr
  | [] => [x]
  | y :: ys => if comp y x then y :: sortedInsert comp x ys else x :: y :: ys

/-- The stable sort `std::list::sort(comp)`. -/
def listSort (comp : PolynomialComparator) (l : List UnivariatePolynomialPtr) :
    List UnivariatePolynomialPtr :=
  l.foldr (sortedInsert comp) []

/-! ## Operations of `EliminationSet` -/

namespace EliminationSet

/-- `hasParents` (`EliminationSet.tpp:8-21`). -/
def hasParents (s : EliminationSet) (p : UnivariatePolynomialPtr) : Bool :=
  match s.parentsPerChild p with
  | none => false
  | some bucket =>
    !bucket.isEmpty &&
      ((match bucket.head? with
        | some e => e.1 != nullptr
        | none => false) || decide (bucket.length > 1))

/-- State of the loop over `parents` in `insert` (`EliminationSet.tpp:43-59`). -/
structure ParentLoop where
  /-- The children map. -/
  childrenPerParent : UnivariatePolynomialPtr → Option PolynomialSet
  /-- The parents map. -/
  parentsPerChild : UnivariatePolynomialPtr → Option parentbucket
  /-- Whether the first member of a pair is pending. -/
  oneParentFound : Bool
  /-- The pending first member. -/
  parent1 : UnivariatePolynomialPtr

/-- One iteration of the loop over `parents` in `insert` (`EliminationSet.tpp:45-59`). -/
def insertParentStep (less : PolynomialComparator) (pos : UnivariatePolynomialPtr)
    (st : ParentLoop) (parent : UnivariatePolynomialPtr) : ParentLoop :=
  let children :=
    Function.update st.childrenPerParent parent
      (some (PolynomialSet.insert ((st.childrenPerParent parent).getD []) pos))
  if st.oneParentFound then
    { childrenPerParent := children,
      parentsPerChild :=
        Function.update st.parentsPerChild pos
          (some (parentbucket.emplace less ((st.parentsPerChild pos).getD []) (st.parent1, parent))),
      oneParentFound := false,
      parent1 := st.parent1 }
  else
    { childrenPerParent := children,
      parentsPerChild := st.parentsPerChild,
      oneParentFound := true,
      parent1 := parent }

/-- Provenance part of `insert` (`EliminationSet.tpp:34-63`). -/
def insertParents (less : PolynomialComparator) (s : EliminationSet)
    (pos : UnivariatePolynomialPtr) (parents : List UnivariatePolynomialPtr) : EliminationSet :=
  if ((parents.isEmpty || parents.head? == some nullptr) && s.hasParents pos) ||
      (!parents.isEmpty && parents.head? != some nullptr) then
    let st := parents.foldl (insertParentStep less pos)
      { childrenPerParent := s.childrenPerParent, parentsPerChild := s.parentsPerChild,
        oneParentFound := false, parent1 := nullptr }
    if st.oneParentFound then
      { s with
        childrenPerParent := st.childrenPerParent,
        parentsPerChild :=
          Function.update st.parentsPerChild pos
            (some (parentbucket.emplace less ((st.parentsPerChild pos).getD [])
              (st.parent1, nullptr))) }
    else
      { s with childrenPerParent := st.childrenPerParent, parentsPerChild := st.parentsPerChild }
  else s

/-- `insert(r, parents, avoidSingle)` (`EliminationSet.tpp:24-98`); the Boolean is
`insertValue.second`. The default of `parents` is the one-element list `(nullptr)`. -/
def insert (less : PolynomialComparator) (s : EliminationSet) (r : UnivariatePolynomialPtr)
    (parents : List UnivariatePolynomialPtr) (avoidSingle : Bool) : EliminationSet × Bool :=
  let second := decide (r ∉ s.polynomials)
  let s1 := { s with polynomials := PolynomialSet.insert s.polynomials r }
  let s2 := insertParents less s1 r parents
  if second then
    let s3 := { s2 with mLiftingQueue := queueInsert s2.liftingOrder s2.mLiftingQueue r }
    let s4 := { s3 with
      mLiftingQueueReset := queueInsert s3.liftingOrder s3.mLiftingQueueReset r }
    let s5 :=
      if !avoidSingle then
        { s4 with
          mSingleEliminationQueue := queueInsert s4.liftingOrder s4.mSingleEliminationQueue r }
      else s4
    ({ s5 with
        mPairedEliminationQueue := queueInsert s5.liftingOrder s5.mPairedEliminationQueue r },
      second)
  else (s2, second)

/-- Removal of `p` from the children of `parent`, `childrenPerParent[parent].erase(p)`; the
subscript creates an empty entry when there is none. -/
def eraseChild (children : UnivariatePolynomialPtr → Option PolynomialSet)
    (parent p : UnivariatePolynomialPtr) : UnivariatePolynomialPtr → Option PolynomialSet :=
  Function.update children parent (some (PolynomialSet.erase ((children parent).getD []) p))

/-- One iteration of the loop over the parent pairs in `erase` (`EliminationSet.tpp:169-172`). -/
def eraseParentStep (p : UnivariatePolynomialPtr)
    (children : UnivariatePolynomialPtr → Option PolynomialSet) (i : PolynomialPair) :
    UnivariatePolynomialPtr → Option PolynomialSet :=
  let c1 := if i.1 ≠ 0 then eraseChild children i.1 p else children
  if i.2 ≠ 0 then eraseChild c1 i.2 p else c1

/-- `erase(p)` (`EliminationSet.tpp:165-192`); the number is the return value. -/
def erase (s : EliminationSet) (p : UnivariatePolynomialPtr) : EliminationSet × Nat :=
  if p = 0 then (s, 0)
  else
    let children := ((s.parentsPerChild p).getD []).foldl (eraseParentStep p) s.childrenPerParent
    ({ s with
        childrenPerParent := children,
        parentsPerChild := Function.update s.parentsPerChild p none,
        mLiftingQueue := queueErase s.liftingOrder s.mLiftingQueue p,
        mLiftingQueueReset := queueErase s.liftingOrder s.mLiftingQueueReset p,
        mSingleEliminationQueue := queueErase s.eliminationOrder s.mSingleEliminationQueue p,
        mPairedEliminationQueue := queueErase s.eliminationOrder s.mPairedEliminationQueue p,
        polynomials := PolynomialSet.erase s.polynomials p },
      if p ∈ s.polynomials then 1 else 0)

/-- One `find_if` / `erase` round of `removeByParent` (`EliminationSet.tpp:208-211`): the first
pair that contains `parent` is erased; `none` when `find_if` returns `end`. -/
def eraseFirstParentPair (parent : UnivariatePolynomialPtr) : parentbucket → Option parentbucket
  | [] => none
  | x :: xs =>
    if EliminationParentsContain parent x then some xs
    else (eraseFirstParentPair parent xs).map (fun ys => x :: ys)

/-- The `while` loop of `removeByParent` (`EliminationSet.tpp:208-213`): pairs that contain
`parent` are erased until `find_if` finds none; the first argument bounds the number of
iterations. -/
def eraseParentPairs (parent : UnivariatePolynomialPtr) : Nat → parentbucket → parentbucket
  | 0, bucket => bucket
  | fuel + 1, bucket =>
    match eraseFirstParentPair parent bucket with
    | none => bucket
    | some bucket1 => eraseParentPairs parent fuel bucket1

/-- Body of the loop over the children in `removeByParent` (`EliminationSet.tpp:203-234`). -/
def removeByParentStep (parent : UnivariatePolynomialPtr)
    (acc : EliminationSet × List UnivariatePolynomialPtr) (child : UnivariatePolynomialPtr) :
    EliminationSet × List UnivariatePolynomialPtr :=
  let s := acc.1
  match s.parentsPerChild child with
  | none => acc
  | some bucket =>
    if bucket.isEmpty then acc
    else
      let bucket1 := eraseParentPairs parent bucket.length bucket
      if bucket1.isEmpty then
        ({ s with
            parentsPerChild := Function.update s.parentsPerChild child none,
            mLiftingQueue := queueEraseAtLowerBound s.liftingOrder s.mLiftingQueue child,
            mLiftingQueueReset :=
              queueEraseAtLowerBound s.liftingOrder s.mLiftingQueueReset child,
            mSingleEliminationQueue :=
              queueEraseAtLowerBound s.eliminationOrder s.mSingleEliminationQueue child,
            mPairedEliminationQueue :=
              queueEraseAtLowerBound s.eliminationOrder s.mPairedEliminationQueue child,
            polynomials := PolynomialSet.erase s.polynomials child },
          child :: acc.2)
      else
        ({ s with parentsPerChild := Function.update s.parentsPerChild child (some bucket1) },
          acc.2)

/-- `removeByParent(parent)` (`EliminationSet.tpp:195-238`); the list is the returned
`deleted`. -/
def removeByParent (s : EliminationSet) (parent : UnivariatePolynomialPtr) :
    EliminationSet × List UnivariatePolynomialPtr :=
  if parent = nullptr then (s, [])
  else
    match s.childrenPerParent parent with
    | none => (s, [])
    | some children =>
      let res := children.foldl (removeByParentStep parent) (s, [])
      ({ res.1 with childrenPerParent := Function.update res.1.childrenPerParent parent none },
        res.2)

/-- `nextLiftingPosition()` (`EliminationSet.h:272`); undefined (`none`) on an empty queue. -/
def nextLiftingPosition (s : EliminationSet) : Option UnivariatePolynomialPtr :=
  s.mLiftingQueue.head?

/-- `popLiftingPosition()` (`EliminationSet.h:283`); undefined (`none`) on an empty queue. -/
def popLiftingPosition (s : EliminationSet) : Option EliminationSet :=
  match s.mLiftingQueue with
  | [] => none
  | _ :: rest => some { s with mLiftingQueue := rest }

/-- `emptyLiftingQueue()` (`EliminationSet.h:291`). -/
def emptyLiftingQueue (s : EliminationSet) : Bool :=
  s.mLiftingQueue.isEmpty

/-- `resetLiftingPositionsFully()` (`EliminationSet.tpp:271-274`). -/
def resetLiftingPositionsFully (s : EliminationSet) : EliminationSet :=
  { s with mLiftingQueue := listSort s.liftingOrder s.polynomials }

/-- `resetLiftingPositions()` (`EliminationSet.h:313`). -/
def resetLiftingPositions (s : EliminationSet) : EliminationSet :=
  { s with mLiftingQueue := s.mLiftingQueueReset }

/-- `setLiftingPositionsReset()` (`EliminationSet.h:320`). -/
def setLiftingPositionsReset (s : EliminationSet) : EliminationSet :=
  { s with mLiftingQueueReset := s.mLiftingQueue }

/-- `popNextSingleEliminationPosition()` (`EliminationSet.tpp:277-281`); undefined (`none`) on
an empty queue. -/
def popNextSingleEliminationPosition (s : EliminationSet) :
    Option (EliminationSet × UnivariatePolynomialPtr) :=
  match s.mSingleEliminationQueue with
  | [] => none
  | p :: rest => some ({ s with mSingleEliminationQueue := rest }, p)

end EliminationSet

/-! ## Sequences of calls -/

/-- A call of one of the state-changing operations of `EliminationSet`. -/
inductive Call where
  /-- The call `insert(r, parents, avoidSingle)`. -/
  | insert (r : UnivariatePolynomialPtr) (parents : List UnivariatePolynomialPtr)
      (avoidSingle : Bool)
  /-- The call `erase(p)`. -/
  | erase (p : UnivariatePolynomialPtr)
  /-- The call `removeByParent(parent)`. -/
  | removeByParent (parent : UnivariatePolynomialPtr)
  /-- The call `popLiftingPosition()`. -/
  | popLiftingPosition
  /-- The call `resetLiftingPositionsFully()`. -/
  | resetLiftingPositionsFully
  /-- The call `resetLiftingPositions()`. -/
  | resetLiftingPositions
  /-- The call `setLiftingPositionsReset()`. -/
  | setLiftingPositionsReset
  /-- The call `popNextSingleEliminationPosition()`. -/
  | popNextSingleEliminationPosition

/-- The set after one call; `none` when the call is undefined (a pop on an empty queue). -/
def Call.apply (less : PolynomialComparator) (s : EliminationSet) : Call → Option EliminationSet
  | .insert r parents avoidSingle => some (s.insert less r parents avoidSingle).1
  | .erase p => some (s.erase p).1
  | .removeByParent parent => some (s.removeByParent parent).1
  | .popLiftingPosition => s.popLiftingPosition
  | .resetLiftingPositionsFully => some s.resetLiftingPositionsFully
  | .resetLiftingPositions => some s.resetLiftingPositions
  | .setLiftingPositionsReset => some s.setLiftingPositionsReset
  | .popNextSingleEliminationPosition => s.popNextSingleEliminationPosition.map Prod.fst

/-- The set after a sequence of calls, made from left to right. -/
def runCalls (less : PolynomialComparator) : EliminationSet → List Call → Option EliminationSet
  | s, [] => some s
  | s, c :: cs =>
    match c.apply less s with
    | none => none
    | some s1 => runCalls less s1 cs

/-- Whether a call is an `insert` or a `popLiftingPosition`. -/
def Call.isInsertOrPop : Call → Bool
  | .insert _ _ _ => true
  | .popLiftingPosition => true
  | _ => false

/-- The polynomials newly added to the set by the `insert` calls of a sequence, in the order of
their insertion. -/
def newlyInserted (less : PolynomialComparator) :
    EliminationSet → List Call → List UnivariatePolynomialPtr
  | _, [] => []
  | s, c :: cs =>
    match c.apply less s with
    | none => []
    | some s1 =>
      match c with
      | .insert r parents avoidSingle =>
        if (s.insert less r parents avoidSingle).2 then r :: newlyInserted less s1 cs
        else newlyInserted less s1 cs
      | _ => newlyInserted less s1 cs

/-! ## Notions used to state the properties -/

/-- A recorded bucket of parent pairs that is non-empty and all of whose pairs contain
`parent`. -/
def loneBucket (parent : UnivariatePolynomialPtr) : Option parentbucket → Bool
  | none => false
  | some bucket => !bucket.isEmpty && bucket.all (EliminationParentsContain parent)

/-- A polynomial whose recorded parent pairs all contain `parent`: a lone child of `parent` or
one that is divorced by its removal. -/
def EliminationSet.loneChild (s : EliminationSet) (parent c : UnivariatePolynomialPtr) : Bool :=
  loneBucket parent (s.parentsPerChild c)

/-- What `removeByParent(parent)` leaves of a bucket: the pairs that do not contain `parent`,
and no entry at all when a non-empty bucket loses all its pairs. -/
def prunedBucket (parent : UnivariatePolynomialPtr) : Option parentbucket → Option parentbucket
  | none => none
  | some bucket =>
    if bucket.isEmpty then some bucket
    else if (bucket.filter (fun x => !EliminationParentsContain parent x)).isEmpty then none
    else some (bucket.filter (fun x => !EliminationParentsContain parent x))

/-! ## Orders and sorted queues -/

/-- A comparator that is a strict total order on handles. -/
structure StrictTotalOrder (lt : PolynomialComparator) : Prop where
  /-- No handle precedes itself. -/
  irrefl : ∀ a, lt a a = false
  /-- Precedence is transitive. -/
  trans : ∀ a b c, lt a b = true → lt b c = true → lt a c = true
  /-- Two different handles are comparable. -/
  total : ∀ a b, a ≠ b → lt a b = true ∨ lt b a = true

/-- A queue in comparator order: no element is strictly less than an earlier one. -/
def QueueSorted (comp : PolynomialComparator) (q : List UnivariatePolynomialPtr) : Prop :=
  q.Pairwise (fun a b => comp b a = false)

/-- A queue that is strictly increasing in comparator order (hence duplicate-free). -/
def QueueStrictlySorted (comp : PolynomialComparator) (q : List UnivariatePolynomialPtr) : Prop :=
  q.Pairwise (fun a b => comp a b = true)

/-- The two lifting queues of a set are in the lifting order `L`. -/
def LiftingQueuesSorted (L : PolynomialComparator) (s : EliminationSet) : Prop :=
  s.liftingOrder = L ∧ QueueSorted L s.mLiftingQueue ∧ QueueSorted L s.mLiftingQueueReset

/-! ## Concrete orders and sets used in the examples -/

/-- The comparator that orders handles upwards. -/
def ascending : PolynomialComparator := fun a b => decide (a < b)

/-- The comparator that orders handles downwards. -/
def descending : PolynomialComparator := fun a b => decide (b < a)

/-- The set reached from the empty one, with lifting order `ascending` and elimination order
`descending`, by `insert(1)`, `insert(2)`, `insert(3)` (default parents, `avoidSingle = false`). -/
def exampleMixedOrders : EliminationSet :=
  (EliminationSet.insert ascending
    (EliminationSet.insert ascending
      (EliminationSet.insert ascending (EliminationSet.empty ascending descending)
        1 [nullptr] false).1
      2 [nullptr] false).1
    3 [nullptr] false).1

/-- The set reached from the empty one by `insert(5)` as an original input (default null parent)
followed by `insert(5, (7))`. -/
def exampleOriginalFirst : EliminationSet :=
  (EliminationSet.insert ascending
    (EliminationSet.insert ascending (EliminationSet.empty ascending ascending)
      5 [nullptr] false).1
    5 [7] false).1

/-- The set reached from the empty one by `insert(5, (7))` followed by `insert(5)` as an original
input (default null parent). -/
def exampleOriginalLast : EliminationSet :=
  (EliminationSet.insert ascending
    (EliminationSet.insert ascending (EliminationSet.empty ascending ascending)
      5 [7] false).1
    5 [nullptr] false).1

/-- The set reached from the empty one by `insert(5, (1, 0, 2, 3))` followed by
`removeByParent(2)`. -/
def exampleDivorced : EliminationSet :=
  (EliminationSet.removeByParent
    (EliminationSet.insert ascending (EliminationSet.empty ascending ascending)
      5 [1, nullptr, 2, 3] false).1
    2).1

/-- A sequence of calls on a fresh set. -/
def exampleCalls : List Call :=
  [.insert 2 [nullptr] false, .insert 1 [nullptr] false, .insert 3 [2] true,
    .popLiftingPosition, .erase 2, .resetLiftingPositions]

/-- The set reached by `exampleCalls` from the empty set with lifting order `ascending` and
elimination order `descending`. -/
def exampleAfterCalls : EliminationSet :=
  (runCalls ascending (EliminationSet.empty ascending descending) exampleCalls).getD
    (EliminationSet.empty ascending descending)

/-- A sequence of `insert` and `popLiftingPosition` calls. -/
def exampleInsertsAndPops : List Call :=
  [.insert 4 [nullptr] false, .popLiftingPosition, .insert 3 [nullptr] false,
    .popLiftingPosition, .insert 7 [1] false]

/-- The set reached from `exampleAfterCalls` by `setLiftingPositionsReset()` followed by
`exampleInsertsAndPops`. -/
def exampleAfterInsertsAndPops : EliminationSet :=
  (runCalls ascending exampleAfterCalls.setLiftingPositionsReset exampleInsertsAndPops).getD
    (EliminationSet.empty ascending descending)

/-! ## Settings of the engine (`CADSettings.h`) -/

/-- The struct `CADSettings` (`CADSettings.h:41-86`). -/
structure CADSettings where
  /-- New samples are preferred to interval-represented ones. -/
  preferNRSamples : Bool
  /-- The choice of samples is guided by being a root or not. -/
  preferSamplesByIsRoot : Bool
  /-- Non-root samples are preferred, if `preferSamplesByIsRoot` is on. -/
  preferNonrootSamples : Bool
  /-- Groebner bases simplify the input. -/
  simplifyByGroebner : Bool
  /-- Real root counting simplifies the bottom-most level. -/
  simplifyByRootcounting : Bool
  /-- Factorization is used in every level. -/
  simplifyByFactorization : Bool
  /-- Optimizations for three-dimensional space. -/
  simplifyFor3D : Bool
  /-- No intermediate points are considered for lifting. -/
  equationsOnly : Bool
  /-- Only intermediate points are considered for lifting. -/
  inequalitiesOnly : Bool
  /-- Polynomials just copied to the next level are removed from the previous one. -/
  removeConstants : Bool
  /-- Variables of empty elimination levels are removed. -/
  trimVariables : Bool
  /-- Equations are treated separately. -/
  autoSeparateEquations : Bool
  /-- Equation systems are taken to be zero-dimensional. -/
  zeroDimEquations : Bool
  /-- A conflict graph is computed. -/
  computeConflictGraph : Bool
  /-- Number of points used for deductions. -/
  numberOfDeductions : Nat
  /-- The sample trace is used first. -/
  warmRestart : Bool
  /-- Bounds are used to solve the constraints by interval arithmetic. -/
  preSolveByBounds : Bool
  /-- Bounds reduce the sample sets during lifting. -/
  earlyLiftingPruningByBounds : Bool
  /-- Bounds cancel out elimination polynomials. -/
  simplifyEliminationByBounds : Bool
  /-- Bounds are widened or shrunk after a check. -/
  improveBounds : Bool
  deriving DecidableEq

/-- The constructor `CADSettings()` (`CADSettings.h:247-270`). -/
def CADSettings.standard : CADSettings :=
  { preferNRSamples := false, preferSamplesByIsRoot := false, preferNonrootSamples := false,
    simplifyByGroebner := false, simplifyByRootcounting := false,
    simplifyByFactorization := true, simplifyFor3D := false, equationsOnly := false,
    inequalitiesOnly := false, removeConstants := true, trimVariables := false,
    autoSeparateEquations := false, zeroDimEquations := false, computeConflictGraph := true,
    numberOfDeductions := 1, warmRestart := false, preSolveByBounds := false,
    earlyLiftingPruningByBounds := true, simplifyEliminationByBounds := true,
    improveBounds := true }

/-- The flag `RATIONALSAMPLE_CADSETTING`. -/
abbrev RATIONALSAMPLE_CADSETTING : Nat := 2
/-- The flag `IRRATIONALSAMPLE_CADSETTING`. -/
abbrev IRRATIONALSAMPLE_CADSETTING : Nat := 4
/-- The flag `EQUATIONSONLY_CADSETTING`. -/
abbrev EQUATIONSONLY_CADSETTING : Nat := 8
/-- The flag `INEQUALITIESONLY_CADSETTING`. -/
abbrev INEQUALITIESONLY_CADSETTING : Nat := 16
/-- The flag `EQUATIONDETECT_CADSETTING`. -/
abbrev EQUATIONDETECT_CADSETTING : Nat := 32
/-- The flag `ZERODIM_CADSETTING`. -/
abbrev ZERODIM_CADSETTING : Nat := 64
/-- The flag `BOUNDED_CADSETTING`. -/
abbrev BOUNDED_CADSETTING : Nat := 256
/-- The flag `NOTBOUNDED_CADSETTING`. -/
abbrev NOTBOUNDED_CADSETTING : Nat := 512

/-- Setter block of `getSettings` shared by the bounded and the not-bounded preset
(`CADSettings.h:115-144`), `b` being the value of the four bound-related fields. -/
def CADSettings.boundPreset (s : CADSettings) (b : Bool) : CADSettings :=
  { s with
    autoSeparateEquations := true, computeConflictGraph := false, numberOfDeductions := 0,
    earlyLiftingPruningByBounds := b, improveBounds := b, preSolveByBounds := false,
    removeConstants := true, simplifyByFactorization := true, simplifyByRootcounting := false,
    simplifyEliminationByBounds := b, trimVariables := false, warmRestart := true }

/-- `CADSettings::getSettings(setting, cadSettings)` (`CADSettings.h:95-170`). -/
def CADSettings.getSettings (setting : Nat) (cadSettings : CADSettings) : CADSettings :=
  let s1 := if setting &&& RATIONALSAMPLE_CADSETTING ≠ 0 then
      { cadSettings with autoSeparateEquations := false, preferNRSamples := true }
    else cadSettings
  let s2 := if setting &&& IRRATIONALSAMPLE_CADSETTING ≠ 0 then
      { s1 with autoSeparateEquations := false, preferNRSamples := false }
    else s1
  let s3 := if setting &&& EQUATIONDETECT_CADSETTING ≠ 0 then
      { s2 with autoSeparateEquations := true }
    else s2
  let s4 := if setting &&& BOUNDED_CADSETTING ≠ 0 then s3.boundPreset true else s3
  let s5 := if setting &&& NOTBOUNDED_CADSETTING ≠ 0 then s4.boundPreset false else s4
  let s6 := if setting &&& EQUATIONSONLY_CADSETTING ≠ 0 then
      { s5 with
        autoSeparateEquations := false, preferNRSamples := false, equationsOnly := true,
        inequalitiesOnly := false, preferSamplesByIsRoot := true,
        preferNonrootSamples := false }
    else s5
  let s7 := if setting &&& INEQUALITIESONLY_CADSETTING ≠ 0 then
      { s6 with
        preferNRSamples := false, equationsOnly := false, inequalitiesOnly := true,
        preferSamplesByIsRoot := true, preferNonrootSamples := true }
    else s6
  if setting &&& ZERODIM_CADSETTING ≠ 0 then { s7 with zeroDimEquations := true } else s7

/-! ## The engine and what it takes from outside the given sources -/

/-- A variable: an opaque identifier. -/
abbrev Variable := Nat

/-- The enumeration `BoundType` of interval ends. -/
inductive BoundType where
  /-- No bound on this side. -/
  | INFTY
  /-- An open end. -/
  | STRICT
  /-- A closed end. -/
  | WEAK
  deriving DecidableEq

/-- The enumeration `Sign`. -/
inductive Sign where
  /-- Negative. -/
  | NEGATIVE
  /-- Zero. -/
  | ZERO
  /-- Positive. -/
  | POSITIVE
  deriving DecidableEq

/-- The members of the class `CAD` other than the interruption state (`CAD.tpp:23-35`); the
projection side of the engine works on these. -/
structure Members (Tree Node : Type) where
  /-- The variables, one per level. -/
  mVariables : List Variable
  /-- The sample tree. -/
  sampleTree : Tree
  /-- One tree node per level and the root. -/
  trace : List Node
  /-- One elimination set per variable. -/
  eliminationSets : List EliminationSet
  /-- The input polynomials. -/
  polynomials : List UnivariatePolynomialPtr
  /-- Polynomials scheduled and not yet projected. -/
  scheduledPolynomials : List UnivariatePolynomialPtr
  /-- Variables scheduled and not yet introduced. -/
  newVariables : List Variable
  /-- Whether the decomposition is complete. -/
  iscomplete : Bool
  /-- The settings. -/
  setting : CADSettings

/-- Modelled from the spec: the types and operations that `CAD.tpp` uses and that are declared
outside the given sources (real algebraic numbers, sample sets, the sample tree, constraints,
conflict graphs, intervals, the interruption flags), together with the member functions of the
projection side, which write none of `interrupted`, `r` and the constraints. -/
structure Collaborators where
  /-- The coefficient and endpoint numbers. -/
  Number : Type
  /-- Pointers to real algebraic numbers. -/
  RAN : Type
  /-- The class `SampleSet`. -/
  SampleSet : Type
  /-- The sample tree. -/
  Tree : Type
  /-- Iterators into the sample tree. -/
  Node : Type
  /-- The class `Constraint`. -/
  Constraint : Type
  /-- The class `ConflictGraph`. -/
  ConflictGraph : Type
  /-- The class `ExactInterval`. -/
  Interval : Type
  /-- The number 0. -/
  zero : Number
  /-- The allocation `new RealAlgebraicNumberNR(value, isRoot)`. -/
  newNR : Number → Bool → RAN
  /-- The flag `isRoot()` of a sample. -/
  isRoot : RAN → Bool
  /-- The test `contains` of an interval. -/
  contains : Interval → RAN → Bool
  /-- The left bound type. -/
  leftType : Interval → BoundType
  /-- The right bound type. -/
  rightType : Interval → BoundType
  /-- The left endpoint. -/
  left : Interval → Number
  /-- The right endpoint. -/
  right : Interval → Number
  /-- The midpoint. -/
  midpoint : Interval → Number
  /-- Whether the interval has no bound. -/
  unbounded : Interval → Bool
  /-- Whether the interval is empty. -/
  emptyInterval : Interval → Bool
  /-- The interval `unboundedExactInterval()`. -/
  unboundedExactInterval : Interval
  /-- Whether a point has the sign the constraint requires, `Constraint::satisfiedBy`. -/
  satisfiedBy : Constraint → List RAN → Bool
  /-- The constraint after `unifyVariables(variables)`. -/
  unifyVariables : Constraint → List Variable → Constraint
  /-- The required sign. -/
  getSign : Constraint → Sign
  /-- Whether the constraint is negated. -/
  isNegated : Constraint → Bool
  /-- The constraint built for a bound: variable, endpoint, sign, variables, negation flag. -/
  boundConstraint : Variable → Number → Sign → List Variable → Bool → Constraint
  /-- The sign of the interval evaluation of the constraint's polynomial. -/
  evaluateSign : Constraint → List (Variable × Interval) → Sign
  /-- The empty conflict graph. -/
  emptyGraph : ConflictGraph
  /-- The update `addEdges` of a conflict graph. -/
  addEdges : ConflictGraph → List Nat → ConflictGraph
  /-- The sample set of the children of a node. -/
  samplesOfChildren : Tree → Node → SampleSet
  /-- The empty sample set. -/
  emptySamples : SampleSet
  /-- The union `insert` of sample sets. -/
  insertSamples : SampleSet → SampleSet → SampleSet
  /-- The test `empty()`. -/
  empty : SampleSet → Bool
  /-- The test `emptyNR()`. -/
  emptyNR : SampleSet → Bool
  /-- The test `emptyNonroot()`. -/
  emptyNonroot : SampleSet → Bool
  /-- The test `emptyRoot()`. -/
  emptyRoot : SampleSet → Bool
  /-- The choice `next()`. -/
  next : SampleSet → RAN
  /-- The choice `nextNR()`. -/
  nextNR : SampleSet → RAN
  /-- The choice `nextNonroot()`. -/
  nextNonroot : SampleSet → RAN
  /-- The choice `nextRoot()`. -/
  nextRoot : SampleSet → RAN
  /-- The removal `pop()`. -/
  pop : SampleSet → SampleSet
  /-- The removal `popNR()`. -/
  popNR : SampleSet → SampleSet
  /-- The removal `popNonroot()`. -/
  popNonroot : SampleSet → SampleSet
  /-- The removal `popRoot()`. -/
  popRoot : SampleSet → SampleSet
  /-- The call `simplify()`: the set afterwards, the replaced pairs and the change flag. -/
  simplify : SampleSet → SampleSet × List (RAN × RAN) × Bool
  /-- The call `simplify(from, to)`. -/
  simplifyPair : SampleSet → RAN → RAN → SampleSet
  /-- The sample construction `CAD::samples(roots, currentSamples, replacedSamples, bounds)`:
  the new samples, `currentSamples` and `replacedSamples` afterwards. -/
  samples : List RAN → SampleSet → Interval → SampleSet × SampleSet × List RAN
  /-- The bound argument of `samples` when the call gives none. -/
  samplesDefaultBounds : Interval
  /-- The root isolation `realRootsAt`. -/
  realRootsAt : UnivariatePolynomialPtr → List RAN → List Variable → Interval → List RAN
  /-- The root iterator `begin()`. -/
  root : Tree → Node
  /-- The first leaf, `begin_leaf()`. -/
  begin_leaf : Tree → Node
  /-- Whether a leaf iterator is `end_leaf()`. -/
  is_end_leaf : Tree → Node → Bool
  /-- The next leaf. -/
  next_leaf : Tree → Node → Node
  /-- The test `is_valid`. -/
  is_valid : Tree → Node → Bool
  /-- The content of a node; `none` for a null pointer. -/
  value : Tree → Node → Option RAN
  /-- The parent of a node. -/
  parent : Tree → Node → Node
  /-- Whether two iterators are equal. -/
  sameNode : Node → Node → Bool
  /-- The depth of a node. -/
  depth : Tree → Node → Nat
  /-- The maximal depth below a node. -/
  max_depth : Tree → Node → Nat
  /-- The first node at a depth, `begin_fixed`. -/
  begin_fixed : Tree → Node → Nat → Node
  /-- The next node at the same depth. -/
  next_at_same_depth : Tree → Node → Node
  /-- The child position `std::lower_bound(begin(node), end(node), sample, Less)`; `none` is
  `end(node)`. -/
  lowerBoundChild : Tree → Node → RAN → Option Node
  /-- The comparison `Equal` of two samples. -/
  Equal : RAN → RAN → Bool
  /-- The update `append_child(node, sample)`. -/
  append_child : Tree → Node → RAN → Tree × Node
  /-- The update `replace(position, sample)`. -/
  replace : Tree → Node → RAN → Tree × Node
  /-- The update `insert(position, sample)`. -/
  insertBefore : Tree → Node → RAN → Tree × Node
  /-- The answer of the `n`-th query `anAnswerFound()` of the interruption flags, which are set
  from outside. -/
  anAnswerFound : Nat → Bool
  /-- The member function `prepareElimination()`. -/
  prepareElimination : Members Tree Node → Members Tree Node
  /-- The member function `eliminate(level, bounds, boundsActive)` and its return value. -/
  eliminate : Members Tree Node → Nat → List (Nat × Interval) → Bool → Members Tree Node × Int
  /-- The member function `removePolynomial(c.getPolynomial())`. -/
  removePolynomialOf : Members Tree Node → Constraint → Members Tree Node
  /-- The block of `check` that inserts and eliminates the bound polynomials
  (`CAD.tpp:522-553`); the second component is `boundPolynomials`. -/
  insertBoundPolynomials : Members Tree Node → List (Nat × Interval) →
    Members Tree Node × List (UnivariatePolynomialPtr × UnivariatePolynomialPtr)
  /-- The block of `check` that removes the bound polynomials and resets the lifting queues
  (`CAD.tpp:568-595`). -/
  restoreAfterBounds : Members Tree Node →
    List (UnivariatePolynomialPtr × UnivariatePolynomialPtr) → Members Tree Node
  /-- The member function `shrinkBounds(bounds, r)`: the bounds afterwards. -/
  shrinkBounds : Members Tree Node → List (Nat × Interval) → List RAN → List (Nat × Interval)

/-- The type `BoundMap`: bounds by variable level, in key order. -/
abbrev BoundMap (X : Collaborators) := List (Nat × X.Interval)

/-- The class `CAD`: its members and the interruption state. -/
structure CAD (X : Collaborators) extends Members X.Tree X.Node where
  /-- The flag `interrupted`. -/
  interrupted : Bool
  /-- Number of queries of the interruption flags made so far. -/
  queries : Nat

/-- The engine together with the reference arguments `r` and `conflictGraph` of a running
`check`. -/
structure CheckState (X : Collaborators) where
  /-- The engine. -/
  cad : CAD X
  /-- The point `r`. -/
  r : List X.RAN
  /-- The conflict graph. -/
  conflictGraph : X.ConflictGraph

namespace CAD

/-! ## Evaluation of the constraints -/

/-- `satisfies(r, constraints)` (`CAD.tpp:777-782`). -/
def satisfies (X : Collaborators) (r : List X.RAN) : List X.Constraint → Bool
  | [] => true
  | c :: constraints => if !X.satisfiedBy c r then false else satisfies X r constraints

/-- The loop of `satisfies(r, constraints, conflictGraph)` (`CAD.tpp:786-794`): `i` is the index
of the next constraint; the result is `satisfied` and `vertices`. -/
def satisfiesVertices (X : Collaborators) (r : List X.RAN) :
    List X.Constraint → Nat → Bool → List Nat → Bool × List Nat
  | [], _, satisfied, vertices => (satisfied, vertices)
  | c :: constraints, i, satisfied, vertices =>
    if X.satisfiedBy c r then satisfiesVertices X r constraints (i + 1) satisfied (i :: vertices)
    else satisfiesVertices X r constraints (i + 1) false vertices

/-- `satisfies(r, constraints, conflictGraph)` (`CAD.tpp:785-798`): the return value and the
conflict graph afterwards. -/
def satisfiesWithGraph (X : Collaborators) (r : List X.RAN) (constraints : List X.Constraint)
    (conflictGraph : X.ConflictGraph) : Bool × X.ConflictGraph :=
  let res := satisfiesVertices X r constraints 0 true []
  (res.1, X.addEdges conflictGraph res.2)

/-! ## Sample tree -/

/-- `storeSampleInTree(newSample, node)` (`CAD.tpp:1310-1320`) on the tree: the tree afterwards
and the returned node. -/
def storeSampleInTree (X : Collaborators) (tree : X.Tree) (newSample : X.RAN) (node : X.Node) :
    X.Tree × X.Node :=
  match X.lowerBoundChild tree node newSample with
  | none => X.append_child tree node newSample
  | some newNode =>
    match X.value tree newNode with
    | some v =>
      if X.Equal v newSample then X.replace tree newNode newSample
      else X.insertBefore tree newNode newSample
    | none => X.insertBefore tree newNode newSample

/-- The engine after `storeSampleInTree(newSample, node)`, and the returned node. -/
def storeSample (X : Collaborators) (s : CheckState X) (newSample : X.RAN) (node : X.Node) :
    CheckState X × X.Node :=
  let res := storeSampleInTree X s.cad.sampleTree newSample node
  ({ s with cad := { s.cad with sampleTree := res.1 } }, res.2)

/-- The loops of `constructSampleAt` (`CAD.tpp:1027-1044`): from `node` up to `root`; `discard`
tells which samples make the result empty. `none` when the walk does not reach the root within
the given number of steps or meets a null sample. -/
def constructSampleLoop (X : Collaborators) (tree : X.Tree) (root : X.Node)
    (discard : X.RAN → Bool) : Nat → X.Node → List X.RAN → Option (List X.RAN)
  | 0, _, _ => none
  | fuel + 1, node, v =>
    if X.sameNode node root then some v
    else
      match X.value tree node with
      | none => none
      | some x =>
        if discard x then some []
        else constructSampleLoop X tree root discard fuel (X.parent tree node) (v ++ [x])

/-- `constructSampleAt(node, root)` (`CAD.tpp:1016-1046`). -/
def constructSampleAt (X : Collaborators) (cad : CAD X) (fuel : Nat) (node root : X.Node) :
    Option (List X.RAN) :=
  if !X.is_valid cad.sampleTree node && (X.value cad.sampleTree node).isNone then some []
  else if cad.setting.equationsOnly then
    constructSampleLoop X cad.sampleTree root (fun x => !X.isRoot x) fuel node []
  else if cad.setting.inequalitiesOnly then
    constructSampleLoop X cad.sampleTree root (fun x => X.isRoot x) fuel node []
  else constructSampleLoop X cad.sampleTree root (fun _ => false) fuel node []

/-- `constructTraceAt(node, root)` (`CAD.tpp:1049-1057`). -/
def constructTraceAt (X : Collaborators) (tree : X.Tree) (root : X.Node) :
    Nat → X.Node → List X.Node → Option (List X.Node)
  | 0, _, _ => none
  | fuel + 1, node, trace =>
    if X.sameNode node root then some (trace ++ [root])
    else constructTraceAt X tree root fuel (X.parent tree node) (trace ++ [node])

/-! ## `liftCheck` -/

/-- The arguments of `liftCheck` other than `r` and `conflictGraph` (`CAD.tpp:1323-1335`). -/
structure LiftArgs (X : Collaborators) where
  /-- The tree node to lift at. -/
  node : X.Node
  /-- The partial sample. -/
  sample : List X.RAN
  /-- The number of variables still to be substituted. -/
  openVariableCount : Nat
  /-- Whether all lifting positions are used again. -/
  restartLifting : Bool
  /-- The variables of the partial sample, the argument `variables`. -/
  sampleVariables : List Variable
  /-- The constraints. -/
  constraints : List X.Constraint
  /-- The bounds. -/
  bounds : BoundMap X
  /-- Whether bounds are in use. -/
  boundsActive : Bool
  /-- Whether the sample is checked against the bounds. -/
  checkBounds : Bool

/-- The local variables of the main loop of `liftCheck` (`CAD.tpp:1396-1401`). -/
structure LiftLocals (X : Collaborators) where
  /-- New samples are constructed regardless of other flags. -/
  computeMoreSamples : Bool
  /-- The samples at this position of the tree. -/
  currentSamples : X.SampleSet
  /-- The samples queue of this lifting. -/
  sampleSetIncrement : X.SampleSet
  /-- The samples changed by the last construction. -/
  replacedSamples : List X.RAN

/-- The engine with the elimination set of a level replaced. -/
def setEliminationSet (X : Collaborators) (s : CheckState X) (level : Nat)
    (es : EliminationSet) : CheckState X :=
  { s with cad := { s.cad with eliminationSets := s.cad.eliminationSets.set level es } }

/-- `samples(p, sample, variables, currentSamples, replacedSamples, bounds, settings)`
(`CAD.tpp:927-943`); `none` when the assertion on the sizes fails. -/
def samplesAt (X : Collaborators) (p : UnivariatePolynomialPtr) (sample : List X.RAN)
    (sampleVariables : List Variable) (currentSamples : X.SampleSet) (bounds : X.Interval) :
    Option (X.SampleSet × X.SampleSet × List X.RAN) :=
  if sampleVariables.length = sample.length then
    some (X.samples (X.realRootsAt p sample sampleVariables bounds) currentSamples bounds)
  else none

/-- The bound test at the head of `liftCheck` (`CAD.tpp:1336-1347`): whether the call returns
false at once; `none` when the assertion fails. -/
def liftCheckOutsideBounds (X : Collaborators) (a : LiftArgs X) (s : CheckState X) :
    Option Bool :=
  if a.checkBounds && a.boundsActive && !a.sample.isEmpty then
    if a.openVariableCount < s.cad.mVariables.length then
      match a.bounds.lookup a.openVariableCount, a.sample.head? with
      | some bound, some front => some (!X.contains bound front)
      | _, _ => some false
    else none
  else some false

/-- The condition of the sample construction loop (`CAD.tpp:1427-1432`). -/
def needsMoreSamples (X : Collaborators) (setting : CADSettings) (loc : LiftLocals X) : Bool :=
  loc.computeMoreSamples || X.empty loc.sampleSetIncrement ||
    (setting.preferNRSamples && X.emptyNR loc.sampleSetIncrement) ||
    (setting.preferSamplesByIsRoot && setting.preferNonrootSamples &&
      X.emptyNonroot loc.sampleSetIncrement) ||
    (setting.preferSamplesByIsRoot && !setting.preferNonrootSamples &&
      X.emptyRoot loc.sampleSetIncrement)

/-- The body of the sample construction loop (`CAD.tpp:1433-1462`): the Boolean tells whether
the loop goes on; it is false after the `break` on an empty lifting queue. -/
def constructSamples (X : Collaborators) (a : LiftArgs X) (openVariableCount : Nat)
    (bound : Option X.Interval) (loc : LiftLocals X) (s : CheckState X) :
    Option (Bool × LiftLocals X × CheckState X) :=
  match s.cad.eliminationSets[openVariableCount]? with
  | none => none
  | some es =>
    if es.emptyLiftingQueue then
      some (false, { loc with computeMoreSamples := false, replacedSamples := [] }, s)
    else
      match es.nextLiftingPosition with
      | none => none
      | some p =>
        match es.popLiftingPosition with
        | none => none
        | some es1 =>
          let bounds :=
            match bound with
            | some b =>
              if s.cad.setting.earlyLiftingPruningByBounds then b
              else X.unboundedExactInterval
            | none => X.unboundedExactInterval
          match samplesAt X p a.sample a.sampleVariables loc.currentSamples bounds with
          | none => none
          | some res =>
            let s1 := res.2.2.foldl (fun st x => (storeSample X st x a.node).1) s
            let s2 := setEliminationSet X s1 openVariableCount es1
            let simplification := X.simplify (X.insertSamples loc.sampleSetIncrement res.1)
            let currentSamples :=
              if simplification.2.2 then
                simplification.2.1.foldl (fun cs i => X.simplifyPair cs i.1 i.2) res.2.1
              else res.2.1
            some (true,
              { computeMoreSamples := false, currentSamples := currentSamples,
                sampleSetIncrement := simplification.1, replacedSamples := res.2.2 }, s2)

/-- Phase 1 of the main loop of `liftCheck` (`CAD.tpp:1427-1463`): lifting positions are
consumed and samples constructed. -/
def liftPhase1 (X : Collaborators) (a : LiftArgs X) (openVariableCount : Nat)
    (bound : Option X.Interval) :
    Nat → LiftLocals X → CheckState X → Option (LiftLocals X × CheckState X)
  | 0, _, _ => none
  | fuel + 1, loc, s =>
    if needsMoreSamples X s.cad.setting loc then
      match constructSamples X a openVariableCount bound loc s with
      | none => none
      | some (true, loc1, s1) => liftPhase1 X a openVariableCount bound fuel loc1 s1
      | some (false, loc1, s1) => some (loc1, s1)
    else some (loc, s)

/-- The sample choice of phase 2 (`CAD.tpp:1474-1511`); `none` when the loop is left with
`computeMoreSamples = true`. -/
def chooseSample (X : Collaborators) (setting : CADSettings) (es : EliminationSet)
    (increment : X.SampleSet) : Option X.RAN :=
  if setting.preferNRSamples then
    if X.emptyNR increment && !es.emptyLiftingQueue then none
    else some (X.nextNR increment)
  else if setting.preferSamplesByIsRoot then
    if setting.preferNonrootSamples then
      if X.emptyNonroot increment && xor (!es.emptyLiftingQueue) setting.inequalitiesOnly then none
      else some (X.nextNonroot increment)
    else
      if X.emptyRoot increment && xor (!es.emptyLiftingQueue) setting.inequalitiesOnly then none
      else some (X.nextRoot increment)
  else some (X.next increment)

/-- The sample pop of phase 2 (`CAD.tpp:1523-1534`). -/
def popSample (X : Collaborators) (setting : CADSettings) (increment : X.SampleSet) :
    X.SampleSet :=
  if setting.preferNRSamples then X.popNR increment
  else if setting.preferSamplesByIsRoot then
    if setting.preferNonrootSamples then X.popNonroot increment else X.popRoot increment
  else X.pop increment

/-- The loop that stores the samples left after a successful lifting (`CAD.tpp:1541-1545`). -/
def storeRemaining (X : Collaborators) (node : X.Node) :
    Nat → X.SampleSet → CheckState X → Option (CheckState X)
  | 0, _, _ => none
  | fuel + 1, increment, s =>
    if !X.empty increment then
      storeRemaining X node fuel (X.pop increment) (storeSample X s (X.next increment) node).1
    else some s

/-- The loop that stores the samples left when the lifting positions are used up
(`CAD.tpp:1553-1556`); it pops nothing. -/
def storeUnused (X : Collaborators) (node : X.Node) :
    Nat → X.SampleSet → CheckState X → Option (CheckState X)
  | 0, _, _ => none
  | fuel + 1, increment, s =>
    if !X.empty increment then
      storeUnused X node fuel increment (storeSample X s (X.next increment) node).1
    else some s

/-- Phase 2 of the main loop of `liftCheck` (`CAD.tpp:1468-1548`): each chosen sample is stored
and lifted by the recursive call `lift`; the Boolean tells whether `liftCheck` returns true. -/
def liftPhase2 (X : Collaborators)
    (lift : LiftArgs X → CheckState X → Option (Bool × CheckState X))
    (a : LiftArgs X) (openVariableCount : Nat) (newVariables : List Variable) :
    Nat → LiftLocals X → CheckState X → Option (Bool × LiftLocals X × CheckState X)
  | 0, _, _ => none
  | fuel + 1, loc, s =>
    if !X.empty loc.sampleSetIncrement then
      match s.cad.eliminationSets[openVariableCount]? with
      | none => none
      | some es =>
        match chooseSample X s.cad.setting es loc.sampleSetIncrement with
        | none => some (false, { loc with computeMoreSamples := true }, s)
        | some newSample =>
          let stored := storeSample X s newSample a.node
          match lift
              { node := stored.2, sample := newSample :: a.sample,
                openVariableCount := openVariableCount, restartLifting := true,
                sampleVariables := newVariables, constraints := a.constraints, bounds := a.bounds,
                boundsActive := a.boundsActive, checkBounds := a.checkBounds } stored.1 with
          | none => none
          | some (liftingSuccessful, s1) =>
            let loc1 :=
              { loc with
                sampleSetIncrement := popSample X s1.cad.setting loc.sampleSetIncrement }
            if liftingSuccessful then
              match storeRemaining X a.node fuel loc1.sampleSetIncrement s1 with
              | none => none
              | some s2 => some (true, loc1, s2)
            else liftPhase2 X lift a openVariableCount newVariables fuel loc1 s1
    else some (false, loc, s)

/-- The main loop of `liftCheck` (`CAD.tpp:1422-1561`) and the final `return false`. -/
def liftLoop (X : Collaborators)
    (lift : LiftArgs X → CheckState X → Option (Bool × CheckState X))
    (a : LiftArgs X) (openVariableCount : Nat) (bound : Option X.Interval)
    (newVariables : List Variable) :
    Nat → LiftLocals X → CheckState X → Option (Bool × CheckState X)
  | 0, _, _ => none
  | fuel + 1, loc, s =>
    match liftPhase1 X a openVariableCount bound fuel loc s with
    | none => none
    | some (loc1, s1) =>
      match liftPhase2 X lift a openVariableCount newVariables fuel loc1 s1 with
      | none => none
      | some (true, _, s2) => some (true, s2)
      | some (false, loc2, s2) =>
        match s2.cad.eliminationSets[openVariableCount]? with
        | none => none
        | some es =>
          if es.emptyLiftingQueue then
            if s2.cad.setting.equationsOnly || s2.cad.setting.inequalitiesOnly then
              match storeUnused X a.node fuel loc2.sampleSetIncrement s2 with
              | none => none
              | some s3 => some (false, s3)
            else some (false, s2)
          else liftLoop X lift a openVariableCount bound newVariables fuel loc2 s2

/-- The roots that start the lifting of a level (`CAD.tpp:1404-1420`). -/
def initialRoots (X : Collaborators) (bound : Option X.Interval) : List X.RAN :=
  match bound with
  | some b =>
    let boundRoots :=
      (if X.leftType b ≠ BoundType.INFTY then [X.newNR (X.left b) true] else []) ++
      (if X.rightType b ≠ BoundType.INFTY then [X.newNR (X.right b) true] else [])
    if boundRoots.isEmpty then [X.newNR (X.midpoint b) true] else boundRoots
  | none => [X.newNR X.zero true]

/-- The base level of `liftCheck` (`CAD.tpp:1353-1367`): zero variables left to substitute. -/
def liftCheckBase (X : Collaborators) (a : LiftArgs X) (s : CheckState X) :
    Bool × CheckState X :=
  let s1 : CheckState X := { s with cad := { s.cad with queries := s.cad.queries + 1 } }
  if X.anAnswerFound s.cad.queries then
    (true, { s1 with cad := { s1.cad with interrupted := true } })
  else
    let t := a.sample
    if s1.cad.setting.computeConflictGraph then
      let res := satisfiesWithGraph X t a.constraints s1.conflictGraph
      if res.1 then (true, { s1 with conflictGraph := res.2, r := t })
      else (false, { s1 with conflictGraph := res.2 })
    else if satisfies X t a.constraints then (true, { s1 with r := t })
    else (false, s1)

/-- `liftCheck` (`CAD.tpp:1323-1562`): the return value and the state afterwards; `none` when
the call does not return within the given number of steps, or fails an assertion or an index. -/
def liftCheck (X : Collaborators) : Nat → LiftArgs X → CheckState X → Option (Bool × CheckState X)
  | 0, _, _ => none
  | fuel + 1, a, s =>
    match liftCheckOutsideBounds X a s with
    | none => none
    | some true => some (false, s)
    | some false =>
      if a.openVariableCount < s.cad.trace.length then
        let s1 : CheckState X :=
          { s with cad := { s.cad with trace := s.cad.trace.set a.openVariableCount a.node } }
        if a.openVariableCount = 0 then some (liftCheckBase X a s1)
        else
          let openVariableCount := a.openVariableCount - 1
          match s1.cad.mVariables[openVariableCount]?,
              s1.cad.eliminationSets[openVariableCount]? with
          | some v, some es =>
            let bound := if a.boundsActive then a.bounds.lookup openVariableCount else none
            let s2 := setEliminationSet X s1 openVariableCount
              (if a.restartLifting then es.resetLiftingPositionsFully
                else es.resetLiftingPositions)
            let res := X.samples (initialRoots X bound)
              (X.samplesOfChildren s2.cad.sampleTree a.node) X.samplesDefaultBounds
            liftLoop X (liftCheck X fuel) a openVariableCount bound (v :: a.sampleVariables) fuel
              { computeMoreSamples := false, currentSamples := res.2.1,
                sampleSetIncrement := X.insertSamples X.emptySamples res.1,
                replacedSamples := res.2.2 } s2
          | _, _ => none
      else none

/-! ## `checkNode` and `mainCheck` -/

/-- The value of `unsigned firstLevel = variables.size() - sample.size()` (`CAD.tpp:1082`). -/
def firstLevel (variableCount sampleSize : Nat) : Nat :=
  (((variableCount : Int) - (sampleSize : Int)) % (2 ^ 32 : Int)).toNat

/-- The bound test of `checkNode` and of phase 3 (`CAD.tpp:1085-1091`, `1269-1275`): the value
of `boundsOK`; `none` when a component outside the sample is read. -/
def sampleWithinBounds (X : Collaborators) (variableCount : Nat) (sample : List X.RAN) :
    BoundMap X → Option Bool
  | [] => some true
  | i :: rest =>
    if i.1 < variableCount && firstLevel variableCount sample.length ≤ i.1 then
      match sample[i.1 - firstLevel variableCount sample.length]? with
      | none => none
      | some x =>
        if !X.contains i.2 x then some false
        else sampleWithinBounds X variableCount sample rest
    else sampleWithinBounds X variableCount sample rest

/-- The variables prepared for lifting at an incomplete sample (`CAD.tpp:1113-1118`): one
variable per component, counted down from `i`; the result is the final `i` and the list.
`none` when the counter passes zero or the index is outside the variables. -/
def liftingVariables (X : Collaborators) (variableList : List Variable) :
    List X.RAN → Nat → List Variable → Option (Nat × List Variable)
  | [], i, acc => some (i, acc)
  | _ :: rest, i, acc =>
    if i = 0 then none
    else
      match variableList[i - 1]? with
      | none => none
      | some v => liftingVariables X variableList rest (i - 1) (v :: acc)

/-- The test of a full sample in `checkNode` (`CAD.tpp:1100-1103`): `satisfies` with or without
the conflict graph, as the setting `computeConflictGraph` demands; the result is the value of
the condition and the conflict graph afterwards. -/
def satisfiesBySetting (X : Collaborators) (s : CheckState X) (sample : List X.RAN)
    (constraints : List X.Constraint) : Bool × X.ConflictGraph :=
  if s.cad.setting.computeConflictGraph then
    satisfiesWithGraph X sample constraints s.conflictGraph
  else (satisfies X sample constraints, s.conflictGraph)

/-- `checkNode` (`CAD.tpp:1060-1125`): the returned pair and the state afterwards. -/
def checkNode (X : Collaborators) (fuel : Nat) (node : X.Node)
    (fullRestart excludePrevious updateTrace : Bool) (constraints : List X.Constraint)
    (bounds : BoundMap X) (boundsNontrivial checkBounds : Bool) (dim : Nat)
    (s : CheckState X) : Option ((Bool × Bool) × CheckState X) :=
  match constructSampleAt X s.cad fuel node (X.root s.cad.sampleTree) with
  | none => none
  | some sampleList =>
    if sampleList.isEmpty then some ((false, true), s)
    else
      match sampleWithinBounds X s.cad.mVariables.length sampleList bounds with
      | none => none
      | some false => some ((false, true), s)
      | some true =>
        if sampleList.length = dim then
          if excludePrevious then some ((false, true), s)
          else
            let res := satisfiesBySetting X s sampleList constraints
            if res.1 then
              if updateTrace then
                match constructTraceAt X s.cad.sampleTree (X.root s.cad.sampleTree) fuel node []
                with
                | none => none
                | some trace =>
                  some ((true, false),
                    { cad := { s.cad with trace := trace }, r := sampleList,
                      conflictGraph := res.2 })
              else some ((true, false), { s with r := sampleList, conflictGraph := res.2 })
            else some ((false, false), { s with conflictGraph := res.2 })
        else
          match liftingVariables X s.cad.mVariables sampleList dim [] with
          | none => none
          | some (i, variableList) =>
            match liftCheck X fuel
                { node := node, sample := sampleList, openVariableCount := i,
                  restartLifting := fullRestart, sampleVariables := variableList,
                  constraints := constraints, bounds := bounds,
                  boundsActive := boundsNontrivial, checkBounds := checkBounds } s with
            | none => none
            | some (true, s1) => some ((true, false), s1)
            | some (false, s1) => some ((false, false), s1)

/-- The engine after `eliminate(level, bounds, boundsActive)`, and the returned level. -/
def eliminate (X : Collaborators) (s : CheckState X) (level : Nat) (bounds : BoundMap X)
    (boundsActive : Bool) : CheckState X × Int :=
  let res := X.eliminate s.cad.toMembers level bounds boundsActive
  ({ s with cad := { s.cad with toMembers := res.1 } }, res.2)

/-- Phase 1 of `mainCheck` (`CAD.tpp:1185-1189`): the nodes of the trace are checked, `count`
positions from `tracePos` on; the Boolean tells whether `mainCheck` returns true. -/
def tracePhase (X : Collaborators) (fuel : Nat) (constraints : List X.Constraint)
    (bounds : BoundMap X) (next boundsNontrivial checkBounds : Bool) (dim : Nat) :
    Nat → Nat → CheckState X → Option (Bool × CheckState X)
  | 0, _, s => some (false, s)
  | count + 1, tracePos, s =>
    match s.cad.trace[tracePos]? with
    | none => none
    | some node =>
      match checkNode X fuel node false next false constraints bounds boundsNontrivial
          checkBounds dim s with
      | none => none
      | some ((true, _), s1) => some (true, s1)
      | some ((false, _), s1) =>
        tracePhase X fuel constraints bounds next boundsNontrivial checkBounds dim count
          (tracePos + 1) s1

/-- The initial elimination of phase 2 (`CAD.tpp:1201`): `eliminate` is called while the base
level has no lifting position and the call returns a non-zero value. -/
def initialElimination (X : Collaborators) (bounds : BoundMap X) (boundsNontrivial : Bool)
    (dim : Nat) : Nat → CheckState X → Option (CheckState X)
  | 0, _ => none
  | fuel + 1, s =>
    match s.cad.eliminationSets.getLast? with
    | none => none
    | some back =>
      if back.emptyLiftingQueue then
        let res := eliminate X s (dim - 1) bounds boundsNontrivial
        if res.2 ≠ 0 then initialElimination X bounds boundsNontrivial dim fuel res.1
        else some res.1
      else some s

/-- The loop over the leaves in phase 2 (`CAD.tpp:1210-1213`). -/
def leafPhase (X : Collaborators) (constraints : List X.Constraint) (bounds : BoundMap X)
    (next boundsNontrivial checkBounds : Bool) (dim : Nat) :
    Nat → X.Node → CheckState X → Option (Bool × CheckState X)
  | 0, _, _ => none
  | fuel + 1, leaf, s =>
    if X.is_end_leaf s.cad.sampleTree leaf then some (false, s)
    else
      match checkNode X fuel leaf true next true constraints bounds boundsNontrivial
          checkBounds dim s with
      | none => none
      | some ((true, _), s1) => some (true, s1)
      | some ((false, _), s1) =>
        leafPhase X constraints bounds next boundsNontrivial checkBounds dim fuel
          (X.next_leaf s1.cad.sampleTree leaf) s1

/-- The search for the base level with an open lifting position (`CAD.tpp:1235-1239`):
`count` levels below `count` are inspected from the top; `some none` stands for level -1. -/
def openLevel (sets : List EliminationSet) : Nat → Option (Option Nat)
  | 0 => some none
  | count + 1 =>
    match sets[count]? with
    | none => none
    | some es => if !es.emptyLiftingQueue then some (some count) else openLevel sets count

/-- The reset of all lifting positions before a level (`CAD.tpp:1249-1252`). -/
def resetBelow (sets : List EliminationSet) : Nat → Option (List EliminationSet)
  | 0 => some sets
  | l + 1 =>
    match sets[l]? with
    | none => none
    | some es =>
      resetBelow (sets.set l es.resetLiftingPositionsFully.setLiftingPositionsReset) l

/-- The loop over the nodes of one depth in phase 3 (`CAD.tpp:1258-1292`). -/
def nodePhase (X : Collaborators) (root : X.Node) (constraints : List X.Constraint)
    (bounds : BoundMap X) (boundsNontrivial checkBounds : Bool) (dim level depth : Nat) :
    Nat → X.Node → CheckState X → Option (Bool × CheckState X)
  | 0, _, _ => none
  | fuel + 1, node, s =>
    if X.is_valid s.cad.sampleTree node && depth == X.depth s.cad.sampleTree node then
      match constructSampleAt X s.cad fuel node root with
      | none => none
      | some sampleList =>
        if depth ≠ sampleList.length then
          nodePhase X root constraints bounds boundsNontrivial checkBounds dim level depth fuel
            (X.next_at_same_depth s.cad.sampleTree node) s
        else
          match sampleWithinBounds X s.cad.mVariables.length sampleList bounds with
          | none => none
          | some false =>
            nodePhase X root constraints bounds boundsNontrivial checkBounds dim level depth
              fuel (X.next_at_same_depth s.cad.sampleTree node) s
          | some true =>
            match liftingVariables X s.cad.mVariables sampleList dim [] with
            | none => none
            | some (i, variableList) =>
              if level + 1 = i then
                match liftCheck X fuel
                    { node := node, sample := sampleList, openVariableCount := i,
                      restartLifting := false, sampleVariables := variableList,
                      constraints := constraints, bounds := bounds,
                      boundsActive := boundsNontrivial, checkBounds := checkBounds } s with
                | none => none
                | some (true, s1) => some (true, s1)
                | some (false, s1) =>
                  nodePhase X root constraints bounds boundsNontrivial checkBounds dim level
                    depth fuel (X.next_at_same_depth s1.cad.sampleTree node) s1
              else none
    else some (false, s)

/-- The engine with the elimination sets replaced. -/
def setEliminationSets (X : Collaborators) (s : CheckState X) (sets : List EliminationSet) :
    CheckState X :=
  { s with cad := { s.cad with eliminationSets := sets } }

/-- The level to lift at in one round of phase 3 (`CAD.tpp:1235-1253`): the level found with
an open lifting position, or else the level returned by `eliminate`, after which the lifting
positions of the levels before it are reset; the level is `none` when `eliminate` returns -1. -/
def locateLevel (X : Collaborators) (s : CheckState X) (bounds : BoundMap X)
    (boundsNontrivial : Bool) (dim : Nat) (found : Option Nat) :
    Option (Option Nat × CheckState X) :=
  match found with
  | some level => some (some level, s)
  | none =>
    let res := eliminate X s (dim - 1) bounds boundsNontrivial
    if res.2 = -1 then some (none, res.1)
    else if res.2 < 0 then none
    else
      match resetBelow res.1.cad.eliminationSets res.2.toNat with
      | none => none
      | some sets => some (some res.2.toNat, setEliminationSets X res.1 sets)

/-- The `while (true)` loop of phase 3 (`CAD.tpp:1233-1294`): the Boolean tells whether
`mainCheck` returns true; false means that the loop was left by `break`. -/
def liftingPhase (X : Collaborators) (root : X.Node) (constraints : List X.Constraint)
    (bounds : BoundMap X) (boundsNontrivial checkBounds : Bool) (dim : Nat) :
    Nat → CheckState X → Option (Bool × CheckState X)
  | 0, _ => none
  | fuel + 1, s =>
    match openLevel s.cad.eliminationSets dim with
    | none => none
    | some found =>
      match locateLevel X s bounds boundsNontrivial dim found with
      | none => none
      | some (none, s1) => some (false, s1)
      | some (some level, s1) =>
        if level < dim then
          let depth := dim - level - 1
          match nodePhase X root constraints bounds boundsNontrivial checkBounds dim level depth
              fuel (X.begin_fixed s1.cad.sampleTree root depth) s1 with
          | none => none
          | some (true, s2) => some (true, s2)
          | some (false, s2) =>
            match s2.cad.eliminationSets[level]? with
            | none => none
            | some es =>
              liftingPhase X root constraints bounds boundsNontrivial checkBounds dim fuel
                (setEliminationSet X s2 level es.setLiftingPositionsReset)
        else none

/-- Phase 1 of `mainCheck` (`CAD.tpp:1183-1192`): the trace is replayed if `checkTraceFirst`
holds and the tree has samples; the result is whether `mainCheck` returns true, the state and
the value of `maxDepth` afterwards. -/
def mainPhase1 (X : Collaborators) (fuel : Nat) (constraints : List X.Constraint)
    (bounds : BoundMap X) (next checkTraceFirst boundsNontrivial checkBounds : Bool)
    (dim maxDepth : Nat) (s : CheckState X) : Option (Bool × CheckState X × Nat) :=
  if checkTraceFirst && maxDepth != 0 then
    match tracePhase X fuel constraints bounds next boundsNontrivial checkBounds dim dim 0 s
    with
    | none => none
    | some (b, s1) => some (b, s1, X.max_depth s1.cad.sampleTree (X.root s.cad.sampleTree))
  else some (false, s, maxDepth)

/-- Phase 2 of `mainCheck` (`CAD.tpp:1198-1214`): an initial elimination and lifting when the
tree is empty, the check of all leaves otherwise. -/
def mainPhase2 (X : Collaborators) (fuel : Nat) (constraints : List X.Constraint)
    (bounds : BoundMap X) (next boundsNontrivial checkBounds : Bool) (dim maxDepth : Nat)
    (s : CheckState X) : Option (Bool × CheckState X) :=
  if maxDepth = 0 then
    match initialElimination X bounds boundsNontrivial dim fuel s with
    | none => none
    | some s1 =>
      liftCheck X fuel
        { node := X.begin_leaf s1.cad.sampleTree, sample := [], openVariableCount := dim,
          restartLifting := true, sampleVariables := [], constraints := constraints,
          bounds := bounds, boundsActive := boundsNontrivial, checkBounds := checkBounds } s1
  else
    leafPhase X constraints bounds next boundsNontrivial checkBounds dim fuel
      (X.begin_leaf s.cad.sampleTree) s

/-- The rest of `mainCheck` after phase 2 (`CAD.tpp:1216-1305`): the completeness test, phase 3
and the completeness flag. The final loop `for (auto i: this->eliminationSets)`
(`CAD.tpp:1300-1302`) calls `setLiftingPositionsReset()` on copies of the sets and leaves the
sets of the engine as they are. -/
def mainPhase3 (X : Collaborators) (fuel : Nat) (sampleTreeRoot : X.Node)
    (constraints : List X.Constraint) (bounds : BoundMap X)
    (boundsNontrivial checkBounds : Bool) (dim maxDepth : Nat) (s : CheckState X) :
    Option (Bool × CheckState X) :=
  if s.cad.iscomplete then some (false, s)
  else if maxDepth = dim || maxDepth = 0 || boundsNontrivial then
    match liftingPhase X sampleTreeRoot constraints bounds boundsNontrivial checkBounds dim
        fuel s with
    | none => none
    | some (true, s1) => some (true, s1)
    | some (false, s1) =>
      if !boundsNontrivial then
        some (false,
          { s1 with cad := { s1.cad with iscomplete := true } })
      else some (false, s1)
  else none

/-- `mainCheck` (`CAD.tpp:1128-1306`): the return value, the constraints afterwards and the
state afterwards. -/
def mainCheck (X : Collaborators) (fuel : Nat) (constraints : List X.Constraint)
    (bounds : BoundMap X) (next checkTraceFirst boundsNontrivial checkBounds : Bool)
    (s : CheckState X) : Option (Bool × List X.Constraint × CheckState X) :=
  if s.cad.mVariables.isEmpty then some (constraints.isEmpty, constraints, s)
  else
    let dim := s.cad.mVariables.length
    let sampleTreeRoot := X.root s.cad.sampleTree
    let maxDepth := X.max_depth s.cad.sampleTree sampleTreeRoot
    let next1 := next && (maxDepth == dim)
    let constraints1 := constraints.map (fun c => X.unifyVariables c s.cad.mVariables)
    match mainPhase1 X fuel constraints1 bounds next1 checkTraceFirst boundsNontrivial
        checkBounds dim maxDepth s with
    | none => none
    | some (true, s1, _) => some (true, constraints1, s1)
    | some (false, s1, maxDepth1) =>
      match mainPhase2 X fuel constraints1 bounds next1 boundsNontrivial checkBounds dim
          maxDepth1 s1 with
      | none => none
      | some (true, s2) => some (true, constraints1, s2)
      | some (false, s2) =>
        match mainPhase3 X fuel sampleTreeRoot constraints1 bounds boundsNontrivial checkBounds
            dim maxDepth1 s2 with
        | none => none
        | some (b, s3) => some (b, constraints1, s3)

/-! ## `check` -/

/-- What a call of `check` returns and leaves in its reference arguments. -/
structure CheckResult (X : Collaborators) where
  /-- The return value. -/
  satisfiable : Bool
  /-- The constraints afterwards. -/
  constraints : List X.Constraint
  /-- The bounds afterwards. -/
  bounds : BoundMap X
  /-- The engine, `r` and the conflict graph afterwards. -/
  state : CheckState X

/-- The constraints that `check` appends for the bounds (`CAD.tpp:395-423`). -/
def boundConstraints (X : Collaborators) (variableList : List Variable) :
    BoundMap X → List X.Constraint
  | [] => []
  | b :: rest =>
    match variableList[b.1]? with
    | none => boundConstraints X variableList rest
    | some v =>
      (match X.leftType b.2 with
        | BoundType.INFTY => []
        | BoundType.STRICT =>
          [X.boundConstraint v (X.left b.2) Sign.POSITIVE variableList false]
        | BoundType.WEAK =>
          [X.boundConstraint v (X.left b.2) Sign.NEGATIVE variableList true]) ++
      (match X.rightType b.2 with
        | BoundType.INFTY => []
        | BoundType.STRICT =>
          [X.boundConstraint v (X.right b.2) Sign.NEGATIVE variableList false]
        | BoundType.WEAK =>
          [X.boundConstraint v (X.right b.2) Sign.POSITIVE variableList true]) ++
      boundConstraints X variableList rest

/-- The state with the members of the engine transformed by a member function of the
projection side. -/
def onMembers (X : Collaborators) (s : CheckState X)
    (f : Members X.Tree X.Node → Members X.Tree X.Node) : CheckState X :=
  { s with cad := { s.cad with toMembers := f s.cad.toMembers } }

/-- `alterSetting(setting)` (`CAD.tpp:990-1013`): its loops run over copies of the elimination
sets (`for (auto i: ...)`), what remains is the assignment of the setting. -/
def alterSetting (X : Collaborators) (s : CheckState X) (setting : CADSettings) :
    CheckState X :=
  { s with cad := { s.cad with setting := setting } }

/-- The first constraint whose interval evaluation contradicts its sign (`CAD.tpp:467-476`). -/
def presolveConflict (X : Collaborators) (m : List (Variable × X.Interval)) :
    List X.Constraint → Option X.Constraint
  | [] => none
  | constraint :: rest =>
    if X.evaluateSign constraint m ≠ X.getSign constraint then some constraint
    else presolveConflict X m rest

/-- The specialisation of the setting to equations or inequalities (`CAD.tpp:482-516`). -/
def separateEquations (X : Collaborators) (s : CheckState X) (constraints : List X.Constraint)
    (useBounds onlyStrictBounds : Bool) : CheckState X :=
  if s.cad.setting.autoSeparateEquations then
    let equations :=
      constraints.filter (fun c => X.getSign c == Sign.ZERO && !X.isNegated c)
    let weakInequalities :=
      constraints.filter (fun c =>
        !(X.getSign c == Sign.ZERO && !X.isNegated c) &&
          (X.getSign c != Sign.ZERO && X.isNegated c))
    let strictInequalities :=
      constraints.filter (fun c =>
        !(X.getSign c == Sign.ZERO && !X.isNegated c) &&
          !(X.getSign c != Sign.ZERO && X.isNegated c))
    if s.cad.setting.zeroDimEquations && !equations.isEmpty then
      let s1 := strictInequalities.foldl
        (fun st c => onMembers X st (fun m => X.removePolynomialOf m c)) s
      alterSetting X s1 (CADSettings.getSettings EQUATIONSONLY_CADSETTING s1.cad.setting)
    else if weakInequalities.isEmpty then
      if !useBounds && strictInequalities.isEmpty && decide (s.cad.mVariables.length ≤ 1) then
        alterSetting X s (CADSettings.getSettings EQUATIONSONLY_CADSETTING s.cad.setting)
      else if onlyStrictBounds && equations.isEmpty then
        alterSetting X s (CADSettings.getSettings INEQUALITIESONLY_CADSETTING s.cad.setting)
      else s
    else s
  else s

/-- The end of `check` (`CAD.tpp:568-611`): the bound polynomials are removed if bounds were
used, and the setting is restored. -/
def checkFinish (X : Collaborators) (s : CheckState X) (useBounds : Bool)
    (boundPolynomials : List (UnivariatePolynomialPtr × UnivariatePolynomialPtr))
    (backup : CADSettings) : CheckState X :=
  alterSetting X
    (if useBounds then onMembers X s (fun m => X.restoreAfterBounds m boundPolynomials) else s)
    backup

/-- The main part of `check` (`CAD.tpp:480-611`), after the preprocessing. -/
def checkSearch (X : Collaborators) (fuel : Nat) (s : CheckState X)
    (constraints : List X.Constraint) (bounds : BoundMap X)
    (next checkTraceFirst useBounds onlyStrictBounds checkBounds : Bool) :
    Option (CheckResult X) :=
  let backup := s.cad.setting
  let s1 := separateEquations X s constraints useBounds onlyStrictBounds
  let s2 := onMembers X s1 X.prepareElimination
  let inserted := X.insertBoundPolynomials s2.cad.toMembers bounds
  let s3 := if useBounds then onMembers X s2 (fun _ => inserted.1) else s2
  match mainCheck X fuel constraints bounds next checkTraceFirst useBounds checkBounds s3 with
  | none => none
  | some (satisfiable, constraints1, s4) =>
    some
      { satisfiable := satisfiable, constraints := constraints1,
        bounds :=
          if useBounds && s4.cad.setting.improveBounds && satisfiable then
            X.shrinkBounds s4.cad.toMembers bounds s4.r
          else bounds,
        state := checkFinish X s4 useBounds inserted.2 backup }

/-- The entry of `check` (`CAD.tpp:383-384`, `431`): `trimVariables` is switched off, the
scheduled input is absorbed and the flag `interrupted` is cleared. -/
def checkEntry (X : Collaborators) (s : CheckState X) : CheckState X :=
  let s1 := onMembers X
    { s with cad := { s.cad with setting := { s.cad.setting with trimVariables := false } } }
    X.prepareElimination
  { s1 with cad := { s1.cad with interrupted := false } }

/-- The bounds given as a map from variables to intervals (`CAD.tpp:460-464`). -/
def boundsByVariable (X : Collaborators) (variableList : List Variable) (bounds : BoundMap X) :
    List (Variable × X.Interval) :=
  bounds.filterMap (fun b => (variableList[b.1]?).map (fun v => (v, b.2)))

/-- `check` (`CAD.tpp:362-612`); the file dump of the constraints is left out. `none` when the
call does not return within the given number of steps, or fails an assertion or an index. -/
def check (X : Collaborators) (fuel : Nat) (s : CheckState X) (constraints : List X.Constraint)
    (bounds : BoundMap X) (next checkTraceFirst checkBounds : Bool) :
    Option (CheckResult X) :=
  let s1 := checkEntry X s
  let constraints1 := constraints ++ boundConstraints X s1.cad.mVariables bounds
  let useBounds := bounds.any (fun b => !X.unbounded b.2 && !X.emptyInterval b.2)
  let onlyStrictBounds :=
    bounds.all (fun b =>
      !(X.leftType b.2 == BoundType.WEAK || X.rightType b.2 == BoundType.WEAK))
  if constraints1.isEmpty then
    some { satisfiable := !bounds.any (fun b => X.emptyInterval b.2),
           constraints := constraints1, bounds := bounds, state := s1 }
  else
    let m := boundsByVariable X s1.cad.mVariables bounds
    let conflict :=
      if s1.cad.setting.preSolveByBounds && !m.isEmpty then presolveConflict X m constraints1
      else none
    match conflict with
    | some constraint =>
      some { satisfiable := false, constraints := constraints1.dropLast ++ [constraint],
             bounds := bounds, state := { s1 with conflictGraph := X.emptyGraph } }
    | none =>
      checkSearch X fuel s1 constraints1 bounds next
        (checkTraceFirst || s1.cad.setting.warmRestart) useBounds onlyStrictBounds checkBounds

/-- The returned point is sound for the constraints: if the call returns true and the engine
is not marked interrupted, the point `r` satisfies every constraint. -/
def Sound (X : Collaborators) (constraints : List X.Constraint) (result : Bool)
    (s : CheckState X) : Prop :=
  result = true → s.cad.interrupted = false → satisfies X s.r constraints = true

/-- The interruption is passed on: if the engine is marked interrupted after a call, the call
returned true. -/
def Prompt (X : Collaborators) (result : Bool) (s : CheckState X) : Prop :=
  s.cad.interrupted = true → result = true

/-- A recursive call that passes an interruption on. -/
def PromptLift (X : Collaborators)
    (lift : LiftArgs X → CheckState X → Option (Bool × CheckState X)) : Prop :=
  ∀ (a : LiftArgs X) (s : CheckState X) (b : Bool) (s1 : CheckState X),
    lift a s = some (b, s1) → s.cad.interrupted = false → Prompt X b s1

/-- Two states with the same point `r` and the same flag `interrupted`. -/
def SameOutcome (X : Collaborators) (s s1 : CheckState X) : Prop :=
  s1.r = s.r ∧ s1.cad.interrupted = s.cad.interrupted

/-- A recursive call that is sound for the constraints `constraints`. -/
def SoundLift (X : Collaborators) (constraints : List X.Constraint)
    (lift : LiftArgs X → CheckState X → Option (Bool × CheckState X)) : Prop :=
  ∀ (a : LiftArgs X) (s : CheckState X) (b : Bool) (s1 : CheckState X),
    lift a s = some (b, s1) → a.constraints = constraints → Sound X constraints b s1

/-! ## A concrete engine used in the examples -/

/-- The sign of `x - a` for natural numbers. -/
def signOfDifference (x a : Nat) : Sign :=
  if x < a then Sign.NEGATIVE else if x = a then Sign.ZERO else Sign.POSITIVE

/-- Collaborators for one variable `x`: samples are natural numbers, the sample tree is the
list of the children of the root (a node is `none` for the root and `some v` for the child
with value `v`), a constraint `(a, sign)` requires `x - a` to have the sign `sign`, the
polynomial with handle 1 has the single root 2, and the interruption flags answer by
`answers`. -/
abbrev exampleCollaborators (answers : Nat → Bool) : Collaborators where
  Number := Nat
  RAN := Nat
  SampleSet := List Nat
  Tree := List Nat
  Node := Option Nat
  Constraint := Nat × Sign
  ConflictGraph := List (List Nat)
  Interval := Unit
  zero := 0
  newNR := fun v _ => v
  isRoot := fun _ => true
  contains := fun _ _ => true
  leftType := fun _ => BoundType.INFTY
  rightType := fun _ => BoundType.INFTY
  left := fun _ => 0
  right := fun _ => 0
  midpoint := fun _ => 0
  unbounded := fun _ => true
  emptyInterval := fun _ => false
  unboundedExactInterval := ()
  satisfiedBy := fun c r =>
    match r with
    | [x] => signOfDifference x c.1 == c.2
    | _ => false
  unifyVariables := fun c _ => c
  getSign := fun c => c.2
  isNegated := fun _ => false
  boundConstraint := fun _ a sign _ _ => (a, sign)
  evaluateSign := fun c _ => c.2
  emptyGraph := []
  addEdges := fun g vertices => vertices :: g
  samplesOfChildren := fun tree node => if node.isNone then tree else []
  emptySamples := []
  insertSamples := fun a b => a ++ b
  empty := fun a => a.isEmpty
  emptyNR := fun a => a.isEmpty
  emptyNonroot := fun a => a.isEmpty
  emptyRoot := fun a => a.isEmpty
  next := fun a => a.headD 0
  nextNR := fun a => a.headD 0
  nextNonroot := fun a => a.headD 0
  nextRoot := fun a => a.headD 0
  pop := fun a => a.tail
  popNR := fun a => a.tail
  popNonroot := fun a => a.tail
  popRoot := fun a => a.tail
  simplify := fun a => (a, [], false)
  simplifyPair := fun a _ _ => a
  samples := fun roots current _ =>
    (roots.filter (fun x => !current.contains x),
      current ++ roots.filter (fun x => !current.contains x), [])
  samplesDefaultBounds := ()
  realRootsAt := fun p _ _ _ => if p = 1 then [2] else []
  root := fun _ => none
  begin_leaf := fun tree => tree.head?
  is_end_leaf := fun _ node => node.isNone
  next_leaf := fun tree node =>
    match node with
    | none => none
    | some v => (tree.dropWhile (fun x => decide (x ≤ v))).head?
  is_valid := fun tree node =>
    match node with
    | none => true
    | some v => tree.contains v
  value := fun _ node => node
  parent := fun _ _ => none
  sameNode := fun a b => a == b
  depth := fun _ node => if node.isNone then 0 else 1
  max_depth := fun tree _ => if tree.isEmpty then 0 else 1
  begin_fixed := fun tree _ depth => if depth = 0 then none else tree.head?
  next_at_same_depth := fun tree node =>
    match node with
    | none => none
    | some v => (tree.dropWhile (fun x => decide (x ≤ v))).head?
  lowerBoundChild := fun tree _ x => (tree.find? (fun y => decide (x ≤ y))).map some
  Equal := fun a b => a == b
  append_child := fun tree _ x => (tree ++ [x], some x)
  replace := fun tree _ x => (tree, some x)
  insertBefore := fun tree position x =>
    (tree.takeWhile (fun y => some y != position) ++ x ::
      tree.dropWhile (fun y => some y != position), some x)
  anAnswerFound := answers
  prepareElimination := fun m => m
  eliminate := fun m _ _ _ => (m, -1)
  removePolynomialOf := fun m _ => m
  insertBoundPolynomials := fun m _ => (m, [])
  restoreAfterBounds := fun m _ => m
  shrinkBounds := fun _ bounds _ => bounds

/-- An engine over `exampleCollaborators`: the variable `x`, the polynomial with handle 1 in the
only elimination set, an empty sample tree, the standard setting, and an empty point `r`. -/
def exampleEngine (answers : Nat → Bool) : CheckState (exampleCollaborators answers) where
  cad :=
    { mVariables := [0]
      sampleTree := []
      trace := [none, none]
      eliminationSets :=
        [(EliminationSet.insert ascending (EliminationSet.empty ascending ascending)
          1 [nullptr] false).1]
      polynomials := [1]
      scheduledPolynomials := []
      newVariables := []
      iscomplete := false
      setting := CADSettings.standard
      interrupted := false
      queries := 0 }
  r := []
  conflictGraph := []

/-- The arguments of a `liftCheck` call at the base level, with the full sample `(2)` and the
constraint `x - 2 = 0`. -/
def exampleBaseArgs (answers : Nat → Bool) : LiftArgs (exampleCollaborators answers) where
  node := some 2
  sample := [2]
  openVariableCount := 0
  restartLifting := true
  sampleVariables := [0]
  constraints := [(2, Sign.ZERO)]
  bounds := []
  boundsActive := false
  checkBounds := false

/-- Interruption flags that are never set. -/
def neverInterrupted : Nat → Bool := fun _ => false

/-- Interruption flags that are set at every query. -/
def alwaysInterrupted : Nat → Bool := fun _ => true

/-- The result of `check` on `exampleEngine` without interruption, for the constraint
`x - 2 = 0` and no bounds. -/
def exampleCheckResult : CheckResult (exampleCollaborators neverInterrupted) :=
  (check (exampleCollaborators neverInterrupted) 10 (exampleEngine neverInterrupted)
    [(2, Sign.ZERO)] [] false false false).getD
    { satisfiable := false, constraints := [], bounds := [],
      state := exampleEngine neverInterrupted }

end CAD

/-! ## Parent lists, enqueueing and `eliminateInto` -/

/-- The reading of a parent list as a concatenation of parent pairs (`EliminationSet.h:164`):
consecutive elements are paired up in order, a trailing unpaired element is a single parent. -/
def parentPairs : List UnivariatePolynomialPtr → List PolynomialPair
  | [] => []
  | [a] => [(a, nullptr)]
  | a :: b :: rest => (a, b) :: parentPairs rest

/-- Whether a parent list has a first element and that element is not null. -/
def startsWithParent (parents : List UnivariatePolynomialPtr) : Bool :=
  match parents with
  | [] => false
  | a :: _ => a != nullptr

/-- The empty set after `insert(5, (1, null, 2, 3))`. -/
def examplePairedParents : EliminationSet :=
  (EliminationSet.insert ascending (EliminationSet.empty ascending ascending) 5 [1, 0, 2, 3]
    false).1

/-- The empty set after `insert(5, (null, 7))`. -/
def exampleNullFirst : EliminationSet :=
  (EliminationSet.insert ascending (EliminationSet.empty ascending ascending) 5 [0, 7] false).1

/-- Modelled from the spec: the polynomial primitives and the projection helpers that
`eliminateInto` calls and that are declared outside the given sources. `isNumeric` is the test
for a purely numeric polynomial, `switchVariable` re-expresses a polynomial in another main
variable, `getParentsOf` lists the recorded parents of a polynomial of a set; the elimination
helpers add the projection polynomials of one or two polynomials to the set they are given,
and the four simplifications rewrite a set. -/
structure EliminationOperations where
  /-- Whether the polynomial is constant in its main variable. -/
  isConstant : UnivariatePolynomialPtr → Bool
  /-- Whether the polynomial is a number. -/
  isNumeric : UnivariatePolynomialPtr → Bool
  /-- The polynomial re-expressed in the given main variable. -/
  switchVariable : UnivariatePolynomialPtr → Variable → UnivariatePolynomialPtr
  /-- The recorded parents of a polynomial, as a parent list. -/
  getParentsOf : EliminationSet → UnivariatePolynomialPtr → List UnivariatePolynomialPtr
  /-- Paired elimination `elimination(p, q, variable, eliminated, avoidSingle)`. -/
  eliminationPaired : UnivariatePolynomialPtr → UnivariatePolynomialPtr → Variable →
    EliminationSet → Bool → EliminationSet
  /-- Paired elimination for equations, `eliminationEq(p, q, variable, eliminated, avoidSingle)`. -/
  eliminationEqPaired : UnivariatePolynomialPtr → UnivariatePolynomialPtr → Variable →
    EliminationSet → Bool → EliminationSet
  /-- Single elimination `elimination(p, variable, eliminated, avoidSingle)`. -/
  elimination : UnivariatePolynomialPtr → Variable → EliminationSet → Bool → EliminationSet
  /-- Single elimination for equations, `eliminationEq(p, variable, eliminated, avoidSingle)`. -/
  eliminationEq : UnivariatePolynomialPtr → Variable → EliminationSet → Bool → EliminationSet
  /-- The member `factorize()`. -/
  factorize : EliminationSet → EliminationSet
  /-- The member `makePrimitive()`. -/
  makePrimitive : EliminationSet → EliminationSet
  /-- The member `makeSquarefree()`. -/
  makeSquarefree : EliminationSet → EliminationSet
  /-- The member `removePolynomialsWithoutRealRoots()`. -/
  removePolynomialsWithoutRealRoots : EliminationSet → EliminationSet

/-- What a call of `eliminateInto` leaves: the source set (`this`), the destination set and the
returned list. -/
structure Elimination where
  /-- The set the call was made on. -/
  source : EliminationSet
  /-- The destination set. -/
  destination : EliminationSet
  /-- The returned list of polynomials. -/
  inserted : List UnivariatePolynomialPtr

namespace EliminationSet

/-- One iteration of `insert(s, avoidSingle)` (`EliminationSet.tpp:136-144`). -/
def insertSetStep (less : PolynomialComparator) (X : EliminationOperations) (s : EliminationSet)
    (avoidSingle : Bool) (acc : EliminationSet × List UnivariatePolynomialPtr)
    (i : UnivariatePolynomialPtr) : EliminationSet × List UnivariatePolynomialPtr :=
  let parents := X.getParentsOf s i
  let parents := if parents.isEmpty then [nullptr] else parents
  let insertValue := insert less acc.1 i parents avoidSingle
  if insertValue.2 then (insertValue.1, i :: acc.2) else (insertValue.1, acc.2)

/-- `insert(s, avoidSingle)` (`EliminationSet.tpp:130-147`): the polynomials of `s` are inserted
with their parents in `s`; the list holds the newly added ones, the latest first. -/
def insertSet (less : PolynomialComparator) (X : EliminationOperations)
    (this s : EliminationSet) (avoidSingle : Bool) :
    EliminationSet × List UnivariatePolynomialPtr :=
  s.polynomials.foldl (insertSetStep less X s avoidSingle) (this, [])

/-- The polynomials `eliminateInto` computes from a non-constant `p`
(`EliminationSet.tpp:313-349`). -/
def newEliminationPolynomials (X : EliminationOperations) (s : EliminationSet)
    (p : UnivariatePolynomialPtr) (var : Variable) (setting : CADSettings) :
    EliminationSet :=
  let new0 := EliminationSet.empty s.liftingOrder s.eliminationOrder
  let new1 := s.polynomials.foldl
    (fun acc q =>
      if setting.equationsOnly then X.eliminationEqPaired p q var acc false
      else X.eliminationPaired p q var acc false) new0
  let new2 :=
    if setting.equationsOnly then X.eliminationEq p var new1 false
    else X.elimination p var new1 false
  let new3 := if setting.simplifyByFactorization then X.factorize new2 else new2
  let new4 := X.makeSquarefree (X.makePrimitive new3)
  if setting.simplifyByRootcounting then X.removePolynomialsWithoutRealRoots new4 else new4

/-- `eliminateInto(p, destination, variable, setting)` (`EliminationSet.tpp:283-352`); `none`
stands for the dereference of a null `p`. -/
def eliminateInto (less : PolynomialComparator) (X : EliminationOperations) (s : EliminationSet)
    (p : UnivariatePolynomialPtr) (destination : EliminationSet) (var : Variable)
    (setting : CADSettings) : Option Elimination :=
  if p = nullptr then none
  else if X.isConstant p then
    if X.isNumeric p then
      some { source := (s.erase p).1, destination := destination, inserted := [] }
    else
      let pNewVar := X.switchVariable p var
      let destination1 := (insert less destination pNewVar (X.getParentsOf s p) false).1
      let source1 :=
        if setting.removeConstants || X.isNumeric p then (s.erase p).1
        else
          let s1 := { s with
            mSingleEliminationQueue := queueErase s.eliminationOrder s.mSingleEliminationQueue p }
          { s1 with
            mPairedEliminationQueue :=
              queueErase s1.eliminationOrder s1.mPairedEliminationQueue p }
      some { source := source1, destination := destination1, inserted := [pNewVar] }
  else
    let res := insertSet less X destination (newEliminationPolynomials X s p var setting)
      false
    some { source := s, destination := res.1, inserted := res.2 }

end EliminationSet

/-- Operations for the examples: handles from 100 on are constants, from 200 on numbers;
`switchVariable` adds 1000; the parents are the members of the recorded pairs; single
elimination of `p` yields `p + 1` with parent `p`, paired elimination yields nothing. -/
def exampleOperations : EliminationOperations :=
  { isConstant := fun p => decide (100 ≤ p),
    isNumeric := fun p => decide (200 ≤ p),
    switchVariable := fun p _ => p + 1000,
    getParentsOf := fun s p => ((s.parentsPerChild p).getD []).flatMap (fun x => [x.1, x.2]),
    eliminationPaired := fun _ _ _ acc _ => acc,
    eliminationEqPaired := fun _ _ _ acc _ => acc,
    elimination := fun p _ acc avoidSingle =>
      (EliminationSet.insert ascending acc (p + 1) [p] avoidSingle).1,
    eliminationEq := fun p _ acc avoidSingle =>
      (EliminationSet.insert ascending acc (p + 1) [p] avoidSingle).1,
    factorize := id, makePrimitive := id, makeSquarefree := id,
    removePolynomialsWithoutRealRoots := id }

/-- A set in ascending order holding the non-constant polynomial 3, inserted as input. -/
def exampleSource : EliminationSet :=
  (EliminationSet.insert ascending (EliminationSet.empty ascending ascending) 3 [0] false).1

/-- A set in ascending order holding the constant 150 with the single parent 7. -/
def exampleConstantSource : EliminationSet :=
  (EliminationSet.insert ascending (EliminationSet.empty ascending ascending) 150 [7] false).1

/-! ## Real algebraic numbers, sample sets and `CAD::samples` -/

/-- Modelled from the spec: the class `RealAlgebraicNumber`, declared outside the given sources.
A number is numerically represented or given by an isolating interval; two numbers compare by
the value they stand for, whatever the representation, and each carries the flag of being a
root. `K` is an ordered ring that holds the values. -/
structure RealAlgebraicNumber (K : Type) where
  /-- The real number represented. -/
  value : K
  /-- The flag `isRoot()`. -/
  isRoot : Bool
  /-- The flag `isNumeric()`: whether the representation is numeric. -/
  isNumeric : Bool
  /-- Left endpoint of the isolating interval of an interval representation. -/
  left : K
  /-- Right endpoint of the isolating interval of an interval representation. -/
  right : K
  deriving DecidableEq

/-- The allocation `new RealAlgebraicNumberNR(value, isRoot)`: a numeric representation. -/
def RealAlgebraicNumberNR {K : Type} (value : K) (isRoot : Bool) : RealAlgebraicNumber K :=
  { value := value, isRoot := isRoot, isNumeric := true, left := value, right := value }

/-- The update `setIsRoot(b)`. -/
def RealAlgebraicNumber.setIsRoot {K : Type} (r : RealAlgebraicNumber K) (b : Bool) :
    RealAlgebraicNumber K :=
  { r with isRoot := b }

/-- Modelled from the spec: the comparison `Less`, by value. -/
def Less {K : Type} [LinearOrderedRing K] (a b : RealAlgebraicNumber K) : Bool :=
  decide (a.value < b.value)

/-- Modelled from the spec: the comparison `Equal`, by value. -/
def Equal {K : Type} [LinearOrderedRing K] (a b : RealAlgebraicNumber K) : Bool :=
  decide (a.value = b.value)

/-- Modelled from the spec: the class `SampleSet`, declared outside the given sources: an
ordered collection of samples, held as the list of its elements in increasing order. -/
abbrev SampleSet (K : Type) := List (RealAlgebraicNumber K)

/-- Modelled from the spec: `SampleSet::insert(r)`. The position is that of the first sample
not less than `r`; when that sample has the value of `r` nothing is inserted. The result is the
set, the position (the returned iterator) and whether `r` was inserted. -/
def SampleSet.insert {K : Type} [LinearOrderedRing K] (s : SampleSet K)
    (r : RealAlgebraicNumber K) : SampleSet K × Nat × Bool :=
  let pre := s.takeWhile (fun x => Less x r)
  match s.dropWhile (fun x => Less x r) with
  | [] => (s ++ [r], pre.length, true)
  | x :: suf =>
    if Equal x r then (s, pre.length, false)
    else (pre ++ r :: x :: suf, pre.length, true)

/-- Modelled from the spec: `SampleSet::insert(first, last)`, the insertion of a range. -/
def SampleSet.insertRange {K : Type} [LinearOrderedRing K] (s : SampleSet K)
    (range : List (RealAlgebraicNumber K)) : SampleSet K :=
  range.foldl (fun acc r => (SampleSet.insert acc r).1) s

/-- Modelled from the spec: `SampleSet::remove(position)`. -/
def SampleSet.remove {K : Type} (s : SampleSet K) (position : Nat) : SampleSet K :=
  s.eraseIdx position

/-- Modelled from the spec: the operations of `ExactInterval` that `CAD::samples` uses, declared
outside the given sources: the tests `empty()` and `unbounded()`, the weak containment `meets`
and the choice `ExactInterval(l, r, BoundType::STRICT).sample()` of a number of an open
interval. -/
structure IntervalOperations (K : Type) where
  /-- The intervals. -/
  Interval : Type
  /-- The test `empty()`. -/
  isEmpty : Interval → Bool
  /-- The test `unbounded()`. -/
  unbounded : Interval → Bool
  /-- The test `meets(n)`. -/
  meets : Interval → K → Bool
  /-- The number `ExactInterval(l, r, BoundType::STRICT).sample()`. -/
  sample : K → K → K

/-- The variables `currentSamples`, `newSampleSet` and `replacedSamples` of `CAD::samples`. -/
structure SampleConstruction (K : Type) where
  /-- The argument `currentSamples`. -/
  currentSamples : SampleSet K
  /-- The local `newSampleSet`, which is returned. -/
  newSampleSet : SampleSet K
  /-- The argument `replacedSamples`. -/
  replacedSamples : List (RealAlgebraicNumber K)

namespace CAD

/-- The sample to the right of `insertValue.first` (`CAD.tpp:863-884`); `position` is
`insertValue.first` and `me` the sample there. -/
def rightIncrement {K : Type} [LinearOrderedRing K] (X : IntervalOperations K)
    (currentSamples : SampleSet K) (position : Nat) (me : RealAlgebraicNumber K) :
    List (RealAlgebraicNumber K) :=
  match currentSamples[position + 1]? with
  | none =>
    if me.isNumeric then [RealAlgebraicNumberNR (me.value + 1) false]
    else [RealAlgebraicNumberNR me.right false]
  | some neighbor =>
    if neighbor.isRoot then
      if me.isNumeric then
        if neighbor.isNumeric then
          [RealAlgebraicNumberNR (X.sample me.value neighbor.value) false]
        else [RealAlgebraicNumberNR neighbor.left false]
      else [RealAlgebraicNumberNR me.right false]
    else []

/-- The sample to the left of `insertValue.first` (`CAD.tpp:886-911`). -/
def leftIncrement {K : Type} [LinearOrderedRing K] (X : IntervalOperations K)
    (currentSamples : SampleSet K) (position : Nat) (me : RealAlgebraicNumber K) :
    List (RealAlgebraicNumber K) :=
  if position = 0 then
    if me.isNumeric then [RealAlgebraicNumberNR (me.value - 1) false]
    else [RealAlgebraicNumberNR me.left false]
  else
    match currentSamples[position - 1]? with
    | none => []
    | some neighbor =>
      if neighbor.isRoot then
        if me.isNumeric then
          if neighbor.isNumeric then
            [RealAlgebraicNumberNR (X.sample neighbor.value me.value) false]
          else [RealAlgebraicNumberNR neighbor.right false]
        else [RealAlgebraicNumberNR me.left false]
      else []

/-- The list `currentSamplesIncrement` for the sample at `position`, filtered by the bounds when
they are active, and its insertion into both sets (`CAD.tpp:855-922`). `none` when `position`
is not a position of `currentSamples`. -/
def addIncrement {K : Type} [LinearOrderedRing K] (X : IntervalOperations K)
    (bounds : X.Interval) (st : SampleConstruction K) (position : Nat) :
    Option (SampleConstruction K) :=
  match st.currentSamples[position]? with
  | none => none
  | some me =>
    let boundsActive := !X.isEmpty bounds && !X.unbounded bounds
    let increment :=
      leftIncrement X st.currentSamples position me ++
        rightIncrement X st.currentSamples position me
    let currentSamplesIncrement :=
      if boundsActive then increment.filter (fun x => X.meets bounds x.value) else increment
    some { currentSamples := st.currentSamples.insertRange currentSamplesIncrement,
           newSampleSet := st.newSampleSet.insertRange currentSamplesIncrement,
           replacedSamples := st.replacedSamples }

/-- The first part of the loop body of `CAD::samples` for the root `i` (`CAD.tpp:813-853`).
`none` is a failed assertion or an invalid iterator, `some none` is `continue`, and otherwise
the result holds the three variables and `insertValue.first`. -/
def enterRoot {K : Type} [LinearOrderedRing K] (st : SampleConstruction K)
    (i : RealAlgebraicNumber K) : Option (Option (SampleConstruction K × Nat)) :=
  let insertValue := st.currentSamples.insert i
  if !insertValue.2.2 then
    match st.currentSamples[insertValue.2.1]? with
    | none => none
    | some found =>
      if !found.isRoot then
        if !i.isRoot then none
        else
          let r := found
          let pos := lower_bound Less st.newSampleSet r
          let currentSamples1 := st.currentSamples.remove insertValue.2.1
          let newSampleSet1 :=
            if pos ≠ st.newSampleSet.length then st.newSampleSet.remove pos
            else st.newSampleSet
          let r1 := r.setIsRoot true
          let insertValue1 := currentSamples1.insert r1
          some (some
            ({ currentSamples := insertValue1.1,
               newSampleSet := (newSampleSet1.insert r1).1,
               replacedSamples := r1 :: st.replacedSamples }, insertValue1.2.1))
      else if !found.isNumeric && i.isNumeric then
        let currentSamples1 := st.currentSamples.remove insertValue.2.1
        let insertValue1 := currentSamples1.insert (RealAlgebraicNumberNR i.value true)
        match insertValue1.1[insertValue1.2.1]? with
        | none => none
        | some first =>
          let pos := lower_bound Less st.newSampleSet first
          let newSampleSet1 :=
            if pos ≠ st.newSampleSet.length then
              ((st.newSampleSet.remove pos).insert first).1
            else st.newSampleSet
          some (some
            ({ currentSamples := insertValue1.1,
               newSampleSet := newSampleSet1,
               replacedSamples := i :: st.replacedSamples }, insertValue1.2.1))
      else some none
  else
    match insertValue.1[insertValue.2.1]? with
    | none => none
    | some first =>
      some (some
        ({ currentSamples := insertValue.1,
           newSampleSet := (st.newSampleSet.insert first).1,
           replacedSamples := st.replacedSamples }, insertValue.2.1))

/-- The loop body of `CAD::samples` for the root `i` (`CAD.tpp:813-922`). -/
def samplesStep {K : Type} [LinearOrderedRing K] (X : IntervalOperations K)
    (bounds : X.Interval) (st : SampleConstruction K) (i : RealAlgebraicNumber K) :
    Option (SampleConstruction K) :=
  match enterRoot st i with
  | none => none
  | some none => some st
  | some (some (st1, position)) => addIncrement X bounds st1 position

/-- The loop of `CAD::samples` over the roots (`CAD.tpp:813`). -/
def samplesLoop {K : Type} [LinearOrderedRing K] (X : IntervalOperations K)
    (bounds : X.Interval) :
    SampleConstruction K → List (RealAlgebraicNumber K) → Option (SampleConstruction K)
  | st, [] => some st
  | st, i :: roots =>
    match samplesStep X bounds st i with
    | none => none
    | some st1 => samplesLoop X bounds st1 roots

/-- `CAD::samples(roots, currentSamples, replacedSamples, bounds)` (`CAD.tpp:801-925`): the
returned set and the two reference arguments afterwards; `none` when an assertion fails. -/
def samples {K : Type} [LinearOrderedRing K] (X : IntervalOperations K)
    (roots : List (RealAlgebraicNumber K)) (currentSamples : SampleSet K)
    (bounds : X.Interval) : Option (SampleConstruction K) :=
  if roots.isEmpty then
    some { currentSamples := currentSamples, newSampleSet := [], replacedSamples := [] }
  else
    samplesLoop X bounds
      { currentSamples := currentSamples, newSampleSet := [], replacedSamples := [] } roots

/-- A sequence of calls of `CAD::samples` on the same `currentSamples`, each with its roots and
its bound: `currentSamples` afterwards. -/
def samplesCalls {K : Type} [LinearOrderedRing K] (X : IntervalOperations K) :
    SampleSet K → List (List (RealAlgebraicNumber K) × X.Interval) → Option (SampleSet K)
  | currentSamples, [] => some currentSamples
  | currentSamples, call :: calls =>
    match samples X call.1 currentSamples call.2 with
    | none => none
    | some st => samplesCalls X st.currentSamples calls

end CAD

/-- Interval operations over the rationals for the examples: `none` is the unbounded interval,
`some (l, r)` the closed interval from `l` to `r`; the sample of an open interval is its
midpoint. -/
def exampleIntervals : IntervalOperations ℚ :=
  { Interval := Option (ℚ × ℚ),
    isEmpty := fun b => match b with
      | none => false
      | some (l, r) => decide (r < l),
    unbounded := fun b => b.isNone,
    meets := fun b n => match b with
      | none => true
      | some (l, r) => decide (l ≤ n) && decide (n ≤ r),
    sample := fun l r => (l + r) / 2 }

/-- The invariant of a `SampleSet`: the values are strictly increasing. -/
def SampleSet.Ordered {K : Type} [LinearOrderedRing K] (s : SampleSet K) : Prop :=
  s.Pairwise (fun a b => a.value < b.value)

/-- The sample `y` stands for the value of `x` with a status that is the same or upgraded: a
root stays a root and a numeric representation stays numeric. -/
def RealAlgebraicNumber.upgradedTo {K : Type} (x y : RealAlgebraicNumber K) : Prop :=
  y.value = x.value ∧ (x.isRoot = true → y.isRoot = true) ∧
    (x.isNumeric = true → y.isNumeric = true)

/-- The set `9, 10 (root), 11` that `samples` builds from the empty set and the root 10. -/
def exampleSamples : SampleSet ℚ :=
  [RealAlgebraicNumberNR 9 false, RealAlgebraicNumberNR 10 true, RealAlgebraicNumberNR 11 false]

/-- The sign-invariance picture of a sample set: consecutive samples increase in value and
alternate between non-root and root, the least and the greatest sample are non-roots, and
every sample is numeric. Such a set holds exactly one non-root sample strictly between two
consecutive roots, one below the least root and one above the greatest root. -/
def SampleSet.SignInvariant {K : Type} [LinearOrderedRing K] (s : SampleSet K) : Prop :=
  s.Chain' (fun a b => a.value < b.value ∧ a.isRoot ≠ b.isRoot) ∧
  (∀ x ∈ s.head?, x.isRoot = false) ∧ (∀ x ∈ s.getLast?, x.isRoot = false) ∧
  (∀ x ∈ s, x.isNumeric = true)

/-- Two calls of `samples` without a bound: the root 10, then the roots 50 and 11. -/
def exampleSampleCalls : List (List (RealAlgebraicNumber ℚ) × exampleIntervals.Interval) :=
  [([RealAlgebraicNumberNR 10 true], none),
   ([RealAlgebraicNumberNR 50 true, RealAlgebraicNumberNR 11 true], none)]

/-! ## The sample tree, `storeSampleInTree` and `trimVariables` -/

/-- Modelled from the spec: the sample tree, a multi-way tree whose nodes hold real algebraic
numbers, declared outside the given sources. `SampleForest K n` is a list of sibling nodes,
each a sample with the forest of its children, in a tree of at most `n` levels; the tree of the
engine is the forest of the children of its root sentinel, which has depth 0. -/
def SampleForest (K : Type) : Nat → Type
  | 0 => Unit
  | n + 1 => List (RealAlgebraicNumber K × SampleForest K n)

namespace SampleForest

/-- The sibling nodes of a forest. -/
def nodes {K : Type} {n : Nat} (f : SampleForest K (n + 1)) :
    List (RealAlgebraicNumber K × SampleForest K n) := f

/-- The forest without nodes. -/
def empty (K : Type) : (n : Nat) → SampleForest K n
  | 0 => ()
  | _ + 1 => ([] : List _)

/-- A forest as a forest of a tree with one more level. -/
def lift {K : Type} : (n : Nat) → SampleForest K n → SampleForest K (n + 1)
  | 0, _ => ([] : List _)
  | n + 1, f => List.map (fun c => (c.1, lift n c.2)) (nodes f)

/-- The member `max_depth()` of the tree: the greatest depth of a node. -/
def max_depth {K : Type} : (n : Nat) → SampleForest K n → Nat
  | 0, _ => 0
  | n + 1, f => List.foldl (fun acc c => max acc (max_depth n c.2 + 1)) 0 (nodes f)

/-- The samples of the nodes, level by level with the children of each node kept together. -/
def values {K : Type} : (n : Nat) → SampleForest K n → List (List K)
  | 0, _ => []
  | n + 1, f =>
    List.map (fun c => c.1.value) (nodes f) ::
      List.flatten (List.map (fun c => values n c.2) (nodes f))

/-- The sample tree ordering invariant: the children of every node strictly increase in
value. -/
def Ordered {K : Type} [LinearOrderedRing K] : (n : Nat) → SampleForest K n → Prop
  | 0, _ => True
  | n + 1, f =>
    List.Pairwise (fun a b => a.1.value < b.1.value) (nodes f) ∧
      List.Forall (fun c => Ordered n c.2) (nodes f)

/-- The children of every node are non-decreasing in value. -/
def WeaklyOrdered {K : Type} [LinearOrderedRing K] : (n : Nat) → SampleForest K n → Prop
  | 0, _ => True
  | n + 1, f =>
    List.Pairwise (fun a b => a.1.value ≤ b.1.value) (nodes f) ∧
      List.Forall (fun c => WeaklyOrdered n c.2) (nodes f)

/-- `storeSampleInTree(newSample, node)` (`CAD.tpp:1310-1320`) on the children of `node`: the
children afterwards and the position of the returned node. `append_child` and `insert` make a
node without children, which is `leaf`, and `replace` changes the sample of a node and keeps
its children. -/
def storeSampleInTree {K S : Type} [LinearOrderedRing K] (leaf : S)
    (children : List (RealAlgebraicNumber K × S)) (newSample : RealAlgebraicNumber K) :
    List (RealAlgebraicNumber K × S) × Nat :=
  let newNode :=
    lower_bound (fun (child : RealAlgebraicNumber K × S) sample => Less child.1 sample)
      children newSample
  match children[newNode]? with
  | none => (children ++ [(newSample, leaf)], children.length)
  | some found =>
    if Equal found.1 newSample then (children.set newNode (newSample, found.2), newNode)
    else (children.take newNode ++ (newSample, leaf) :: children.drop newNode, newNode)

/-- The re-parenting of one child in `trimVariables` (`CAD.tpp:1796-1803`). `siblings` are the
children of `parent`; a node of the layer that is removed carries its position in that layer,
a re-parented node carries `none`. The child and its subtree go before the lower bound of the
child's sample, or to the end. -/
def reparentChild {K T : Type} [LinearOrderedRing K]
    (siblings : List (Option Nat × RealAlgebraicNumber K × T))
    (child : RealAlgebraicNumber K × T) : List (Option Nat × RealAlgebraicNumber K × T) :=
  let newNode :=
    lower_bound
      (fun (sibling : Option Nat × RealAlgebraicNumber K × T) sample => Less sibling.2.1 sample)
      siblings child.1
  if newNode = siblings.length then siblings ++ [(none, child.1, child.2)]
  else siblings.take newNode ++ (none, child.1, child.2) :: siblings.drop newNode

/-- One round of the loop over `toDelete` in `trimVariables` (`CAD.tpp:1790-1812`): the
children of the node at position `i` of the layer are re-parented and the node is erased. -/
def reparentNode {K T : Type} [LinearOrderedRing K]
    (siblings : List (Option Nat × RealAlgebraicNumber K × T)) (i : Nat)
    (children : List (RealAlgebraicNumber K × T)) :
    List (Option Nat × RealAlgebraicNumber K × T) :=
  (children.foldl reparentChild siblings).filter (fun sibling => sibling.1 != some i)

/-- The loop over `toDelete` for the nodes below one parent (`CAD.tpp:1790-1812`): `layer` are
the children of the parent, all of them to be deleted; the result are the children of the
parent afterwards. -/
def removeChildren {K : Type} [LinearOrderedRing K] :
    (n : Nat) → List (RealAlgebraicNumber K × SampleForest K n) →
      List (RealAlgebraicNumber K × SampleForest K n)
  | 0, _ => []
  | n + 1, layer =>
    let tagged := layer.enum.map (fun e => (some e.1, e.2.1, e.2.2))
    let siblings := layer.enum.foldl
      (fun siblings e =>
        reparentNode siblings e.1 ((nodes e.2.2).map (fun c => (c.1, lift n c.2))))
      tagged
    siblings.map (fun sibling => sibling.2)

/-- The removal of the layer of samples at the given depth (`CAD.tpp:1783-1813`). -/
def removeLayer {K : Type} [LinearOrderedRing K] :
    (n : Nat) → Nat → SampleForest K n → SampleForest K n
  | 0, _, f => f
  | _ + 1, 0, f => f
  | n + 1, 1, f => removeChildren n (nodes f)
  | n + 1, depth + 2, f =>
    List.map (fun c => (c.1, removeLayer n (depth + 1) c.2)) (nodes f)

end SampleForest

/-- The loop variables of `trimVariables` (`CAD.tpp:1745-1754`): the members of the engine, the
iterators `eliminationSet` and `variable` as positions, and `depth`. -/
structure TrimLoop (K : Type) (N : Nat) where
  /-- The members of the engine. -/
  members : Members (SampleForest K N) (List Nat)
  /-- Position of the iterator `eliminationSet`. -/
  eliminationSet : Nat
  /-- Position of the iterator `variable`. -/
  variableIt : Nat
  /-- The counter `depth`. -/
  depth : Int

namespace CAD

/-- The search for the variable in the previous levels (`CAD.tpp:1760-1769`), from the level
before `eliminationSet` down to, and without, the first level. `has` is the test `p->has(v)`,
declared outside the given sources; `none` stands for the dereference of an end iterator. -/
def foundVariable (has : UnivariatePolynomialPtr → Variable → Bool)
    (eliminationSets : List EliminationSet) (eliminationSet : Nat) (var : Option Variable) :
    Option Bool :=
  let previous := ((List.range eliminationSet).drop 1).reverse
  let claimants := previous.flatMap
    (fun j => ((eliminationSets[j]?).map (fun s => s.polynomials)).getD [])
  if claimants.isEmpty then some false
  else
    match var with
    | none => none
    | some v => some (claimants.any (fun p => has p v))

/-- One iteration of the loop of `trimVariables` with the increment of the `for` statement
(`CAD.tpp:1754-1817`). `none` stands for undefined behaviour: an iterator moved past the end,
or an erase at a position that does not exist. -/
def trimStep {K : Type} [LinearOrderedRing K] {N : Nat}
    (has : UnivariatePolynomialPtr → Variable → Bool) (maxDepth : Int) (st : TrimLoop K N) :
    Option (TrimLoop K N) :=
  let m := st.members
  match m.eliminationSets[st.eliminationSet]? with
  | none => none
  | some level =>
    if level.polynomials.isEmpty then
      let found :=
        if st.eliminationSet ≠ 0 then
          foundVariable has m.eliminationSets st.eliminationSet m.mVariables[st.variableIt]?
        else some false
      match found with
      | none => none
      | some true =>
        if st.eliminationSet + 1 < m.eliminationSets.length then
          some { st with eliminationSet := st.eliminationSet + 2 }
        else none
      | some false =>
        if st.variableIt < m.mVariables.length ∧ 1 ≤ st.depth ∧
            st.depth + 1 ≤ m.trace.length then
          let eliminationSets1 := m.eliminationSets.eraseIdx st.eliminationSet
          let sampleTree1 :=
            if st.depth ≤ maxDepth then
              SampleForest.removeLayer N st.depth.toNat m.sampleTree
            else m.sampleTree
          if st.eliminationSet < eliminationSets1.length then
            some
              { members :=
                  { m with
                    eliminationSets := eliminationSets1,
                    mVariables := m.mVariables.eraseIdx st.variableIt,
                    trace := m.trace.eraseIdx (m.trace.length - 1 - st.depth.toNat),
                    sampleTree := sampleTree1 },
                eliminationSet := st.eliminationSet + 1,
                variableIt := st.variableIt,
                depth := st.depth - 1 }
          else none
        else none
    else
      if st.eliminationSet + 1 < m.eliminationSets.length ∧
          st.variableIt < m.mVariables.length then
        some { st with
          eliminationSet := st.eliminationSet + 2,
          variableIt := st.variableIt + 1,
          depth := st.depth - 1 }
      else none

/-- The loop of `trimVariables` (`CAD.tpp:1754`); the first argument bounds the number of
iterations. -/
def trimLoop {K : Type} [LinearOrderedRing K] {N : Nat}
    (has : UnivariatePolynomialPtr → Variable → Bool) (maxDepth : Int) :
    Nat → TrimLoop K N → Option (Members (SampleForest K N) (List Nat))
  | 0, _ => none
  | fuel + 1, st =>
    if st.eliminationSet = st.members.eliminationSets.length then some st.members
    else
      match trimStep has maxDepth st with
      | none => none
      | some st1 => trimLoop has maxDepth fuel st1

/-- `trimVariables()` (`CAD.tpp:1743-1817`) on the members of the engine; `none` when the
assertion fails or the behaviour is undefined. -/
def trimVariables {K : Type} [LinearOrderedRing K] {N : Nat}
    (has : UnivariatePolynomialPtr → Variable → Bool)
    (m : Members (SampleForest K N) (List Nat)) :
    Option (Members (SampleForest K N) (List Nat)) :=
  let depth : Int := m.mVariables.length
  let maxDepth : Int := SampleForest.max_depth N m.sampleTree
  if m.mVariables.length ≠ m.eliminationSets.length then none
  else if m.mVariables.isEmpty then some m
  else
    trimLoop has maxDepth (m.eliminationSets.length + 1)
      { members := m, eliminationSet := 0, variableIt := 0, depth := depth }

end CAD

/-- A numeric non-root sample for the example trees. -/
def exampleNode (value : Int) : RealAlgebraicNumber Int :=
  RealAlgebraicNumberNR value false

/-- A sample tree of four levels below the root: the samples 0 and 1 at depth 3 are siblings
and each has the one child 5. -/
def exampleTree : SampleForest Int 4 :=
  [(exampleNode 10,
    [(exampleNode 20,
      [(exampleNode 0, [(exampleNode 5, ())]),
       (exampleNode 1, [(exampleNode 5, ())])])])]

/-- An elimination set in ascending order with the one input polynomial `p`. -/
def exampleLevel (p : UnivariatePolynomialPtr) : EliminationSet :=
  (EliminationSet.insert ascending (EliminationSet.empty ascending ascending) p [0] false).1

/-- Members of an engine with four variables whose third elimination level is empty. -/
def exampleMembers : Members (SampleForest Int 4) (List Nat) :=
  { mVariables := [1, 2, 3, 4],
    sampleTree := exampleTree,
    trace := [[0, 0, 0, 0], [0, 0, 0], [0, 0], [0], []],
    eliminationSets :=
      [exampleLevel 101, exampleLevel 301, EliminationSet.empty ascending ascending,
        exampleLevel 401],
    polynomials := [101],
    scheduledPolynomials := [],
    newVariables := [],
    iscomplete := false,
    setting := CADSettings.standard }

/-- The test `p->has(v)` of the examples: the hundreds of a handle name its variable. -/
def exampleHas (p : UnivariatePolynomialPtr) (v : Variable) : Bool :=
  decide (p / 100 = v)

/-- The sample tree of `exampleMembers` after `trimVariables`: the layer at depth 3 is gone and
the node 20 has the children 5 and 5. -/
def exampleTrimmedTree : SampleForest Int 4 :=
  [(exampleNode 10, [(exampleNode 20, [(exampleNode 5, []), (exampleNode 5, [])])])]

/-- The members of `exampleMembers` after `trimVariables`. -/
def exampleTrimmedMembers : Members (SampleForest Int 4) (List Nat) :=
  { exampleMembers with
    mVariables := [1, 3, 4],
    sampleTree := exampleTrimmedTree,
    trace := [[0, 0, 0, 0], [0, 0], [0], []],
    eliminationSets := [exampleLevel 101, exampleLevel 301, exampleLevel 401] }

/-! ## Shrinking the bounds (`CAD.tpp:1704-1740`) -/

/-- Modelled from the spec: the class `ExactInterval`, declared outside the given sources: two
endpoints, each with a bound type. -/
structure ExactInterval (K : Type) where
  /-- The endpoint `left()`. -/
  left : K
  /-- The type of the left bound. -/
  leftType : BoundType
  /-- The endpoint `right()`. -/
  right : K
  /-- The type of the right bound. -/
  rightType : BoundType
  deriving DecidableEq

namespace ExactInterval

/-- Whether a number respects the left bound. -/
def aboveLeft {K : Type} [LinearOrderedRing K] (i : ExactInterval K) (x : K) : Prop :=
  match i.leftType with
  | BoundType.INFTY => True
  | BoundType.STRICT => i.left < x
  | BoundType.WEAK => i.left ≤ x

/-- Whether a number respects the right bound. -/
def belowRight {K : Type} [LinearOrderedRing K] (i : ExactInterval K) (x : K) : Prop :=
  match i.rightType with
  | BoundType.INFTY => True
  | BoundType.STRICT => x < i.right
  | BoundType.WEAK => x ≤ i.right

/-- Modelled from the spec: the test `contains(x)`, whether a number lies in the interval. -/
def contains {K : Type} [LinearOrderedRing K] (i : ExactInterval K) (x : K) : Prop :=
  i.aboveLeft x ∧ i.belowRight x

instance {K : Type} [LinearOrderedRing K] (i : ExactInterval K) (x : K) :
    Decidable (i.aboveLeft x) := by
  unfold aboveLeft
  cases i.leftType <;> infer_instance

instance {K : Type} [LinearOrderedRing K] (i : ExactInterval K) (x : K) :
    Decidable (i.belowRight x) := by
  unfold belowRight
  cases i.rightType <;> infer_instance

instance {K : Type} [LinearOrderedRing K] (i : ExactInterval K) (x : K) :
    Decidable (i.contains x) := by
  unfold contains
  infer_instance

/-- The four setter calls `setLeftType(WEAK); setLeft(v); setRightType(WEAK); setRight(v)`
(`CAD.tpp:1715-1718` and `1726-1729`). -/
def setPoint {K : Type} (_i : ExactInterval K) (v : K) : ExactInterval K :=
  { left := v, leftType := BoundType.WEAK, right := v, rightType := BoundType.WEAK }

/-- The four setter calls `setLeftType(STRICT); setLeft(l); setRightType(STRICT); setRight(r)`
(`CAD.tpp:1732-1735`). -/
def setOpen {K : Type} (_i : ExactInterval K) (l r : K) : ExactInterval K :=
  { left := l, leftType := BoundType.STRICT, right := r, rightType := BoundType.STRICT }

end ExactInterval

namespace CAD

/-- The body of the loop of `shrinkBounds` for a level that has a bound (`CAD.tpp:1712-1737`):
the bound and the number `r[level]` afterwards. The member `refineAvoiding` of
`RealAlgebraicNumberIR` is declared outside the given sources and is a parameter: it gives the
number after the refinement and the returned flag. -/
def shrinkBound {K : Type}
    (refineAvoiding : RealAlgebraicNumber K → K → RealAlgebraicNumber K × Bool)
    (bound : ExactInterval K) (x : RealAlgebraicNumber K) :
    ExactInterval K × RealAlgebraicNumber K :=
  if x.isNumeric then (bound.setPoint x.value, x)
  else
    let first := refineAvoiding x bound.left
    if first.2 then (bound.setPoint first.1.value, first.1)
    else
      let second := refineAvoiding first.1 bound.right
      if second.2 then (bound.setPoint second.1.value, second.1)
      else (bound.setOpen second.1.left second.1.right, second.1)

/-- One pass of the loop of `shrinkBounds` (`CAD.tpp:1709-1739`). -/
def shrinkBoundsStep {K : Type}
    (refineAvoiding : RealAlgebraicNumber K → K → RealAlgebraicNumber K × Bool)
    (state : (Nat → Option (ExactInterval K)) × List (RealAlgebraicNumber K)) (level : Nat) :
    Option ((Nat → Option (ExactInterval K)) × List (RealAlgebraicNumber K)) :=
  match state.1 level with
  | none => some state
  | some bound =>
    match state.2[level]? with
    | none => none
    | some x =>
      let res := shrinkBound refineAvoiding bound x
      some (Function.update state.1 level (some res.1), state.2.set level res.2)

/-- `CAD::shrinkBounds(bounds, r)` (`CAD.tpp:1704-1740`): the bounds and the numbers of the point
afterwards; `none` if the assertion on the size of the point fails. -/
def shrinkBounds {K : Type}
    (refineAvoiding : RealAlgebraicNumber K → K → RealAlgebraicNumber K × Bool)
    (mVariables : List Variable) (bounds : Nat → Option (ExactInterval K))
    (r : List (RealAlgebraicNumber K)) :
    Option ((Nat → Option (ExactInterval K)) × List (RealAlgebraicNumber K)) :=
  if mVariables.length = r.length then
    (List.range r.length).foldlM (shrinkBoundsStep refineAvoiding) (bounds, r)
  else none

/-- Modelled from the spec: a refinement of an isolating interval that avoids a number `n`. The
flag is true if `n` is the number itself, which then gets a numeric representation; otherwise
the interval is cut at `n` if `n` lies inside, on the side of the number. -/
def exampleRefineAvoiding (x : RealAlgebraicNumber ℚ) (n : ℚ) : RealAlgebraicNumber ℚ × Bool :=
  if n = x.value then ({ x with isNumeric := true }, true)
  else if n < x.value then ({ x with left := max x.left n }, false)
  else ({ x with right := min x.right n }, false)

/-- An interval representation of the number 1 with the isolating interval (0, 2). -/
def exampleIR : RealAlgebraicNumber ℚ :=
  { value := 1, isRoot := true, isNumeric := false, left := 0, right := 2 }

/-- The closed interval from `l` to `r`. -/
def exampleClosed (l r : ℚ) : ExactInterval ℚ :=
  { left := l, leftType := BoundType.WEAK, right := r, rightType := BoundType.WEAK }

/-- Bounds for level 0 only. -/
def exampleBounds (i : ExactInterval ℚ) : Nat → Option (ExactInterval ℚ) :=
  fun level => if level = 0 then some i else none

end CAD

/-! ## Scheduling, preparing and removing polynomials (`CAD.tpp:187-262`, `614-680`) -/

/-- `find(p)` (`EliminationSet.tpp:240-244`): the entry of the set for `p`, or `nullptr`. -/
def EliminationSet.find (s : EliminationSet) (p : UnivariatePolynomialPtr) :
    UnivariatePolynomialPtr :=
  if p ∈ s.polynomials then p else nullptr

namespace Members

/-- The test `!eliminationSets.empty() && eliminationSets.front().find(p) != nullptr` of
`addPolynomials` (`CAD.tpp:624`). -/
def inFront (eliminationSets : List EliminationSet) (p : UnivariatePolynomialPtr) : Bool :=
  match eliminationSets with
  | front :: _ => front.find p != nullptr
  | [] => false

/-- One pass of the first loop of `addPolynomials` (`CAD.tpp:619-631`): the scheduled
polynomials and the flag `nothingAdded` afterwards. -/
def scheduleStep (eliminationSets : List EliminationSet)
    (state : List UnivariatePolynomialPtr × Bool) (p : UnivariatePolynomialPtr) :
    List UnivariatePolynomialPtr × Bool :=
  if p ∈ state.1 then state
  else if inFront eliminationSets p then state
  else (state.1 ++ [p], false)

/-- One pass of the second loop of `addPolynomials` (`CAD.tpp:639-648`): the pending new
variables afterwards. -/
def newVariableStep (mVariables newVariables : List Variable) (var : Variable) :
    List Variable :=
  if var ∉ mVariables ∧ var ∉ newVariables then newVariables ++ [var] else newVariables

/-- `addPolynomials(first, last, v)` (`CAD.tpp:614-648`), `input` being the range from `first`
to `last`. -/
def addPolynomials {Tree Node : Type} (m : Members Tree Node)
    (input : List UnivariatePolynomialPtr) (v : List Variable) : Members Tree Node :=
  let res := input.foldl (scheduleStep m.eliminationSets) (m.scheduledPolynomials, true)
  let m1 := { m with scheduledPolynomials := res.1 }
  if res.2 then m1
  else { m1 with newVariables := v.foldl (newVariableStep m1.mVariables) m1.newVariables }

/-- The loop that copies the old trace into the new one from index `j` on
(`CAD.tpp:228-231`); `none` when an entry is written outside the new trace. -/
def extendTrace {Node : Type} : List Node → Nat → List Node → Option (List Node)
  | [], _, newTrace => some newTrace
  | i :: rest, j, newTrace =>
    if j < newTrace.length then extendTrace rest (j + 1) (newTrace.set j i) else none

/-- The loop that swaps the old elimination sets into the new vector `sets`
(`CAD.tpp:236-238`): `count` passes from index `i` on; the state is `sets` and the old vector.
`none` when the old vector has no set at index `i - newVariableCount`. -/
def shiftSets (newVariableCount : Nat) :
    Nat → Nat → List EliminationSet × List EliminationSet →
      Option (List EliminationSet × List EliminationSet)
  | 0, _, state => some state
  | count + 1, i, state =>
    match state.1[i]?, state.2[i - newVariableCount]? with
    | some fresh, some old =>
      shiftSets newVariableCount count (i + 1)
        (state.1.set i old, state.2.set (i - newVariableCount) fresh)
    | _, _ => none

/-- Part A of `prepareElimination` (`CAD.tpp:215-240`), run when there are new variables: the
new variables go in front of the old ones, the trace and the elimination sets get as many new
entries in front. `order` is the member `order` of the settings and `root` the node
`sampleTree.begin()`. -/
def introduceVariables {Tree Node : Type} (order : PolynomialComparator) (root : Tree → Node)
    (m : Members Tree Node) : Option (Members Tree Node) :=
  let newVariableCount := m.newVariables.length
  let mVariables := m.newVariables ++ m.mVariables
  match extendTrace m.trace newVariableCount
      (List.replicate (mVariables.length + 1) (root m.sampleTree)) with
  | none => none
  | some newTrace =>
    let sets := List.replicate mVariables.length (EliminationSet.empty order order)
    match shiftSets newVariableCount (sets.length - newVariableCount) newVariableCount
        (sets, m.eliminationSets) with
    | none => none
    | some shifted =>
      some { m with
        mVariables := mVariables, newVariables := [], trace := newTrace,
        eliminationSets := shifted.1 }

/-- One pass of the loop over the scheduled polynomials in `prepareElimination`
(`CAD.tpp:244-247`): the list of all polynomials and the elimination sets afterwards; `none`
stands for `front()` of an empty vector. -/
def absorbStep (less : PolynomialComparator)
    (toUnivariatePolynomial : UnivariatePolynomialPtr → UnivariatePolynomialPtr)
    (state : List UnivariatePolynomialPtr × List EliminationSet) (p : UnivariatePolynomialPtr) :
    Option (List UnivariatePolynomialPtr × List EliminationSet) :=
  match state.2 with
  | [] => none
  | front :: rest =>
    some (state.1 ++ [p],
      (EliminationSet.insert less front (toUnivariatePolynomial p) [nullptr] false).1 :: rest)

/-- The optimizations for the first elimination level in `prepareElimination`
(`CAD.tpp:250-258`). -/
def simplifyFront (X : EliminationOperations) (setting : CADSettings) (variableCount : Nat)
    (front : EliminationSet) : EliminationSet :=
  let front1 := if setting.simplifyByFactorization then X.factorize front else front
  let front2 := X.makeSquarefree (X.makePrimitive front1)
  if setting.simplifyByRootcounting && variableCount == 1 then
    X.removePolynomialsWithoutRealRoots front2
  else front2

/-- `prepareElimination()` (`CAD.tpp:187-262`): the engine afterwards and the return value.
The conversion `toUnivariatePolynomial` of an input polynomial is declared outside the given
sources and is a parameter. `none` stands for an access outside a vector. -/
def prepareElimination {Tree Node : Type} (less : PolynomialComparator)
    (X : EliminationOperations) (order : PolynomialComparator) (root : Tree → Node)
    (toUnivariatePolynomial : UnivariatePolynomialPtr → UnivariatePolynomialPtr)
    (m : Members Tree Node) : Option (Members Tree Node × Bool) :=
  if m.newVariables.isEmpty && m.scheduledPolynomials.isEmpty then some (m, false)
  else
    let newVariableCount := m.newVariables.length
    match (if !m.newVariables.isEmpty then introduceVariables order root m else some m) with
    | none => none
    | some m1 =>
      match m1.scheduledPolynomials.foldlM (absorbStep less toUnivariatePolynomial)
          (m1.polynomials, m1.eliminationSets) with
      | none => none
      | some absorbed =>
        match absorbed.2 with
        | [] => none
        | front :: rest =>
          some ({ m1 with
            polynomials := absorbed.1,
            eliminationSets := simplifyFront X m1.setting m1.mVariables.length front :: rest,
            scheduledPolynomials := [] }, newVariableCount != 0)

/-- The loop over the levels in `removePolynomial(polynomial)` (`CAD.tpp:669-679`): `pol` is
searched level by level from `level` on; where it is found, the overload
`removePolynomial(p, level)` is called, here `removePolynomialAt`. -/
def removeFromLevels {Tree Node : Type}
    (removePolynomialAt : Members Tree Node → UnivariatePolynomialPtr → Nat → Members Tree Node)
    (m : Members Tree Node) (pol : UnivariatePolynomialPtr) :
    List EliminationSet → Nat → Members Tree Node
  | [], _ => m
  | es :: rest, level =>
    if es.find pol != nullptr then removePolynomialAt m (es.find pol) level
    else removeFromLevels removePolynomialAt m pol rest (level + 1)

/-- `removePolynomial(polynomial)` (`CAD.tpp:650-680`). The conversions
`toUnivariatePolynomial` and `coprimeCoefficients` are declared outside the given sources and
are parameters; the overload `removePolynomial(p, level, childrenOnly)` (`CAD.tpp:682-750`),
which works on the sample tree, is the parameter `removePolynomialAt`. -/
def removePolynomial {Tree Node : Type}
    (toUnivariatePolynomial coprimeCoefficients :
      UnivariatePolynomialPtr → UnivariatePolynomialPtr)
    (removePolynomialAt : Members Tree Node → UnivariatePolynomialPtr → Nat → Members Tree Node)
    (m : Members Tree Node) (polynomial : UnivariatePolynomialPtr) : Members Tree Node :=
  if polynomial ∈ m.scheduledPolynomials then
    { m with scheduledPolynomials := m.scheduledPolynomials.erase polynomial }
  else if polynomial ∈ m.polynomials then
    { m with polynomials := m.polynomials.erase polynomial }
  else
    removeFromLevels removePolynomialAt m
      (coprimeCoefficients (toUnivariatePolynomial polynomial)) m.eliminationSets 0

/-- The engine built by the constructor `CAD()` (`CAD.tpp:22-38`), with the unit type for the
sample tree and numbers for its nodes. -/
def exampleInitial : Members Unit Nat :=
  { mVariables := [], sampleTree := (), trace := [], eliminationSets := [], polynomials := [],
    scheduledPolynomials := [], newVariables := [], iscomplete := false,
    setting := CADSettings.getSettings BOUNDED_CADSETTING CADSettings.standard }

/-- An engine with the variable 5, whose elimination set holds the polynomial 3, with a trace
of two nodes, the pending new variable 6 and the scheduled polynomial 4. -/
def examplePending : Members Unit Nat :=
  { exampleInitial with
    mVariables := [5], trace := [7, 8], eliminationSets := [exampleSource],
    polynomials := [3], scheduledPolynomials := [4], newVariables := [6] }

/-- The engine after scheduling the polynomials `input` and the variable 1 on a fresh engine
and preparing the elimination; the conversion of the polynomials is the identity. -/
def exampleAbsorbed (input : List UnivariatePolynomialPtr) : Option (Members Unit Nat) :=
  (prepareElimination ascending exampleOperations ascending (fun _ => 0) id
    (exampleInitial.addPolynomials input [1])).map Prod.fst

end Members

/-! ## One projection step (`CAD.tpp:1564-1633`) -/

/-- `emptySingleEliminationQueue()` (`EliminationSet.h:340`). -/
def EliminationSet.emptySingleEliminationQueue (s : EliminationSet) : Bool :=
  s.mSingleEliminationQueue.isEmpty

/-- `emptyPairedEliminationQueue()` (`EliminationSet.h:348`). -/
def EliminationSet.emptyPairedEliminationQueue (s : EliminationSet) : Bool :=
  s.mPairedEliminationQueue.isEmpty

/-- Modelled from the spec: the members that `CAD::eliminate` calls and that are not among the
given sources of `EliminationSet`: `eliminateNextInto` performs the next elimination of a set
into a destination set, `moveConstants` moves the constant polynomials of a set into a
destination set and `removeConstants` drops the constants of a set. Each gives the sets
afterwards. The last argument of `eliminateNextInto` is `none` where the call leaves it to the
default. The member `vanishesInBox` of `CAD` (`CAD.tpp:1823`), which runs a nested engine, is
taken from outside as well: it gives the engine afterwards and the returned flag. -/
structure ProjectionOperations (Tree Node Bounds : Type) where
  /-- The call `source.eliminateNextInto(destination, variable, setting, flag)`: the source and
  the destination afterwards. -/
  eliminateNextInto : EliminationSet → EliminationSet → Variable → CADSettings → Option Bool →
    EliminationSet × EliminationSet
  /-- The call `source.moveConstants(destination, variable)`: the source and the destination
  afterwards. -/
  moveConstants : EliminationSet → EliminationSet → Variable → EliminationSet × EliminationSet
  /-- The call `removeConstants()`. -/
  removeConstants : EliminationSet → EliminationSet
  /-- The call `vanishesInBox(p, bounds, level)`. -/
  vanishesInBox : Members Tree Node → UnivariatePolynomialPtr → Bounds → Nat →
    Members Tree Node × Bool

namespace Members

/-- The search for the first level below `l` where elimination polynomials can be generated
(`CAD.tpp:1569-1573`): `some none` stands for a negative level and `none` for a level outside
the vector. -/
def eliminationLevel (sets : List EliminationSet) : Nat → Option (Option Nat)
  | 0 => some none
  | l + 1 =>
    match sets[l]? with
    | none => none
    | some es =>
      if es.emptySingleEliminationQueue && es.emptyPairedEliminationQueue then
        eliminationLevel sets l
      else some (some l)

/-- The loop that moves the constants down from level `l` on (`CAD.tpp:1621-1623`), `count`
passes. -/
def moveConstantsLoop {Tree Node Bounds : Type} (P : ProjectionOperations Tree Node Bounds)
    (mVariables : List Variable) : Nat → Nat → List EliminationSet → Option (List EliminationSet)
  | 0, _, sets => some sets
  | count + 1, l, sets =>
    if l = 0 then none
    else
      match sets[l - 1]?, sets[l]?, mVariables[l]? with
      | some source, some destination, some v =>
        let res := P.moveConstants source destination v
        moveConstantsLoop P mVariables count (l + 1) ((sets.set (l - 1) res.1).set l res.2)
      | _, _, _ => none

/-- The block run under `removeConstants` after an elimination into level `l`
(`CAD.tpp:1619-1625`): the constants are moved down to the last level and dropped there. -/
def sweepConstants {Tree Node Bounds : Type} (P : ProjectionOperations Tree Node Bounds)
    (mVariables : List Variable) (l : Nat) (sets : List EliminationSet) :
    Option (List EliminationSet) :=
  match moveConstantsLoop P mVariables (sets.length - l) l sets with
  | none => none
  | some moved =>
    match moved.getLast? with
    | none => none
    | some back => some (moved.set (moved.length - 1) (P.removeConstants back))

/-- The body of the loop `for (; l <= level; l++)` (`CAD.tpp:1616-1630`, and `1589-1603` with
the default flag): one elimination from level `l - 1` into level `l`; the body ends with
`return (int)level` for the new level `l`. -/
def eliminateStep {Tree Node Bounds : Type} (P : ProjectionOperations Tree Node Bounds)
    (flag : Option Bool) (m : Members Tree Node) (l : Nat) : Option (Members Tree Node × Int) :=
  if l = 0 then none
  else
    match m.eliminationSets[l - 1]?, m.eliminationSets[l]?, m.mVariables[l]? with
    | some source, some destination, some v =>
      let res := P.eliminateNextInto source destination v m.setting flag
      let sets := (m.eliminationSets.set (l - 1) res.1).set l res.2
      match (if m.setting.removeConstants then sweepConstants P m.mVariables l sets
          else some sets) with
      | none => none
      | some sets1 => some ({ m with eliminationSets := sets1, iscomplete := false }, (l : Int))
    | _, _, _ => none

/-- The loop that drops the polynomials of the single-elimination queue of a level which do
not vanish in the box (`CAD.tpp:1582-1588`, `1607-1613`). -/
def pruneByBox {Tree Node Bounds : Type} (P : ProjectionOperations Tree Node Bounds)
    (bounds : Bounds) (index : Nat) : Nat → Members Tree Node → Option (Members Tree Node)
  | 0, _ => none
  | fuel + 1, m =>
    match m.eliminationSets[index]? with
    | none => none
    | some es =>
      if !es.emptySingleEliminationQueue then
        match es.popNextSingleEliminationPosition with
        | none => none
        | some popped =>
          let m1 := { m with eliminationSets := m.eliminationSets.set index popped.1 }
          let res := P.vanishesInBox m1 popped.2 bounds index
          if res.2 then some res.1
          else
            match res.1.eliminationSets[index]? with
            | none => none
            | some es1 =>
              pruneByBox P bounds index fuel
                { res.1 with eliminationSets := res.1.eliminationSets.set index (es1.erase
                    popped.2).1 }
      else some m

/-- The loop `while (true)` of `eliminate` (`CAD.tpp:1566-1632`); `none` when the loop does not
end within the given number of passes, or at an access outside a vector or a failed
assertion; `inner` bounds the passes of the loops over a single-elimination queue. -/
def eliminateLoop {Tree Node Bounds : Type} (P : ProjectionOperations Tree Node Bounds)
    (bounds : Bounds) (boundsActive : Bool) (inner : Nat) :
    Nat → Members Tree Node → Nat → Option (Members Tree Node × Int)
  | 0, _, _ => none
  | fuel + 1, m, level =>
    match m.eliminationSets[level]? with
    | none => none
    | some es =>
      if !es.emptyLiftingQueue then some (m, (level : Int))
      else
        match eliminationLevel m.eliminationSets level with
        | none => none
        | some none => some (m, -1)
        | some (some found) =>
          let l := found + 1
          if boundsActive && m.setting.simplifyEliminationByBounds then
            if l ≤ level then
              match pruneByBox P bounds (l - 1) inner m with
              | none => none
              | some m1 => eliminateStep P none m1 l
            else if l = level + 1 then
              if !m.setting.simplifyByRootcounting && level == m.eliminationSets.length then
                match pruneByBox P bounds (m.eliminationSets.length - 1) inner m with
                | none => none
                | some m1 => eliminateLoop P bounds boundsActive inner fuel m1 level
              else eliminateLoop P bounds boundsActive inner fuel m level
            else none
          else
            if l ≤ level then eliminateStep P (some false) m l
            else eliminateLoop P bounds boundsActive inner fuel m level

/-- `eliminate(level, bounds, boundsActive)` (`CAD.tpp:1564-1633`): the engine afterwards and
the returned level; `fuel` bounds the number of passes of the loop. -/
def eliminate {Tree Node Bounds : Type} (P : ProjectionOperations Tree Node Bounds)
    (inner fuel : Nat) (m : Members Tree Node) (level : Nat) (bounds : Bounds)
    (boundsActive : Bool) : Option (Members Tree Node × Int) :=
  eliminateLoop P bounds boundsActive inner fuel m level

/-- Projection operations for the examples: `eliminateNextInto` moves the head of the
single-elimination queue of the source, increased by 1, into the destination; constants are
left alone. -/
def exampleProjection : ProjectionOperations Unit Nat Unit :=
  { eliminateNextInto := fun source destination _ _ _ =>
      match source.popNextSingleEliminationPosition with
      | none => (source, destination)
      | some popped =>
        (popped.1, (EliminationSet.insert ascending destination (popped.2 + 1) [popped.2]
          false).1),
    moveConstants := fun source destination _ => (source, destination),
    removeConstants := id,
    vanishesInBox := fun m _ _ _ => (m, true) }

/-- An engine with two variables: the polynomial 3 in the first elimination set, the second
empty. -/
def exampleTwoLevels : Members Unit Nat :=
  { exampleInitial with
    mVariables := [1, 2], trace := [0, 0, 0],
    eliminationSets := [exampleSource, EliminationSet.empty ascending ascending],
    polynomials := [3], iscomplete := true }

end Members

/-! ## Further engines used in the examples -/

namespace CAD

/-- The collaborators of `exampleCollaborators` with an interval evaluation that gives every
polynomial the sign `POSITIVE`. -/
abbrev examplePositiveCollaborators : Collaborators :=
  { exampleCollaborators neverInterrupted with evaluateSign := fun _ _ => Sign.POSITIVE }

/-- The engine of `exampleEngine` over `examplePositiveCollaborators`, with the setting
`preSolveByBounds` switched on. -/
def examplePresolveEngine : CheckState examplePositiveCollaborators :=
  { exampleEngine neverInterrupted with
    cad := { (exampleEngine neverInterrupted).cad with
      setting := { CADSettings.standard with preSolveByBounds := true } } }

/-- The collaborators of `exampleCollaborators`, all of whose samples are roots, with the test
`emptyNonroot()` answering accordingly that a sample set has no non-root sample. -/
abbrev exampleRootCollaborators : Collaborators :=
  { exampleCollaborators neverInterrupted with emptyNonroot := fun _ => true }

/-- The engine of `exampleEngine` over `exampleRootCollaborators`, with the setting of the
preset `INEQUALITIESONLY_CADSETTING`. -/
def exampleInequalitiesEngine : CheckState exampleRootCollaborators :=
  { exampleEngine neverInterrupted with
    cad := { (exampleEngine neverInterrupted).cad with
      setting := CADSettings.getSettings INEQUALITIESONLY_CADSETTING CADSettings.standard } }

/-- The arguments of the initial `liftCheck` call of `mainCheck` for one variable and the
constraint `x - 3 > 0`. -/
def exampleTopArgs : LiftArgs exampleRootCollaborators where
  node := none
  sample := []
  openVariableCount := 1
  restartLifting := true
  sampleVariables := []
  constraints := [(3, Sign.POSITIVE)]
  bounds := []
  boundsActive := false
  checkBounds := false

/-- The local variables of `liftCheck` at the start of its main loop for `exampleTopArgs`: the
sample 0 is in both sample sets. -/
def exampleTopLocals : LiftLocals exampleRootCollaborators where
  computeMoreSamples := false
  currentSamples := [0]
  sampleSetIncrement := [0]
  replacedSamples := []

/-- The engine of `exampleInequalitiesEngine` at the start of the main loop of `liftCheck` for
`exampleTopArgs`: the trace entry of the level is set and the lifting queue of the level is
reset. -/
def exampleStartedEngine : CheckState exampleRootCollaborators :=
  setEliminationSet exampleRootCollaborators
    { exampleInequalitiesEngine with
      cad := { exampleInequalitiesEngine.cad with
        trace := exampleInequalitiesEngine.cad.trace.set 1 none } }
    0
    (EliminationSet.insert ascending (EliminationSet.empty ascending ascending)
      1 [nullptr] false).1.resetLiftingPositionsFully

/-- The engine of `exampleEngine` with the setting `trimVariables` switched on. -/
def exampleTrimEngine : CheckState (exampleCollaborators neverInterrupted) :=
  { exampleEngine neverInterrupted with
    cad := { (exampleEngine neverInterrupted).cad with
      setting := { CADSettings.standard with trimVariables := true } } }

end CAD

/-- The set reached from the empty one, with both orders ascending, by `insert(6)` as an
original input and `insert(4, (7), true)`: the polynomial 4 has the only parent 7 and is kept
out of the single-elimination queue. -/
def exampleAvoidSingle : EliminationSet :=
  (EliminationSet.insert ascending
    (EliminationSet.insert ascending (EliminationSet.empty ascending ascending)
      6 [nullptr] false).1
    4 [7] true).1

namespace Members

/-- The loop of `vanishesInBox` that chooses the variables and the bounds of the nested engine
(`CAD.tpp:1836-1848`), `count` passes from index `i` on: the state is the variable list, the
bound map and the counter `j`. The test `p->has(variable)` is declared outside the given
sources and is the parameter `has`. `none` stands for an index outside the variables. -/
def vanishesInBoxLoop {I : Type} (has : UnivariatePolynomialPtr → Variable → Bool)
    (mVariables : List Variable) (p : UnivariatePolynomialPtr) (box : Nat → Option I) :
    Nat → Nat → List Variable × (Nat → Option I) × Nat →
      Option (List Variable × (Nat → Option I) × Nat)
  | 0, _, state => some state
  | count + 1, i, state =>
    match mVariables[i]? with
    | none => none
    | some v =>
      if has p v then
        match box i with
        | some bound =>
          vanishesInBoxLoop has mVariables p box count (i + 1)
            (state.1 ++ [v], Function.update state.2.1 state.2.2 (some bound),
              (state.2.2 + 1) % 2 ^ 32)
        | none =>
          vanishesInBoxLoop has mVariables p box count (i + 1)
            (state.1 ++ [v], state.2.1, state.2.2)
      else vanishesInBoxLoop has mVariables p box count (i + 1) state

/-- The variables and the bounds that `vanishesInBox(p, box, level)` hands to the nested
engine (`CAD.tpp:1833-1855`). -/
def vanishesInBoxArguments {I : Type} (has : UnivariatePolynomialPtr → Variable → Bool)
    (mVariables : List Variable) (p : UnivariatePolynomialPtr) (box : Nat → Option I)
    (level : Nat) : Option (List Variable × (Nat → Option I)) :=
  (vanishesInBoxLoop has mVariables p box (mVariables.length - level) level
    ([], fun _ => none, 0)).map (fun state => (state.1, state.2.1))

end Members

end cad

/-! ## Factorized polynomials (`FactorizedPolynomial.tpp`) -/

/-- The class `FactorizedPolynomial<P>`: `pCache` is the identity of the cache `mpCache`, `none`
for a null pointer; `content` is the entry of the cache that `mCacheRef` refers to, the value
of `content()`, read only if there is a cache; `coefficient` is `mCoefficient`. -/
structure FactorizedPolynomial (C : Type) where
  /-- The pointer `pCache()`. -/
  pCache : Option Nat
  /-- The cache entry `content()`. -/
  content : C
  /-- The number `coefficient()`. -/
  coefficient : ℚ
  deriving DecidableEq

/-- Modelled from the spec: the macro `ASSERT_CACHE_EQUAL(a, b)`, declared outside the given
sources: two polynomials share a cache if one of the pointers is null or both are the same. -/
def cacheEqual (a b : Option Nat) : Bool :=
  a.isNone || b.isNone || a == b

/-- The type `Factorization<P>`, a map from factors to exponents, as the list of its entries
in key order. -/
abbrev Factorization (C : Type) := List (FactorizedPolynomial C × Nat)

namespace FactorizedPolynomial

/-- `operator==` (`FactorizedPolynomial.tpp:173-187`); two cache entries are compared by
equality. -/
def operator_eq {C : Type} [DecidableEq C] (fpolyA fpolyB : FactorizedPolynomial C) : Bool :=
  if fpolyA.pCache = none ∧ fpolyB.pCache = none then
    decide (fpolyA.coefficient = fpolyB.coefficient)
  else if fpolyA.pCache ≠ none ∧ fpolyB.pCache ≠ none then
    if fpolyA.coefficient = fpolyB.coefficient then decide (fpolyA.content = fpolyB.content)
    else false
  else false

/-- `operator<` (`FactorizedPolynomial.tpp:189-202`); `contentLess` is the order of the cache
entries, declared outside the given sources. `none` stands for the failed assertion. -/
def operator_lt {C : Type} (contentLess : C → C → Bool)
    (fpolyA fpolyB : FactorizedPolynomial C) : Option Bool :=
  if cacheEqual fpolyA.pCache fpolyB.pCache then
    if fpolyA.pCache = none ∧ fpolyB.pCache = none then
      some (decide (fpolyA.coefficient < fpolyB.coefficient))
    else if fpolyA.pCache ≠ none ∧ fpolyB.pCache ≠ none then
      some (contentLess fpolyA.content fpolyB.content)
    else some (decide (fpolyA.pCache = none))
  else none

/-- `operator!=` (`FactorizedPolynomial.tpp:204-218`); `none` stands for the failed
assertion. -/
def operator_ne {C : Type} [DecidableEq C] (fpolyA fpolyB : FactorizedPolynomial C) :
    Option Bool :=
  if cacheEqual fpolyA.pCache fpolyB.pCache then
    if fpolyA.pCache = none ∧ fpolyB.pCache = none then
      some (decide (fpolyA.coefficient ≠ fpolyB.coefficient))
    else if fpolyA.pCache ≠ none ∧ fpolyB.pCache ≠ none then
      some (!decide (fpolyA.content = fpolyB.content))
    else some true
  else none

/-- The polynomial with the cache entry `content` in the cache 0 and the given coefficient. -/
def exampleCached (content : Nat) (coefficient : ℚ) : FactorizedPolynomial Nat :=
  { pCache := some 0, content := content, coefficient := coefficient }

end FactorizedPolynomial

namespace cad

/-! ## Removal of a polynomial from a level (`CAD.tpp:682-750`) -/

/-- Modelled from the spec: the member `empty()` of `EliminationSet`, declared outside the given
sources: whether the set holds no polynomial. -/
def EliminationSet.isEmpty (s : EliminationSet) : Bool :=
  s.polynomials.isEmpty

/-- `clear()` (`EliminationSet.tpp:259-267`). -/
def EliminationSet.clear (s : EliminationSet) : EliminationSet :=
  { s with
    polynomials := [], mLiftingQueue := [], mLiftingQueueReset := [],
    mSingleEliminationQueue := [], mPairedEliminationQueue := [],
    childrenPerParent := fun _ => none, parentsPerChild := fun _ => none }

/-- Modelled from the spec: the operations of the sample tree (`tree.hh`) that
`removePolynomial(p, level, childrenOnly)` uses, declared outside the given sources. -/
structure TreeOperations (Tree Node : Type) where
  /-- The depth `max_depth()` of the tree, an `int`. -/
  max_depth : Tree → Int
  /-- The root iterator `begin()`. -/
  root : Tree → Node
  /-- The first node at a depth below a node, `begin_fixed`. -/
  begin_fixed : Tree → Node → Nat → Node
  /-- The next node at the same depth. -/
  next_at_same_depth : Tree → Node → Node
  /-- The test `is_valid`. -/
  is_valid : Tree → Node → Bool
  /-- The call `merge(destination.begin(), destination.end(), node.begin(), node.end())`. -/
  merge : Tree → Node → Node → Tree
  /-- The call `erase(node)`. -/
  erase : Tree → Node → Tree
  /-- The parent of a node. -/
  parent : Tree → Node → Node

/-- The value of an `unsigned` after `l--`. -/
def decrementUnsigned (l : Nat) : Nat :=
  (l + 2 ^ 32 - 1) % 2 ^ 32

/-- The member `std::forward_list::unique()`: of consecutive equal elements the first is
kept. -/
def forwardListUnique : List UnivariatePolynomialPtr → List UnivariatePolynomialPtr
  | [] => []
  | x :: rest =>
    match forwardListUnique rest with
    | [] => [x]
    | y :: ys => if x = y then y :: ys else x :: y :: ys

namespace Members

/-- The loop over `parents` at one level in `removePolynomial` (`CAD.tpp:703-706`): the set of
the level and `newParents` afterwards. -/
def removeChildrenStep (state : EliminationSet × List UnivariatePolynomialPtr)
    (parent : UnivariatePolynomialPtr) : EliminationSet × List UnivariatePolynomialPtr :=
  let res := state.1.removeByParent parent
  (res.1, res.2 ++ state.2)

/-- The loop that removes the children of `p` level by level (`CAD.tpp:701-710`), `count`
passes from level `l` on; `order` is the member `order` of the settings. The result is an
index outside the elimination sets, or the sets afterwards. -/
def removeChildrenLoop (order : PolynomialComparator) :
    Nat → Nat → List UnivariatePolynomialPtr → List EliminationSet →
      Except Nat (List EliminationSet)
  | 0, _, _, sets => Except.ok sets
  | count + 1, l, parents, sets =>
    if parents.isEmpty then Except.ok sets
    else
      match sets[l]? with
      | none => Except.error l
      | some es =>
        let res := parents.foldl removeChildrenStep (es, parents)
        removeChildrenLoop order count (l + 1) (forwardListUnique (listSort order res.2))
          (sets.set l res.1)

/-- The loop that merges the nodes of one depth into the first one (`CAD.tpp:729-734`): the
tree and the list `toDelete` afterwards; `none` when the loop does not end within the given
number of passes. -/
def mergeLoop {Tree Node : Type} (T : TreeOperations Tree Node) (destination : Node) :
    Nat → Node → Tree → List Node → Option (Tree × List Node)
  | 0, _, _, _ => none
  | fuel + 1, node, tree, toDelete =>
    if T.is_valid tree node then
      mergeLoop T destination fuel (T.next_at_same_depth tree node)
        (T.merge tree destination node) (node :: toDelete)
    else some (tree, toDelete)

/-- The body of the cleaning loop for an empty elimination level `l` (`CAD.tpp:722-739`). -/
def cleanLevel {Tree Node : Type} (T : TreeOperations Tree Node) (inner dim : Nat)
    (maxDepth : Int) (sampleTreeRoot : Node) (tree : Tree) (l : Nat) : Option Tree :=
  let depth := (dim + 2 ^ 32 - l) % 2 ^ 32
  if depth ≤ (maxDepth % 2 ^ 32).toNat then
    let destination := T.begin_fixed tree sampleTreeRoot depth
    match mergeLoop T destination inner (T.next_at_same_depth tree destination) tree [] with
    | none => none
    | some merged => some (merged.2.foldl T.erase merged.1)
  else some tree

/-- The cleaning loop `for (unsigned l = dim - 1; l >= level; l--)` of `removePolynomial`
(`CAD.tpp:720-741`) from the counter value `l` on. The result is `none` when the loop does not
end within the given number of passes, an index outside the elimination sets that the loop
reads, or the engine afterwards. -/
def cleanLoop {Tree Node : Type} (T : TreeOperations Tree Node) (inner level dim : Nat)
    (maxDepth : Int) (sampleTreeRoot : Node) :
    Nat → Nat → Members Tree Node → Option (Except Nat (Members Tree Node))
  | 0, _, _ => none
  | fuel + 1, l, m =>
    if level ≤ l then
      match m.eliminationSets[l]? with
      | none => some (Except.error l)
      | some es =>
        if es.isEmpty then
          match cleanLevel T inner dim maxDepth sampleTreeRoot m.sampleTree l with
          | none => none
          | some tree =>
            cleanLoop T inner level dim maxDepth sampleTreeRoot fuel (decrementUnsigned l)
              { m with sampleTree := tree }
        else
          cleanLoop T inner level dim maxDepth sampleTreeRoot fuel (decrementUnsigned l) m
    else some (Except.ok m)

/-- The loop that corrects the trace (`CAD.tpp:745-749`), `count` passes from index `lTrace`
on. The result is an index outside the trace, or the trace afterwards. -/
def correctTrace {Tree Node : Type} (T : TreeOperations Tree Node) (tree : Tree) :
    Nat → Nat → Node → List Node → Except Nat (List Node)
  | 0, _, _, entries => Except.ok entries
  | count + 1, lTrace, node, entries =>
    if lTrace < entries.length then
      correctTrace T tree count (lTrace + 1) (T.parent tree node) (entries.set lTrace node)
    else Except.error lTrace

/-- The cleaning of the sample tree and the correction of the trace at the end of
`removePolynomial` (`CAD.tpp:712-749`). -/
def cleanSampleTree {Tree Node : Type} (T : TreeOperations Tree Node) (inner fuel : Nat)
    (m : Members Tree Node) (level : Nat) : Option (Except Nat (Members Tree Node)) :=
  let dim := m.eliminationSets.length % 2 ^ 32
  let maxDepth := T.max_depth m.sampleTree
  let sampleTreeRoot := T.root m.sampleTree
  match cleanLoop T inner level dim maxDepth sampleTreeRoot fuel (decrementUnsigned dim) m with
  | none => none
  | some (Except.error l) => some (Except.error l)
  | some (Except.ok m1) =>
    match correctTrace T m1.sampleTree (maxDepth + 1).toNat 0
        (T.begin_fixed m1.sampleTree sampleTreeRoot maxDepth.toNat) m1.trace with
    | Except.error l => some (Except.error l)
    | Except.ok entries => some (Except.ok { m1 with trace := entries })

/-- `removePolynomial(p, level, childrenOnly)` (`CAD.tpp:682-750`); `order` is the member
`order` of the settings. The result is `none` when a loop does not end within the given number
of passes, an index outside a vector that the call reads, or the engine afterwards. -/
def removePolynomialAt {Tree Node : Type} (T : TreeOperations Tree Node)
    (order : PolynomialComparator) (inner fuel : Nat) (m : Members Tree Node)
    (p : UnivariatePolynomialPtr) (level : Nat) (childrenOnly : Bool) :
    Option (Except Nat (Members Tree Node)) :=
  if p = nullptr then some (Except.ok m)
  else
    match (if !childrenOnly then
        match m.eliminationSets[level]? with
        | none => Except.error level
        | some es =>
          if es.hasParents p then Except.ok (m, true)
          else
            Except.ok ({ m with eliminationSets := m.eliminationSets.set level (es.erase p).1 },
              (es.erase p).2 == 0)
      else Except.ok (m, false)) with
    | Except.error l => some (Except.error l)
    | Except.ok (m1, true) => some (Except.ok m1)
    | Except.ok (m1, false) =>
      match removeChildrenLoop order (m1.eliminationSets.length - (level + 1)) (level + 1) [p]
          m1.eliminationSets with
      | Except.error l => some (Except.error l)
      | Except.ok sets => cleanSampleTree T inner fuel { m1 with eliminationSets := sets } level

/-- Tree operations for the examples: the tree has depth 0 and its only node is the root. -/
def exampleTreeOperations : TreeOperations Unit Nat :=
  { max_depth := fun _ => 0, root := fun _ => 0, begin_fixed := fun _ node _ => node,
    next_at_same_depth := fun _ node => node, is_valid := fun _ _ => false,
    merge := fun tree _ _ => tree, erase := fun tree _ => tree, parent := fun _ node => node }

end Members

/-! ## The bound polynomials of `check` (`CAD.tpp:522-553`, `568-596`) -/

namespace Members

/-- The index that a call reads outside a vector, if it does. -/
def indexOutside {α : Type} : Option (Except Nat α) → Option Nat
  | some (Except.error l) => some l
  | _ => none

/-- One pass of the loop `for (auto p: tmp)` in `check` (`CAD.tpp:545-548`): the polynomial `p`
is eliminated from level `l - 1` into level `l`. -/
def eliminateBoundStep {Tree Node : Type} (less : PolynomialComparator)
    (X : EliminationOperations) (l : Nat) (m : Members Tree Node) (p : UnivariatePolynomialPtr) :
    Option (Members Tree Node) :=
  match m.eliminationSets[l - 1]?, m.eliminationSets[l]?, m.mVariables[l]? with
  | some source, some destination, some v =>
    match source.eliminateInto less X p destination v m.setting with
    | none => none
    | some res =>
      some { m with
        eliminationSets := (m.eliminationSets.set (l - 1) res.source).set l res.destination }
  | _, _, _ => none

/-- The loop `while (!tmp.empty() && l < variables.size())` in `check` (`CAD.tpp:543-551`),
`count` passes from level `l` on: after a pass `tmp` holds its old content once for each of its
members. -/
def eliminateBoundLoop {Tree Node : Type} (less : PolynomialComparator)
    (X : EliminationOperations) :
    Nat → Nat → List UnivariatePolynomialPtr → Members Tree Node → Option (Members Tree Node)
  | 0, _, _, m => some m
  | count + 1, l, tmp, m =>
    if tmp.isEmpty then some m
    else
      match tmp.foldlM (eliminateBoundStep less X l) m with
      | none => none
      | some m1 => eliminateBoundLoop less X count (l + 1) (tmp.flatMap fun _ => tmp) m1

/-- The insertion of one bound polynomial in `check` (`CAD.tpp:529-533`, `534-538`): the
polynomial is inserted into the elimination set of the level and recorded in the member `first`
of the entry of `boundPolynomials`. -/
def recordBoundPolynomial {Tree Node : Type} (less : PolynomialComparator)
    (state : Members Tree Node × List PolynomialPair) (level : Nat)
    (polynomial : UnivariatePolynomialPtr) : Option (Members Tree Node × List PolynomialPair) :=
  match state.1.eliminationSets[level]?, state.2[level]? with
  | some es, some entry =>
    some ({ state.1 with
        eliminationSets := state.1.eliminationSets.set level
          (EliminationSet.insert less es polynomial [nullptr] false).1 },
      state.2.set level (polynomial, entry.2))
  | _, _ => none

/-- The body of the loop over the bounds in `check` (`CAD.tpp:524-552`). The construction of
the polynomial of a bound, `UnivariatePolynomial(variable, {-bound, 1})` made coprime, is
declared outside the given sources and is the parameter `boundPolynomial`. -/
def insertBound {Tree Node K : Type} (less : PolynomialComparator) (X : EliminationOperations)
    (boundPolynomial : Variable → K → UnivariatePolynomialPtr)
    (state : Members Tree Node × List PolynomialPair) (b : Nat × ExactInterval K) :
    Option (Members Tree Node × List PolynomialPair) :=
  match state.1.mVariables[b.1]? with
  | none => some state
  | some v =>
    match (if b.2.leftType ≠ BoundType.INFTY then
        (recordBoundPolynomial less state b.1 (boundPolynomial v b.2.left)).map
          fun st => (st, [boundPolynomial v b.2.left])
      else some (state, [])) with
    | none => none
    | some left =>
      match (if b.2.rightType ≠ BoundType.INFTY then
          (recordBoundPolynomial less left.1 b.1 (boundPolynomial v b.2.right)).map
            fun st => (st, left.2 ++ [boundPolynomial v b.2.right])
        else some left) with
      | none => none
      | some right =>
        (eliminateBoundLoop less X (right.1.1.mVariables.length - (b.1 + 1)) (b.1 + 1) right.2
          right.1.1).map fun m => (m, right.1.2)

/-- The block of `check` that inserts and eliminates the bound polynomials
(`CAD.tpp:522-553`), for the bounds in the order of the iteration: the engine and the vector
`boundPolynomials` afterwards. -/
def insertBoundPolynomials {Tree Node K : Type} (less : PolynomialComparator)
    (X : EliminationOperations) (boundPolynomial : Variable → K → UnivariatePolynomialPtr)
    (m : Members Tree Node) (bounds : List (Nat × ExactInterval K)) :
    Option (Members Tree Node × List PolynomialPair) :=
  bounds.foldlM (insertBound less X boundPolynomial)
    (m, List.replicate m.mVariables.length (nullptr, nullptr))

/-- The removal of one recorded bound polynomial (`CAD.tpp:571-578`). -/
def removeBoundPolynomial {Tree Node : Type} (T : TreeOperations Tree Node)
    (order : PolynomialComparator) (inner fuel : Nat) (l : Nat)
    (state : Option (Except Nat (Members Tree Node))) (p : UnivariatePolynomialPtr) :
    Option (Except Nat (Members Tree Node)) :=
  match state with
  | some (Except.ok m) =>
    if p ≠ nullptr then
      removePolynomialAt T order inner fuel m p l m.setting.earlyLiftingPruningByBounds
    else some (Except.ok m)
  | other => other

/-- The loop of `check` that removes the bound polynomials and their children
(`CAD.tpp:568-579`), over the entries of `boundPolynomials` from level `l` on. -/
def removeBoundPolynomials {Tree Node : Type} (T : TreeOperations Tree Node)
    (order : PolynomialComparator) (inner fuel : Nat) :
    List PolynomialPair → Nat → Option (Except Nat (Members Tree Node)) →
      Option (Except Nat (Members Tree Node))
  | [], _, state => state
  | entry :: rest, l, state =>
    removeBoundPolynomials T order inner fuel rest (l + 1)
      (removeBoundPolynomial T order inner fuel l
        (removeBoundPolynomial T order inner fuel l state entry.1) entry.2)

/-- The reset of the elimination sets at the end of the bound block of `check`
(`CAD.tpp:580-595`); `none` stands for `front()` of an empty vector. -/
def resetAfterBounds {Tree Node : Type} (less : PolynomialComparator)
    (toUnivariatePolynomial : UnivariatePolynomialPtr → UnivariatePolynomialPtr)
    (m : Members Tree Node) : Option (Members Tree Node) :=
  match m.eliminationSets with
  | [] => none
  | front :: rest =>
    let front1 :=
      if m.setting.simplifyEliminationByBounds then
        m.polynomials.foldl
          (fun es p => (EliminationSet.insert less es (toUnivariatePolynomial p) [nullptr]
            false).1)
          front.clear
      else front.resetLiftingPositionsFully.setLiftingPositionsReset
    some { m with
      eliminationSets :=
        front1 :: rest.map fun es => es.resetLiftingPositionsFully.setLiftingPositionsReset }

/-- The block of `check` that removes the bound polynomials and resets the lifting queues
(`CAD.tpp:568-596`). -/
def restoreAfterBounds {Tree Node : Type} (T : TreeOperations Tree Node)
    (order : PolynomialComparator) (inner fuel : Nat) (less : PolynomialComparator)
    (toUnivariatePolynomial : UnivariatePolynomialPtr → UnivariatePolynomialPtr)
    (m : Members Tree Node) (boundPolynomials : List PolynomialPair) :
    Option (Except Nat (Members Tree Node)) :=
  match removeBoundPolynomials T order inner fuel (boundPolynomials.take m.mVariables.length) 0
      (some (Except.ok m)) with
  | some (Except.ok m1) => (resetAfterBounds less toUnivariatePolynomial m1).map Except.ok
  | other => other

/-- An engine with two variables, the polynomial 3 in the first elimination set, an empty
second one, and the setting `earlyLiftingPruningByBounds` switched off. -/
def exampleBoundedEngine : Members Unit Nat :=
  { exampleTwoLevels with
    setting := { CADSettings.standard with earlyLiftingPruningByBounds := false } }

/-- The polynomial of a bound in the examples: the handle 40 plus the bound. -/
def exampleBoundPolynomial (_v : Variable) (bound : Int) : UnivariatePolynomialPtr :=
  bound.toNat + 40

/-- The closed interval from 1 to 3 as the bound of level 1. -/
def exampleLevelBounds : List (Nat × ExactInterval Int) :=
  [(1, { left := 1, leftType := BoundType.WEAK, right := 3, rightType := BoundType.WEAK })]

end Members

/-! ## An engine that is checked, extended and checked again -/

namespace CAD

/-- The collaborators of `exampleCollaborators` where in addition the polynomial with handle 3
has the single root 5, and where `prepareElimination()` and `eliminate(…)` are the member
functions modelled in `Members`, over projection operations that leave the sets alone. -/
abbrev exampleSchedulingCollaborators : Collaborators :=
  { exampleCollaborators neverInterrupted with
    realRootsAt := fun p _ _ _ => if p = 1 then [2] else if p = 3 then [5] else []
    prepareElimination := fun m =>
      ((Members.prepareElimination ascending exampleOperations ascending (fun _ => none) id
        m).map Prod.fst).getD m
    eliminate := fun m level bounds boundsActive =>
      (Members.eliminate
        { eliminateNextInto := fun source destination _ _ _ => (source, destination),
          moveConstants := fun source destination _ => (source, destination),
          removeConstants := id,
          vanishesInBox := fun m1 _ _ _ => (m1, true) }
        5 5 m level bounds boundsActive).getD (m, -1) }

/-- The engine of `exampleEngine` over `exampleSchedulingCollaborators`: the variable `x` and
the polynomial `x - 2` (handle 1). -/
def exampleSchedulingEngine : CheckState exampleSchedulingCollaborators where
  cad :=
    { mVariables := [0]
      sampleTree := []
      trace := [none, none]
      eliminationSets :=
        [(EliminationSet.insert ascending (EliminationSet.empty ascending ascending)
          1 [nullptr] false).1]
      polynomials := [1]
      scheduledPolynomials := []
      newVariables := []
      iscomplete := false
      setting := CADSettings.standard
      interrupted := false
      queries := 0 }
  r := []
  conflictGraph := []

/-- The first call: `check` for the constraints `x - 2 > 0` and `x - 2 < 0`, without
bounds. -/
def exampleFirstCheck : Option (CheckResult exampleSchedulingCollaborators) :=
  check exampleSchedulingCollaborators 10 exampleSchedulingEngine
    [(2, Sign.POSITIVE), (2, Sign.NEGATIVE)] [] false false false

/-- The engine after the first call and `addPolynomials` for the polynomial `x - 5`
(handle 3) in the variable `x`. -/
def exampleExtendedEngine : Option (CheckState exampleSchedulingCollaborators) :=
  exampleFirstCheck.map fun res =>
    onMembers exampleSchedulingCollaborators res.state fun m =>
      Members.addPolynomials m [3] [0]

/-- The second call: `check` for the constraint `x - 5 = 0`, without bounds, on the extended
engine. -/
def exampleSecondCheck : Option (CheckResult exampleSchedulingCollaborators) :=
  exampleExtendedEngine.bind fun s =>
    check exampleSchedulingCollaborators 10 s [(5, Sign.ZERO)] [] false false false

/-- The same call as `exampleSecondCheck` on an engine that was extended by `x - 5` without a
call of `check` before. -/
def exampleFreshCheck : Option (CheckResult exampleSchedulingCollaborators) :=
  check exampleSchedulingCollaborators 10
    (onMembers exampleSchedulingCollaborators exampleSchedulingEngine fun m =>
      Members.addPolynomials m [3] [0])
    [(5, Sign.ZERO)] [] false false false

end CAD

end cad

/-! ## Factorizations: `computePolynomial`, `lazyDiv`, `commonDivisor` -/

namespace FactorizedPolynomial

/-- Modelled from the spec: `isZero()`, declared outside the given sources: the zero
polynomial is the one the default constructor builds (`FactorizedPolynomial.tpp:15-22`), without
a cache and with the coefficient 0. -/
def isZero {C : Type} (fpoly : FactorizedPolynomial C) : Bool :=
  fpoly.pCache.isNone && decide (fpoly.coefficient = 0)

/-- Modelled from the spec: `existsFactorization(fpoly)`, declared outside the given sources: a
polynomial has a factorization if it has a cache. -/
def existsFactorization {C : Type} (fpoly : FactorizedPolynomial C) : Bool :=
  fpoly.pCache.isSome

/-- `computePolynomial(const FactorizedPolynomial<P>&)` (`FactorizedPolynomial.tpp:220-228`).
The polynomial `P(c)` of a coefficient and the polynomial of a cache entry are declared outside
the given sources and are the parameters `ofCoefficient` and `contentPolynomial`. -/
def computePolynomial {C P : Type} [Mul P] (ofCoefficient : ℚ → P) (contentPolynomial : C → P)
    (fpoly : FactorizedPolynomial C) : P :=
  if fpoly.pCache = none then ofCoefficient fpoly.coefficient
  else contentPolynomial fpoly.content * ofCoefficient fpoly.coefficient

end FactorizedPolynomial

/-- The power `p.pow(n)` of a polynomial by repeated multiplication. -/
def power {P : Type} [Mul P] [One P] (p : P) : Nat → P
  | 0 => 1
  | n + 1 => power p n * p

/-- Modelled from the spec: `computePolynomial(const Factorization<P>&)`, declared outside the
given sources: the product of the powers of the polynomials of the factors, multiplied up in
the order of the map. -/
def Factorization.computePolynomial {C P : Type} [Mul P] [One P] (ofCoefficient : ℚ → P)
    (contentPolynomial : C → P) (factorization : Factorization C) : P :=
  factorization.foldl
    (fun result factor =>
      result * power (FactorizedPolynomial.computePolynomial ofCoefficient contentPolynomial
        factor.1) factor.2)
    1

/-- The loop of `lazyDiv` over the two factorizations and the loop over the rest of the first
one (`FactorizedPolynomial.tpp:574-595`): `resultFactorization` afterwards. An insertion at the
end of the map is an append, the keys arriving in the order of the map. `none` stands for a
failed assertion of `operator<`, or for a loop that does not end within the given number of
passes. -/
def lazyDivLoop {C : Type} [DecidableEq C] (contentLess : C → C → Bool) :
    Nat → Factorization C → Factorization C → Factorization C → Option (Factorization C)
  | _, [], _, resultFactorization => some resultFactorization
  | _, factorA :: factorsA, [], resultFactorization =>
    some (resultFactorization ++ factorA :: factorsA)
  | 0, _ :: _, _ :: _, _ => none
  | fuel + 1, factorA :: factorsA, factorB :: factorsB, resultFactorization =>
    if FactorizedPolynomial.operator_eq factorA.1 factorB.1 then
      lazyDivLoop contentLess fuel factorsA factorsB
        (if factorA.2 > factorB.2 then
          resultFactorization ++ [(factorA.1, factorA.2 - factorB.2)]
        else resultFactorization)
    else
      match FactorizedPolynomial.operator_lt contentLess factorA.1 factorB.1 with
      | none => none
      | some true =>
        lazyDivLoop contentLess fuel factorsA (factorB :: factorsB)
          (resultFactorization ++ [factorA])
      | some false =>
        lazyDivLoop contentLess fuel (factorA :: factorsA) factorsB resultFactorization

/-- `lazyDiv(_fpolyA, _fpolyB)` (`FactorizedPolynomial.tpp:543-600`). The factorization of a
cache entry and the constructor of a polynomial from a factorization, a coefficient and the
chosen cache are declared outside the given sources and are the parameters `factorization` and
`construct`. `none` stands for a failed assertion. -/
def lazyDiv {C P : Type} [DecidableEq C] [Mul P] [One P] [DecidableEq P]
    (contentLess : C → C → Bool) (ofCoefficient : ℚ → P) (contentPolynomial : C → P)
    (factorization : C → Factorization C)
    (construct : Factorization C → ℚ → FactorizedPolynomial C)
    (fpolyA fpolyB : FactorizedPolynomial C) : Option (FactorizedPolynomial C) :=
  if fpolyB.isZero then none
  else if fpolyA.isZero then some { fpolyA with pCache := none, coefficient := 0 }
  else if !cacheEqual fpolyA.pCache fpolyB.pCache then none
  else if !fpolyB.existsFactorization then
    let result := { fpolyA with coefficient := fpolyA.coefficient / fpolyB.coefficient }
    if fpolyB.coefficient ≠ 0 ∧
        FactorizedPolynomial.computePolynomial ofCoefficient contentPolynomial fpolyB *
            FactorizedPolynomial.computePolynomial ofCoefficient contentPolynomial result =
          FactorizedPolynomial.computePolynomial ofCoefficient contentPolynomial fpolyA then
      some result
    else none
  else if !fpolyA.existsFactorization then
    let result := { fpolyB with coefficient := fpolyB.coefficient / fpolyA.coefficient }
    if fpolyA.coefficient ≠ 0 ∧
        FactorizedPolynomial.computePolynomial ofCoefficient contentPolynomial fpolyB *
            FactorizedPolynomial.computePolynomial ofCoefficient contentPolynomial result =
          FactorizedPolynomial.computePolynomial ofCoefficient contentPolynomial fpolyA then
      some result
    else none
  else
    match lazyDivLoop contentLess
        ((factorization fpolyA.content).length + (factorization fpolyB.content).length)
        (factorization fpolyA.content) (factorization fpolyB.content) [] with
    | none => none
    | some resultFactorization =>
      let coefficientResult := fpolyA.coefficient / fpolyB.coefficient
      if FactorizedPolynomial.computePolynomial ofCoefficient contentPolynomial fpolyB *
            Factorization.computePolynomial ofCoefficient contentPolynomial
              resultFactorization *
            ofCoefficient coefficientResult =
          FactorizedPolynomial.computePolynomial ofCoefficient contentPolynomial fpolyA then
        some (construct resultFactorization coefficientResult)
      else none

/-- The three factorizations that `commonDivisor` builds. -/
structure CommonDivisor (C : Type) where
  /-- The returned factorization. -/
  resultFactorization : Factorization C
  /-- The argument `_fFactorizationRestA` afterwards. -/
  restA : Factorization C
  /-- The argument `_fFactorizationRestB` afterwards. -/
  restB : Factorization C
  deriving DecidableEq

/-- The loop of `commonDivisor` over the two factorizations and the two loops over the rests
(`FactorizedPolynomial.tpp:785-826`). An insertion at the end of a map is an append, the keys
arriving in the order of the map. `none` stands for a failed assertion of `operator<`, or for a
loop that does not end within the given number of passes. -/
def commonDivisorLoop {C : Type} [DecidableEq C] (contentLess : C → C → Bool) :
    Nat → Factorization C → Factorization C → CommonDivisor C → Option (CommonDivisor C)
  | _, [], factorsB, acc => some { acc with restB := acc.restB ++ factorsB }
  | _, factorA :: factorsA, [], acc => some { acc with restA := acc.restA ++ factorA :: factorsA }
  | 0, _ :: _, _ :: _, _ => none
  | fuel + 1, factorA :: factorsA, factorB :: factorsB, acc =>
    if FactorizedPolynomial.operator_eq factorA.1 factorB.1 then
      commonDivisorLoop contentLess fuel factorsA factorsB
        (if factorA.2 < factorB.2 then
          { acc with
            resultFactorization := acc.resultFactorization ++ [factorA],
            restB := acc.restB ++ [(factorB.1, factorB.2 - factorA.2)] }
        else if factorA.2 > factorB.2 then
          { acc with
            resultFactorization := acc.resultFactorization ++ [factorB],
            restA := acc.restA ++ [(factorA.1, factorA.2 - factorB.2)] }
        else { acc with resultFactorization := acc.resultFactorization ++ [factorA] })
    else
      match FactorizedPolynomial.operator_lt contentLess factorA.1 factorB.1 with
      | none => none
      | some true =>
        commonDivisorLoop contentLess fuel factorsA (factorB :: factorsB)
          { acc with restA := acc.restA ++ [factorA] }
      | some false =>
        commonDivisorLoop contentLess fuel (factorA :: factorsA) factorsB
          { acc with restB := acc.restB ++ [factorB] }

/-- `commonDivisor(_fFactorizationA, _fFactorizationB, _fFactorizationRestA,
_fFactorizationRestB)` (`FactorizedPolynomial.tpp:776-830`): the returned factorization and the
two rests. `none` stands for a failed assertion. -/
def commonDivisor {C P : Type} [DecidableEq C] [Mul P] [One P] [DecidableEq P]
    (contentLess : C → C → Bool) (ofCoefficient : ℚ → P) (contentPolynomial : C → P)
    (factorizationA factorizationB : Factorization C) : Option (CommonDivisor C) :=
  if factorizationA.isEmpty || factorizationB.isEmpty then none
  else
    match commonDivisorLoop contentLess (factorizationA.length + factorizationB.length)
        factorizationA factorizationB
        { resultFactorization := [], restA := [], restB := [] } with
    | none => none
    | some res =>
      if Factorization.computePolynomial ofCoefficient contentPolynomial factorizationA =
            Factorization.computePolynomial ofCoefficient contentPolynomial
                res.resultFactorization *
              Factorization.computePolynomial ofCoefficient contentPolynomial res.restA ∧
          Factorization.computePolynomial ofCoefficient contentPolynomial factorizationB =
            Factorization.computePolynomial ofCoefficient contentPolynomial
                res.resultFactorization *
              Factorization.computePolynomial ofCoefficient contentPolynomial res.restB then
        some res
      else none

/-- The statement that `res` splits the factorizations `A` and `B` exactly, for the polynomials
`value` of the factors: both are the product of the common part and their rest, the common
part holds exactly the factors of both with the smaller exponent, the factors of the rests come
from `A` and from `B`, and the rests share no factor. -/
def CommonDivisor.Splits {C M : Type} [DecidableEq C] [CommMonoid M]
    (value : FactorizedPolynomial C → M) (A B : Factorization C) (res : CommonDivisor C) :
    Prop :=
  (A.map fun e => value e.1 ^ e.2).prod =
      (res.resultFactorization.map fun e => value e.1 ^ e.2).prod *
        (res.restA.map fun e => value e.1 ^ e.2).prod ∧
    (B.map fun e => value e.1 ^ e.2).prod =
      (res.resultFactorization.map fun e => value e.1 ^ e.2).prod *
        (res.restB.map fun e => value e.1 ^ e.2).prod ∧
    (∀ d ∈ res.resultFactorization, ∃ a ∈ A, ∃ b ∈ B,
      FactorizedPolynomial.operator_eq a.1 b.1 = true ∧ (d.1 = a.1 ∨ d.1 = b.1) ∧
        d.2 = min a.2 b.2) ∧
    (∀ a ∈ A, ∀ b ∈ B, FactorizedPolynomial.operator_eq a.1 b.1 = true →
      ∃ d ∈ res.resultFactorization, (d.1 = a.1 ∨ d.1 = b.1) ∧ d.2 = min a.2 b.2) ∧
    (∀ x ∈ res.restA, ∃ a ∈ A, x.1 = a.1) ∧
    (∀ y ∈ res.restB, ∃ b ∈ B, y.1 = b.1) ∧
    ∀ x ∈ res.restA, ∀ y ∈ res.restB, FactorizedPolynomial.operator_eq x.1 y.1 = false

/-- A polynomial in one variable by the list of its coefficients, the constant one first and
the leading one, which is not 0, last. -/
structure DensePolynomial where
  /-- The coefficients. -/
  coefficients : List ℚ
  deriving DecidableEq

namespace DensePolynomial

/-- The list without the zeros at its end. -/
def trim (l : List ℚ) : List ℚ :=
  (l.reverse.dropWhile fun c => decide (c = 0)).reverse

/-- The sum of two lists of coefficients. -/
def addLists : List ℚ → List ℚ → List ℚ
  | [], b => b
  | a, [] => a
  | x :: a, y :: b => (x + y) :: addLists a b

/-- The product of two lists of coefficients. -/
def mulLists : List ℚ → List ℚ → List ℚ
  | [], _ => []
  | x :: a, b => addLists (b.map fun y => x * y) (0 :: mulLists a b)

/-- The product of two polynomials. -/
def mul (p q : DensePolynomial) : DensePolynomial :=
  { coefficients := trim (mulLists p.coefficients q.coefficients) }

/-- The constant polynomial `P(c)`. -/
def constant (c : ℚ) : DensePolynomial :=
  { coefficients := trim [c] }

instance : Mul DensePolynomial := ⟨mul⟩

instance : One DensePolynomial := ⟨constant 1⟩

end DensePolynomial

/-- The cache of the examples: the entry 1 is the polynomial `x - 1`, the entry 2 is
`x^2 - 1` and every other entry is `x`. -/
def exampleContentPolynomial (content : Nat) : DensePolynomial :=
  if content = 1 then { coefficients := [-1, 1] }
  else if content = 2 then { coefficients := [-1, 0, 1] }
  else { coefficients := [0, 1] }

/-- The factorizations of the cache of the examples: every entry is its only factor. -/
def exampleFactorization (content : Nat) : Factorization Nat :=
  [(FactorizedPolynomial.exampleCached content 1, 1)]

/-- The construction of a polynomial from a factorization in the examples: the cache entry 0
stands for the new entry. -/
def exampleConstruct (_factorization : Factorization Nat) (coefficient : ℚ) :
    FactorizedPolynomial Nat :=
  FactorizedPolynomial.exampleCached 0 coefficient

/-- The order of the cache entries in the examples. -/
def exampleContentLess (a b : Nat) : Bool :=
  decide (a < b)

namespace cad

/-! ## Lemmas on `lower_bound` and sorted queues -/

theorem StrictTotalOrder.asymm {lt : PolynomialComparator} (h : StrictTotalOrder lt)
    {a b : UnivariatePolynomialPtr} (hab : lt a b = true) : lt b a = false := by
  cases hba : lt b a with
  | false => rfl
  | true =>
    have := h.trans a b a hab hba
    rw [h.irrefl a] at this
    exact absurd this (by decide)

theorem lower_boundLoop_le {α β : Type} (comp : α → β → Bool) (l : List α) (value : β) :
    ∀ fuel first count, first + count ≤ l.length →
      lower_boundLoop comp l value fuel first count ≤ l.length := by
  intro fuel
  induction fuel with
  | zero => intro first count h; simp only [lower_boundLoop]; omega
  | succ n ih =>
    intro first count h
    simp only [lower_boundLoop]
    split
    · omega
    · rename_i hc
      split
      · omega
      · split
        · apply ih; omega
        · apply ih
          have : count / 2 ≤ count := Nat.div_le_self _ _
          omega

theorem lower_bound_le {α β : Type} (comp : α → β → Bool) (l : List α) (value : β) :
    lower_bound comp l value ≤ l.length :=
  lower_boundLoop_le comp l value _ _ _ (by omega)

/-- On a range partitioned with respect to `comp · value`, the binary search returns the
partition point. -/
theorem lower_boundLoop_partitioned {α β : Type} (comp : α → β → Bool)
    (pre suf : List α) (value : β)
    (hpre : ∀ x ∈ pre, comp x value = true) (hsuf : ∀ x ∈ suf, comp x value = false) :
    ∀ fuel first count, count ≤ fuel → first ≤ pre.length → pre.length ≤ first + count →
      first + count ≤ (pre ++ suf).length →
      lower_boundLoop comp (pre ++ suf) value fuel first count = pre.length := by
  intro fuel
  induction fuel with
  | zero =>
    intro first count h1 h2 h3 _
    simp only [lower_boundLoop]; omega
  | succ n ih =>
    intro first count h1 h2 h3 h4
    simp only [lower_boundLoop]
    split
    · omega
    · rename_i hc
      have hstep : count / 2 < count := Nat.div_lt_self (by omega) (by decide)
      have hidx : first + count / 2 < (pre ++ suf).length := by omega
      rw [List.getElem?_eq_getElem hidx]
      simp only
      by_cases hlt : first + count / 2 < pre.length
      · have hx : (pre ++ suf)[first + count / 2] ∈ pre := by
          rw [List.getElem_append_left hlt]; exact List.getElem_mem _
        rw [if_pos (hpre _ hx)]
        apply ih <;> omega
      · have hx : (pre ++ suf)[first + count / 2] ∈ suf := by
          rw [List.getElem_append_right (by omega)]; exact List.getElem_mem _
        rw [if_neg (by rw [hsuf _ hx]; decide)]
        apply ih <;> omega

theorem lower_bound_partitioned {α β : Type} (comp : α → β → Bool)
    (pre suf : List α) (value : β)
    (hpre : ∀ x ∈ pre, comp x value = true) (hsuf : ∀ x ∈ suf, comp x value = false) :
    lower_bound comp (pre ++ suf) value = pre.length := by
  unfold lower_bound
  apply lower_boundLoop_partitioned comp pre suf value hpre hsuf <;> simp


theorem mem_takeWhile_sat {α : Type} (f : α → Bool) :
    ∀ (l : List α) (x : α),
      x ∈ l.takeWhile f → f x = true := by
  intro l
  induction l with
  | nil => intro x hx; simp at hx
  | cons a l ih =>
    intro x hx
    by_cases ha : f a = true
    · rw [List.takeWhile_cons_of_pos ha] at hx
      rcases List.mem_cons.mp hx with rfl | hx
      · exact ha
      · exact ih x hx
    · rw [List.takeWhile_cons_of_neg ha] at hx
      simp at hx

theorem take_length_takeWhile {α : Type} (f : α → Bool) :
    ∀ l : List α, l.take (l.takeWhile f).length = l.takeWhile f := by
  intro l
  induction l with
  | nil => rfl
  | cons a l ih =>
    by_cases ha : f a = true
    · rw [List.takeWhile_cons_of_pos ha]; simp [ih]
    · rw [List.takeWhile_cons_of_neg ha]; simp

theorem drop_length_takeWhile {α : Type} (f : α → Bool) :
    ∀ l : List α, l.drop (l.takeWhile f).length = l.dropWhile f := by
  intro l
  induction l with
  | nil => rfl
  | cons a l ih =>
    by_cases ha : f a = true
    · rw [List.takeWhile_cons_of_pos ha, List.dropWhile_cons_of_pos ha]; simp [ih]
    · rw [List.takeWhile_cons_of_neg ha, List.dropWhile_cons_of_neg ha]; simp

theorem queueSorted_partition {comp : PolynomialComparator} (h : StrictTotalOrder comp)
    (value : UnivariatePolynomialPtr) :
    ∀ q : List UnivariatePolynomialPtr, QueueSorted comp q →
      (∀ x ∈ q.takeWhile (fun x => comp x value), comp x value = true) ∧
      (∀ x ∈ q.dropWhile (fun x => comp x value), comp x value = false) := by
  intro q hq
  refine ⟨fun x hx => mem_takeWhile_sat _ q x hx, ?_⟩
  induction q with
  | nil => intro x hx; simp at hx
  | cons a q ih =>
    intro x hx
    have hq' : QueueSorted comp q := (List.pairwise_cons.mp hq).2
    by_cases ha : comp a value = true
    · rw [List.dropWhile_cons, if_pos ha] at hx
      exact ih hq' x hx
    · rw [List.dropWhile_cons, if_neg ha] at hx
      have ha' : comp a value = false := by simpa using ha
      rcases List.mem_cons.mp hx with rfl | hxq
      · exact ha'
      · have hxa : comp x a = false := (List.pairwise_cons.mp hq).1 x hxq
        cases hxv : comp x value with
        | false => rfl
        | true =>
          exfalso
          by_cases hav : a = value
          · subst hav; rw [hxa] at hxv; exact absurd hxv (by decide)
          · rcases h.total a value hav with h1 | h1
            · rw [ha'] at h1; exact absurd h1 (by decide)
            · have := h.trans x value a hxv h1
              rw [hxa] at this; exact absurd this (by decide)

theorem lower_bound_sorted {comp : PolynomialComparator} (h : StrictTotalOrder comp)
    (q : List UnivariatePolynomialPtr) (hq : QueueSorted comp q) (value : UnivariatePolynomialPtr) :
    lower_bound comp q value = (q.takeWhile (fun x => comp x value)).length := by
  have hp := queueSorted_partition h value q hq
  have := lower_bound_partitioned comp _ _ value hp.1 hp.2
  rwa [List.takeWhile_append_dropWhile] at this

theorem queueInsert_eq (comp : PolynomialComparator) (q : List UnivariatePolynomialPtr)
    (p : UnivariatePolynomialPtr) :
    queueInsert comp q p =
      q.take (lower_bound comp q p) ++ p :: q.drop (lower_bound comp q p) := by
  unfold queueInsert
  simp only
  split
  · rename_i h
    rw [h]; simp
  · rfl

theorem queueInsert_perm (comp : PolynomialComparator) (q : List UnivariatePolynomialPtr)
    (p : UnivariatePolynomialPtr) : (queueInsert comp q p).Perm (p :: q) := by
  rw [queueInsert_eq]
  refine List.perm_middle.trans ?_
  rw [List.take_append_drop]

theorem mem_queueInsert (comp : PolynomialComparator) (q : List UnivariatePolynomialPtr)
    (p x : UnivariatePolynomialPtr) : x ∈ queueInsert comp q p ↔ x = p ∨ x ∈ q := by
  rw [(queueInsert_perm comp q p).mem_iff, List.mem_cons]

theorem queueInsert_sorted {comp : PolynomialComparator} (h : StrictTotalOrder comp)
    (q : List UnivariatePolynomialPtr) (hq : QueueSorted comp q) (p : UnivariatePolynomialPtr) :
    QueueSorted comp (queueInsert comp q p) := by
  rw [queueInsert_eq, lower_bound_sorted h q hq p]
  have hp := queueSorted_partition h p q hq
  rw [take_length_takeWhile, drop_length_takeWhile]
  have hq2 : QueueSorted comp (q.takeWhile (fun x => comp x p) ++ q.dropWhile (fun x => comp x p)) := by
    rw [List.takeWhile_append_dropWhile]; exact hq
  unfold QueueSorted at *
  rw [List.pairwise_append] at hq2 ⊢
  refine ⟨hq2.1, ?_, ?_⟩
  · rw [List.pairwise_cons]
    exact ⟨fun x hx => hp.2 x hx, hq2.2.1⟩
  · intro a ha b hb
    rcases List.mem_cons.mp hb with rfl | hb
    · exact h.asymm (hp.1 a ha)
    · exact hq2.2.2 a ha b hb

theorem queueErase_sublist (comp : PolynomialComparator) (q : List UnivariatePolynomialPtr)
    (p : UnivariatePolynomialPtr) : (queueErase comp q p).Sublist q := by
  unfold queueErase
  simp only
  split
  · exact List.Sublist.refl _
  · split
    · exact List.eraseIdx_sublist _ _
    · exact List.Sublist.refl _

theorem queueEraseAtLowerBound_sublist (comp : PolynomialComparator)
    (q : List UnivariatePolynomialPtr) (p : UnivariatePolynomialPtr) :
    (queueEraseAtLowerBound comp q p).Sublist q := by
  unfold queueEraseAtLowerBound
  simp only
  split
  · exact List.eraseIdx_sublist _ _
  · exact List.Sublist.refl _

theorem QueueSorted.sublist {comp : PolynomialComparator} {q q' : List UnivariatePolynomialPtr}
    (hs : q'.Sublist q) (hq : QueueSorted comp q) : QueueSorted comp q' :=
  List.Pairwise.sublist hs hq


/-! ## `EliminationSet::insert` -/

namespace EliminationSet

theorem insertParents_polynomials (less : PolynomialComparator) (s : EliminationSet)
    (pos : UnivariatePolynomialPtr) (parents : List UnivariatePolynomialPtr) :
    (insertParents less s pos parents).polynomials = s.polynomials := by
  unfold insertParents; dsimp only; split_ifs <;> rfl

theorem insertParents_queues (less : PolynomialComparator) (s : EliminationSet)
    (pos : UnivariatePolynomialPtr) (parents : List UnivariatePolynomialPtr) :
    (insertParents less s pos parents).mLiftingQueue = s.mLiftingQueue ∧
    (insertParents less s pos parents).mLiftingQueueReset = s.mLiftingQueueReset ∧
    (insertParents less s pos parents).mSingleEliminationQueue = s.mSingleEliminationQueue ∧
    (insertParents less s pos parents).mPairedEliminationQueue = s.mPairedEliminationQueue := by
  unfold insertParents; dsimp only; split_ifs <;> exact ⟨rfl, rfl, rfl, rfl⟩

theorem insertParents_orders (less : PolynomialComparator) (s : EliminationSet)
    (pos : UnivariatePolynomialPtr) (parents : List UnivariatePolynomialPtr) :
    (insertParents less s pos parents).liftingOrder = s.liftingOrder ∧
    (insertParents less s pos parents).eliminationOrder = s.eliminationOrder := by
  unfold insertParents; dsimp only; split_ifs <;> exact ⟨rfl, rfl⟩

theorem insert_second (less : PolynomialComparator) (s : EliminationSet)
    (r : UnivariatePolynomialPtr) (parents : List UnivariatePolynomialPtr) (avoidSingle : Bool) :
    (insert less s r parents avoidSingle).2 = decide (r ∉ s.polynomials) := by
  unfold insert
  simp only
  split <;> rfl

theorem insert_polynomials (less : PolynomialComparator) (s : EliminationSet)
    (r : UnivariatePolynomialPtr) (parents : List UnivariatePolynomialPtr) (avoidSingle : Bool) :
    (insert less s r parents avoidSingle).1.polynomials = PolynomialSet.insert s.polynomials r := by
  unfold insert
  simp only
  split
  · cases avoidSingle <;> simp [insertParents_polynomials]
  · simp [insertParents_polynomials]

theorem insert_liftingOrder (less : PolynomialComparator) (s : EliminationSet)
    (r : UnivariatePolynomialPtr) (parents : List UnivariatePolynomialPtr) (avoidSingle : Bool) :
    (insert less s r parents avoidSingle).1.liftingOrder = s.liftingOrder := by
  unfold insert
  simp only
  split
  · cases avoidSingle <;> simp [(insertParents_orders _ _ _ _).1]
  · simp [(insertParents_orders _ _ _ _).1]

theorem insert_eliminationOrder (less : PolynomialComparator) (s : EliminationSet)
    (r : UnivariatePolynomialPtr) (parents : List UnivariatePolynomialPtr) (avoidSingle : Bool) :
    (insert less s r parents avoidSingle).1.eliminationOrder = s.eliminationOrder := by
  unfold insert
  simp only
  split
  · cases avoidSingle <;> simp [(insertParents_orders _ _ _ _).2]
  · simp [(insertParents_orders _ _ _ _).2]

/-- Queues after `insert` of a polynomial that was not in the set. -/
theorem insert_queues_new (less : PolynomialComparator) (s : EliminationSet)
    (r : UnivariatePolynomialPtr) (parents : List UnivariatePolynomialPtr) (avoidSingle : Bool)
    (h : r ∉ s.polynomials) :
    (insert less s r parents avoidSingle).1.mLiftingQueue
        = queueInsert s.liftingOrder s.mLiftingQueue r ∧
    (insert less s r parents avoidSingle).1.mLiftingQueueReset
        = queueInsert s.liftingOrder s.mLiftingQueueReset r ∧
    (insert less s r parents avoidSingle).1.mSingleEliminationQueue
        = (if avoidSingle then s.mSingleEliminationQueue
            else queueInsert s.liftingOrder s.mSingleEliminationQueue r) ∧
    (insert less s r parents avoidSingle).1.mPairedEliminationQueue
        = queueInsert s.liftingOrder s.mPairedEliminationQueue r := by
  unfold insert
  simp only [h, not_false_eq_true, decide_True, if_true]
  have hq := insertParents_queues less { s with polynomials := PolynomialSet.insert s.polynomials r } r parents
  have ho := insertParents_orders less { s with polynomials := PolynomialSet.insert s.polynomials r } r parents
  cases avoidSingle <;> simp [hq.1, hq.2.1, hq.2.2.1, hq.2.2.2, ho.1]

/-- Queues after `insert` of a polynomial that was in the set already. -/
theorem insert_queues_old (less : PolynomialComparator) (s : EliminationSet)
    (r : UnivariatePolynomialPtr) (parents : List UnivariatePolynomialPtr) (avoidSingle : Bool)
    (h : r ∈ s.polynomials) :
    (insert less s r parents avoidSingle).1.mLiftingQueue = s.mLiftingQueue ∧
    (insert less s r parents avoidSingle).1.mLiftingQueueReset = s.mLiftingQueueReset ∧
    (insert less s r parents avoidSingle).1.mSingleEliminationQueue = s.mSingleEliminationQueue ∧
    (insert less s r parents avoidSingle).1.mPairedEliminationQueue
        = s.mPairedEliminationQueue := by
  unfold insert
  simp only [h, not_true_eq_false, decide_False, if_false, Bool.false_eq_true]
  exact insertParents_queues less _ r parents

/-- C3. Set semantics of `EliminationSet::insert`: the returned flag is true exactly when the
polynomial was not in the set before the call; in that case the polynomial set is the old one
with `p` added (one element more, same old elements); otherwise the polynomial set and the
lifting, lifting-reset, single-elimination and paired-elimination queues are all unchanged. -/
theorem insert_set_semantics (less : PolynomialComparator) (s : EliminationSet)
    (p : UnivariatePolynomialPtr) (parents : List UnivariatePolynomialPtr) (avoidSingle : Bool) :
    ((insert less s p parents avoidSingle).2 = true ↔ p ∉ s.polynomials) ∧
    ((insert less s p parents avoidSingle).2 = true →
      (insert less s p parents avoidSingle).1.polynomials = s.polynomials ++ [p] ∧
      (∀ q, q ∈ (insert less s p parents avoidSingle).1.polynomials ↔ q ∈ s.polynomials ∨ q = p) ∧
      (insert less s p parents avoidSingle).1.polynomials.length = s.polynomials.length + 1) ∧
    ((insert less s p parents avoidSingle).2 = false →
      (insert less s p parents avoidSingle).1.polynomials = s.polynomials ∧
      (insert less s p parents avoidSingle).1.mLiftingQueue = s.mLiftingQueue ∧
      (insert less s p parents avoidSingle).1.mLiftingQueueReset = s.mLiftingQueueReset ∧
      (insert less s p parents avoidSingle).1.mSingleEliminationQueue
        = s.mSingleEliminationQueue ∧
      (insert less s p parents avoidSingle).1.mPairedEliminationQueue
        = s.mPairedEliminationQueue) := by
  rw [insert_second, insert_polynomials]
  refine ⟨by simp, ?_, ?_⟩
  · intro h
    have hp : p ∉ s.polynomials := by simpa using h
    have he : PolynomialSet.insert s.polynomials p = s.polynomials ++ [p] := by
      unfold PolynomialSet.insert; rw [if_neg hp]
    rw [he]
    exact ⟨rfl, by intro q; simp, by simp⟩
  · intro h
    have hp : p ∈ s.polynomials := by simpa using h
    have he : PolynomialSet.insert s.polynomials p = s.polynomials := by
      unfold PolynomialSet.insert; rw [if_pos hp]
    exact ⟨he, insert_queues_old less s p parents avoidSingle hp⟩

end EliminationSet

/-! ## `EliminationSet::removeByParent` -/

namespace EliminationSet

theorem eraseFirstParentPair_none (parent : UnivariatePolynomialPtr) :
    ∀ b : parentbucket, eraseFirstParentPair parent b = none →
      b.filter (fun x => !EliminationParentsContain parent x) = b := by
  intro b
  induction b with
  | nil => intro _; rfl
  | cons x xs ih =>
    intro h
    unfold eraseFirstParentPair at h
    by_cases hx : EliminationParentsContain parent x = true
    · rw [if_pos hx] at h; exact absurd h (by simp)
    · rw [if_neg hx] at h
      have hxs : eraseFirstParentPair parent xs = none := by
        cases h' : eraseFirstParentPair parent xs with
        | none => rfl
        | some v => rw [h'] at h; simp at h
      have hx' : EliminationParentsContain parent x = false := by simpa using hx
      simp [List.filter_cons, hx', ih hxs]

theorem eraseFirstParentPair_some (parent : UnivariatePolynomialPtr) :
    ∀ b b1 : parentbucket, eraseFirstParentPair parent b = some b1 →
      b1.length + 1 = b.length ∧
      b1.filter (fun x => !EliminationParentsContain parent x)
        = b.filter (fun x => !EliminationParentsContain parent x) := by
  intro b
  induction b with
  | nil => intro b1 h; simp [eraseFirstParentPair] at h
  | cons x xs ih =>
    intro b1 h
    unfold eraseFirstParentPair at h
    by_cases hx : EliminationParentsContain parent x = true
    · rw [if_pos hx] at h
      have : xs = b1 := by simpa using h
      subst this
      simp [List.filter_cons, hx]
    · rw [if_neg hx] at h
      have hx' : EliminationParentsContain parent x = false := by simpa using hx
      cases h' : eraseFirstParentPair parent xs with
      | none => rw [h'] at h; simp at h
      | some v =>
        rw [h'] at h
        have : x :: v = b1 := by simpa using h
        subst this
        have := ih v h'
        simp [List.filter_cons, hx', this.1, this.2]

theorem eraseParentPairs_eq_filter (parent : UnivariatePolynomialPtr) :
    ∀ (fuel : Nat) (b : parentbucket), b.length ≤ fuel →
      eraseParentPairs parent fuel b
        = b.filter (fun x => !EliminationParentsContain parent x) := by
  intro fuel
  induction fuel with
  | zero =>
    intro b hb
    have : b = [] := List.length_eq_zero.mp (by omega)
    subst this; rfl
  | succ n ih =>
    intro b hb
    unfold eraseParentPairs
    cases h : eraseFirstParentPair parent b with
    | none => simp only; exact (eraseFirstParentPair_none parent b h).symm
    | some b1 =>
      simp only
      have := eraseFirstParentPair_some parent b b1 h
      rw [ih b1 (by omega), this.2]

theorem filter_isEmpty_iff_all (parent : UnivariatePolynomialPtr) (b : parentbucket) :
    (b.filter (fun x => !EliminationParentsContain parent x)).isEmpty
      = b.all (EliminationParentsContain parent) := by
  induction b with
  | nil => rfl
  | cons x xs ih =>
    cases hx : EliminationParentsContain parent x <;> simp [List.filter_cons, hx, ih]

theorem prunedBucket_idem (parent : UnivariatePolynomialPtr) (o : Option parentbucket) :
    prunedBucket parent (prunedBucket parent o) = prunedBucket parent o := by
  cases o with
  | none => rfl
  | some b =>
    unfold prunedBucket
    by_cases hb : b.isEmpty = true
    · simp [hb]
    · by_cases hf : (b.filter (fun x => !EliminationParentsContain parent x)).isEmpty = true
      · simp [hb, hf]
      · simp [hb, hf, List.filter_filter]

theorem loneBucket_prunedBucket (parent : UnivariatePolynomialPtr) (o : Option parentbucket) :
    loneBucket parent (prunedBucket parent o) = false := by
  cases o with
  | none => rfl
  | some b =>
    unfold prunedBucket
    by_cases hb : b.isEmpty = true
    · simp [hb, loneBucket]
    · by_cases hf : (b.filter (fun x => !EliminationParentsContain parent x)).isEmpty = true
      · simp [hb, hf, loneBucket]
      · simp only [hb, hf, if_false, Bool.false_eq_true, loneBucket]
        rw [← filter_isEmpty_iff_all, List.filter_filter]
        simp only [Bool.and_self]
        simpa using hf

/-- Effect of one iteration of the loop over the children in `removeByParent`. -/
theorem removeByParentStep_spec (parent : UnivariatePolynomialPtr)
    (acc : EliminationSet × List UnivariatePolynomialPtr) (c : UnivariatePolynomialPtr) :
    (removeByParentStep parent acc c).1.parentsPerChild
        = Function.update acc.1.parentsPerChild c (prunedBucket parent (acc.1.parentsPerChild c)) ∧
    (removeByParentStep parent acc c).1.polynomials
        = (if acc.1.loneChild parent c then PolynomialSet.erase acc.1.polynomials c
            else acc.1.polynomials) ∧
    (removeByParentStep parent acc c).2
        = (if acc.1.loneChild parent c then c :: acc.2 else acc.2) ∧
    (removeByParentStep parent acc c).1.childrenPerParent = acc.1.childrenPerParent := by
  cases h : acc.1.parentsPerChild c with
  | none =>
    simp only [removeByParentStep, loneChild, h, loneBucket, prunedBucket, Bool.false_eq_true,
      if_false]
    refine ⟨?_, ?_, ?_, ?_⟩ <;> first | trivial | (rw [← h, Function.update_eq_self])
  | some b =>
    simp only [removeByParentStep, loneChild, h]
    by_cases hb : b.isEmpty = true
    · simp only [hb, if_true, loneBucket, prunedBucket, Bool.not_true, Bool.false_and,
        Bool.false_eq_true, if_false]
      refine ⟨?_, ?_, ?_, ?_⟩ <;> first | trivial | (rw [← h, Function.update_eq_self])
    · rw [if_neg hb, eraseParentPairs_eq_filter parent _ b (le_refl _)]
      have hb' : b.isEmpty = false := by simpa using hb
      by_cases hf : (b.filter (fun x => !EliminationParentsContain parent x)).isEmpty = true
      · have hall := hf
        rw [filter_isEmpty_iff_all] at hall
        simp only [hf, if_true, loneBucket, prunedBucket, hb', hall, Bool.not_false, Bool.true_and,
          Bool.false_eq_true, if_false]
        refine ⟨?_, ?_, ?_, ?_⟩ <;> trivial
      · have hall : b.all (EliminationParentsContain parent) = false := by
          rw [← filter_isEmpty_iff_all]; simpa using hf
        simp only [hf, if_false, loneBucket, prunedBucket, hb', hall, Bool.not_false,
          Bool.true_and, Bool.false_eq_true]
        refine ⟨?_, ?_, ?_, ?_⟩ <;> trivial


theorem loneChild_step (parent : UnivariatePolynomialPtr)
    (acc : EliminationSet × List UnivariatePolynomialPtr) (c q : UnivariatePolynomialPtr) :
    (removeByParentStep parent acc c).1.loneChild parent q
      = (if q = c then false else acc.1.loneChild parent q) := by
  unfold loneChild
  rw [(removeByParentStep_spec parent acc c).1]
  by_cases hq : q = c
  · subst hq
    rw [Function.update_same, if_pos rfl, loneBucket_prunedBucket]
  · rw [Function.update_noteq hq, if_neg hq]

/-- Effect of the whole loop over the children in `removeByParent`. -/
theorem removeByParent_fold_spec (parent : UnivariatePolynomialPtr) :
    ∀ (cs : List UnivariatePolynomialPtr) (acc : EliminationSet × List UnivariatePolynomialPtr),
      (∀ x, (cs.foldl (removeByParentStep parent) acc).1.parentsPerChild x
          = if x ∈ cs then prunedBucket parent (acc.1.parentsPerChild x)
            else acc.1.parentsPerChild x) ∧
      (cs.foldl (removeByParentStep parent) acc).1.polynomials
          = acc.1.polynomials.filter
              (fun q => !(decide (q ∈ cs) && acc.1.loneChild parent q)) ∧
      (∀ x, x ∈ (cs.foldl (removeByParentStep parent) acc).2
          ↔ x ∈ acc.2 ∨ (x ∈ cs ∧ acc.1.loneChild parent x = true)) ∧
      (cs.foldl (removeByParentStep parent) acc).1.childrenPerParent
          = acc.1.childrenPerParent := by
  intro cs
  induction cs with
  | nil => intro acc; simp
  | cons c cs ih =>
    intro acc
    rw [List.foldl_cons]
    obtain ⟨ih1, ih2, ih3, ih4⟩ := ih (removeByParentStep parent acc c)
    obtain ⟨hs1, hs2, hs3, hs4⟩ := removeByParentStep_spec parent acc c
    refine ⟨?_, ?_, ?_, ?_⟩
    · intro x
      rw [ih1 x, hs1]
      by_cases hx : x = c
      · subst hx
        simp only [Function.update_same, List.mem_cons, true_or, if_true]
        split
        · exact prunedBucket_idem parent _
        · rfl
      · simp only [Function.update_noteq hx, List.mem_cons, hx, false_or]
    · rw [ih2, hs2]
      by_cases hl : acc.1.loneChild parent c = true
      · rw [if_pos hl]
        unfold PolynomialSet.erase
        rw [List.filter_filter]
        apply List.filter_congr
        intro q _
        rw [loneChild_step]
        by_cases hq : q = c
        · subst hq; simp [hl]
        · simp [hq]
      · rw [if_neg hl]
        apply List.filter_congr
        intro q _
        rw [loneChild_step]
        by_cases hq : q = c
        · subst hq
          have hl' : acc.1.loneChild parent q = false := by simpa using hl
          simp [hl']
        · simp [hq]
    · intro x
      rw [ih3 x, hs3, loneChild_step]
      by_cases hl : acc.1.loneChild parent c = true
      · rw [if_pos hl]
        by_cases hx : x = c
        · subst hx; simp [hl]
        · simp [hx]
      · rw [if_neg hl]
        by_cases hx : x = c
        · subst hx; simp [hl]
        · simp [hx]
    · rw [ih4, hs4]

/-- C5. Characterisation of `removeByParent`: for a non-null `parent`, the returned list holds
exactly the recorded children of `parent` that have a non-empty parent record all of whose pairs
contain `parent`, and the polynomial set loses exactly these; a child with at least one recorded
pair that does not contain `parent` stays in the set if it was there and keeps exactly the pairs
that do not contain `parent`; `removeByParent(nullptr)` changes nothing and returns the empty
list. -/
theorem removeByParent_characterisation (s : EliminationSet) (parent : UnivariatePolynomialPtr)
    (hp : parent ≠ nullptr) :
    ((∀ c, c ∈ (s.removeByParent parent).2
          ↔ c ∈ (s.childrenPerParent parent).getD [] ∧ s.loneChild parent c = true) ∧
      (s.removeByParent parent).1.polynomials
          = s.polynomials.filter (fun q =>
              !(decide (q ∈ (s.childrenPerParent parent).getD []) && s.loneChild parent q)) ∧
      (∀ q, q ∈ (s.removeByParent parent).1.polynomials
          ↔ q ∈ s.polynomials ∧ q ∉ (s.removeByParent parent).2) ∧
      (∀ c bucket, c ∈ (s.childrenPerParent parent).getD [] →
          s.parentsPerChild c = some bucket →
          (∃ pair ∈ bucket, EliminationParentsContain parent pair = false) →
          (c ∈ s.polynomials → c ∈ (s.removeByParent parent).1.polynomials) ∧
          (s.removeByParent parent).1.parentsPerChild c
            = some (bucket.filter (fun x => !EliminationParentsContain parent x)))) ∧
    s.removeByParent nullptr = (s, []) := by
  refine ⟨?_, by simp [removeByParent]⟩
  have key : ∀ children : List UnivariatePolynomialPtr,
      (s.childrenPerParent parent).getD [] = children →
      (∀ x, (s.removeByParent parent).1.parentsPerChild x
          = if x ∈ children then prunedBucket parent (s.parentsPerChild x)
            else s.parentsPerChild x) ∧
      (s.removeByParent parent).1.polynomials
          = s.polynomials.filter (fun q => !(decide (q ∈ children) && s.loneChild parent q)) ∧
      (∀ x, x ∈ (s.removeByParent parent).2 ↔ (x ∈ children ∧ s.loneChild parent x = true)) := by
    intro children hch
    unfold removeByParent
    rw [if_neg hp]
    cases hc : s.childrenPerParent parent with
    | none =>
      rw [hc] at hch
      simp only [Option.getD_none] at hch
      subst hch
      simp
    | some cs =>
      rw [hc] at hch
      simp only [Option.getD_some] at hch
      subst hch
      obtain ⟨h1, h2, h3, _⟩ := removeByParent_fold_spec parent cs (s, [])
      simp only
      refine ⟨h1, h2, ?_⟩
      intro x
      rw [h3 x]
      simp
  obtain ⟨k1, k2, k3⟩ := key _ rfl
  refine ⟨k3, k2, ?_, ?_⟩
  · intro q
    rw [k2, List.mem_filter, k3 q]
    simp only [Bool.not_and, Bool.or_eq_true, Bool.not_eq_true', decide_eq_false_iff_not,
      not_and, Bool.not_eq_true]
    constructor
    · rintro ⟨h1, h2⟩
      exact ⟨h1, fun hc => by rcases h2 with h2 | h2; exact absurd hc h2; exact h2⟩
    · rintro ⟨h1, h2⟩
      refine ⟨h1, ?_⟩
      by_cases hc : q ∈ (s.childrenPerParent parent).getD []
      · exact Or.inr (h2 hc)
      · exact Or.inl hc
  · intro c bucket hc hb ⟨pair, hpair, hnot⟩
    have hne : bucket.isEmpty = false := by
      cases bucket with
      | nil => simp at hpair
      | cons _ _ => rfl
    have hfilter : (bucket.filter (fun x => !EliminationParentsContain parent x)).isEmpty = false := by
      have : pair ∈ bucket.filter (fun x => !EliminationParentsContain parent x) := by
        rw [List.mem_filter]; exact ⟨hpair, by simp [hnot]⟩
      cases hf : bucket.filter (fun x => !EliminationParentsContain parent x) with
      | nil => rw [hf] at this; simp at this
      | cons _ _ => rfl
    have hlone : s.loneChild parent c = false := by
      unfold loneChild
      rw [hb]
      simp only [loneBucket, hne, Bool.not_false, Bool.true_and]
      rw [← filter_isEmpty_iff_all]; exact hfilter
    constructor
    · intro hin
      rw [k2, List.mem_filter]
      exact ⟨hin, by simp [hlone]⟩
    · rw [k1 c, if_pos hc, hb]
      simp [prunedBucket, hne, hfilter]

/-- C5, instance: at the set built by `insert(5, (7))` and `insert(5)`, the characterisation of
the list returned by `removeByParent(7)`. -/
theorem removeByParent_characterisation_witness :
    (7 : UnivariatePolynomialPtr) ≠ nullptr ∧
    ∀ c, c ∈ (exampleOriginalLast.removeByParent 7).2
      ↔ c ∈ (exampleOriginalLast.childrenPerParent 7).getD [] ∧
        exampleOriginalLast.loneChild 7 c = true :=
  ⟨by decide, (removeByParent_characterisation exampleOriginalLast 7 (by decide)).1.1⟩

end EliminationSet

/-! ## Behaviour at concrete sets -/

theorem strictTotalOrder_ascending : StrictTotalOrder ascending where
  irrefl := by intro a; simp [ascending]
  trans := by
    intro a b c h1 h2
    have h1' : a < b := by simpa [ascending] using h1
    have h2' : b < c := by simpa [ascending] using h2
    have h3 : a < c := Nat.lt_trans h1' h2'
    simpa [ascending] using h3
  total := by
    intro a b h
    rcases Nat.lt_or_gt_of_ne h with h3 | h3
    · exact Or.inl (by simpa [ascending] using h3)
    · exact Or.inr (by simpa [ascending] using h3)

theorem strictTotalOrder_descending : StrictTotalOrder descending where
  irrefl := by intro a; simp [descending]
  trans := by
    intro a b c h1 h2
    have h1' : b < a := by simpa [descending] using h1
    have h2' : c < b := by simpa [descending] using h2
    have h3 : c < a := Nat.lt_trans h2' h1'
    simpa [descending] using h3
  total := by
    intro a b h
    rcases Nat.lt_or_gt_of_ne h with h3 | h3
    · exact Or.inr (by simpa [descending] using h3)
    · exact Or.inl (by simpa [descending] using h3)

namespace EliminationSet

/-- C4, the code at the failing input: with lifting order `ascending` and elimination order
`descending` (two strict total orders), after `insert(1)`, `insert(2)`, `insert(3)` every queue is
duplicate-free and within the set; `erase(3)` then removes 3 from the set and from the lifting
queues but leaves it in the single-elimination and in the paired-elimination queue. -/
theorem erase_leaves_elimination_queue_entry :
    StrictTotalOrder exampleMixedOrders.liftingOrder ∧
    StrictTotalOrder exampleMixedOrders.eliminationOrder ∧
    exampleMixedOrders.mSingleEliminationQueue.Nodup ∧
    exampleMixedOrders.mPairedEliminationQueue.Nodup ∧
    exampleMixedOrders.mLiftingQueue.Nodup ∧
    (∀ q ∈ exampleMixedOrders.mSingleEliminationQueue, q ∈ exampleMixedOrders.polynomials) ∧
    (∀ q ∈ exampleMixedOrders.mPairedEliminationQueue, q ∈ exampleMixedOrders.polynomials) ∧
    (∀ q ∈ exampleMixedOrders.mLiftingQueue, q ∈ exampleMixedOrders.polynomials) ∧
    (exampleMixedOrders.erase 3).2 = 1 ∧
    3 ∉ (exampleMixedOrders.erase 3).1.polynomials ∧
    3 ∉ (exampleMixedOrders.erase 3).1.mLiftingQueue ∧
    3 ∈ (exampleMixedOrders.erase 3).1.mSingleEliminationQueue ∧
    3 ∈ (exampleMixedOrders.erase 3).1.mPairedEliminationQueue :=
  ⟨strictTotalOrder_ascending, strictTotalOrder_descending, by decide, by decide, by decide,
    by decide, by decide, by decide, by decide, by decide, by decide, by decide, by decide⟩

/-- C6, the code at the failing input: polynomial 5 is inserted as an original input (null
parent) and then again with parent 7; `removeByParent(7)` returns it and removes it from the
set. In the reverse order of the two inserts it is kept. -/
theorem removeByParent_purges_original :
    5 ∈ exampleOriginalFirst.polynomials ∧
    (exampleOriginalFirst.removeByParent 7).2 = [5] ∧
    5 ∉ (exampleOriginalFirst.removeByParent 7).1.polynomials ∧
    (exampleOriginalLast.removeByParent 7).2 = [] ∧
    5 ∈ (exampleOriginalLast.removeByParent 7).1.polynomials := by
  decide

/-- C7, the code at the failing input: polynomial 5 is inserted with the parent list
`(1, 0, 2, 3)` and `removeByParent(2)` drops its pair `(2, 3)` without taking 5 from the
children of 3. `erase(5)` then returns 1, takes 5 from the set, from its parent record and from
the four queues, but walks only the remaining pair `(1, 0)` and leaves 5 listed as a child of 3,
where its documentation says that `p` is removed from all internal auxiliary structures.
Without the `removeByParent(2)` before, `erase(5)` takes 5 from the children of 1, 2 and 3. -/
theorem erase_leaves_child_entry :
    5 ∈ exampleDivorced.polynomials ∧
    (exampleDivorced.erase 5).2 = 1 ∧
    ¬ (∀ parent, 5 ∉ ((exampleDivorced.erase 5).1.childrenPerParent parent).getD []) ∧
    exampleDivorced.parentsPerChild 5 = some [(1, nullptr)] ∧
    exampleDivorced.childrenPerParent 3 = some [5] ∧
    (exampleDivorced.erase 5).1.childrenPerParent 3 = some [5] ∧
    (exampleDivorced.erase 5).1.childrenPerParent 1 = some [] ∧
    (exampleDivorced.erase 5).1.polynomials = [] ∧
    (exampleDivorced.erase 5).1.parentsPerChild 5 = none ∧
    (exampleDivorced.erase 5).1.mLiftingQueue = [] ∧
    (exampleDivorced.erase 5).1.mLiftingQueueReset = [] ∧
    (exampleDivorced.erase 5).1.mSingleEliminationQueue = [] ∧
    (exampleDivorced.erase 5).1.mPairedEliminationQueue = [] ∧
    ([1, 2, 3].map fun parent =>
      (((EliminationSet.insert ascending (EliminationSet.empty ascending ascending)
        5 [1, nullptr, 2, 3] false).1.erase 5).1.childrenPerParent parent)) =
      [some [], some [], some []] := by
  refine ⟨by decide, by decide, ?_, by decide, by decide, by decide, by decide, by decide,
    by decide, by decide, by decide, by decide, by decide, by decide⟩
  intro h
  exact h 3 (by decide)

/-- C8, the code at the failing input: with lifting order `ascending` and elimination order
`descending`, after `insert(1)`, `insert(2)`, `insert(3)` the single-elimination and the
paired-elimination queue are `1, 2, 3`, which is lifting order and not elimination order; the next
single-elimination position is 1 although 3 precedes it in the elimination order. -/
theorem insert_fills_elimination_queues_in_lifting_order :
    exampleMixedOrders.mSingleEliminationQueue = [1, 2, 3] ∧
    exampleMixedOrders.mPairedEliminationQueue = [1, 2, 3] ∧
    ¬ QueueSorted exampleMixedOrders.eliminationOrder exampleMixedOrders.mSingleEliminationQueue ∧
    ¬ QueueSorted exampleMixedOrders.eliminationOrder exampleMixedOrders.mPairedEliminationQueue ∧
    (exampleMixedOrders.popNextSingleEliminationPosition).map Prod.snd = some 1 ∧
    exampleMixedOrders.eliminationOrder 3 1 = true := by
  refine ⟨by decide, by decide, ?_, ?_, by decide, by decide⟩
  · unfold QueueSorted; decide
  · unfold QueueSorted; decide

end EliminationSet

/-! ## `EliminationSet::erase` -/

theorem QueueStrictlySorted.queueSorted {comp : PolynomialComparator} (h : StrictTotalOrder comp)
    {q : List UnivariatePolynomialPtr} (hq : QueueStrictlySorted comp q) : QueueSorted comp q :=
  List.Pairwise.imp (fun hab => h.asymm hab) hq

/-- On a strictly sorted queue, the removal done by `erase` deletes `p` and nothing else. -/
theorem queueErase_strictlySorted {comp : PolynomialComparator} (h : StrictTotalOrder comp)
    (q : List UnivariatePolynomialPtr) (hq : QueueStrictlySorted comp q)
    (p : UnivariatePolynomialPtr) :
    queueErase comp q p = q.filter (fun x => x != p) := by
  have hs := hq.queueSorted h
  have hpart := queueSorted_partition h p q hs
  have hlb := lower_bound_sorted h q hs p
  have hsplit := List.takeWhile_append_dropWhile (fun x => comp x p) q
  have hpre : ∀ x ∈ q.takeWhile (fun x => comp x p), x ≠ p := by
    intro x hx hxp
    have := hpart.1 x hx
    rw [hxp, h.irrefl] at this
    exact absurd this (by decide)
  have hprefilter : (q.takeWhile (fun x => comp x p)).filter (fun x => x != p)
      = q.takeWhile (fun x => comp x p) := by
    rw [List.filter_eq_self]
    intro x hx
    simpa using hpre x hx
  unfold queueErase
  simp only
  rw [hlb]
  generalize hpre' : q.takeWhile (fun x => comp x p) = pre at *
  generalize hsuf' : q.dropWhile (fun x => comp x p) = suf at *
  subst hsplit
  cases suf with
  | nil =>
    simp only [List.append_nil] at *
    rw [List.getElem?_eq_none (le_refl _)]
    exact hprefilter.symm
  | cons y ys =>
    have hget : (pre ++ y :: ys)[pre.length]? = some y := by
      rw [List.getElem?_append_right (le_refl _)]; simp
    rw [hget]
    simp only
    have hq' : List.Pairwise (fun a b => comp a b = true) (pre ++ y :: ys) := hq
    rw [List.pairwise_append, List.pairwise_cons] at hq'
    by_cases hy : y = p
    · subst hy
      rw [if_pos rfl]
      have hys : ys.filter (fun x => x != y) = ys := by
        rw [List.filter_eq_self]
        intro x hx
        have hyx := hq'.2.1.1 x hx
        have : x ≠ y := by
          intro hxy
          rw [hxy, h.irrefl] at hyx
          exact absurd hyx (by decide)
        simpa using this
      rw [List.filter_append, hprefilter, List.filter_cons]
      simp only [bne_self_eq_false, Bool.false_eq_true, if_false, hys]
      rw [List.eraseIdx_append_of_length_le (le_refl _)]
      simp
    · rw [if_neg hy]
      have hys : ys.filter (fun x => x != p) = ys := by
        rw [List.filter_eq_self]
        intro x hx
        have hyx := hq'.2.1.1 x hx
        have : x ≠ p := by
          intro hxp
          rw [hxp] at hyx
          have := hpart.2 y (List.mem_cons_self _ _)
          rw [hyx] at this
          exact absurd this (by decide)
        simpa using this
      rw [List.filter_append, hprefilter, List.filter_cons]
      have : (y != p) = true := by simpa using hy
      simp only [this, if_true, hys]

theorem polynomialSet_erase_idem (l : PolynomialSet) (p : UnivariatePolynomialPtr) :
    PolynomialSet.erase (PolynomialSet.erase l p) p = PolynomialSet.erase l p := by
  unfold PolynomialSet.erase
  rw [List.filter_filter]
  simp

namespace EliminationSet

theorem eraseParentStep_apply (p : UnivariatePolynomialPtr)
    (children : UnivariatePolynomialPtr → Option PolynomialSet) (i : PolynomialPair)
    (k : UnivariatePolynomialPtr) :
    eraseParentStep p children i k
      = if k ≠ 0 ∧ EliminationParentsContain k i = true
        then some (PolynomialSet.erase ((children k).getD []) p) else children k := by
  unfold eraseParentStep eraseChild EliminationParentsContain
  by_cases h1 : i.1 = 0 <;> by_cases h2 : i.2 = 0 <;>
    by_cases k1 : i.1 = k <;> by_cases k2 : i.2 = k <;>
    simp [h1, h2, k1, k2, Function.update, polynomialSet_erase_idem] <;>
    (try subst k1) <;> (try subst k2) <;> simp_all [polynomialSet_erase_idem, eq_comm]

theorem eraseParent_fold_apply (p : UnivariatePolynomialPtr) :
    ∀ (b : parentbucket) (children : UnivariatePolynomialPtr → Option PolynomialSet)
      (k : UnivariatePolynomialPtr),
      b.foldl (eraseParentStep p) children k
        = if k ≠ 0 ∧ b.any (EliminationParentsContain k) = true
          then some (PolynomialSet.erase ((children k).getD []) p) else children k := by
  intro b
  induction b with
  | nil => intro children k; simp
  | cons i b ih =>
    intro children k
    rw [List.foldl_cons, ih, eraseParentStep_apply]
    by_cases hk : k = 0
    · simp [hk]
    · cases hi : EliminationParentsContain k i <;>
        cases hb : b.any (EliminationParentsContain k) <;>
        simp [hk, hi, hb, polynomialSet_erase_idem]

/-- What `erase` does achieve. `erase(p)` for a non-null `p` returns 1 if `p` was in the set and 0 otherwise;
afterwards `p` is not in the polynomial set and has no parent record, and it is removed from the
children of every non-null polynomial that occurs in one of its recorded parent pairs; a queue
never gains or reorders entries, and a queue that is strictly sorted in the order `erase`
searches it with (lifting order for the two lifting queues, elimination order for the two
elimination queues) loses `p` and nothing else; the other polynomials, the parent records of
other polynomials and the children of polynomials outside the recorded pairs of `p` are
unchanged. `erase(nullptr)` returns 0 and changes nothing. -/
theorem erase_postcondition (s : EliminationSet) (p : UnivariatePolynomialPtr) (hp : p ≠ nullptr)
    (hL : StrictTotalOrder s.liftingOrder) (hE : StrictTotalOrder s.eliminationOrder) :
    ((s.erase p).2 = (if p ∈ s.polynomials then 1 else 0) ∧
      p ∉ (s.erase p).1.polynomials ∧
      (∀ q, q ≠ p → (q ∈ (s.erase p).1.polynomials ↔ q ∈ s.polynomials)) ∧
      (s.erase p).1.polynomials = s.polynomials.filter (fun q => q != p) ∧
      (s.erase p).1.parentsPerChild p = none ∧
      (∀ q, q ≠ p → (s.erase p).1.parentsPerChild q = s.parentsPerChild q) ∧
      (∀ k, k ≠ nullptr →
        ((s.parentsPerChild p).getD []).any (EliminationParentsContain k) = true →
        p ∉ ((s.erase p).1.childrenPerParent k).getD [] ∧
        ∀ q, q ≠ p →
          (q ∈ ((s.erase p).1.childrenPerParent k).getD []
            ↔ q ∈ (s.childrenPerParent k).getD [])) ∧
      (∀ k, ¬ (k ≠ nullptr ∧
          ((s.parentsPerChild p).getD []).any (EliminationParentsContain k) = true) →
        (s.erase p).1.childrenPerParent k = s.childrenPerParent k) ∧
      (s.erase p).1.mLiftingQueue.Sublist s.mLiftingQueue ∧
      (s.erase p).1.mLiftingQueueReset.Sublist s.mLiftingQueueReset ∧
      (s.erase p).1.mSingleEliminationQueue.Sublist s.mSingleEliminationQueue ∧
      (s.erase p).1.mPairedEliminationQueue.Sublist s.mPairedEliminationQueue ∧
      (QueueStrictlySorted s.liftingOrder s.mLiftingQueue →
        (s.erase p).1.mLiftingQueue = s.mLiftingQueue.filter (fun q => q != p)) ∧
      (QueueStrictlySorted s.liftingOrder s.mLiftingQueueReset →
        (s.erase p).1.mLiftingQueueReset = s.mLiftingQueueReset.filter (fun q => q != p)) ∧
      (QueueStrictlySorted s.eliminationOrder s.mSingleEliminationQueue →
        (s.erase p).1.mSingleEliminationQueue
          = s.mSingleEliminationQueue.filter (fun q => q != p)) ∧
      (QueueStrictlySorted s.eliminationOrder s.mPairedEliminationQueue →
        (s.erase p).1.mPairedEliminationQueue
          = s.mPairedEliminationQueue.filter (fun q => q != p))) ∧
    s.erase nullptr = (s, 0) := by
  have hp0 : ¬ p = 0 := hp
  refine ⟨?_, by simp [erase]⟩
  unfold erase
  rw [if_neg hp0]
  simp only
  refine ⟨by trivial, ?_, ?_, rfl, ?_, ?_, ?_, ?_,
    queueErase_sublist _ _ _, queueErase_sublist _ _ _,
    queueErase_sublist _ _ _, queueErase_sublist _ _ _,
    fun h => queueErase_strictlySorted hL _ h p, fun h => queueErase_strictlySorted hL _ h p,
    fun h => queueErase_strictlySorted hE _ h p, fun h => queueErase_strictlySorted hE _ h p⟩
  · simp [PolynomialSet.erase]
  · intro q hq; simp [PolynomialSet.erase, hq]
  · simp
  · intro q hq; simp [Function.update_noteq hq]
  · intro k hk hany
    have hk0 : k ≠ 0 := hk
    rw [eraseParent_fold_apply, if_pos ⟨hk0, hany⟩]
    simp only [Option.getD_some]
    refine ⟨by simp [PolynomialSet.erase], ?_⟩
    intro q hq; simp [PolynomialSet.erase, hq]
  · intro k hk
    have hk' : ¬ (k ≠ 0 ∧
        ((s.parentsPerChild p).getD []).any (EliminationParentsContain k) = true) := hk
    rw [eraseParent_fold_apply, if_neg hk']

/-- An instance of `erase_postcondition`: `erase(5)` at the set built by `insert(5, (7))` and
`insert(5)`. -/
theorem erase_postcondition_witness :
    (5 : UnivariatePolynomialPtr) ≠ nullptr ∧
    StrictTotalOrder exampleOriginalLast.liftingOrder ∧
    StrictTotalOrder exampleOriginalLast.eliminationOrder ∧
    (exampleOriginalLast.erase 5).2 = (if 5 ∈ exampleOriginalLast.polynomials then 1 else 0) ∧
    5 ∉ (exampleOriginalLast.erase 5).1.polynomials :=
  ⟨by decide, strictTotalOrder_ascending, strictTotalOrder_ascending,
    (erase_postcondition exampleOriginalLast 5 (by decide) strictTotalOrder_ascending
      strictTotalOrder_ascending).1.1,
    (erase_postcondition exampleOriginalLast 5 (by decide) strictTotalOrder_ascending
      strictTotalOrder_ascending).1.2.1⟩

end EliminationSet

/-! ## The lifting queue -/

theorem mem_sortedInsert (comp : PolynomialComparator) (x z : UnivariatePolynomialPtr) :
    ∀ l : List UnivariatePolynomialPtr, z ∈ sortedInsert comp x l ↔ z = x ∨ z ∈ l := by
  intro l
  induction l with
  | nil => simp [sortedInsert]
  | cons y ys ih =>
    unfold sortedInsert
    split
    · rw [List.mem_cons, ih, List.mem_cons]
      constructor
      · rintro (h | h | h)
        · exact Or.inr (Or.inl h)
        · exact Or.inl h
        · exact Or.inr (Or.inr h)
      · rintro (h | h | h)
        · exact Or.inr (Or.inl h)
        · exact Or.inl h
        · exact Or.inr (Or.inr h)
    · simp [List.mem_cons]

theorem sortedInsert_sorted {comp : PolynomialComparator} (h : StrictTotalOrder comp)
    (x : UnivariatePolynomialPtr) :
    ∀ l : List UnivariatePolynomialPtr, QueueSorted comp l →
      QueueSorted comp (sortedInsert comp x l) := by
  intro l
  induction l with
  | nil => intro _; simp [sortedInsert, QueueSorted]
  | cons y ys ih =>
    intro hl
    have hl' := List.pairwise_cons.mp hl
    unfold sortedInsert
    by_cases hyx : comp y x = true
    · rw [if_pos hyx]
      unfold QueueSorted
      rw [List.pairwise_cons]
      refine ⟨?_, ih hl'.2⟩
      intro z hz
      rcases (mem_sortedInsert comp x z ys).mp hz with rfl | hz
      · exact h.asymm hyx
      · exact hl'.1 z hz
    · rw [if_neg hyx]
      have hyx' : comp y x = false := by simpa using hyx
      unfold QueueSorted
      rw [List.pairwise_cons]
      refine ⟨?_, hl⟩
      intro z hz
      rcases List.mem_cons.mp hz with rfl | hz
      · exact hyx'
      · have hzy := hl'.1 z hz
        cases hzx : comp z x with
        | false => rfl
        | true =>
          exfalso
          by_cases hxy : y = x
          · subst hxy; rw [hzy] at hzx; exact absurd hzx (by decide)
          · rcases h.total y x hxy with h1 | h1
            · rw [hyx'] at h1; exact absurd h1 (by decide)
            · have := h.trans z x y hzx h1
              rw [hzy] at this; exact absurd this (by decide)

theorem listSort_sorted {comp : PolynomialComparator} (h : StrictTotalOrder comp) :
    ∀ l : List UnivariatePolynomialPtr, QueueSorted comp (listSort comp l) := by
  intro l
  induction l with
  | nil => simp [listSort, QueueSorted]
  | cons x xs ih =>
    unfold listSort
    rw [List.foldr_cons]
    exact sortedInsert_sorted h x _ ih

/-- In a sorted queue no member precedes the front. -/
theorem queueSorted_head_minimal {comp : PolynomialComparator} (h : StrictTotalOrder comp)
    (p : UnivariatePolynomialPtr) (rest : List UnivariatePolynomialPtr)
    (hq : QueueSorted comp (p :: rest)) : ∀ q ∈ p :: rest, comp q p = false := by
  intro q hq'
  rcases List.mem_cons.mp hq' with rfl | hq'
  · exact h.irrefl q
  · exact (List.pairwise_cons.mp hq).1 q hq'

namespace EliminationSet

theorem removeByParentStep_lifting (parent : UnivariatePolynomialPtr)
    (acc : EliminationSet × List UnivariatePolynomialPtr) (c : UnivariatePolynomialPtr) :
    (removeByParentStep parent acc c).1.liftingOrder = acc.1.liftingOrder ∧
    (removeByParentStep parent acc c).1.mLiftingQueue.Sublist acc.1.mLiftingQueue ∧
    (removeByParentStep parent acc c).1.mLiftingQueueReset.Sublist acc.1.mLiftingQueueReset := by
  unfold removeByParentStep
  dsimp only
  split
  · exact ⟨rfl, List.Sublist.refl _, List.Sublist.refl _⟩
  · split_ifs
    · exact ⟨rfl, List.Sublist.refl _, List.Sublist.refl _⟩
    · exact ⟨rfl, queueEraseAtLowerBound_sublist _ _ _, queueEraseAtLowerBound_sublist _ _ _⟩
    · exact ⟨rfl, List.Sublist.refl _, List.Sublist.refl _⟩

theorem removeByParent_fold_lifting (parent : UnivariatePolynomialPtr) :
    ∀ (cs : List UnivariatePolynomialPtr) (acc : EliminationSet × List UnivariatePolynomialPtr),
      (cs.foldl (removeByParentStep parent) acc).1.liftingOrder = acc.1.liftingOrder ∧
      (cs.foldl (removeByParentStep parent) acc).1.mLiftingQueue.Sublist acc.1.mLiftingQueue ∧
      (cs.foldl (removeByParentStep parent) acc).1.mLiftingQueueReset.Sublist
        acc.1.mLiftingQueueReset := by
  intro cs
  induction cs with
  | nil => intro acc; exact ⟨rfl, List.Sublist.refl _, List.Sublist.refl _⟩
  | cons c cs ih =>
    intro acc
    rw [List.foldl_cons]
    obtain ⟨h1, h2, h3⟩ := ih (removeByParentStep parent acc c)
    obtain ⟨g1, g2, g3⟩ := removeByParentStep_lifting parent acc c
    exact ⟨h1.trans g1, h2.trans g2, h3.trans g3⟩

theorem removeByParent_lifting (s : EliminationSet) (parent : UnivariatePolynomialPtr) :
    (s.removeByParent parent).1.liftingOrder = s.liftingOrder ∧
    (s.removeByParent parent).1.mLiftingQueue.Sublist s.mLiftingQueue ∧
    (s.removeByParent parent).1.mLiftingQueueReset.Sublist s.mLiftingQueueReset := by
  unfold removeByParent
  split
  · exact ⟨rfl, List.Sublist.refl _, List.Sublist.refl _⟩
  · split
    · exact ⟨rfl, List.Sublist.refl _, List.Sublist.refl _⟩
    · rename_i children _
      exact removeByParent_fold_lifting parent children (s, [])

theorem erase_lifting (s : EliminationSet) (p : UnivariatePolynomialPtr) :
    (s.erase p).1.liftingOrder = s.liftingOrder ∧
    (s.erase p).1.mLiftingQueue.Sublist s.mLiftingQueue ∧
    (s.erase p).1.mLiftingQueueReset.Sublist s.mLiftingQueueReset := by
  unfold erase
  split
  · exact ⟨rfl, List.Sublist.refl _, List.Sublist.refl _⟩
  · exact ⟨rfl, queueErase_sublist _ _ _, queueErase_sublist _ _ _⟩

theorem insert_lifting {L : PolynomialComparator} (hL : StrictTotalOrder L)
    (less : PolynomialComparator) (s : EliminationSet) (hs : LiftingQueuesSorted L s)
    (r : UnivariatePolynomialPtr) (parents : List UnivariatePolynomialPtr) (avoidSingle : Bool) :
    LiftingQueuesSorted L (s.insert less r parents avoidSingle).1 := by
  obtain ⟨h1, h2, h3⟩ := hs
  refine ⟨(insert_liftingOrder less s r parents avoidSingle).trans h1, ?_, ?_⟩
  · by_cases hr : r ∈ s.polynomials
    · rw [(insert_queues_old less s r parents avoidSingle hr).1]; exact h2
    · rw [(insert_queues_new less s r parents avoidSingle hr).1, h1]
      exact queueInsert_sorted hL _ h2 r
  · by_cases hr : r ∈ s.polynomials
    · rw [(insert_queues_old less s r parents avoidSingle hr).2.1]; exact h3
    · rw [(insert_queues_new less s r parents avoidSingle hr).2.1, h1]
      exact queueInsert_sorted hL _ h3 r

/-- Every call keeps the two lifting queues in lifting order. -/
theorem apply_lifting {L : PolynomialComparator} (hL : StrictTotalOrder L)
    (less : PolynomialComparator) (s s1 : EliminationSet) (hs : LiftingQueuesSorted L s)
    (c : Call) (hc : c.apply less s = some s1) : LiftingQueuesSorted L s1 := by
  cases c with
  | insert r parents avoidSingle =>
    simp only [Call.apply, Option.some.injEq] at hc
    subst hc
    exact insert_lifting hL less s hs r parents avoidSingle
  | erase p =>
    simp only [Call.apply, Option.some.injEq] at hc
    subst hc
    obtain ⟨g1, g2, g3⟩ := erase_lifting s p
    exact ⟨g1.trans hs.1, hs.2.1.sublist g2, hs.2.2.sublist g3⟩
  | removeByParent parent =>
    simp only [Call.apply, Option.some.injEq] at hc
    subst hc
    obtain ⟨g1, g2, g3⟩ := removeByParent_lifting s parent
    exact ⟨g1.trans hs.1, hs.2.1.sublist g2, hs.2.2.sublist g3⟩
  | popLiftingPosition =>
    simp only [Call.apply, popLiftingPosition] at hc
    cases hq : s.mLiftingQueue with
    | nil => rw [hq] at hc; simp at hc
    | cons x rest =>
      rw [hq] at hc
      simp only [Option.some.injEq] at hc
      subst hc
      refine ⟨hs.1, ?_, hs.2.2⟩
      have := hs.2.1
      rw [hq] at this
      exact (List.pairwise_cons.mp this).2
  | resetLiftingPositionsFully =>
    simp only [Call.apply, Option.some.injEq] at hc
    subst hc
    refine ⟨hs.1, ?_, hs.2.2⟩
    show QueueSorted L (listSort s.liftingOrder s.polynomials)
    rw [hs.1]
    exact listSort_sorted hL _
  | resetLiftingPositions =>
    simp only [Call.apply, Option.some.injEq] at hc
    subst hc
    exact ⟨hs.1, hs.2.2, hs.2.2⟩
  | setLiftingPositionsReset =>
    simp only [Call.apply, Option.some.injEq] at hc
    subst hc
    exact ⟨hs.1, hs.2.1, hs.2.1⟩
  | popNextSingleEliminationPosition =>
    simp only [Call.apply, popNextSingleEliminationPosition] at hc
    cases hq : s.mSingleEliminationQueue with
    | nil => rw [hq] at hc; simp at hc
    | cons x rest =>
      rw [hq] at hc
      simp only [Option.map_some', Option.some.injEq] at hc
      subst hc
      exact ⟨hs.1, hs.2.1, hs.2.2⟩

theorem runCalls_lifting {L : PolynomialComparator} (hL : StrictTotalOrder L)
    (less : PolynomialComparator) :
    ∀ (calls : List Call) (s s1 : EliminationSet), LiftingQueuesSorted L s →
      runCalls less s calls = some s1 → LiftingQueuesSorted L s1 := by
  intro calls
  induction calls with
  | nil =>
    intro s s1 hs h
    simp only [runCalls, Option.some.injEq] at h
    subst h; exact hs
  | cons c cs ih =>
    intro s s1 hs h
    unfold runCalls at h
    cases hc : c.apply less s with
    | none => rw [hc] at h; simp at h
    | some s2 =>
      rw [hc] at h
      exact ih s2 s1 (apply_lifting hL less s s2 hs c hc) h

theorem empty_lifting (L E : PolynomialComparator) :
    LiftingQueuesSorted L (EliminationSet.empty L E) :=
  ⟨rfl, List.Pairwise.nil, List.Pairwise.nil⟩

/-- C9. After any sequence of calls of `insert`, `erase`, `popLiftingPosition`,
`resetLiftingPositions` and `resetLiftingPositionsFully` (and of the other queue operations) on
an elimination set created empty with a strict total lifting order, whenever the lifting queue
is non-empty `nextLiftingPosition()` returns a member of the lifting queue that no member of the
queue precedes in the lifting order. -/
theorem nextLiftingPosition_minimal (less L E : PolynomialComparator) (hL : StrictTotalOrder L)
    (calls : List Call) (s : EliminationSet)
    (hrun : runCalls less (EliminationSet.empty L E) calls = some s)
    (hne : s.mLiftingQueue ≠ []) :
    ∃ p, s.nextLiftingPosition = some p ∧ p ∈ s.mLiftingQueue ∧
      ∀ q ∈ s.mLiftingQueue, L q p = false := by
  have hs := runCalls_lifting hL less calls _ s (empty_lifting L E) hrun
  unfold nextLiftingPosition
  cases hq : s.mLiftingQueue with
  | nil => exact absurd hq hne
  | cons p rest =>
    refine ⟨p, rfl, List.mem_cons_self _ _, ?_⟩
    have := hs.2.1
    rw [hq] at this
    exact queueSorted_head_minimal hL p rest this

/-- C9, instance: the set reached by `exampleCalls`. -/
theorem nextLiftingPosition_minimal_witness :
    StrictTotalOrder ascending ∧
    runCalls ascending (EliminationSet.empty ascending descending) exampleCalls
      = some exampleAfterCalls ∧
    exampleAfterCalls.mLiftingQueue ≠ [] ∧
    ∃ p, exampleAfterCalls.nextLiftingPosition = some p ∧ p ∈ exampleAfterCalls.mLiftingQueue ∧
      ∀ q ∈ exampleAfterCalls.mLiftingQueue, ascending q p = false :=
  ⟨strictTotalOrder_ascending, rfl, by decide,
    nextLiftingPosition_minimal ascending ascending descending strictTotalOrder_ascending
      exampleCalls exampleAfterCalls rfl (by decide)⟩

theorem reset_queue_perm (less : PolynomialComparator) :
    ∀ (calls : List Call) (s s2 : EliminationSet),
      (∀ c ∈ calls, c.isInsertOrPop = true) → runCalls less s calls = some s2 →
      s2.mLiftingQueueReset.Perm (s.mLiftingQueueReset ++ newlyInserted less s calls) := by
  intro calls
  induction calls with
  | nil =>
    intro s s2 _ h
    simp only [runCalls, Option.some.injEq] at h
    subst h
    simp [newlyInserted]
  | cons c cs ih =>
    intro s s2 hall h
    have hc := hall c (List.mem_cons_self _ _)
    have hcs : ∀ c ∈ cs, c.isInsertOrPop = true := fun c' hc' =>
      hall c' (List.mem_cons_of_mem _ hc')
    unfold runCalls at h
    cases c with
    | insert r parents avoidSingle =>
      simp only [Call.apply] at h
      have ih' := ih _ s2 hcs h
      simp only [newlyInserted, Call.apply]
      by_cases hr : r ∈ s.polynomials
      · have h2 : (s.insert less r parents avoidSingle).2 = false := by
          rw [insert_second]; simpa using hr
        rw [h2]
        simp only [Bool.false_eq_true, if_false]
        rw [(insert_queues_old less s r parents avoidSingle hr).2.1] at ih'
        exact ih'
      · have h2 : (s.insert less r parents avoidSingle).2 = true := by
          rw [insert_second]; simpa using hr
        rw [h2]
        simp only [if_true]
        rw [(insert_queues_new less s r parents avoidSingle hr).2.1] at ih'
        refine ih'.trans ?_
        refine (List.Perm.append_right _ (queueInsert_perm _ _ r)).trans ?_
        exact (List.perm_middle).symm
    | popLiftingPosition =>
      simp only [Call.apply, popLiftingPosition] at h
      simp only [newlyInserted, Call.apply, popLiftingPosition]
      cases hq : s.mLiftingQueue with
      | nil => rw [hq] at h; simp at h
      | cons x rest =>
        rw [hq] at h
        simp only at h
        exact ih _ s2 hcs h
    | erase p => simp [Call.isInsertOrPop] at hc
    | removeByParent p => simp [Call.isInsertOrPop] at hc
    | resetLiftingPositionsFully => simp [Call.isInsertOrPop] at hc
    | resetLiftingPositions => simp [Call.isInsertOrPop] at hc
    | setLiftingPositionsReset => simp [Call.isInsertOrPop] at hc
    | popNextSingleEliminationPosition => simp [Call.isInsertOrPop] at hc

/-- C10. Reset-state round trip: take a set reached by any sequence of calls from an empty set
with a strict total lifting order; after `setLiftingPositionsReset()` followed by any sequence of
`insert` and `popLiftingPosition` calls, `resetLiftingPositions()` makes the lifting queue
consist of exactly the polynomials that were in the lifting queue at the time of
`setLiftingPositionsReset()` together with the polynomials newly inserted since then, and the
queue is in lifting order. -/
theorem resetLiftingPositions_round_trip (less L E : PolynomialComparator)
    (hL : StrictTotalOrder L) (before : List Call) (s0 : EliminationSet)
    (hbefore : runCalls less (EliminationSet.empty L E) before = some s0)
    (calls : List Call) (hcalls : ∀ c ∈ calls, c.isInsertOrPop = true) (s2 : EliminationSet)
    (hrun : runCalls less s0.setLiftingPositionsReset calls = some s2) :
    s2.resetLiftingPositions.mLiftingQueue.Perm
      (s0.mLiftingQueue ++ newlyInserted less s0.setLiftingPositionsReset calls) ∧
    QueueSorted L s2.resetLiftingPositions.mLiftingQueue := by
  have hs0 := runCalls_lifting hL less before _ s0 (empty_lifting L E) hbefore
  have hs1 : LiftingQueuesSorted L s0.setLiftingPositionsReset := ⟨hs0.1, hs0.2.1, hs0.2.1⟩
  have hs2 := runCalls_lifting hL less calls _ s2 hs1 hrun
  exact ⟨reset_queue_perm less calls _ s2 hcalls hrun, hs2.2.2⟩

/-- C10, instance: `exampleInsertsAndPops` after `exampleCalls`. -/
theorem resetLiftingPositions_round_trip_witness :
    exampleAfterInsertsAndPops.resetLiftingPositions.mLiftingQueue.Perm
      (exampleAfterCalls.mLiftingQueue
        ++ newlyInserted ascending exampleAfterCalls.setLiftingPositionsReset
            exampleInsertsAndPops) ∧
    QueueSorted ascending exampleAfterInsertsAndPops.resetLiftingPositions.mLiftingQueue :=
  resetLiftingPositions_round_trip ascending ascending descending strictTotalOrder_ascending
    exampleCalls exampleAfterCalls rfl exampleInsertsAndPops (by decide)
    exampleAfterInsertsAndPops rfl

end EliminationSet

/-! ## Soundness of the lifting phase -/

namespace CAD

theorem satisfiesVertices_fst (X : Collaborators) (r : List X.RAN) :
    ∀ (constraints : List X.Constraint) (i : Nat) (satisfied : Bool) (vertices : List Nat),
      (satisfiesVertices X r constraints i satisfied vertices).1
        = (satisfied && satisfies X r constraints) := by
  intro constraints
  induction constraints with
  | nil => intro i satisfied vertices; simp [satisfiesVertices, satisfies]
  | cons c cs ih =>
    intro i satisfied vertices
    unfold satisfiesVertices satisfies
    cases hc : X.satisfiedBy c r
    · simp [ih]
    · simp [ih]

/-- The conflict graph does not change the answer of `satisfies`. -/
theorem satisfiesWithGraph_fst (X : Collaborators) (r : List X.RAN)
    (constraints : List X.Constraint) (g : X.ConflictGraph) :
    (satisfiesWithGraph X r constraints g).1 = satisfies X r constraints := by
  unfold satisfiesWithGraph
  simp [satisfiesVertices_fst]

/-- `satisfies` holds exactly when every constraint is satisfied by the point. -/
theorem satisfies_iff (X : Collaborators) (r : List X.RAN) :
    ∀ constraints : List X.Constraint,
      satisfies X r constraints = true ↔ ∀ c ∈ constraints, X.satisfiedBy c r = true := by
  intro constraints
  induction constraints with
  | nil => simp [satisfies]
  | cons c cs ih =>
    unfold satisfies
    cases hc : X.satisfiedBy c r
    · simp [hc]
    · simp [hc, ih]

theorem SameOutcome.refl (X : Collaborators) (s : CheckState X) : SameOutcome X s s :=
  ⟨rfl, rfl⟩

theorem SameOutcome.trans {X : Collaborators} {s s1 s2 : CheckState X}
    (h1 : SameOutcome X s s1) (h2 : SameOutcome X s1 s2) : SameOutcome X s s2 :=
  ⟨h2.1.trans h1.1, h2.2.trans h1.2⟩

theorem Sound.of_sameOutcome {X : Collaborators} {constraints : List X.Constraint} {b : Bool}
    {s s1 : CheckState X} (h : Sound X constraints b s) (hs : SameOutcome X s s1) :
    Sound X constraints b s1 := by
  intro hb hi
  rw [hs.1]
  exact h hb (hs.2 ▸ hi)

theorem Sound.of_false {X : Collaborators} (constraints : List X.Constraint)
    (s : CheckState X) : Sound X constraints false s := by
  intro hb; exact absurd hb (by decide)

theorem storeSample_sameOutcome (X : Collaborators) (s : CheckState X) (x : X.RAN)
    (node : X.Node) : SameOutcome X s (storeSample X s x node).1 :=
  ⟨rfl, rfl⟩

theorem storeRemaining_sameOutcome (X : Collaborators) (node : X.Node) :
    ∀ (fuel : Nat) (increment : X.SampleSet) (s s1 : CheckState X),
      storeRemaining X node fuel increment s = some s1 → SameOutcome X s s1 := by
  intro fuel
  induction fuel with
  | zero => intro increment s s1 h; simp [storeRemaining] at h
  | succ n ih =>
    intro increment s s1 h
    unfold storeRemaining at h
    split at h
    · exact (storeSample_sameOutcome X s _ node).trans (ih _ _ _ h)
    · simp only [Option.some.injEq] at h
      subst h; exact SameOutcome.refl X s

/-- The base level of `liftCheck` is sound: a true answer comes with a point that satisfies the
constraints, or with the flag `interrupted`. -/
theorem liftCheckBase_sound (X : Collaborators) (a : LiftArgs X) (s : CheckState X) :
    Sound X a.constraints (liftCheckBase X a s).1 (liftCheckBase X a s).2 := by
  unfold liftCheckBase
  dsimp only
  split
  · intro _ hi
    simp at hi
  · split
    · split
      · rename_i hsat
        intro _ _
        rw [satisfiesWithGraph_fst] at hsat
        exact hsat
      · exact Sound.of_false _ _
    · split
      · rename_i hsat
        intro _ _
        exact hsat
      · exact Sound.of_false _ _

theorem liftPhase2_sound (X : Collaborators)
    (lift : LiftArgs X → CheckState X → Option (Bool × CheckState X)) (a : LiftArgs X)
    (hlift : SoundLift X a.constraints lift) (openVariableCount : Nat)
    (newVariables : List Variable) :
    ∀ (fuel : Nat) (loc : LiftLocals X) (s : CheckState X) (b : Bool) (loc1 : LiftLocals X)
      (s1 : CheckState X),
      liftPhase2 X lift a openVariableCount newVariables fuel loc s = some (b, loc1, s1) →
      Sound X a.constraints b s1 := by
  intro fuel
  induction fuel with
  | zero => intro loc s b loc1 s1 h; simp [liftPhase2] at h
  | succ n ih =>
    intro loc s b loc1 s1 h
    unfold liftPhase2 at h
    split at h
    · split at h
      · simp at h
      · split at h
        · simp only [Option.some.injEq, Prod.mk.injEq] at h
          obtain ⟨rfl, _, _⟩ := h
          exact Sound.of_false _ _
        · dsimp only at h
          split at h
          · simp at h
          · rename_i liftingSuccessful s2 hrec
            have hsound := hlift _ _ _ _ hrec rfl
            split at h
            · rename_i hsucc
              split at h
              · simp at h
              · rename_i s3 hstore
                simp only [Option.some.injEq, Prod.mk.injEq] at h
                obtain ⟨rfl, _, rfl⟩ := h
                subst hsucc
                exact hsound.of_sameOutcome (storeRemaining_sameOutcome X _ _ _ _ _ hstore)
            · exact ih _ _ _ _ _ h
    · simp only [Option.some.injEq, Prod.mk.injEq] at h
      obtain ⟨rfl, _, _⟩ := h
      exact Sound.of_false _ _

theorem liftLoop_sound (X : Collaborators)
    (lift : LiftArgs X → CheckState X → Option (Bool × CheckState X)) (a : LiftArgs X)
    (hlift : SoundLift X a.constraints lift) (openVariableCount : Nat)
    (bound : Option X.Interval) (newVariables : List Variable) :
    ∀ (fuel : Nat) (loc : LiftLocals X) (s : CheckState X) (b : Bool) (s1 : CheckState X),
      liftLoop X lift a openVariableCount bound newVariables fuel loc s = some (b, s1) →
      Sound X a.constraints b s1 := by
  intro fuel
  induction fuel with
  | zero => intro loc s b s1 h; simp [liftLoop] at h
  | succ n ih =>
    intro loc s b s1 h
    unfold liftLoop at h
    split at h
    · simp at h
    · split at h
      · simp at h
      · rename_i hp2
        simp only [Option.some.injEq, Prod.mk.injEq] at h
        obtain ⟨rfl, rfl⟩ := h
        exact liftPhase2_sound X lift a hlift _ _ _ _ _ _ _ _ hp2
      · split at h
        · simp at h
        · split at h
          · split at h
            · split at h
              · simp at h
              · simp only [Option.some.injEq, Prod.mk.injEq] at h
                obtain ⟨rfl, _⟩ := h
                exact Sound.of_false _ _
            · simp only [Option.some.injEq, Prod.mk.injEq] at h
              obtain ⟨rfl, _⟩ := h
              exact Sound.of_false _ _
          · exact ih _ _ _ _ h

/-- `liftCheck` is sound: when it returns true and the engine is not marked interrupted, the
point `r` satisfies the constraints of the call. -/
theorem liftCheck_sound (X : Collaborators) :
    ∀ (fuel : Nat) (a : LiftArgs X) (s : CheckState X) (b : Bool) (s1 : CheckState X),
      liftCheck X fuel a s = some (b, s1) → Sound X a.constraints b s1 := by
  intro fuel
  induction fuel with
  | zero => intro a s b s1 h; simp [liftCheck] at h
  | succ n ih =>
    intro a s b s1 h
    unfold liftCheck at h
    split at h
    · simp at h
    · simp only [Option.some.injEq, Prod.mk.injEq] at h
      obtain ⟨rfl, _⟩ := h
      exact Sound.of_false _ _
    · split at h
      · dsimp only at h
        split at h
        · simp only [Option.some.injEq] at h
          have := liftCheckBase_sound X a
            { s with cad := { s.cad with trace := s.cad.trace.set a.openVariableCount a.node } }
          rw [h] at this
          exact this
        · split at h
          · have hlift : SoundLift X a.constraints (liftCheck X n) := by
              intro a1 s2 b1 s3 hrun hc
              have := ih a1 s2 b1 s3 hrun
              rw [hc] at this
              exact this
            exact liftLoop_sound X _ a hlift _ _ _ _ _ _ _ _ h
          · simp at h
      · simp at h

theorem satisfiesBySetting_fst (X : Collaborators) (s : CheckState X) (sample : List X.RAN)
    (constraints : List X.Constraint) :
    (satisfiesBySetting X s sample constraints).1 = satisfies X sample constraints := by
  unfold satisfiesBySetting
  split
  · exact satisfiesWithGraph_fst X _ _ _
  · rfl

/-- `checkNode` is sound: when its first component is true and the engine is not marked
interrupted, the point `r` satisfies the constraints. -/
theorem checkNode_sound (X : Collaborators) (fuel : Nat) (node : X.Node)
    (fullRestart excludePrevious updateTrace : Bool) (constraints : List X.Constraint)
    (bounds : BoundMap X) (boundsNontrivial checkBounds : Bool) (dim : Nat)
    (s : CheckState X) (res : Bool × Bool) (s1 : CheckState X)
    (h : checkNode X fuel node fullRestart excludePrevious updateTrace constraints bounds
      boundsNontrivial checkBounds dim s = some (res, s1)) :
    Sound X constraints res.1 s1 := by
  unfold checkNode at h
  split at h
  · simp at h
  · split at h
    · simp only [Option.some.injEq, Prod.mk.injEq] at h
      obtain ⟨rfl, _⟩ := h
      exact Sound.of_false _ _
    · split at h
      · simp at h
      · simp only [Option.some.injEq, Prod.mk.injEq] at h
        obtain ⟨rfl, _⟩ := h
        exact Sound.of_false _ _
      · split at h
        · split at h
          · simp only [Option.some.injEq, Prod.mk.injEq] at h
            obtain ⟨rfl, _⟩ := h
            exact Sound.of_false _ _
          · dsimp only at h
            split at h
            · rename_i hsat
              rw [satisfiesBySetting_fst] at hsat
              have hsat1 := hsat
              split at h
              · split at h
                · simp at h
                · simp only [Option.some.injEq, Prod.mk.injEq] at h
                  obtain ⟨rfl, rfl⟩ := h
                  intro _ _
                  exact hsat1
              · simp only [Option.some.injEq, Prod.mk.injEq] at h
                obtain ⟨rfl, rfl⟩ := h
                intro _ _
                exact hsat1
            · simp only [Option.some.injEq, Prod.mk.injEq] at h
              obtain ⟨rfl, _⟩ := h
              exact Sound.of_false _ _
        · split at h
          · simp at h
          · split at h
            · simp at h
            · rename_i hl
              simp only [Option.some.injEq, Prod.mk.injEq] at h
              obtain ⟨rfl, rfl⟩ := h
              exact liftCheck_sound X _ _ _ _ _ hl
            · simp only [Option.some.injEq, Prod.mk.injEq] at h
              obtain ⟨rfl, _⟩ := h
              exact Sound.of_false _ _

theorem tracePhase_sound (X : Collaborators) (fuel : Nat) (constraints : List X.Constraint)
    (bounds : BoundMap X) (next boundsNontrivial checkBounds : Bool) (dim : Nat) :
    ∀ (count tracePos : Nat) (s : CheckState X) (b : Bool) (s1 : CheckState X),
      tracePhase X fuel constraints bounds next boundsNontrivial checkBounds dim count
        tracePos s = some (b, s1) → Sound X constraints b s1 := by
  intro count
  induction count with
  | zero =>
    intro tracePos s b s1 h
    simp only [tracePhase, Option.some.injEq, Prod.mk.injEq] at h
    obtain ⟨rfl, _⟩ := h
    exact Sound.of_false _ _
  | succ n ih =>
    intro tracePos s b s1 h
    unfold tracePhase at h
    split at h
    · simp at h
    · split at h
      · simp at h
      · rename_i hc
        simp only [Option.some.injEq, Prod.mk.injEq] at h
        obtain ⟨rfl, rfl⟩ := h
        exact checkNode_sound X _ _ _ _ _ _ _ _ _ _ _ _ _ hc
      · exact ih _ _ _ _ h

theorem leafPhase_sound (X : Collaborators) (constraints : List X.Constraint)
    (bounds : BoundMap X) (next boundsNontrivial checkBounds : Bool) (dim : Nat) :
    ∀ (fuel : Nat) (leaf : X.Node) (s : CheckState X) (b : Bool) (s1 : CheckState X),
      leafPhase X constraints bounds next boundsNontrivial checkBounds dim fuel leaf s
        = some (b, s1) → Sound X constraints b s1 := by
  intro fuel
  induction fuel with
  | zero => intro leaf s b s1 h; simp [leafPhase] at h
  | succ n ih =>
    intro leaf s b s1 h
    unfold leafPhase at h
    split at h
    · simp only [Option.some.injEq, Prod.mk.injEq] at h
      obtain ⟨rfl, _⟩ := h
      exact Sound.of_false _ _
    · split at h
      · simp at h
      · rename_i hc
        simp only [Option.some.injEq, Prod.mk.injEq] at h
        obtain ⟨rfl, rfl⟩ := h
        exact checkNode_sound X _ _ _ _ _ _ _ _ _ _ _ _ _ hc
      · exact ih _ _ _ _ h

theorem nodePhase_sound (X : Collaborators) (root : X.Node) (constraints : List X.Constraint)
    (bounds : BoundMap X) (boundsNontrivial checkBounds : Bool) (dim level depth : Nat) :
    ∀ (fuel : Nat) (node : X.Node) (s : CheckState X) (b : Bool) (s1 : CheckState X),
      nodePhase X root constraints bounds boundsNontrivial checkBounds dim level depth fuel
        node s = some (b, s1) → Sound X constraints b s1 := by
  intro fuel
  induction fuel with
  | zero => intro node s b s1 h; simp [nodePhase] at h
  | succ n ih =>
    intro node s b s1 h
    unfold nodePhase at h
    split at h
    · split at h
      · simp at h
      · split at h
        · exact ih _ _ _ _ h
        · split at h
          · simp at h
          · exact ih _ _ _ _ h
          · split at h
            · simp at h
            · split at h
              · split at h
                · simp at h
                · rename_i hl
                  simp only [Option.some.injEq, Prod.mk.injEq] at h
                  obtain ⟨rfl, rfl⟩ := h
                  exact liftCheck_sound X _ _ _ _ _ hl
                · exact ih _ _ _ _ h
              · simp at h
    · simp only [Option.some.injEq, Prod.mk.injEq] at h
      obtain ⟨rfl, _⟩ := h
      exact Sound.of_false _ _

theorem liftingPhase_sound (X : Collaborators) (root : X.Node)
    (constraints : List X.Constraint) (bounds : BoundMap X)
    (boundsNontrivial checkBounds : Bool) (dim : Nat) :
    ∀ (fuel : Nat) (s : CheckState X) (b : Bool) (s1 : CheckState X),
      liftingPhase X root constraints bounds boundsNontrivial checkBounds dim fuel s
        = some (b, s1) → Sound X constraints b s1 := by
  intro fuel
  induction fuel with
  | zero => intro s b s1 h; simp [liftingPhase] at h
  | succ n ih =>
    intro s b s1 h
    unfold liftingPhase at h
    split at h
    · simp at h
    · split at h
      · simp at h
      · simp only [Option.some.injEq, Prod.mk.injEq] at h
        obtain ⟨rfl, _⟩ := h
        exact Sound.of_false _ _
      · split at h
        · dsimp only at h
          split at h
          · simp at h
          · rename_i hn
            simp only [Option.some.injEq, Prod.mk.injEq] at h
            obtain ⟨rfl, rfl⟩ := h
            exact nodePhase_sound X _ _ _ _ _ _ _ _ _ _ _ _ _ hn
          · split at h
            · simp at h
            · exact ih _ _ _ h
        · simp at h

theorem mainPhase1_sound (X : Collaborators) (fuel : Nat) (constraints : List X.Constraint)
    (bounds : BoundMap X) (next checkTraceFirst boundsNontrivial checkBounds : Bool)
    (dim maxDepth : Nat) (s : CheckState X) (b : Bool) (s1 : CheckState X) (maxDepth1 : Nat)
    (h : mainPhase1 X fuel constraints bounds next checkTraceFirst boundsNontrivial checkBounds
      dim maxDepth s = some (b, s1, maxDepth1)) :
    Sound X constraints b s1 := by
  unfold mainPhase1 at h
  split at h
  · split at h
    · simp at h
    · rename_i hp
      simp only [Option.some.injEq, Prod.mk.injEq] at h
      obtain ⟨rfl, rfl, _⟩ := h
      exact tracePhase_sound X _ _ _ _ _ _ _ _ _ _ _ _ hp
  · simp only [Option.some.injEq, Prod.mk.injEq] at h
    obtain ⟨rfl, _, _⟩ := h
    exact Sound.of_false _ _

theorem mainPhase2_sound (X : Collaborators) (fuel : Nat) (constraints : List X.Constraint)
    (bounds : BoundMap X) (next boundsNontrivial checkBounds : Bool) (dim maxDepth : Nat)
    (s : CheckState X) (b : Bool) (s1 : CheckState X)
    (h : mainPhase2 X fuel constraints bounds next boundsNontrivial checkBounds dim maxDepth s
      = some (b, s1)) :
    Sound X constraints b s1 := by
  unfold mainPhase2 at h
  split at h
  · split at h
    · simp at h
    · exact liftCheck_sound X _ _ _ _ _ h
  · exact leafPhase_sound X _ _ _ _ _ _ _ _ _ _ _ h

theorem mainPhase3_sound (X : Collaborators) (fuel : Nat) (sampleTreeRoot : X.Node)
    (constraints : List X.Constraint) (bounds : BoundMap X)
    (boundsNontrivial checkBounds : Bool) (dim maxDepth : Nat) (s : CheckState X) (b : Bool)
    (s1 : CheckState X)
    (h : mainPhase3 X fuel sampleTreeRoot constraints bounds boundsNontrivial checkBounds dim
      maxDepth s = some (b, s1)) :
    Sound X constraints b s1 := by
  unfold mainPhase3 at h
  split at h
  · simp only [Option.some.injEq, Prod.mk.injEq] at h
    obtain ⟨rfl, _⟩ := h
    exact Sound.of_false _ _
  · split at h
    · split at h
      · simp at h
      · rename_i hp
        simp only [Option.some.injEq, Prod.mk.injEq] at h
        obtain ⟨rfl, rfl⟩ := h
        exact liftingPhase_sound X _ _ _ _ _ _ _ _ _ _ hp
      · split at h
        · simp only [Option.some.injEq, Prod.mk.injEq] at h
          obtain ⟨rfl, _⟩ := h
          exact Sound.of_false _ _
        · simp only [Option.some.injEq, Prod.mk.injEq] at h
          obtain ⟨rfl, _⟩ := h
          exact Sound.of_false _ _
    · simp at h

/-- `mainCheck` is sound for its constraints as it leaves them: when it returns true on a
non-empty constraint list and the engine is not marked interrupted, the point `r` satisfies
every constraint; the constraints it leaves are the given ones after `unifyVariables`. -/
theorem mainCheck_sound (X : Collaborators) (fuel : Nat) (constraints : List X.Constraint)
    (bounds : BoundMap X) (next checkTraceFirst boundsNontrivial checkBounds : Bool)
    (s : CheckState X) (b : Bool) (constraints1 : List X.Constraint) (s1 : CheckState X)
    (hne : constraints ≠ [])
    (h : mainCheck X fuel constraints bounds next checkTraceFirst boundsNontrivial checkBounds s
      = some (b, constraints1, s1)) :
    Sound X constraints1 b s1 ∧
    (b = true →
      constraints1 = constraints.map (fun c => X.unifyVariables c s.cad.mVariables)) := by
  unfold mainCheck at h
  split at h
  · simp only [Option.some.injEq, Prod.mk.injEq] at h
    obtain ⟨rfl, rfl, rfl⟩ := h
    have : constraints.isEmpty = false := by
      cases constraints with
      | nil => exact absurd rfl hne
      | cons _ _ => rfl
    rw [this]
    exact ⟨Sound.of_false _ _, fun hb => absurd hb (by decide)⟩
  · dsimp only at h
    split at h
    · simp at h
    · rename_i hp1
      simp only [Option.some.injEq, Prod.mk.injEq] at h
      obtain ⟨rfl, rfl, rfl⟩ := h
      exact ⟨mainPhase1_sound X _ _ _ _ _ _ _ _ _ _ _ _ _ hp1, fun _ => rfl⟩
    · split at h
      · simp at h
      · rename_i hp2
        simp only [Option.some.injEq, Prod.mk.injEq] at h
        obtain ⟨rfl, rfl, rfl⟩ := h
        exact ⟨mainPhase2_sound X _ _ _ _ _ _ _ _ _ _ _ hp2, fun _ => rfl⟩
      · split at h
        · simp at h
        · rename_i hp3
          simp only [Option.some.injEq, Prod.mk.injEq] at h
          obtain ⟨rfl, rfl, rfl⟩ := h
          exact ⟨mainPhase3_sound X _ _ _ _ _ _ _ _ _ _ _ hp3, fun _ => rfl⟩

theorem alterSetting_sameOutcome (X : Collaborators) (s : CheckState X)
    (setting : CADSettings) : SameOutcome X s (alterSetting X s setting) :=
  ⟨rfl, rfl⟩

theorem onMembers_sameOutcome (X : Collaborators) (s : CheckState X)
    (f : Members X.Tree X.Node → Members X.Tree X.Node) : SameOutcome X s (onMembers X s f) :=
  ⟨rfl, rfl⟩

theorem checkFinish_sameOutcome (X : Collaborators) (s : CheckState X) (useBounds : Bool)
    (boundPolynomials : List (UnivariatePolynomialPtr × UnivariatePolynomialPtr))
    (backup : CADSettings) :
    SameOutcome X s (checkFinish X s useBounds boundPolynomials backup) := by
  unfold checkFinish
  cases useBounds
  · exact ⟨rfl, rfl⟩
  · exact ⟨rfl, rfl⟩

theorem checkSearch_sound (X : Collaborators) (fuel : Nat) (s : CheckState X)
    (constraints : List X.Constraint) (bounds : BoundMap X)
    (next checkTraceFirst useBounds onlyStrictBounds checkBounds : Bool) (res : CheckResult X)
    (hne : constraints ≠ [])
    (hrun : checkSearch X fuel s constraints bounds next checkTraceFirst useBounds
      onlyStrictBounds checkBounds = some res)
    (htrue : res.satisfiable = true) (hint : res.state.cad.interrupted = false) :
    satisfies X res.state.r res.constraints = true ∧
    ∃ variableList,
      res.constraints = constraints.map (fun c => X.unifyVariables c variableList) := by
  unfold checkSearch at hrun
  dsimp only at hrun
  split at hrun
  · simp at hrun
  · rename_i satisfiable constraints1 s4 hmain
    simp only [Option.some.injEq] at hrun
    subst hrun
    obtain ⟨hsound, hmap⟩ := mainCheck_sound X _ _ _ _ _ _ _ _ _ _ _ hne hmain
    have hsame := checkFinish_sameOutcome X s4 useBounds
      (X.insertBoundPolynomials
        (onMembers X (separateEquations X s constraints useBounds onlyStrictBounds)
          X.prepareElimination).cad.toMembers bounds).2 s.cad.setting
    exact ⟨hsound.of_sameOutcome hsame htrue hint, _, hmap htrue⟩

/-- C1. Soundness of `check`: whenever `check` returns true on a non-empty constraint list and
the flag `interrupted` is not set afterwards, the point `r` written by the call satisfies every
constraint: `satisfies(r, constraints)` is true for the constraint list as the call leaves it
(the given constraints and the bound constraints, after `unifyVariables`), and each given
constraint, unified with the variable order of the engine, is satisfied by `r`. -/
theorem check_sound (X : Collaborators) (fuel : Nat) (s : CheckState X)
    (constraints : List X.Constraint) (bounds : BoundMap X)
    (next checkTraceFirst checkBounds : Bool) (res : CheckResult X)
    (hne : constraints ≠ [])
    (hrun : check X fuel s constraints bounds next checkTraceFirst checkBounds = some res)
    (htrue : res.satisfiable = true) (hint : res.state.cad.interrupted = false) :
    satisfies X res.state.r res.constraints = true ∧
    ∃ variableList, ∀ c ∈ constraints,
      X.satisfiedBy (X.unifyVariables c variableList) res.state.r = true := by
  have hne1 : ∀ extra : List X.Constraint, constraints ++ extra ≠ [] := by
    intro extra h
    cases constraints with
    | nil => exact hne rfl
    | cons _ _ => simp at h
  have hne2 : ∀ extra : List X.Constraint, (constraints ++ extra).isEmpty = false := by
    intro extra
    cases h : constraints ++ extra with
    | nil => exact absurd h (hne1 extra)
    | cons _ _ => rfl
  unfold check at hrun
  dsimp only at hrun
  rw [hne2] at hrun
  simp only [Bool.false_eq_true, if_false] at hrun
  split at hrun
  · simp only [Option.some.injEq] at hrun
    subst hrun
    exact Bool.noConfusion htrue
  · obtain ⟨hsat, variableList, hmap⟩ :=
      checkSearch_sound X _ _ _ _ _ _ _ _ _ res (hne1 _) hrun htrue hint
    refine ⟨hsat, variableList, ?_⟩
    intro c hc
    have hmem := (satisfies_iff X res.state.r res.constraints).mp hsat
    rw [hmap] at hmem
    exact hmem _ (List.mem_map.mpr ⟨c, List.mem_append_left _ hc, rfl⟩)

/-- C1, instance: `check` on the example engine for the constraint `x - 2 = 0` returns true
without interruption, and the point it writes satisfies the constraint. -/
theorem check_sound_witness :
    check (exampleCollaborators neverInterrupted) 10 (exampleEngine neverInterrupted)
      [(2, Sign.ZERO)] [] false false false = some exampleCheckResult ∧
    exampleCheckResult.satisfiable = true ∧
    exampleCheckResult.state.cad.interrupted = false ∧
    exampleCheckResult.state.r = [2] ∧
    satisfies (exampleCollaborators neverInterrupted) exampleCheckResult.state.r
      exampleCheckResult.constraints = true :=
  ⟨rfl, rfl, rfl, rfl,
    (check_sound (exampleCollaborators neverInterrupted) 10 (exampleEngine neverInterrupted)
      [(2, Sign.ZERO)] [] false false false exampleCheckResult (List.cons_ne_nil _ _)
      rfl rfl rfl).1⟩

end CAD

/-! ## Interruption of the lifting phase -/

namespace CAD

theorem Prompt.of_true {X : Collaborators} (s : CheckState X) : Prompt X true s :=
  fun _ => rfl

theorem Prompt.of_not_interrupted {X : Collaborators} (b : Bool) {s : CheckState X}
    (h : s.cad.interrupted = false) : Prompt X b s := by
  intro hi
  rw [h] at hi
  exact Bool.noConfusion hi

theorem Prompt.not_interrupted {X : Collaborators} {s : CheckState X}
    (h : Prompt X false s) : s.cad.interrupted = false := by
  cases hi : s.cad.interrupted with
  | false => rfl
  | true => exact Bool.noConfusion (h hi)

theorem storeUnused_sameOutcome (X : Collaborators) (node : X.Node) :
    ∀ (fuel : Nat) (increment : X.SampleSet) (s s1 : CheckState X),
      storeUnused X node fuel increment s = some s1 → SameOutcome X s s1 := by
  intro fuel
  induction fuel with
  | zero => intro increment s s1 h; simp [storeUnused] at h
  | succ n ih =>
    intro increment s s1 h
    unfold storeUnused at h
    split at h
    · exact (storeSample_sameOutcome X s _ node).trans (ih _ _ _ h)
    · simp only [Option.some.injEq] at h
      subst h; exact SameOutcome.refl X s

theorem storeSamples_sameOutcome (X : Collaborators) (node : X.Node) :
    ∀ (samples : List X.RAN) (s : CheckState X),
      SameOutcome X s (samples.foldl (fun st x => (storeSample X st x node).1) s) := by
  intro samples
  induction samples with
  | nil => intro s; exact SameOutcome.refl X s
  | cons x xs ih =>
    intro s
    rw [List.foldl_cons]
    exact (storeSample_sameOutcome X s x node).trans (ih _)

theorem constructSamples_sameOutcome (X : Collaborators) (a : LiftArgs X)
    (openVariableCount : Nat) (bound : Option X.Interval) (loc : LiftLocals X)
    (s : CheckState X) (b : Bool) (loc1 : LiftLocals X) (s1 : CheckState X)
    (h : constructSamples X a openVariableCount bound loc s = some (b, loc1, s1)) :
    SameOutcome X s s1 := by
  unfold constructSamples at h
  split at h
  · simp at h
  · split at h
    · simp only [Option.some.injEq, Prod.mk.injEq] at h
      obtain ⟨_, _, rfl⟩ := h
      exact SameOutcome.refl X s
    · split at h
      · simp at h
      · split at h
        · simp at h
        · dsimp only at h
          split at h
          · simp at h
          · rename_i res _
            simp only [Option.some.injEq, Prod.mk.injEq] at h
            obtain ⟨_, _, rfl⟩ := h
            have h1 := storeSamples_sameOutcome X a.node res.2.2 s
            exact ⟨h1.1, h1.2⟩

theorem liftPhase1_sameOutcome (X : Collaborators) (a : LiftArgs X) (openVariableCount : Nat)
    (bound : Option X.Interval) :
    ∀ (fuel : Nat) (loc : LiftLocals X) (s : CheckState X) (loc1 : LiftLocals X)
      (s1 : CheckState X),
      liftPhase1 X a openVariableCount bound fuel loc s = some (loc1, s1) →
      SameOutcome X s s1 := by
  intro fuel
  induction fuel with
  | zero => intro loc s loc1 s1 h; simp [liftPhase1] at h
  | succ n ih =>
    intro loc s loc1 s1 h
    unfold liftPhase1 at h
    split at h
    · split at h
      · simp at h
      · rename_i hc
        exact (constructSamples_sameOutcome X a _ _ _ _ _ _ _ hc).trans (ih _ _ _ _ h)
      · rename_i hc
        simp only [Option.some.injEq, Prod.mk.injEq] at h
        obtain ⟨_, rfl⟩ := h
        exact constructSamples_sameOutcome X a _ _ _ _ _ _ _ hc
    · simp only [Option.some.injEq, Prod.mk.injEq] at h
      obtain ⟨_, rfl⟩ := h
      exact SameOutcome.refl X s

theorem initialElimination_sameOutcome (X : Collaborators) (bounds : BoundMap X)
    (boundsNontrivial : Bool) (dim : Nat) :
    ∀ (fuel : Nat) (s s1 : CheckState X),
      initialElimination X bounds boundsNontrivial dim fuel s = some s1 →
      SameOutcome X s s1 := by
  intro fuel
  induction fuel with
  | zero => intro s s1 h; simp [initialElimination] at h
  | succ n ih =>
    intro s s1 h
    unfold initialElimination at h
    split at h
    · simp at h
    · split at h
      · dsimp only at h
        split at h
        · have h1 := ih _ _ h
          exact ⟨h1.1, h1.2⟩
        · simp only [Option.some.injEq] at h
          subst h
          exact ⟨rfl, rfl⟩
      · simp only [Option.some.injEq] at h
        subst h
        exact SameOutcome.refl X s

theorem liftCheckBase_prompt (X : Collaborators) (a : LiftArgs X) (s : CheckState X)
    (hs : s.cad.interrupted = false) :
    Prompt X (liftCheckBase X a s).1 (liftCheckBase X a s).2 := by
  unfold liftCheckBase
  dsimp only
  split
  · exact Prompt.of_true _
  · split
    · split
      · exact Prompt.of_true _
      · exact Prompt.of_not_interrupted _ hs
    · split
      · exact Prompt.of_true _
      · exact Prompt.of_not_interrupted _ hs

/-- At the base level, an answer of the interruption flags makes `liftCheck` mark the engine
and return true; `r` and the conflict graph are left as they are. -/
theorem liftCheckBase_interrupted (X : Collaborators) (a : LiftArgs X) (s : CheckState X)
    (hq : X.anAnswerFound s.cad.queries = true) :
    (liftCheckBase X a s).1 = true ∧ (liftCheckBase X a s).2.cad.interrupted = true ∧
    (liftCheckBase X a s).2.r = s.r ∧
    (liftCheckBase X a s).2.conflictGraph = s.conflictGraph := by
  unfold liftCheckBase
  dsimp only
  rw [if_pos hq]
  exact ⟨rfl, rfl, rfl, rfl⟩

theorem liftPhase2_prompt (X : Collaborators)
    (lift : LiftArgs X → CheckState X → Option (Bool × CheckState X)) (a : LiftArgs X)
    (hlift : PromptLift X lift) (openVariableCount : Nat) (newVariables : List Variable) :
    ∀ (fuel : Nat) (loc : LiftLocals X) (s : CheckState X) (b : Bool) (loc1 : LiftLocals X)
      (s1 : CheckState X), s.cad.interrupted = false →
      liftPhase2 X lift a openVariableCount newVariables fuel loc s = some (b, loc1, s1) →
      Prompt X b s1 := by
  intro fuel
  induction fuel with
  | zero => intro loc s b loc1 s1 _ h; simp [liftPhase2] at h
  | succ n ih =>
    intro loc s b loc1 s1 hs h
    unfold liftPhase2 at h
    split at h
    · split at h
      · simp at h
      · split at h
        · simp only [Option.some.injEq, Prod.mk.injEq] at h
          obtain ⟨rfl, _, rfl⟩ := h
          exact Prompt.of_not_interrupted _ hs
        · dsimp only at h
          split at h
          · simp at h
          · rename_i liftingSuccessful s2 hrec
            have hp := hlift _ _ _ _ hrec hs
            split at h
            · split at h
              · simp at h
              · simp only [Option.some.injEq, Prod.mk.injEq] at h
                obtain ⟨rfl, _, _⟩ := h
                exact Prompt.of_true _
            · rename_i hfalse
              have hb : liftingSuccessful = false := by simpa using hfalse
              subst hb
              exact ih _ _ _ _ _ hp.not_interrupted h
    · simp only [Option.some.injEq, Prod.mk.injEq] at h
      obtain ⟨rfl, _, rfl⟩ := h
      exact Prompt.of_not_interrupted _ hs

theorem liftLoop_prompt (X : Collaborators)
    (lift : LiftArgs X → CheckState X → Option (Bool × CheckState X)) (a : LiftArgs X)
    (hlift : PromptLift X lift) (openVariableCount : Nat) (bound : Option X.Interval)
    (newVariables : List Variable) :
    ∀ (fuel : Nat) (loc : LiftLocals X) (s : CheckState X) (b : Bool) (s1 : CheckState X),
      s.cad.interrupted = false →
      liftLoop X lift a openVariableCount bound newVariables fuel loc s = some (b, s1) →
      Prompt X b s1 := by
  intro fuel
  induction fuel with
  | zero => intro loc s b s1 _ h; simp [liftLoop] at h
  | succ n ih =>
    intro loc s b s1 hs h
    unfold liftLoop at h
    split at h
    · simp at h
    · rename_i loc1 s2 hp1
      have hs2 : s2.cad.interrupted = false :=
        (liftPhase1_sameOutcome X a _ _ _ _ _ _ _ hp1).2.trans hs
      split at h
      · simp at h
      · simp only [Option.some.injEq, Prod.mk.injEq] at h
        obtain ⟨rfl, _⟩ := h
        exact Prompt.of_true _
      · rename_i loc2 s3 hp2
        have hs3 : s3.cad.interrupted = false :=
          (liftPhase2_prompt X lift a hlift _ _ _ _ _ _ _ _ hs2 hp2).not_interrupted
        split at h
        · simp at h
        · split at h
          · split at h
            · split at h
              · simp at h
              · rename_i s4 hst
                simp only [Option.some.injEq, Prod.mk.injEq] at h
                obtain ⟨rfl, rfl⟩ := h
                exact Prompt.of_not_interrupted _
                  ((storeUnused_sameOutcome X _ _ _ _ _ hst).2.trans hs3)
            · simp only [Option.some.injEq, Prod.mk.injEq] at h
              obtain ⟨rfl, rfl⟩ := h
              exact Prompt.of_not_interrupted _ hs3
          · exact ih _ _ _ _ hs3 h

/-- `liftCheck` passes an interruption on: if the engine was not marked interrupted before the
call and is marked afterwards, the call returned true. -/
theorem liftCheck_prompt (X : Collaborators) :
    ∀ (fuel : Nat) (a : LiftArgs X) (s : CheckState X) (b : Bool) (s1 : CheckState X),
      liftCheck X fuel a s = some (b, s1) → s.cad.interrupted = false → Prompt X b s1 := by
  intro fuel
  induction fuel with
  | zero => intro a s b s1 h; simp [liftCheck] at h
  | succ n ih =>
    intro a s b s1 h hs
    unfold liftCheck at h
    split at h
    · simp at h
    · simp only [Option.some.injEq, Prod.mk.injEq] at h
      obtain ⟨rfl, rfl⟩ := h
      exact Prompt.of_not_interrupted _ hs
    · split at h
      · dsimp only at h
        split at h
        · simp only [Option.some.injEq] at h
          have := liftCheckBase_prompt X a
            { s with cad := { s.cad with trace := s.cad.trace.set a.openVariableCount a.node } }
            hs
          rw [h] at this
          exact this
        · split at h
          · exact liftLoop_prompt X _ a ih _ _ _ _ _ _ _ _ (by exact hs) h
          · simp at h
      · simp at h

theorem checkNode_prompt (X : Collaborators) (fuel : Nat) (node : X.Node)
    (fullRestart excludePrevious updateTrace : Bool) (constraints : List X.Constraint)
    (bounds : BoundMap X) (boundsNontrivial checkBounds : Bool) (dim : Nat)
    (s : CheckState X) (res : Bool × Bool) (s1 : CheckState X)
    (hs : s.cad.interrupted = false)
    (h : checkNode X fuel node fullRestart excludePrevious updateTrace constraints bounds
      boundsNontrivial checkBounds dim s = some (res, s1)) :
    Prompt X res.1 s1 := by
  unfold checkNode at h
  split at h
  · simp at h
  · split at h
    · simp only [Option.some.injEq, Prod.mk.injEq] at h
      obtain ⟨rfl, rfl⟩ := h
      exact Prompt.of_not_interrupted _ hs
    · split at h
      · simp at h
      · simp only [Option.some.injEq, Prod.mk.injEq] at h
        obtain ⟨rfl, rfl⟩ := h
        exact Prompt.of_not_interrupted _ hs
      · split at h
        · split at h
          · simp only [Option.some.injEq, Prod.mk.injEq] at h
            obtain ⟨rfl, rfl⟩ := h
            exact Prompt.of_not_interrupted _ hs
          · dsimp only at h
            split at h
            · split at h
              · split at h
                · simp at h
                · simp only [Option.some.injEq, Prod.mk.injEq] at h
                  obtain ⟨rfl, _⟩ := h
                  exact Prompt.of_true _
              · simp only [Option.some.injEq, Prod.mk.injEq] at h
                obtain ⟨rfl, _⟩ := h
                exact Prompt.of_true _
            · simp only [Option.some.injEq, Prod.mk.injEq] at h
              obtain ⟨rfl, rfl⟩ := h
              exact Prompt.of_not_interrupted _ hs
        · split at h
          · simp at h
          · split at h
            · simp at h
            · simp only [Option.some.injEq, Prod.mk.injEq] at h
              obtain ⟨rfl, _⟩ := h
              exact Prompt.of_true _
            · rename_i hl
              simp only [Option.some.injEq, Prod.mk.injEq] at h
              obtain ⟨rfl, rfl⟩ := h
              exact liftCheck_prompt X _ _ _ _ _ hl hs

theorem tracePhase_prompt (X : Collaborators) (fuel : Nat) (constraints : List X.Constraint)
    (bounds : BoundMap X) (next boundsNontrivial checkBounds : Bool) (dim : Nat) :
    ∀ (count tracePos : Nat) (s : CheckState X) (b : Bool) (s1 : CheckState X),
      s.cad.interrupted = false →
      tracePhase X fuel constraints bounds next boundsNontrivial checkBounds dim count
        tracePos s = some (b, s1) → Prompt X b s1 := by
  intro count
  induction count with
  | zero =>
    intro tracePos s b s1 hs h
    simp only [tracePhase, Option.some.injEq, Prod.mk.injEq] at h
    obtain ⟨rfl, rfl⟩ := h
    exact Prompt.of_not_interrupted _ hs
  | succ n ih =>
    intro tracePos s b s1 hs h
    unfold tracePhase at h
    split at h
    · simp at h
    · split at h
      · simp at h
      · simp only [Option.some.injEq, Prod.mk.injEq] at h
        obtain ⟨rfl, _⟩ := h
        exact Prompt.of_true _
      · rename_i hc
        have := checkNode_prompt X _ _ _ _ _ _ _ _ _ _ _ _ _ hs hc
        exact ih _ _ _ _ this.not_interrupted h

theorem leafPhase_prompt (X : Collaborators) (constraints : List X.Constraint)
    (bounds : BoundMap X) (next boundsNontrivial checkBounds : Bool) (dim : Nat) :
    ∀ (fuel : Nat) (leaf : X.Node) (s : CheckState X) (b : Bool) (s1 : CheckState X),
      s.cad.interrupted = false →
      leafPhase X constraints bounds next boundsNontrivial checkBounds dim fuel leaf s
        = some (b, s1) → Prompt X b s1 := by
  intro fuel
  induction fuel with
  | zero => intro leaf s b s1 _ h; simp [leafPhase] at h
  | succ n ih =>
    intro leaf s b s1 hs h
    unfold leafPhase at h
    split at h
    · simp only [Option.some.injEq, Prod.mk.injEq] at h
      obtain ⟨rfl, rfl⟩ := h
      exact Prompt.of_not_interrupted _ hs
    · split at h
      · simp at h
      · simp only [Option.some.injEq, Prod.mk.injEq] at h
        obtain ⟨rfl, _⟩ := h
        exact Prompt.of_true _
      · rename_i hc
        have := checkNode_prompt X _ _ _ _ _ _ _ _ _ _ _ _ _ hs hc
        exact ih _ _ _ _ this.not_interrupted h

theorem nodePhase_prompt (X : Collaborators) (root : X.Node) (constraints : List X.Constraint)
    (bounds : BoundMap X) (boundsNontrivial checkBounds : Bool) (dim level depth : Nat) :
    ∀ (fuel : Nat) (node : X.Node) (s : CheckState X) (b : Bool) (s1 : CheckState X),
      s.cad.interrupted = false →
      nodePhase X root constraints bounds boundsNontrivial checkBounds dim level depth fuel
        node s = some (b, s1) → Prompt X b s1 := by
  intro fuel
  induction fuel with
  | zero => intro node s b s1 _ h; simp [nodePhase] at h
  | succ n ih =>
    intro node s b s1 hs h
    unfold nodePhase at h
    split at h
    · split at h
      · simp at h
      · split at h
        · exact ih _ _ _ _ hs h
        · split at h
          · simp at h
          · exact ih _ _ _ _ hs h
          · split at h
            · simp at h
            · split at h
              · split at h
                · simp at h
                · simp only [Option.some.injEq, Prod.mk.injEq] at h
                  obtain ⟨rfl, _⟩ := h
                  exact Prompt.of_true _
                · rename_i hl
                  have := liftCheck_prompt X _ _ _ _ _ hl hs
                  exact ih _ _ _ _ this.not_interrupted h
              · simp at h
    · simp only [Option.some.injEq, Prod.mk.injEq] at h
      obtain ⟨rfl, rfl⟩ := h
      exact Prompt.of_not_interrupted _ hs

theorem locateLevel_sameOutcome (X : Collaborators) (s : CheckState X) (bounds : BoundMap X)
    (boundsNontrivial : Bool) (dim : Nat) (found level : Option Nat) (s1 : CheckState X)
    (h : locateLevel X s bounds boundsNontrivial dim found = some (level, s1)) :
    SameOutcome X s s1 := by
  unfold locateLevel at h
  split at h
  · simp only [Option.some.injEq, Prod.mk.injEq] at h
    obtain ⟨_, rfl⟩ := h
    exact SameOutcome.refl X s
  · dsimp only at h
    split at h
    · simp only [Option.some.injEq, Prod.mk.injEq] at h
      obtain ⟨_, rfl⟩ := h
      exact ⟨rfl, rfl⟩
    · split at h
      · simp at h
      · split at h
        · simp at h
        · simp only [Option.some.injEq, Prod.mk.injEq] at h
          obtain ⟨_, rfl⟩ := h
          exact ⟨rfl, rfl⟩

theorem liftingPhase_prompt (X : Collaborators) (root : X.Node)
    (constraints : List X.Constraint) (bounds : BoundMap X)
    (boundsNontrivial checkBounds : Bool) (dim : Nat) :
    ∀ (fuel : Nat) (s : CheckState X) (b : Bool) (s1 : CheckState X),
      s.cad.interrupted = false →
      liftingPhase X root constraints bounds boundsNontrivial checkBounds dim fuel s
        = some (b, s1) → Prompt X b s1 := by
  intro fuel
  induction fuel with
  | zero => intro s b s1 _ h; simp [liftingPhase] at h
  | succ n ih =>
    intro s b s1 hs h
    unfold liftingPhase at h
    split at h
    · simp at h
    · split at h
      · simp at h
      · rename_i s2 hl
        simp only [Option.some.injEq, Prod.mk.injEq] at h
        obtain ⟨rfl, rfl⟩ := h
        exact Prompt.of_not_interrupted _
          ((locateLevel_sameOutcome X _ _ _ _ _ _ _ hl).2.trans hs)
      · rename_i level s2 hl
        have hs2 := (locateLevel_sameOutcome X _ _ _ _ _ _ _ hl).2.trans hs
        split at h
        · dsimp only at h
          split at h
          · simp at h
          · simp only [Option.some.injEq, Prod.mk.injEq] at h
            obtain ⟨rfl, _⟩ := h
            exact Prompt.of_true _
          · rename_i hn
            have hp := nodePhase_prompt X _ _ _ _ _ _ _ _ _ _ _ _ _ hs2 hn
            split at h
            · simp at h
            · exact ih _ _ _ (by exact hp.not_interrupted) h
        · simp at h

theorem mainPhase1_prompt (X : Collaborators) (fuel : Nat) (constraints : List X.Constraint)
    (bounds : BoundMap X) (next checkTraceFirst boundsNontrivial checkBounds : Bool)
    (dim maxDepth : Nat) (s : CheckState X) (b : Bool) (s1 : CheckState X) (maxDepth1 : Nat)
    (hs : s.cad.interrupted = false)
    (h : mainPhase1 X fuel constraints bounds next checkTraceFirst boundsNontrivial checkBounds
      dim maxDepth s = some (b, s1, maxDepth1)) :
    Prompt X b s1 := by
  unfold mainPhase1 at h
  split at h
  · split at h
    · simp at h
    · rename_i hp
      simp only [Option.some.injEq, Prod.mk.injEq] at h
      obtain ⟨rfl, rfl, _⟩ := h
      exact tracePhase_prompt X _ _ _ _ _ _ _ _ _ _ _ _ hs hp
  · simp only [Option.some.injEq, Prod.mk.injEq] at h
    obtain ⟨rfl, rfl, _⟩ := h
    exact Prompt.of_not_interrupted _ hs

theorem mainPhase2_prompt (X : Collaborators) (fuel : Nat) (constraints : List X.Constraint)
    (bounds : BoundMap X) (next boundsNontrivial checkBounds : Bool) (dim maxDepth : Nat)
    (s : CheckState X) (b : Bool) (s1 : CheckState X) (hs : s.cad.interrupted = false)
    (h : mainPhase2 X fuel constraints bounds next boundsNontrivial checkBounds dim maxDepth s
      = some (b, s1)) :
    Prompt X b s1 := by
  unfold mainPhase2 at h
  split at h
  · split at h
    · simp at h
    · rename_i s2 he
      exact liftCheck_prompt X _ _ _ _ _ h
        ((initialElimination_sameOutcome X _ _ _ _ _ _ he).2.trans hs)
  · exact leafPhase_prompt X _ _ _ _ _ _ _ _ _ _ _ hs h

theorem mainPhase3_prompt (X : Collaborators) (fuel : Nat) (sampleTreeRoot : X.Node)
    (constraints : List X.Constraint) (bounds : BoundMap X)
    (boundsNontrivial checkBounds : Bool) (dim maxDepth : Nat) (s : CheckState X) (b : Bool)
    (s1 : CheckState X) (hs : s.cad.interrupted = false)
    (h : mainPhase3 X fuel sampleTreeRoot constraints bounds boundsNontrivial checkBounds dim
      maxDepth s = some (b, s1)) :
    Prompt X b s1 := by
  unfold mainPhase3 at h
  split at h
  · simp only [Option.some.injEq, Prod.mk.injEq] at h
    obtain ⟨rfl, rfl⟩ := h
    exact Prompt.of_not_interrupted _ hs
  · split at h
    · split at h
      · simp at h
      · simp only [Option.some.injEq, Prod.mk.injEq] at h
        obtain ⟨rfl, _⟩ := h
        exact Prompt.of_true _
      · rename_i s2 hp
        have hs2 := (liftingPhase_prompt X _ _ _ _ _ _ _ _ _ _ hs hp).not_interrupted
        split at h
        · simp only [Option.some.injEq, Prod.mk.injEq] at h
          obtain ⟨rfl, rfl⟩ := h
          exact Prompt.of_not_interrupted _ hs2
        · simp only [Option.some.injEq, Prod.mk.injEq] at h
          obtain ⟨rfl, rfl⟩ := h
          exact Prompt.of_not_interrupted _ hs2
    · simp at h

theorem mainCheck_prompt (X : Collaborators) (fuel : Nat) (constraints : List X.Constraint)
    (bounds : BoundMap X) (next checkTraceFirst boundsNontrivial checkBounds : Bool)
    (s : CheckState X) (b : Bool) (constraints1 : List X.Constraint) (s1 : CheckState X)
    (hs : s.cad.interrupted = false)
    (h : mainCheck X fuel constraints bounds next checkTraceFirst boundsNontrivial checkBounds s
      = some (b, constraints1, s1)) :
    Prompt X b s1 := by
  unfold mainCheck at h
  split at h
  · simp only [Option.some.injEq, Prod.mk.injEq] at h
    obtain ⟨_, _, rfl⟩ := h
    exact Prompt.of_not_interrupted _ hs
  · dsimp only at h
    split at h
    · simp at h
    · simp only [Option.some.injEq, Prod.mk.injEq] at h
      obtain ⟨rfl, _, _⟩ := h
      exact Prompt.of_true _
    · rename_i hp1
      have hs1 := (mainPhase1_prompt X _ _ _ _ _ _ _ _ _ _ _ _ _ hs hp1).not_interrupted
      split at h
      · simp at h
      · simp only [Option.some.injEq, Prod.mk.injEq] at h
        obtain ⟨rfl, _, _⟩ := h
        exact Prompt.of_true _
      · rename_i hp2
        have hs2 := (mainPhase2_prompt X _ _ _ _ _ _ _ _ _ _ _ hs1 hp2).not_interrupted
        split at h
        · simp at h
        · rename_i hp3
          simp only [Option.some.injEq, Prod.mk.injEq] at h
          obtain ⟨rfl, _, rfl⟩ := h
          exact mainPhase3_prompt X _ _ _ _ _ _ _ _ _ _ _ hs2 hp3

theorem separateEquations_sameOutcome (X : Collaborators) (s : CheckState X)
    (constraints : List X.Constraint) (useBounds onlyStrictBounds : Bool) :
    SameOutcome X s (separateEquations X s constraints useBounds onlyStrictBounds) := by
  have hfold : ∀ (cs : List X.Constraint) (t : CheckState X),
      SameOutcome X t
        (cs.foldl (fun st c => onMembers X st (fun m => X.removePolynomialOf m c)) t) := by
    intro cs
    induction cs with
    | nil => intro t; exact SameOutcome.refl X t
    | cons c cs ih =>
      intro t
      rw [List.foldl_cons]
      exact (onMembers_sameOutcome X t _).trans (ih _)
  unfold separateEquations
  dsimp only
  split
  · split
    · exact (hfold _ s).trans (alterSetting_sameOutcome X _ _)
    · split
      · split
        · exact alterSetting_sameOutcome X _ _
        · split
          · exact alterSetting_sameOutcome X _ _
          · exact SameOutcome.refl X s
      · exact SameOutcome.refl X s
  · exact SameOutcome.refl X s

theorem checkSearch_prompt (X : Collaborators) (fuel : Nat) (s : CheckState X)
    (constraints : List X.Constraint) (bounds : BoundMap X)
    (next checkTraceFirst useBounds onlyStrictBounds checkBounds : Bool) (res : CheckResult X)
    (hs : s.cad.interrupted = false)
    (hrun : checkSearch X fuel s constraints bounds next checkTraceFirst useBounds
      onlyStrictBounds checkBounds = some res) :
    Prompt X res.satisfiable res.state := by
  unfold checkSearch at hrun
  dsimp only at hrun
  split at hrun
  · simp at hrun
  · rename_i satisfiable constraints1 s4 hmain
    simp only [Option.some.injEq] at hrun
    subst hrun
    have hs3 : (if useBounds = true then
        onMembers X
          (onMembers X (separateEquations X s constraints useBounds onlyStrictBounds)
            X.prepareElimination)
          (fun _ => (X.insertBoundPolynomials
            (onMembers X (separateEquations X s constraints useBounds onlyStrictBounds)
              X.prepareElimination).cad.toMembers bounds).1)
        else onMembers X (separateEquations X s constraints useBounds onlyStrictBounds)
          X.prepareElimination).cad.interrupted = false := by
      have := (separateEquations_sameOutcome X s constraints useBounds onlyStrictBounds).2
      split
      · exact this.trans hs
      · exact this.trans hs
    have hp := mainCheck_prompt X _ _ _ _ _ _ _ _ _ _ _ hs3 hmain
    intro hi
    apply hp
    exact (checkFinish_sameOutcome X s4 useBounds _ _).2 ▸ hi

/-- A `check` that ends with the engine marked interrupted has returned true. -/
theorem check_prompt (X : Collaborators) (fuel : Nat) (s : CheckState X)
    (constraints : List X.Constraint) (bounds : BoundMap X)
    (next checkTraceFirst checkBounds : Bool) (res : CheckResult X)
    (hrun : check X fuel s constraints bounds next checkTraceFirst checkBounds = some res) :
    Prompt X res.satisfiable res.state := by
  have hentry : (checkEntry X s).cad.interrupted = false := rfl
  unfold check at hrun
  dsimp only at hrun
  split at hrun
  · simp only [Option.some.injEq] at hrun
    subst hrun
    exact Prompt.of_not_interrupted _ hentry
  · split at hrun
    · simp only [Option.some.injEq] at hrun
      subst hrun
      exact Prompt.of_not_interrupted _ hentry
    · exact checkSearch_prompt X _ _ _ _ _ _ _ _ _ res hentry hrun

/-- At the base level `liftCheck` is `liftCheckBase` after the trace update. -/
theorem liftCheck_base (X : Collaborators) (fuel : Nat) (a : LiftArgs X) (s : CheckState X)
    (h0 : a.openVariableCount = 0) (hb : liftCheckOutsideBounds X a s = some false)
    (ht : 0 < s.cad.trace.length) :
    liftCheck X (fuel + 1) a s
      = some (liftCheckBase X a
          { s with cad := { s.cad with trace := s.cad.trace.set a.openVariableCount a.node } })
    := by
  have ht1 : a.openVariableCount < s.cad.trace.length := by rw [h0]; exact ht
  unfold liftCheck
  rw [hb]
  dsimp only
  rw [if_pos ht1, if_pos h0]

/-- C2, counterexample: on the example engine with the interruption flags set, `liftCheck` at
the base level marks the engine interrupted and returns true, not false, and the enclosing
`check` returns true as well. -/
theorem liftCheck_interrupted_returns_true :
    (exampleCollaborators alwaysInterrupted).anAnswerFound
      (exampleEngine alwaysInterrupted).cad.queries = true ∧
    (exampleBaseArgs alwaysInterrupted).openVariableCount = 0 ∧
    (liftCheck (exampleCollaborators alwaysInterrupted) 1 (exampleBaseArgs alwaysInterrupted)
      (exampleEngine alwaysInterrupted)).map (fun res => (res.1, res.2.cad.interrupted))
      = some (true, true) ∧
    (check (exampleCollaborators alwaysInterrupted) 10 (exampleEngine alwaysInterrupted)
      [(2, Sign.ZERO)] [] false false false).map
        (fun res => (res.satisfiable, res.state.cad.interrupted)) = some (true, true) := by
  decide

/-- C2, amended. When the interruption flags answer at the moment `liftCheck` reaches the base
level (`openVariableCount == 0`, after the bound test and the trace update), `liftCheck` sets
the flag `interrupted` of the engine and returns true, leaving `r` and the conflict graph as
they are; and every `check` that ends with the engine marked interrupted has returned true, so
the flag has to be read together with the answer. -/
theorem liftCheck_interruption (X : Collaborators) (fuel : Nat) (a : LiftArgs X)
    (s : CheckState X) (h0 : a.openVariableCount = 0)
    (hb : liftCheckOutsideBounds X a s = some false) (ht : 0 < s.cad.trace.length)
    (hq : X.anAnswerFound s.cad.queries = true) :
    (∃ s1, liftCheck X (fuel + 1) a s = some (true, s1) ∧ s1.cad.interrupted = true ∧
      s1.r = s.r ∧ s1.conflictGraph = s.conflictGraph) ∧
    (∀ (fuel1 : Nat) (s0 : CheckState X) (constraints : List X.Constraint)
      (bounds : BoundMap X) (next checkTraceFirst checkBounds : Bool) (res : CheckResult X),
      check X fuel1 s0 constraints bounds next checkTraceFirst checkBounds = some res →
      res.state.cad.interrupted = true → res.satisfiable = true) := by
  refine ⟨?_, fun fuel1 s0 constraints bounds next checkTraceFirst checkBounds res hrun =>
    check_prompt X fuel1 s0 constraints bounds next checkTraceFirst checkBounds res hrun⟩
  have hrun := liftCheck_base X fuel a s h0 hb ht
  have hbase := liftCheckBase_interrupted X a
    { s with cad := { s.cad with trace := s.cad.trace.set a.openVariableCount a.node } } hq
  generalize liftCheckBase X a
    { s with cad := { s.cad with trace := s.cad.trace.set a.openVariableCount a.node } }
    = out at hrun hbase
  obtain ⟨b, s1⟩ := out
  obtain ⟨hb1, hb2, hb3, hb4⟩ := hbase
  simp only at hb1 hb2 hb3 hb4
  subst hb1
  exact ⟨s1, hrun, hb2, hb3, hb4⟩

/-- C2, amended, instance: the base-level call on the example engine with the interruption
flags set. -/
theorem liftCheck_interruption_witness :
    ∃ s1, liftCheck (exampleCollaborators alwaysInterrupted) 1
        (exampleBaseArgs alwaysInterrupted) (exampleEngine alwaysInterrupted) = some (true, s1) ∧
      s1.cad.interrupted = true ∧ s1.r = (exampleEngine alwaysInterrupted).r ∧
      s1.conflictGraph = (exampleEngine alwaysInterrupted).conflictGraph :=
  (liftCheck_interruption (exampleCollaborators alwaysInterrupted) 0
    (exampleBaseArgs alwaysInterrupted) (exampleEngine alwaysInterrupted) rfl rfl
    (by decide) rfl).1

end CAD

/-! ## Parent lists of `insert` -/

namespace EliminationSet

theorem pair_incomparable_eq {less : PolynomialComparator} (h : StrictTotalOrder less)
    {x y : PolynomialPair} (h1 : PolynomialPairIsLess less x y = false)
    (h2 : PolynomialPairIsLess less y x = false) : x = y := by
  unfold PolynomialPairIsLess at h1 h2
  simp only at h1 h2
  by_cases hl1 : PolynomialPairIsLess.length x < PolynomialPairIsLess.length y
  · rw [if_pos hl1] at h1; exact absurd h1 (by decide)
  by_cases hl2 : PolynomialPairIsLess.length y < PolynomialPairIsLess.length x
  · rw [if_pos hl2] at h2; exact absurd h2 (by decide)
  rw [if_neg hl1, if_neg hl2] at h1
  rw [if_neg hl2, if_neg hl1] at h2
  have hx1 : less x.1 y.1 = false := by
    cases hc : less x.1 y.1 with
    | false => rfl
    | true => rw [hc] at h1; simp at h1
  have hy1 : less y.1 x.1 = false := by
    cases hc : less y.1 x.1 with
    | false => rfl
    | true => rw [hc] at h2; simp at h2
  have e1 : x.1 = y.1 := by
    by_contra hne
    rcases h.total _ _ hne with h3 | h3
    · rw [hx1] at h3; exact absurd h3 (by decide)
    · rw [hy1] at h3; exact absurd h3 (by decide)
  rw [hx1, if_neg (by simp), if_pos e1] at h1
  rw [hy1, if_neg (by simp), if_pos e1.symm] at h2
  have e2 : x.2 = y.2 := by
    by_contra hne
    rcases h.total _ _ hne with h3 | h3
    · rw [h1] at h3; exact absurd h3 (by decide)
    · rw [h2] at h3; exact absurd h3 (by decide)
  exact Prod.ext e1 e2

theorem mem_emplace {less : PolynomialComparator} (h : StrictTotalOrder less)
    (x q : PolynomialPair) :
    ∀ bucket : parentbucket, q ∈ parentbucket.emplace less bucket x ↔ q ∈ bucket ∨ q = x := by
  intro bucket
  induction bucket with
  | nil => simp [parentbucket.emplace]
  | cons y ys ih =>
    unfold parentbucket.emplace
    by_cases hxy : PolynomialPairIsLess less x y = true
    · rw [if_pos hxy]
      simp only [List.mem_cons]
      tauto
    · rw [if_neg hxy]
      by_cases hyx : PolynomialPairIsLess less y x = true
      · rw [if_pos hyx]
        simp only [List.mem_cons, ih]
        tauto
      · rw [if_neg hyx]
        have e : x = y := pair_incomparable_eq h (by simpa using hxy) (by simpa using hyx)
        subst e
        simp only [List.mem_cons]
        tauto

theorem insertParentStep_other (less : PolynomialComparator) (pos c : UnivariatePolynomialPtr)
    (hc : c ≠ pos) (st : ParentLoop) (parent : UnivariatePolynomialPtr) :
    (insertParentStep less pos st parent).parentsPerChild c = st.parentsPerChild c := by
  unfold insertParentStep
  dsimp only
  split
  · exact Function.update_noteq hc _ _
  · rfl

theorem insertParent_fold_other (less : PolynomialComparator) (pos c : UnivariatePolynomialPtr)
    (hc : c ≠ pos) :
    ∀ (parents : List UnivariatePolynomialPtr) (st : ParentLoop),
      (parents.foldl (insertParentStep less pos) st).parentsPerChild c = st.parentsPerChild c := by
  intro parents
  induction parents with
  | nil => intro st; rfl
  | cons x xs ih =>
    intro st
    rw [List.foldl_cons, ih, insertParentStep_other less pos c hc]

theorem insertParentStep_child (less : PolynomialComparator) (pos : UnivariatePolynomialPtr)
    (st : ParentLoop) (parent : UnivariatePolynomialPtr) :
    pos ∈ ((insertParentStep less pos st parent).childrenPerParent parent).getD [] := by
  have h : ∀ l : PolynomialSet, pos ∈ PolynomialSet.insert l pos := by
    intro l; unfold PolynomialSet.insert; split <;> simp_all
  unfold insertParentStep
  dsimp only
  split <;> simp [Function.update_same, h]

theorem insertParentStep_child_mono (less : PolynomialComparator)
    (pos q : UnivariatePolynomialPtr) (st : ParentLoop) (parent : UnivariatePolynomialPtr)
    (hq : pos ∈ (st.childrenPerParent q).getD []) :
    pos ∈ ((insertParentStep less pos st parent).childrenPerParent q).getD [] := by
  by_cases e : q = parent
  · subst e; exact insertParentStep_child less pos st q
  · unfold insertParentStep
    dsimp only
    split <;> simpa [Function.update_noteq e] using hq

theorem insertParent_fold_child_mono (less : PolynomialComparator)
    (pos q : UnivariatePolynomialPtr) :
    ∀ (parents : List UnivariatePolynomialPtr) (st : ParentLoop),
      pos ∈ (st.childrenPerParent q).getD [] →
      pos ∈ ((parents.foldl (insertParentStep less pos) st).childrenPerParent q).getD [] := by
  intro parents
  induction parents with
  | nil => intro st h; exact h
  | cons x xs ih =>
    intro st h
    rw [List.foldl_cons]
    exact ih _ (insertParentStep_child_mono less pos q st x h)

theorem insertParent_fold_child (less : PolynomialComparator) (pos : UnivariatePolynomialPtr) :
    ∀ (parents : List UnivariatePolynomialPtr) (st : ParentLoop) (q : UnivariatePolynomialPtr),
      q ∈ parents →
      pos ∈ ((parents.foldl (insertParentStep less pos) st).childrenPerParent q).getD [] := by
  intro parents
  induction parents with
  | nil => intro st q hq; simp at hq
  | cons x xs ih =>
    intro st q hq
    rw [List.foldl_cons]
    rcases List.mem_cons.mp hq with rfl | hq
    · exact insertParent_fold_child_mono less pos q xs _ (insertParentStep_child less pos st q)
    · exact ih _ q hq

/-- The bucket of `pos` after the loop over the parent list and the trailing single parent. -/
theorem insertParent_fold_pairs {less : PolynomialComparator} (h : StrictTotalOrder less)
    (pos : UnivariatePolynomialPtr) (pair : PolynomialPair) :
    ∀ (parents : List UnivariatePolynomialPtr) (st : ParentLoop),
      pair ∈ ((if (parents.foldl (insertParentStep less pos) st).oneParentFound then
          Function.update (parents.foldl (insertParentStep less pos) st).parentsPerChild pos
            (some (parentbucket.emplace less
              (((parents.foldl (insertParentStep less pos) st).parentsPerChild pos).getD [])
              ((parents.foldl (insertParentStep less pos) st).parent1, nullptr)))
        else (parents.foldl (insertParentStep less pos) st).parentsPerChild) pos).getD [] ↔
      pair ∈ (st.parentsPerChild pos).getD [] ∨
        pair ∈ parentPairs (if st.oneParentFound then st.parent1 :: parents else parents) := by
  intro parents
  induction parents with
  | nil =>
    intro st
    simp only [List.foldl_nil]
    cases hf : st.oneParentFound with
    | true =>
      simp only [if_true, Function.update_same, Option.getD_some, mem_emplace h, parentPairs,
        List.mem_singleton]
    | false => simp [parentPairs]
  | cons x xs ih =>
    intro st
    rw [List.foldl_cons, ih]
    cases hf : st.oneParentFound with
    | true =>
      simp only [insertParentStep, hf, if_true, Function.update_same, Option.getD_some,
        mem_emplace h, parentPairs, List.mem_cons, Bool.false_eq_true, if_false]
      tauto
    | false =>
      simp only [insertParentStep, hf, Bool.false_eq_true, if_false, if_true]

theorem insert_parentsPerChild (less : PolynomialComparator) (s : EliminationSet)
    (r : UnivariatePolynomialPtr) (parents : List UnivariatePolynomialPtr) (avoidSingle : Bool) :
    (insert less s r parents avoidSingle).1.parentsPerChild =
      (insertParents less { s with polynomials := PolynomialSet.insert s.polynomials r }
        r parents).parentsPerChild ∧
    (insert less s r parents avoidSingle).1.childrenPerParent =
      (insertParents less { s with polynomials := PolynomialSet.insert s.polynomials r }
        r parents).childrenPerParent := by
  unfold insert
  simp only
  split
  · cases avoidSingle <;> exact ⟨rfl, rfl⟩
  · exact ⟨rfl, rfl⟩

theorem insertParents_guard (s : EliminationSet) (pos : UnivariatePolynomialPtr)
    (parents : List UnivariatePolynomialPtr) :
    (((parents.isEmpty || parents.head? == some nullptr) && s.hasParents pos) ||
      (!parents.isEmpty && parents.head? != some nullptr)) =
      (startsWithParent parents || s.hasParents pos) := by
  cases parents with
  | nil => simp [startsWithParent]
  | cons a l =>
    by_cases ha : a = nullptr
    · subst ha; simp [startsWithParent]
    · cases s.hasParents pos <;> simp [startsWithParent, ha, bne]

/-- C11, counterexample. On the empty set, `insert(5, (null, 7))` adds 5 but records no parent
entry for it and does not register it as a child of 7, although the list read as concatenated
pairs holds the entry `(null, 7)` and 7 is a non-null polynomial of the list. -/
theorem insert_null_first_parent_list_unrecorded :
    5 ∈ exampleNullFirst.polynomials ∧
    parentPairs [0, 7] = [(0, 7)] ∧
    exampleNullFirst.parentsPerChild 5 = none ∧
    exampleNullFirst.childrenPerParent 7 = none := by
  decide

/-- C11, amended. When the parent list starts with a non-null polynomial, or `p` already has
non-trivial parents, `insert(p, parents)` adds to the parent entries of `p` exactly the pairs of
consecutive list elements, a trailing unpaired element as a single parent, and registers `p` as
a child of every polynomial of the list. When the list is empty or starts with null and `p` has
no non-trivial parents, the parent and children records are left as they are. The parent
entries of other polynomials never change. -/
theorem insert_records_parent_pairs {less : PolynomialComparator} (hless : StrictTotalOrder less)
    (s : EliminationSet) (p : UnivariatePolynomialPtr) (parents : List UnivariatePolynomialPtr)
    (avoidSingle : Bool) :
    (startsWithParent parents = true ∨ s.hasParents p = true →
      (∀ pair, pair ∈ ((insert less s p parents avoidSingle).1.parentsPerChild p).getD [] ↔
        pair ∈ (s.parentsPerChild p).getD [] ∨ pair ∈ parentPairs parents) ∧
      (∀ q ∈ parents, p ∈ ((insert less s p parents avoidSingle).1.childrenPerParent q).getD [])) ∧
    (startsWithParent parents = false → s.hasParents p = false →
      (insert less s p parents avoidSingle).1.parentsPerChild = s.parentsPerChild ∧
      (insert less s p parents avoidSingle).1.childrenPerParent = s.childrenPerParent) ∧
    (∀ c, c ≠ p →
      (insert less s p parents avoidSingle).1.parentsPerChild c = s.parentsPerChild c) := by
  have hm := insert_parentsPerChild less s p parents avoidSingle
  rw [hm.1, hm.2]
  have hg := insertParents_guard { s with polynomials := PolynomialSet.insert s.polynomials p }
    p parents
  have hh : EliminationSet.hasParents
      { s with polynomials := PolynomialSet.insert s.polynomials p } p = s.hasParents p := rfl
  refine ⟨?_, ?_, ?_⟩
  · intro hyes
    have hguard : (startsWithParent parents || s.hasParents p) = true := by
      rcases hyes with h1 | h1 <;> simp [h1]
    unfold insertParents
    dsimp only
    rw [hg, hh, if_pos hguard]
    constructor
    · intro pair
      have key := insertParent_fold_pairs hless p pair parents
        { childrenPerParent := s.childrenPerParent, parentsPerChild := s.parentsPerChild,
          oneParentFound := false, parent1 := nullptr }
      simp only [Bool.false_eq_true, if_false] at key
      rw [← key]
      split <;> rfl
    · intro q hq
      have key := insertParent_fold_child less p parents
        { childrenPerParent := s.childrenPerParent, parentsPerChild := s.parentsPerChild,
          oneParentFound := false, parent1 := nullptr } q hq
      split <;> exact key
  · intro h1 h2
    unfold insertParents
    dsimp only
    rw [hg, hh, if_neg (by simp [h1, h2])]
    exact ⟨rfl, rfl⟩
  · intro c hc
    unfold insertParents
    dsimp only
    split
    · have key := insertParent_fold_other less p c hc parents
        { childrenPerParent := s.childrenPerParent, parentsPerChild := s.parentsPerChild,
          oneParentFound := false, parent1 := nullptr }
      split
      · simp only [Function.update_noteq hc]; exact key
      · exact key
    · rfl

/-- The amended C11 at `insert(5, (1, null, 2, 3))` on the empty set: the recorded entries are
the single parent 1 and the pair (2, 3). -/
theorem insert_records_parent_pairs_witness :
    StrictTotalOrder ascending ∧
    examplePairedParents.parentsPerChild 5 = some [(1, 0), (2, 3)] ∧
    (∀ pair, pair ∈ (examplePairedParents.parentsPerChild 5).getD [] ↔
      pair ∈ ((EliminationSet.empty ascending ascending).parentsPerChild 5).getD [] ∨
        pair ∈ parentPairs [1, 0, 2, 3]) :=
  ⟨strictTotalOrder_ascending, by decide,
    ((insert_records_parent_pairs strictTotalOrder_ascending
      (EliminationSet.empty ascending ascending) 5 [1, 0, 2, 3] false).1
        (Or.inl (by decide))).1⟩

end EliminationSet

/-! ## Enqueueing on `insert` -/

namespace EliminationSet

/-- C12. Enqueueing on insert: a polynomial newly added by `insert(p, parents, avoidSingle)`
(the returned flag is true) is placed exactly once on the lifting queue, on the lifting-reset
queue and on the paired-elimination queue, each of which keeps all its earlier entries; it is
placed exactly once on the single-elimination queue when `avoidSingle` is false, and the
single-elimination queue is unchanged when `avoidSingle` is true. -/
theorem insert_enqueues (less : PolynomialComparator) (s : EliminationSet)
    (p : UnivariatePolynomialPtr) (parents : List UnivariatePolynomialPtr) (avoidSingle : Bool)
    (hnew : (insert less s p parents avoidSingle).2 = true) :
    (insert less s p parents avoidSingle).1.mLiftingQueue.Perm (p :: s.mLiftingQueue) ∧
    (insert less s p parents avoidSingle).1.mLiftingQueueReset.Perm
      (p :: s.mLiftingQueueReset) ∧
    (insert less s p parents avoidSingle).1.mPairedEliminationQueue.Perm
      (p :: s.mPairedEliminationQueue) ∧
    (avoidSingle = false →
      (insert less s p parents avoidSingle).1.mSingleEliminationQueue.Perm
        (p :: s.mSingleEliminationQueue)) ∧
    (avoidSingle = true →
      (insert less s p parents avoidSingle).1.mSingleEliminationQueue
        = s.mSingleEliminationQueue) := by
  rw [insert_second] at hnew
  have hp : p ∉ s.polynomials := by simpa using hnew
  have hq := insert_queues_new less s p parents avoidSingle hp
  rw [hq.1, hq.2.1, hq.2.2.1, hq.2.2.2]
  refine ⟨queueInsert_perm _ _ _, queueInsert_perm _ _ _, queueInsert_perm _ _ _, ?_, ?_⟩
  · intro ha
    rw [ha]
    exact queueInsert_perm _ _ _
  · intro ha
    rw [ha]
    rfl

/-- C12 at `insert(4, (null), true)` on the set holding 1, 2 and 3. -/
theorem insert_enqueues_witness :
    (insert ascending exampleMixedOrders 4 [0] true).2 = true ∧
    (insert ascending exampleMixedOrders 4 [0] true).1.mLiftingQueue.Perm
      (4 :: exampleMixedOrders.mLiftingQueue) ∧
    (insert ascending exampleMixedOrders 4 [0] true).1.mSingleEliminationQueue
      = exampleMixedOrders.mSingleEliminationQueue :=
  ⟨by decide, (insert_enqueues ascending exampleMixedOrders 4 [0] true (by decide)).1,
    (insert_enqueues ascending exampleMixedOrders 4 [0] true (by decide)).2.2.2.2 rfl⟩

end EliminationSet

/-! ## `eliminateInto` -/

namespace EliminationSet

theorem erase_not_mem (s : EliminationSet) (p : UnivariatePolynomialPtr) (hp : p ≠ nullptr) :
    p ∉ (s.erase p).1.polynomials := by
  unfold erase
  rw [if_neg hp]
  simp [PolynomialSet.erase]

/-- C13. `eliminateInto` on constants: for a constant polynomial `p` of the source set, if `p`
is purely numeric the call erases `p` from the source set, leaves the destination unchanged and
returns the empty list; otherwise the destination is the result of inserting `p` re-expressed
in `variable` with the parent list recorded for `p` in the source, the returned list is exactly
that one polynomial, and `p` is erased from the source set if and only if
`setting.removeConstants` is true. -/
theorem eliminateInto_constant (less : PolynomialComparator) (X : EliminationOperations)
    (s : EliminationSet) (p : UnivariatePolynomialPtr) (destination : EliminationSet)
    (var : Variable) (setting : CADSettings)
    (hp : p ≠ nullptr) (hmem : p ∈ s.polynomials) (hconst : X.isConstant p = true) :
    ∃ res, eliminateInto less X s p destination var setting = some res ∧
      (X.isNumeric p = true →
        res.source = (s.erase p).1 ∧ p ∉ res.source.polynomials ∧
        res.destination = destination ∧ res.inserted = []) ∧
      (X.isNumeric p = false →
        res.destination =
          (insert less destination (X.switchVariable p var) (X.getParentsOf s p) false).1 ∧
        X.switchVariable p var ∈ res.destination.polynomials ∧
        res.inserted = [X.switchVariable p var] ∧
        (p ∉ res.source.polynomials ↔ setting.removeConstants = true) ∧
        (setting.removeConstants = true → res.source = (s.erase p).1) ∧
        (setting.removeConstants = false → res.source.polynomials = s.polynomials)) := by
  unfold eliminateInto
  rw [if_neg hp, if_pos hconst]
  cases hnum : X.isNumeric p with
  | true =>
    refine ⟨_, rfl, ?_, ?_⟩
    · intro _
      exact ⟨rfl, erase_not_mem s p hp, rfl, rfl⟩
    · intro h; exact absurd h (by decide)
  | false =>
    refine ⟨_, rfl, ?_, ?_⟩
    · intro h; exact absurd h (by decide)
    · intro _
      refine ⟨rfl, ?_, rfl, ?_, ?_, ?_⟩
      · simp only [insert_polynomials]
        unfold PolynomialSet.insert
        split <;> simp_all
      · cases hrc : setting.removeConstants with
        | true => simpa using erase_not_mem s p hp
        | false => simpa using hmem
      · intro hrc; simp [hrc]
      · intro hrc; simp [hrc]

/-- C13 at the constant 150 with parent 7: with `removeConstants` off the source keeps 150, the
destination receives 1150 with the parent list `(7, null)`, and 1150 is returned. -/
theorem eliminateInto_constant_witness :
    (150 : UnivariatePolynomialPtr) ≠ nullptr ∧ 150 ∈ exampleConstantSource.polynomials ∧
    exampleOperations.isConstant 150 = true ∧
    ∃ res, eliminateInto ascending exampleOperations exampleConstantSource 150
        (EliminationSet.empty ascending ascending) 1
        { CADSettings.standard with removeConstants := false } = some res ∧
      (exampleOperations.isNumeric 150 = false →
        res.inserted = [1150] ∧ 1150 ∈ res.destination.polynomials ∧
        res.source.polynomials = exampleConstantSource.polynomials) := by
  refine ⟨by decide, by decide, by decide, ?_⟩
  obtain ⟨res, h1, _, h3⟩ := eliminateInto_constant ascending exampleOperations
    exampleConstantSource 150 (EliminationSet.empty ascending ascending) 1
    { CADSettings.standard with removeConstants := false } (by decide) (by decide) (by decide)
  exact ⟨res, h1, fun h => ⟨(h3 h).2.2.1, (h3 h).2.1, (h3 h).2.2.2.2.2 rfl⟩⟩

/-- On a non-constant polynomial `eliminateInto` leaves the source set as it is. -/
theorem eliminateInto_nonconstant (less : PolynomialComparator) (X : EliminationOperations)
    (s : EliminationSet) (p : UnivariatePolynomialPtr) (destination : EliminationSet)
    (var : Variable) (setting : CADSettings)
    (hp : p ≠ nullptr) (hconst : X.isConstant p = false) :
    eliminateInto less X s p destination var setting =
      some { source := s,
             destination :=
              (insertSet less X destination (newEliminationPolynomials X s p var setting)
                false).1,
             inserted :=
              (insertSet less X destination (newEliminationPolynomials X s p var setting)
                false).2 } := by
  unfold eliminateInto
  rw [if_neg hp, if_neg (by simp [hconst])]

/-- C14, the code at the failing input. The source set holds the non-constant polynomial 3,
inserted as input and hence waiting in both elimination queues; `eliminateInto(3, ...)` into an
empty destination returns the projection polynomial 4 and leaves 3 in the single-elimination
queue and in the paired-elimination queue of the source set. -/
theorem eliminateInto_leaves_nonconstant_in_queues :
    exampleOperations.isConstant 3 = false ∧
    3 ∈ exampleSource.polynomials ∧
    ∃ res, eliminateInto ascending exampleOperations exampleSource 3
        (EliminationSet.empty ascending ascending) 1 CADSettings.standard = some res ∧
      res.inserted = [4] ∧
      3 ∈ res.source.mSingleEliminationQueue ∧
      3 ∈ res.source.mPairedEliminationQueue :=
  ⟨by decide, by decide, _,
    eliminateInto_nonconstant ascending exampleOperations exampleSource 3
      (EliminationSet.empty ascending ascending) 1 CADSettings.standard (by decide) (by decide),
    by decide, by decide, by decide⟩

end EliminationSet

/-! ## Lemmas on `SampleSet` -/

theorem takeWhile_dropWhile_append {α : Type} (p : α → Bool) (pre suf : List α)
    (hpre : ∀ a ∈ pre, p a = true) (hsuf : ∀ b ∈ suf.head?, p b = false) :
    (pre ++ suf).takeWhile p = pre ∧ (pre ++ suf).dropWhile p = suf := by
  induction pre with
  | nil =>
    cases suf with
    | nil => simp
    | cons b suf =>
      have hb : p b = false := hsuf b (by simp)
      simp [List.takeWhile_cons, List.dropWhile_cons, hb]
  | cons a pre ih =>
    have ha : p a = true := hpre a (by simp)
    have ih' := ih (fun x hx => hpre x (by simp [hx]))
    simp [List.takeWhile_cons, List.dropWhile_cons, ha, ih'.1, ih'.2]

theorem dropWhile_head_not {α : Type} (p : α → Bool) (l : List α) :
    ∀ b ∈ (l.dropWhile p).head?, p b = false := by
  induction l with
  | nil => simp
  | cons a l ih =>
    by_cases ha : p a = true
    · simpa [List.dropWhile_cons, ha] using ih
    · simp [List.dropWhile_cons, ha]

namespace SampleSet

theorem insert_between {K : Type} [LinearOrderedRing K] (pre suf : SampleSet K)
    (r : RealAlgebraicNumber K) (hpre : ∀ a ∈ pre, a.value < r.value)
    (hsuf : ∀ b ∈ suf.head?, r.value < b.value) :
    SampleSet.insert (pre ++ suf) r = (pre ++ r :: suf, pre.length, true) := by
  have h := takeWhile_dropWhile_append (fun x => Less x r) pre suf
    (by intro a ha; simpa [Less] using hpre a ha)
    (by intro b hb; simpa [Less] using le_of_lt (hsuf b hb))
  unfold SampleSet.insert
  simp only [h.1, h.2]
  cases suf with
  | nil => simp
  | cons x suf =>
    have hx : r.value < x.value := hsuf x (by simp)
    have hne : ¬ x.value = r.value := ne_of_gt hx
    simp [Equal, hne]

theorem insert_found {K : Type} [LinearOrderedRing K] (pre suf : SampleSet K)
    (x r : RealAlgebraicNumber K) (hpre : ∀ a ∈ pre, a.value < r.value)
    (hx : x.value = r.value) :
    SampleSet.insert (pre ++ x :: suf) r = (pre ++ x :: suf, pre.length, false) := by
  have h := takeWhile_dropWhile_append (fun y => Less y r) pre (x :: suf)
    (by intro a ha; simpa [Less] using hpre a ha)
    (by intro b hb; simp at hb; subst hb; simp [Less, hx])
  unfold SampleSet.insert
  simp only [h.1, h.2]
  simp [Equal, hx]

/-- A set splits at any value into the samples below it, at most one sample of that value, and
the samples above it. -/
theorem Ordered.split {K : Type} [LinearOrderedRing K] {s : SampleSet K} (hs : s.Ordered)
    (v : K) :
    ∃ pre suf, (∀ a ∈ pre, a.value < v) ∧ (∀ b ∈ suf, v < b.value) ∧
      (s = pre ++ suf ∨ ∃ x, x.value = v ∧ s = pre ++ x :: suf) := by
  induction s with
  | nil => exact ⟨[], [], by simp, by simp, Or.inl rfl⟩
  | cons a s ih =>
    have hs' := List.pairwise_cons.mp hs
    rcases lt_trichotomy a.value v with hlt | heq | hgt
    · obtain ⟨pre, suf, h1, h2, h3⟩ := ih hs'.2
      refine ⟨a :: pre, suf, ?_, h2, ?_⟩
      · intro b hb
        rcases List.mem_cons.mp hb with rfl | hb
        · exact hlt
        · exact h1 b hb
      · rcases h3 with h3 | ⟨x, hx, h3⟩
        · exact Or.inl (by rw [h3]; rfl)
        · exact Or.inr ⟨x, hx, by rw [h3]; rfl⟩
    · refine ⟨[], s, by simp, ?_, Or.inr ⟨a, heq, rfl⟩⟩
      intro b hb
      rw [← heq]; exact hs'.1 b hb
    · refine ⟨[], a :: s, by simp, ?_, Or.inl rfl⟩
      intro b hb
      rcases List.mem_cons.mp hb with rfl | hb
      · exact hgt
      · exact lt_trans hgt (hs'.1 b hb)

theorem Ordered.insert {K : Type} [LinearOrderedRing K] {s : SampleSet K} (hs : s.Ordered)
    (r : RealAlgebraicNumber K) : (SampleSet.insert s r).1.Ordered := by
  obtain ⟨pre, suf, h1, h2, h3 | ⟨x, hx, h3⟩⟩ := hs.split r.value
  · subst h3
    rw [insert_between pre suf r h1 (fun b hb => h2 b (List.mem_of_mem_head? hb))]
    unfold SampleSet.Ordered at hs ⊢
    rw [List.pairwise_append] at hs ⊢
    refine ⟨hs.1, ?_, ?_⟩
    · rw [List.pairwise_cons]; exact ⟨h2, hs.2.1⟩
    · intro a ha b hb
      rcases List.mem_cons.mp hb with rfl | hb
      · exact h1 a ha
      · exact hs.2.2 a ha b hb
  · subst h3
    rw [insert_found pre suf x r h1 hx]
    exact hs

theorem mem_insert {K : Type} [LinearOrderedRing K] (s : SampleSet K)
    (r y : RealAlgebraicNumber K) (hy : y ∈ (SampleSet.insert s r).1) : y ∈ s ∨ y = r := by
  unfold SampleSet.insert at hy
  simp only at hy
  split at hy
  · simp only [List.mem_append, List.mem_singleton] at hy
    exact hy
  · rename_i x suf hd
    split at hy
    · exact Or.inl hy
    · have hs : s = s.takeWhile (fun x => Less x r) ++ x :: suf := by
        rw [← hd, List.takeWhile_append_dropWhile]
      simp only [List.mem_append, List.mem_cons] at hy
      rcases hy with hy | rfl | hy
      · exact Or.inl (by rw [hs]; simp [hy])
      · exact Or.inr rfl
      · exact Or.inl (by rw [hs]; exact List.mem_append_right _ (by simpa using hy))

theorem mem_insert_of_mem {K : Type} [LinearOrderedRing K] (s : SampleSet K)
    (r y : RealAlgebraicNumber K) (hy : y ∈ s) : y ∈ (SampleSet.insert s r).1 := by
  unfold SampleSet.insert
  simp only
  split
  · simp [hy]
  · rename_i x suf hd
    split
    · exact hy
    · have hs : s = s.takeWhile (fun x => Less x r) ++ x :: suf := by
        rw [← hd, List.takeWhile_append_dropWhile]
      rw [hs] at hy
      simp only [List.mem_append, List.mem_cons] at hy ⊢
      tauto

/-- The position returned by `insert` holds a sample of the value of `r`. -/
theorem insert_position {K : Type} [LinearOrderedRing K] (s : SampleSet K)
    (r : RealAlgebraicNumber K) :
    ∃ e, (SampleSet.insert s r).1[(SampleSet.insert s r).2.1]? = some e ∧
      e.value = r.value ∧
      ((SampleSet.insert s r).2.2 = true → e = r) ∧
      ((SampleSet.insert s r).2.2 = false → (SampleSet.insert s r).1 = s) := by
  unfold SampleSet.insert
  simp only
  split
  · rename_i hd
    have hs : s.takeWhile (fun x => Less x r) = s := by
      have := List.takeWhile_append_dropWhile (fun x => Less x r) s
      rw [hd, List.append_nil] at this
      exact this
    refine ⟨r, ?_, rfl, fun _ => rfl, fun h => absurd h (by simp)⟩
    rw [hs]; simp
  · rename_i x suf hd
    have hs : s = s.takeWhile (fun x => Less x r) ++ x :: suf := by
      rw [← hd, List.takeWhile_append_dropWhile]
    have key : ∀ (pre : SampleSet K) (y : RealAlgebraicNumber K) (suf : SampleSet K),
        (pre ++ y :: suf)[pre.length]? = some y := by
      intro pre y suf
      rw [List.getElem?_append_right (le_refl _)]
      simp
    split
    · rename_i he
      refine ⟨x, ?_, by simpa [Equal] using he, fun h => absurd h (by simp), fun _ => rfl⟩
      have h2 := key (s.takeWhile (fun x => Less x r)) x suf
      rw [← hs] at h2
      exact h2
    · exact ⟨r, key _ r (x :: suf), rfl, fun _ => rfl, fun h => absurd h (by simp)⟩

theorem mem_insertRange {K : Type} [LinearOrderedRing K] (range : List (RealAlgebraicNumber K)) :
    ∀ (s : SampleSet K) (y : RealAlgebraicNumber K),
      y ∈ s.insertRange range → y ∈ s ∨ y ∈ range := by
  induction range with
  | nil => intro s y hy; exact Or.inl hy
  | cons r range ih =>
    intro s y hy
    unfold SampleSet.insertRange at hy
    rw [List.foldl_cons] at hy
    rcases ih _ y hy with h | h
    · rcases mem_insert s r y h with h | h
      · exact Or.inl h
      · exact Or.inr (by simp [h])
    · exact Or.inr (by simp [h])

theorem mem_insertRange_of_mem {K : Type} [LinearOrderedRing K]
    (range : List (RealAlgebraicNumber K)) :
    ∀ (s : SampleSet K) (y : RealAlgebraicNumber K), y ∈ s → y ∈ s.insertRange range := by
  induction range with
  | nil => intro s y hy; exact hy
  | cons r range ih =>
    intro s y hy
    unfold SampleSet.insertRange
    rw [List.foldl_cons]
    exact ih _ y (mem_insert_of_mem s r y hy)

theorem Ordered.insertRange {K : Type} [LinearOrderedRing K]
    (range : List (RealAlgebraicNumber K)) :
    ∀ s : SampleSet K, s.Ordered → (s.insertRange range).Ordered := by
  induction range with
  | nil => intro s hs; exact hs
  | cons r range ih =>
    intro s hs
    unfold SampleSet.insertRange
    rw [List.foldl_cons]
    exact ih _ (hs.insert r)

theorem mem_remove {K : Type} (s : SampleSet K) (position : Nat) (y : RealAlgebraicNumber K)
    (hy : y ∈ s.remove position) : y ∈ s :=
  (List.eraseIdx_sublist s position).subset hy

theorem Ordered.remove {K : Type} [LinearOrderedRing K] {s : SampleSet K} (hs : s.Ordered)
    (position : Nat) : (s.remove position).Ordered :=
  List.Pairwise.sublist (List.eraseIdx_sublist s position) hs

end SampleSet

/-! ## Bound filtering in `CAD::samples` -/

namespace CAD

theorem enterRoot_newSampleSet {K : Type} [LinearOrderedRing K] (st : SampleConstruction K)
    (i : RealAlgebraicNumber K) (st1 : SampleConstruction K) (position : Nat)
    (h : enterRoot st i = some (some (st1, position))) :
    (∀ y ∈ st1.newSampleSet, y ∈ st.newSampleSet ∨ y.value = i.value) ∧
    (∃ me, st1.currentSamples[position]? = some me) := by
  unfold enterRoot at h
  dsimp only at h
  obtain ⟨e, he1, he2, he3, he4⟩ := SampleSet.insert_position st.currentSamples i
  split at h
  · rename_i hins
    have hins' : (SampleSet.insert st.currentSamples i).2.2 = false := by simpa using hins
    rw [he4 hins'] at he1
    rw [he1] at h
    dsimp only at h
    split at h
    · split at h
      · exact absurd h (by simp)
      · simp only [Option.some.injEq, Prod.mk.injEq] at h
        obtain ⟨h1, h2⟩ := h
        subst h1 h2
        dsimp only
        obtain ⟨e2, hp1, _, _, _⟩ := SampleSet.insert_position
          (SampleSet.remove st.currentSamples (SampleSet.insert st.currentSamples i).2.1)
          (e.setIsRoot true)
        refine ⟨?_, e2, hp1⟩
        intro y hy
        rcases SampleSet.mem_insert _ _ _ hy with hy | hy
        · left
          split at hy
          · exact SampleSet.mem_remove _ _ _ hy
          · exact hy
        · right
          rw [hy]; exact he2
    · split at h
      · obtain ⟨e2, hp1, hp2, _, _⟩ := SampleSet.insert_position
          (SampleSet.remove st.currentSamples (SampleSet.insert st.currentSamples i).2.1)
          (RealAlgebraicNumberNR i.value true)
        rw [hp1] at h
        simp only [Option.some.injEq, Prod.mk.injEq] at h
        obtain ⟨h1, h2⟩ := h
        subst h1 h2
        dsimp only
        refine ⟨?_, e2, hp1⟩
        intro y hy
        split at hy
        · rcases SampleSet.mem_insert _ _ _ hy with hy | hy
          · exact Or.inl (SampleSet.mem_remove _ _ _ hy)
          · right; rw [hy]; exact hp2
        · exact Or.inl hy
      · exact absurd h (by simp)
  · rw [he1] at h
    simp only [Option.some.injEq, Prod.mk.injEq] at h
    obtain ⟨h1, h2⟩ := h
    subst h1 h2
    dsimp only
    refine ⟨?_, e, he1⟩
    intro y hy
    rcases SampleSet.mem_insert _ _ _ hy with hy | hy
    · exact Or.inl hy
    · right; rw [hy]; exact he2

theorem enterRoot_total {K : Type} [LinearOrderedRing K] (st : SampleConstruction K)
    (i : RealAlgebraicNumber K) (hi : i.isRoot = true) :
    ∃ out, enterRoot st i = some out := by
  unfold enterRoot
  dsimp only
  obtain ⟨e, he1, he2, he3, he4⟩ := SampleSet.insert_position st.currentSamples i
  split
  · rename_i hins
    have hins' : (SampleSet.insert st.currentSamples i).2.2 = false := by simpa using hins
    rw [he4 hins'] at he1
    rw [he1]
    dsimp only
    split
    · rw [if_neg (by simp [hi])]
      exact ⟨_, rfl⟩
    · split
      · obtain ⟨e2, hp1, _, _, _⟩ := SampleSet.insert_position
          (SampleSet.remove st.currentSamples (SampleSet.insert st.currentSamples i).2.1)
          (RealAlgebraicNumberNR i.value true)
        rw [hp1]
        exact ⟨_, rfl⟩
      · exact ⟨_, rfl⟩
  · rw [he1]
    exact ⟨_, rfl⟩

theorem addIncrement_newSampleSet {K : Type} [LinearOrderedRing K] (X : IntervalOperations K)
    (bounds : X.Interval) (st : SampleConstruction K) (position : Nat)
    (me : RealAlgebraicNumber K) (hme : st.currentSamples[position]? = some me) :
    ∃ st1, addIncrement X bounds st position = some st1 ∧
      ∀ y ∈ st1.newSampleSet, y ∈ st.newSampleSet ∨
        ((!X.isEmpty bounds && !X.unbounded bounds) = true → X.meets bounds y.value = true) := by
  unfold addIncrement
  rw [hme]
  dsimp only
  refine ⟨_, rfl, ?_⟩
  intro y hy
  dsimp only at hy
  rcases SampleSet.mem_insertRange _ _ _ hy with hy | hy
  · exact Or.inl hy
  · right
    intro hactive
    rw [if_pos hactive] at hy
    exact (List.mem_filter.mp hy).2

theorem samplesStep_newSampleSet {K : Type} [LinearOrderedRing K] (X : IntervalOperations K)
    (bounds : X.Interval) (st : SampleConstruction K) (i : RealAlgebraicNumber K)
    (hi : i.isRoot = true) :
    ∃ st1, samplesStep X bounds st i = some st1 ∧
      ∀ y ∈ st1.newSampleSet, y ∈ st.newSampleSet ∨ y.value = i.value ∨
        ((!X.isEmpty bounds && !X.unbounded bounds) = true → X.meets bounds y.value = true) := by
  obtain ⟨out, hout⟩ := enterRoot_total st i hi
  unfold samplesStep
  rw [hout]
  cases out with
  | none => exact ⟨st, rfl, fun y hy => Or.inl hy⟩
  | some res =>
    obtain ⟨st1, position⟩ := res
    obtain ⟨h1, me, hme⟩ := enterRoot_newSampleSet st i st1 position hout
    obtain ⟨st2, h2, h3⟩ := addIncrement_newSampleSet X bounds st1 position me hme
    refine ⟨st2, h2, ?_⟩
    intro y hy
    rcases h3 y hy with h | h
    · rcases h1 y h with h | h
      · exact Or.inl h
      · exact Or.inr (Or.inl h)
    · exact Or.inr (Or.inr h)

theorem samplesLoop_newSampleSet {K : Type} [LinearOrderedRing K] (X : IntervalOperations K)
    (bounds : X.Interval) :
    ∀ (roots : List (RealAlgebraicNumber K)) (st : SampleConstruction K),
      (∀ r ∈ roots, r.isRoot = true) →
      ∃ st1, samplesLoop X bounds st roots = some st1 ∧
        ∀ y ∈ st1.newSampleSet, y ∈ st.newSampleSet ∨ (∃ r ∈ roots, y.value = r.value) ∨
          ((!X.isEmpty bounds && !X.unbounded bounds) = true →
            X.meets bounds y.value = true) := by
  intro roots
  induction roots with
  | nil => intro st _; exact ⟨st, rfl, fun y hy => Or.inl hy⟩
  | cons i roots ih =>
    intro st hroots
    obtain ⟨st1, h1, h2⟩ := samplesStep_newSampleSet X bounds st i (hroots i (by simp))
    obtain ⟨st2, h3, h4⟩ := ih st1 (fun r hr => hroots r (by simp [hr]))
    refine ⟨st2, by simp only [samplesLoop, h1, h3], ?_⟩
    intro y hy
    rcases h4 y hy with h | ⟨r, hr, h⟩ | h
    · rcases h2 y h with h | h | h
      · exact Or.inl h
      · exact Or.inr (Or.inl ⟨i, by simp, h⟩)
      · exact Or.inr (Or.inr h)
    · exact Or.inr (Or.inl ⟨r, by simp [hr], h⟩)
    · exact Or.inr (Or.inr h)

/-- C16, counterexample. With the active bound `[0, 10]`, an empty sample set and the single
root 50, the returned new-sample set holds 50, which does not lie within the bound. -/
theorem samples_returns_root_outside_bound :
    exampleIntervals.isEmpty (some (0, 10)) = false ∧
    exampleIntervals.unbounded (some (0, 10)) = false ∧
    (samples exampleIntervals [RealAlgebraicNumberNR 50 true] [] (some (0, 10))).map
      (fun st => st.newSampleSet.map (fun x => x.value)) = some [50] ∧
    exampleIntervals.meets (some (0, 10)) 50 = false := by
  with_unfolding_all decide

/-- C16, amended. When the bound passed to `CAD::samples` is active (non-empty and not
unbounded), every sample of the returned new-sample set either has the value of one of the
given roots or meets the bound; the roots themselves are returned unfiltered. The call returns
for every list of samples flagged as roots. -/
theorem samples_increment_meets_bound {K : Type} [LinearOrderedRing K]
    (X : IntervalOperations K) (roots : List (RealAlgebraicNumber K))
    (currentSamples : SampleSet K) (bounds : X.Interval)
    (hroots : ∀ r ∈ roots, r.isRoot = true)
    (hactive : X.isEmpty bounds = false ∧ X.unbounded bounds = false) :
    ∃ st, samples X roots currentSamples bounds = some st ∧
      ∀ y ∈ st.newSampleSet,
        (∃ r ∈ roots, y.value = r.value) ∨ X.meets bounds y.value = true := by
  unfold samples
  split
  · exact ⟨_, rfl, by intro y hy; simp at hy⟩
  · obtain ⟨st, h1, h2⟩ := samplesLoop_newSampleSet X bounds roots
      { currentSamples := currentSamples, newSampleSet := [], replacedSamples := [] } hroots
    refine ⟨st, h1, ?_⟩
    intro y hy
    rcases h2 y hy with h | h | h
    · simp at h
    · exact Or.inl h
    · exact Or.inr (h (by simp [hactive.1, hactive.2]))

/-- The amended C16 at the roots 5 and 50 under the bound `[0, 10]`. -/
theorem samples_increment_meets_bound_witness :
    (∀ r ∈ [RealAlgebraicNumberNR (5 : ℚ) true, RealAlgebraicNumberNR 50 true],
      r.isRoot = true) ∧
    (exampleIntervals.isEmpty (some (0, 10)) = false ∧
      exampleIntervals.unbounded (some (0, 10)) = false) ∧
    ∃ st, samples exampleIntervals [RealAlgebraicNumberNR 5 true, RealAlgebraicNumberNR 50 true]
        [] (some (0, 10)) = some st ∧
      ∀ y ∈ st.newSampleSet,
        (∃ r ∈ [RealAlgebraicNumberNR (5 : ℚ) true, RealAlgebraicNumberNR 50 true],
          y.value = r.value) ∨ exampleIntervals.meets (some (0, 10)) y.value = true :=
  ⟨by decide, by with_unfolding_all decide,
    samples_increment_meets_bound exampleIntervals
      [RealAlgebraicNumberNR 5 true, RealAlgebraicNumberNR 50 true] [] (some (0, 10))
      (by decide) (by with_unfolding_all decide)⟩

end CAD

/-! ## Status upgrades in `CAD::samples` -/

theorem getElem?_append_length {α : Type} (pre : List α) (y : α) (suf : List α) :
    (pre ++ y :: suf)[pre.length]? = some y := by
  rw [List.getElem?_append_right (le_refl _)]
  simp

theorem eraseIdx_append_length {α : Type} (pre : List α) (y : α) (suf : List α) :
    (pre ++ y :: suf).eraseIdx pre.length = pre ++ suf := by
  rw [List.eraseIdx_append_of_length_le (le_refl _)]
  simp

namespace CAD

/-- The outcome of the first part of the loop body on an ordered `currentSamples`: the set is
split at the value of the root, and the sample at the split is the root itself, the upgrade of
the sample found there, or the loop continues. -/
theorem enterRoot_ordered {K : Type} [LinearOrderedRing K] (st : SampleConstruction K)
    (i : RealAlgebraicNumber K) (hs : st.currentSamples.Ordered) (hi : i.isRoot = true) :
    ∃ pre suf, (∀ a ∈ pre, a.value < i.value) ∧ (∀ b ∈ suf, i.value < b.value) ∧
      ((st.currentSamples = pre ++ suf ∧
          ∃ st1, enterRoot st i = some (some (st1, pre.length)) ∧
            st1.currentSamples = pre ++ i :: suf) ∨
       (∃ x, x.value = i.value ∧ st.currentSamples = pre ++ x :: suf ∧
          ((x.isRoot = false ∧
              ∃ st1, enterRoot st i = some (some (st1, pre.length)) ∧
                st1.currentSamples = pre ++ x.setIsRoot true :: suf) ∨
           (x.isRoot = true ∧ x.isNumeric = false ∧ i.isNumeric = true ∧
              ∃ st1, enterRoot st i = some (some (st1, pre.length)) ∧
                st1.currentSamples = pre ++ RealAlgebraicNumberNR i.value true :: suf) ∨
           (x.isRoot = true ∧ (x.isNumeric = true ∨ i.isNumeric = false) ∧
              enterRoot st i = some none)))) := by
  obtain ⟨pre, suf, h1, h2, h3 | ⟨x, hx, h3⟩⟩ := hs.split i.value
  · refine ⟨pre, suf, h1, h2, Or.inl ⟨h3, ?_⟩⟩
    have hins := SampleSet.insert_between pre suf i h1
      (fun b hb => h2 b (List.mem_of_mem_head? hb))
    unfold enterRoot
    dsimp only
    rw [h3, hins]
    simp only [Bool.not_true, Bool.false_eq_true, if_false, getElem?_append_length]
    exact ⟨_, rfl, rfl⟩
  · refine ⟨pre, suf, h1, h2, Or.inr ⟨x, hx, h3, ?_⟩⟩
    have hins := SampleSet.insert_found pre suf x i h1 hx
    have hsuf : ∀ b ∈ suf.head?, i.value < b.value :=
      fun b hb => h2 b (List.mem_of_mem_head? hb)
    unfold enterRoot
    dsimp only
    rw [h3, hins]
    simp only [Bool.not_false, if_true, getElem?_append_length]
    cases hxr : x.isRoot with
    | false =>
      left
      refine ⟨rfl, ?_⟩
      simp only [Bool.not_false, if_true, hi, Bool.not_true, Bool.false_eq_true, if_false]
      unfold SampleSet.remove
      rw [eraseIdx_append_length,
        SampleSet.insert_between pre suf (x.setIsRoot true) (by simpa [RealAlgebraicNumber.setIsRoot, hx] using h1)
          (by simpa [RealAlgebraicNumber.setIsRoot, hx] using hsuf)]
      exact ⟨_, rfl, rfl⟩
    | true =>
      right
      simp only [Bool.not_true, Bool.false_eq_true, if_false]
      by_cases hc : (!x.isNumeric && i.isNumeric) = true
      · left
        have hc' : x.isNumeric = false ∧ i.isNumeric = true := by simpa using hc
        refine ⟨trivial, hc'.1, hc'.2, ?_⟩
        rw [if_pos hc]
        unfold SampleSet.remove
        rw [eraseIdx_append_length,
          SampleSet.insert_between pre suf (RealAlgebraicNumberNR i.value true)
            (by simpa [RealAlgebraicNumberNR] using h1)
            (by simpa [RealAlgebraicNumberNR] using hsuf)]
        simp only [getElem?_append_length]
        exact ⟨_, rfl, rfl⟩
      · right
        rw [if_neg hc]
        refine ⟨trivial, ?_, rfl⟩
        cases hxn : x.isNumeric <;> cases hin : i.isNumeric <;> simp_all

theorem upgradedTo_refl {K : Type} (x : RealAlgebraicNumber K) : x.upgradedTo x :=
  ⟨rfl, id, id⟩

theorem upgradedTo_trans {K : Type} {x y z : RealAlgebraicNumber K} (h1 : x.upgradedTo y)
    (h2 : y.upgradedTo z) : x.upgradedTo z :=
  ⟨h2.1.trans h1.1, fun h => h2.2.1 (h1.2.1 h), fun h => h2.2.2 (h1.2.2 h)⟩

theorem ordered_of_split {K : Type} [LinearOrderedRing K] {pre suf : SampleSet K}
    (h : SampleSet.Ordered (pre ++ suf)) (m : RealAlgebraicNumber K)
    (h1 : ∀ a ∈ pre, a.value < m.value) (h2 : ∀ b ∈ suf, m.value < b.value) :
    SampleSet.Ordered (pre ++ m :: suf) := by
  unfold SampleSet.Ordered at h ⊢
  rw [List.pairwise_append] at h ⊢
  refine ⟨h.1, ?_, ?_⟩
  · rw [List.pairwise_cons]; exact ⟨h2, h.2.1⟩
  · intro a ha b hb
    rcases List.mem_cons.mp hb with rfl | hb
    · exact h1 a ha
    · exact h.2.2 a ha b hb

theorem ordered_drop_middle {K : Type} [LinearOrderedRing K] {pre suf : SampleSet K}
    {x : RealAlgebraicNumber K} (h : SampleSet.Ordered (pre ++ x :: suf)) :
    SampleSet.Ordered (pre ++ suf) :=
  List.Pairwise.sublist
    (List.Sublist.append (List.Sublist.refl pre) (List.sublist_cons_self x suf)) h

theorem enterRoot_upgrades {K : Type} [LinearOrderedRing K] (st : SampleConstruction K)
    (i : RealAlgebraicNumber K) (hs : st.currentSamples.Ordered) (hi : i.isRoot = true) :
    enterRoot st i = some none ∨
    ∃ st1 position me, enterRoot st i = some (some (st1, position)) ∧
      st1.currentSamples[position]? = some me ∧ st1.currentSamples.Ordered ∧
      ∀ x ∈ st.currentSamples, ∃ y ∈ st1.currentSamples, x.upgradedTo y := by
  obtain ⟨pre, suf, h1, h2, ⟨h3, st1, h4, h5⟩ | ⟨x, hx, h3, h4⟩⟩ := enterRoot_ordered st i hs hi
  · right
    refine ⟨st1, pre.length, i, h4, by rw [h5]; exact getElem?_append_length _ _ _, ?_, ?_⟩
    · rw [h5]; rw [h3] at hs; exact ordered_of_split hs i h1 h2
    · intro y hy
      refine ⟨y, ?_, upgradedTo_refl y⟩
      rw [h5]; rw [h3] at hy
      simp only [List.mem_append, List.mem_cons] at hy ⊢
      tauto
  · rw [h3] at hs
    have key : ∀ (m : RealAlgebraicNumber K) (st1 : SampleConstruction K),
        m.value = i.value → x.upgradedTo m →
        enterRoot st i = some (some (st1, pre.length)) →
        st1.currentSamples = pre ++ m :: suf →
        ∃ st1 position me, enterRoot st i = some (some (st1, position)) ∧
          st1.currentSamples[position]? = some me ∧ st1.currentSamples.Ordered ∧
          ∀ x ∈ st.currentSamples, ∃ y ∈ st1.currentSamples, x.upgradedTo y := by
      intro m st1 hm hup he hc
      refine ⟨st1, pre.length, m, he, by rw [hc]; exact getElem?_append_length _ _ _, ?_, ?_⟩
      · rw [hc]
        exact ordered_of_split (ordered_drop_middle hs) m (by rw [hm]; exact h1)
          (by rw [hm]; exact h2)
      · intro y hy
        rw [h3] at hy
        rw [hc]
        simp only [List.mem_append, List.mem_cons] at hy
        rcases hy with hy | rfl | hy
        · exact ⟨y, by simp [hy], upgradedTo_refl y⟩
        · exact ⟨m, by simp, hup⟩
        · exact ⟨y, by simp [hy], upgradedTo_refl y⟩
    rcases h4 with ⟨hr, st1, h5, h6⟩ | ⟨hr, hn, hin, st1, h5, h6⟩ | ⟨_, _, h5⟩
    · right
      exact key (x.setIsRoot true) st1 hx ⟨rfl, fun _ => rfl, fun h => h⟩ h5 h6
    · right
      exact key (RealAlgebraicNumberNR i.value true) st1 rfl ⟨hx.symm, fun _ => rfl, fun _ => rfl⟩
        h5 h6
    · exact Or.inl h5

theorem addIncrement_upgrades {K : Type} [LinearOrderedRing K] (X : IntervalOperations K)
    (bounds : X.Interval) (st : SampleConstruction K) (position : Nat)
    (me : RealAlgebraicNumber K) (hme : st.currentSamples[position]? = some me)
    (hs : st.currentSamples.Ordered) :
    ∃ st1, addIncrement X bounds st position = some st1 ∧ st1.currentSamples.Ordered ∧
      ∀ x ∈ st.currentSamples, x ∈ st1.currentSamples := by
  unfold addIncrement
  rw [hme]
  dsimp only
  exact ⟨_, rfl, SampleSet.Ordered.insertRange _ _ hs,
    fun x hx => SampleSet.mem_insertRange_of_mem _ _ x hx⟩

theorem samplesStep_upgrades {K : Type} [LinearOrderedRing K] (X : IntervalOperations K)
    (bounds : X.Interval) (st : SampleConstruction K) (i : RealAlgebraicNumber K)
    (hs : st.currentSamples.Ordered) (hi : i.isRoot = true) :
    ∃ st1, samplesStep X bounds st i = some st1 ∧ st1.currentSamples.Ordered ∧
      ∀ x ∈ st.currentSamples, ∃ y ∈ st1.currentSamples, x.upgradedTo y := by
  unfold samplesStep
  rcases enterRoot_upgrades st i hs hi with h | ⟨st1, position, me, h1, h2, h3, h4⟩
  · rw [h]
    exact ⟨st, rfl, hs, fun x hx => ⟨x, hx, upgradedTo_refl x⟩⟩
  · rw [h1]
    obtain ⟨st2, h5, h6, h7⟩ := addIncrement_upgrades X bounds st1 position me h2 h3
    refine ⟨st2, h5, h6, ?_⟩
    intro x hx
    obtain ⟨y, hy, hxy⟩ := h4 x hx
    exact ⟨y, h7 y hy, hxy⟩

theorem samplesLoop_upgrades {K : Type} [LinearOrderedRing K] (X : IntervalOperations K)
    (bounds : X.Interval) :
    ∀ (roots : List (RealAlgebraicNumber K)) (st : SampleConstruction K),
      st.currentSamples.Ordered → (∀ r ∈ roots, r.isRoot = true) →
      ∃ st1, samplesLoop X bounds st roots = some st1 ∧ st1.currentSamples.Ordered ∧
        ∀ x ∈ st.currentSamples, ∃ y ∈ st1.currentSamples, x.upgradedTo y := by
  intro roots
  induction roots with
  | nil => intro st hs _; exact ⟨st, rfl, hs, fun x hx => ⟨x, hx, upgradedTo_refl x⟩⟩
  | cons i roots ih =>
    intro st hs hroots
    obtain ⟨st1, h1, h2, h3⟩ := samplesStep_upgrades X bounds st i hs (hroots i (by simp))
    obtain ⟨st2, h4, h5, h6⟩ := ih st1 h2 (fun r hr => hroots r (by simp [hr]))
    refine ⟨st2, by simp only [samplesLoop, h1, h4], h5, ?_⟩
    intro x hx
    obtain ⟨y, hy, hxy⟩ := h3 x hx
    obtain ⟨z, hz, hyz⟩ := h6 y hy
    exact ⟨z, hz, upgradedTo_trans hxy hyz⟩

theorem ordered_value_injective {K : Type} [LinearOrderedRing K] {s : SampleSet K}
    (hs : s.Ordered) {y z : RealAlgebraicNumber K} (hy : y ∈ s) (hz : z ∈ s)
    (h : z.value = y.value) : z = y := by
  induction s with
  | nil => simp at hy
  | cons a s ih =>
    have hs' := List.pairwise_cons.mp hs
    rcases List.mem_cons.mp hy with hya | hys
    · rcases List.mem_cons.mp hz with hza | hzs
      · exact hza.trans hya.symm
      · exact absurd h (by rw [hya]; exact ne_of_gt (hs'.1 z hzs))
    · rcases List.mem_cons.mp hz with hza | hzs
      · exact absurd h (by rw [hza]; exact ne_of_lt (hs'.1 y hys))
      · exact ih hs'.2 hys hzs

/-- C17. Sample status is only ever upgraded: for an ordered `currentSamples` and roots flagged
as roots, `CAD::samples` returns, `currentSamples` is ordered afterwards, and for every sample
present before the call there is exactly one sample of the same value afterwards; it is a root
if the earlier one was a root and numeric if the earlier one was numeric. -/
theorem samples_status_only_upgraded {K : Type} [LinearOrderedRing K]
    (X : IntervalOperations K) (roots : List (RealAlgebraicNumber K))
    (currentSamples : SampleSet K) (bounds : X.Interval)
    (hs : currentSamples.Ordered) (hroots : ∀ r ∈ roots, r.isRoot = true) :
    ∃ st, samples X roots currentSamples bounds = some st ∧ st.currentSamples.Ordered ∧
      ∀ x ∈ currentSamples, ∃ y ∈ st.currentSamples,
        y.value = x.value ∧ (x.isRoot = true → y.isRoot = true) ∧
        (x.isNumeric = true → y.isNumeric = true) ∧
        ∀ z ∈ st.currentSamples, z.value = x.value → z = y := by
  have main : ∃ st, samples X roots currentSamples bounds = some st ∧
      st.currentSamples.Ordered ∧
      ∀ x ∈ currentSamples, ∃ y ∈ st.currentSamples, x.upgradedTo y := by
    unfold samples
    split
    · exact ⟨_, rfl, hs, fun x hx => ⟨x, hx, upgradedTo_refl x⟩⟩
    · exact samplesLoop_upgrades X bounds roots
        { currentSamples := currentSamples, newSampleSet := [], replacedSamples := [] } hs hroots
  obtain ⟨st, h1, h2, h3⟩ := main
  refine ⟨st, h1, h2, ?_⟩
  intro x hx
  obtain ⟨y, hy, hxy⟩ := h3 x hx
  exact ⟨y, hy, hxy.1, hxy.2.1, hxy.2.2,
    fun z hz hzv => ordered_value_injective h2 hy hz (hzv.trans hxy.1.symm)⟩

/-- C17 at the set `9, 10 (root), 11` and the roots 50 and 11. -/
theorem samples_status_only_upgraded_witness :
    SampleSet.Ordered exampleSamples ∧
    (∀ r ∈ [RealAlgebraicNumberNR (50 : ℚ) true, RealAlgebraicNumberNR 11 true],
      r.isRoot = true) ∧
    ∃ st, samples exampleIntervals [RealAlgebraicNumberNR 50 true, RealAlgebraicNumberNR 11 true]
        exampleSamples none = some st ∧ st.currentSamples.Ordered ∧
      ∀ x ∈ exampleSamples, ∃ y ∈ st.currentSamples,
        y.value = x.value ∧ (x.isRoot = true → y.isRoot = true) ∧
        (x.isNumeric = true → y.isNumeric = true) ∧
        ∀ z ∈ st.currentSamples, z.value = x.value → z = y :=
  ⟨by unfold SampleSet.Ordered exampleSamples; with_unfolding_all decide, by decide,
    samples_status_only_upgraded exampleIntervals
      [RealAlgebraicNumberNR 50 true, RealAlgebraicNumberNR 11 true] exampleSamples none
      (by unfold SampleSet.Ordered exampleSamples; with_unfolding_all decide) (by decide)⟩

end CAD

/-! ## The returned sample set of `CAD::samples` -/

namespace CAD

/-- C18, the code at the failing input. `currentSamples` is the set `9, 10 (root), 11` built
from the root 10, and the call has the roots 50 and 11 and no bound. Afterwards
`currentSamples` holds the new value 50, and the returned set does not: the upgrade of 11
removes the sample at the lower bound of 11 in the returned set, which is 50. -/
theorem samples_increment_misses_new_root :
    (samples exampleIntervals [RealAlgebraicNumberNR 10 true] [] none).map
      (fun st => st.currentSamples) = some exampleSamples ∧
    (samples exampleIntervals [RealAlgebraicNumberNR 50 true, RealAlgebraicNumberNR 11 true]
        exampleSamples none).map
      (fun st => (st.currentSamples.map (fun x => x.value),
        st.newSampleSet.map (fun x => x.value), st.replacedSamples.map (fun x => x.value)))
      = some ([9, 10, 21 / 2, 11, 61 / 2, 50, 51], [21 / 2, 11, 61 / 2, 51], [11]) ∧
    (50 : ℚ) ∉ exampleSamples.map (fun x => x.value) := by
  with_unfolding_all decide

/-- With the same roots in the other order the returned set holds every new value. -/
theorem samples_increment_other_order :
    (samples exampleIntervals [RealAlgebraicNumberNR 11 true, RealAlgebraicNumberNR 50 true]
        exampleSamples none).map
      (fun st => (st.currentSamples.map (fun x => x.value),
        st.newSampleSet.map (fun x => x.value)))
      = some ([9, 10, 21 / 2, 11, 12, 50, 51], [21 / 2, 11, 12, 50, 51]) := by
  with_unfolding_all decide

end CAD

/-! ## Sign-invariance witnesses of `CAD::samples` -/

namespace CAD

theorem SignInvariant.ordered {K : Type} [LinearOrderedRing K] {s : SampleSet K}
    (h : s.SignInvariant) : s.Ordered := by
  haveI : IsTrans (RealAlgebraicNumber K) (fun a b => a.value < b.value) :=
    ⟨fun _ _ _ => lt_trans⟩
  exact List.chain'_iff_pairwise.mp (h.1.imp (fun _ _ hab => hab.1))

theorem ordered_le_getLast {K : Type} [LinearOrderedRing K] :
    ∀ (pre : SampleSet K) (p : RealAlgebraicNumber K), SampleSet.Ordered (pre ++ [p]) →
      ∀ a ∈ pre ++ [p], a.value ≤ p.value := by
  intro pre p h a ha
  unfold SampleSet.Ordered at h
  rw [List.pairwise_append] at h
  rcases List.mem_append.mp ha with ha | ha
  · exact le_of_lt (h.2.2 a ha p (by simp))
  · simp at ha; rw [ha]

/-- The left increment of a numeric root `me` that follows the samples `pre`. -/
theorem leftIncrement_spec {K : Type} [LinearOrderedRing K] (X : IntervalOperations K)
    (hsample : ∀ l r, l < r → l < X.sample l r ∧ X.sample l r < r)
    (pre suf : SampleSet K) (me : RealAlgebraicNumber K) (hme : me.isNumeric = true)
    (hord : SampleSet.Ordered pre) (hpre : ∀ a ∈ pre, a.value < me.value)
    (hnum : ∀ a ∈ pre, a.isNumeric = true) :
    (leftIncrement X (pre ++ me :: suf) pre.length me = [] ∧
      ∃ p, pre.getLast? = some p ∧ p.isRoot = false) ∨
    (∃ l, leftIncrement X (pre ++ me :: suf) pre.length me = [l] ∧ l.isRoot = false ∧
      l.isNumeric = true ∧ l.value < me.value ∧ (∀ a ∈ pre, a.value < l.value) ∧
      ∀ p ∈ pre.getLast?, p.isRoot = true) := by
  rcases List.eq_nil_or_concat pre with rfl | ⟨pre1, p, rfl⟩
  · right
    refine ⟨RealAlgebraicNumberNR (me.value - 1) false, ?_, rfl, rfl, ?_, by simp, by simp⟩
    · simp [leftIncrement, hme]
    · simp [RealAlgebraicNumberNR]
  · rw [List.concat_eq_append] at *
    have hidx : (pre1 ++ [p] ++ me :: suf)[(pre1 ++ [p]).length - 1]? = some p := by
      have : (pre1 ++ [p]).length - 1 = pre1.length := by simp
      rw [this, List.append_assoc]
      exact getElem?_append_length pre1 p _
    have hlen : ¬ (pre1 ++ [p]).length = 0 := by simp
    have hp : p.value < me.value := hpre p (by simp)
    cases hroot : p.isRoot with
    | false =>
      left
      refine ⟨?_, p, by simp, hroot⟩
      unfold leftIncrement
      rw [if_neg hlen, hidx]
      simp [hroot]
    | true =>
      right
      have hpn : p.isNumeric = true := hnum p (by simp)
      refine ⟨RealAlgebraicNumberNR (X.sample p.value me.value) false, ?_, rfl, rfl,
        (hsample _ _ hp).2, ?_, ?_⟩
      · unfold leftIncrement
        rw [if_neg hlen, hidx]
        simp [hroot, hme, hpn]
      · intro a ha
        exact lt_of_le_of_lt (ordered_le_getLast pre1 p hord a ha) (hsample _ _ hp).1
      · intro q hq
        simp at hq
        rw [← hq]; exact hroot

/-- The right increment of a numeric root `me` that precedes the samples `suf`. -/
theorem rightIncrement_spec {K : Type} [LinearOrderedRing K] (X : IntervalOperations K)
    (hsample : ∀ l r, l < r → l < X.sample l r ∧ X.sample l r < r)
    (pre suf : SampleSet K) (me : RealAlgebraicNumber K) (hme : me.isNumeric = true)
    (hord : SampleSet.Ordered suf) (hsuf : ∀ b ∈ suf, me.value < b.value)
    (hnum : ∀ b ∈ suf, b.isNumeric = true) :
    (rightIncrement X (pre ++ me :: suf) pre.length me = [] ∧
      ∃ q, suf.head? = some q ∧ q.isRoot = false) ∨
    (∃ r, rightIncrement X (pre ++ me :: suf) pre.length me = [r] ∧ r.isRoot = false ∧
      r.isNumeric = true ∧ me.value < r.value ∧ (∀ b ∈ suf, r.value < b.value) ∧
      ∀ q ∈ suf.head?, q.isRoot = true) := by
  have hidx : (pre ++ me :: suf)[pre.length + 1]? = suf.head? := by
    rw [List.getElem?_append_right (by omega)]
    cases suf <;> simp
  cases suf with
  | nil =>
    right
    refine ⟨RealAlgebraicNumberNR (me.value + 1) false, ?_, rfl, rfl, ?_, by simp, by simp⟩
    · unfold rightIncrement
      rw [hidx]
      simp [hme]
    · simp [RealAlgebraicNumberNR]
  | cons q suf1 =>
    have hq : me.value < q.value := hsuf q (by simp)
    cases hroot : q.isRoot with
    | false =>
      left
      refine ⟨?_, q, by simp, hroot⟩
      unfold rightIncrement
      rw [hidx]
      simp [hroot]
    | true =>
      right
      have hqn : q.isNumeric = true := hnum q (by simp)
      refine ⟨RealAlgebraicNumberNR (X.sample me.value q.value) false, ?_, rfl, rfl,
        (hsample _ _ hq).1, ?_, ?_⟩
      · unfold rightIncrement
        rw [hidx]
        simp [hroot, hme, hqn]
      · intro b hb
        have hle : q.value ≤ b.value := by
          rcases List.mem_cons.mp hb with rfl | hb
          · exact le_refl _
          · exact le_of_lt ((List.pairwise_cons.mp hord).1 b hb)
        exact lt_of_lt_of_le (hsample _ _ hq).2 hle
      · intro q2 hq2
        simp at hq2
        rw [← hq2]; exact hroot

theorem insertRange_increment {K : Type} [LinearOrderedRing K] (pre suf : SampleSet K)
    (me : RealAlgebraicNumber K) (L R : List (RealAlgebraicNumber K))
    (hpre : ∀ a ∈ pre, a.value < me.value)
    (hL : L = [] ∨ ∃ l, L = [l] ∧ l.value < me.value ∧ ∀ a ∈ pre, a.value < l.value)
    (hR : R = [] ∨ ∃ r, R = [r] ∧ me.value < r.value ∧ ∀ b ∈ suf, r.value < b.value) :
    SampleSet.insertRange (pre ++ me :: suf) (L ++ R) = pre ++ (L ++ me :: (R ++ suf)) := by
  have step1 : SampleSet.insertRange (pre ++ me :: suf) L = pre ++ (L ++ me :: suf) := by
    rcases hL with rfl | ⟨l, rfl, hl1, hl2⟩
    · rfl
    · simp only [SampleSet.insertRange, List.foldl_cons, List.foldl_nil]
      rw [SampleSet.insert_between pre (me :: suf) l hl2 (by simpa using hl1)]
      rfl
  have hsplit : SampleSet.insertRange (pre ++ me :: suf) (L ++ R) =
      SampleSet.insertRange (SampleSet.insertRange (pre ++ me :: suf) L) R := by
    simp only [SampleSet.insertRange, List.foldl_append]
  rw [hsplit, step1]
  rcases hR with rfl | ⟨r, rfl, hr1, hr2⟩
  · simp [SampleSet.insertRange]
  · simp only [SampleSet.insertRange, List.foldl_cons, List.foldl_nil]
    have hform : pre ++ (L ++ me :: suf) = (pre ++ (L ++ [me])) ++ suf := by simp
    rw [hform, SampleSet.insert_between (pre ++ (L ++ [me])) suf r ?_
      (fun b hb => hr2 b (List.mem_of_mem_head? hb))]
    · simp
    · intro a ha
      simp only [List.mem_append, List.mem_singleton] at ha
      rcases ha with ha | ha | ha
      · exact lt_trans (hpre a ha) hr1
      · rcases hL with rfl | ⟨l, rfl, hl1, _⟩
        · simp at ha
        · simp at ha; rw [ha]; exact lt_trans hl1 hr1
      · rw [ha]; exact hr1

theorem addIncrement_signInvariant {K : Type} [LinearOrderedRing K] (X : IntervalOperations K)
    (hsample : ∀ l r, l < r → l < X.sample l r ∧ X.sample l r < r)
    (bounds : X.Interval) (hinactive : (!X.isEmpty bounds && !X.unbounded bounds) = false)
    (st : SampleConstruction K) (pre suf : SampleSet K) (me : RealAlgebraicNumber K)
    (hcur : st.currentSamples = pre ++ me :: suf)
    (hroot : me.isRoot = true) (hme : me.isNumeric = true)
    (hpre : ∀ a ∈ pre, a.value < me.value) (hsuf : ∀ b ∈ suf, me.value < b.value)
    (hcp : pre.Chain' (fun a b => a.value < b.value ∧ a.isRoot ≠ b.isRoot))
    (hcs : suf.Chain' (fun a b => a.value < b.value ∧ a.isRoot ≠ b.isRoot))
    (hhead : ∀ x ∈ pre.head?, x.isRoot = false) (hlast : ∀ x ∈ suf.getLast?, x.isRoot = false)
    (hnp : ∀ a ∈ pre, a.isNumeric = true) (hns : ∀ b ∈ suf, b.isNumeric = true) :
    ∃ st1, addIncrement X bounds st pre.length = some st1 ∧
      st1.currentSamples.SignInvariant ∧ me ∈ st1.currentSamples := by
  haveI : IsTrans (RealAlgebraicNumber K) (fun a b => a.value < b.value) :=
    ⟨fun _ _ _ => lt_trans⟩
  have hop : SampleSet.Ordered pre :=
    List.chain'_iff_pairwise.mp (hcp.imp (fun _ _ hab => hab.1))
  have hos : SampleSet.Ordered suf :=
    List.chain'_iff_pairwise.mp (hcs.imp (fun _ _ hab => hab.1))
  have hLs := leftIncrement_spec X hsample pre suf me hme hop hpre hnp
  have hRs := rightIncrement_spec X hsample pre suf me hme hos hsuf hns
  unfold addIncrement
  rw [hcur, getElem?_append_length]
  dsimp only
  rw [if_neg (by simp [hinactive])]
  refine ⟨_, rfl, ?_⟩
  dsimp only
  generalize leftIncrement X (pre ++ me :: suf) pre.length me = L at hLs
  generalize rightIncrement X (pre ++ me :: suf) pre.length me = R at hRs
  have hL' : L = [] ∨ ∃ l, L = [l] ∧ l.value < me.value ∧ ∀ a ∈ pre, a.value < l.value := by
    rcases hLs with ⟨h, _⟩ | ⟨l, h1, _, _, h2, h3, _⟩
    · exact Or.inl h
    · exact Or.inr ⟨l, h1, h2, h3⟩
  have hR' : R = [] ∨ ∃ r, R = [r] ∧ me.value < r.value ∧ ∀ b ∈ suf, r.value < b.value := by
    rcases hRs with ⟨h, _⟩ | ⟨r, h1, _, _, h2, h3, _⟩
    · exact Or.inl h
    · exact Or.inr ⟨r, h1, h2, h3⟩
  rw [insertRange_increment pre suf me L R hpre hL' hR']
  -- the part from `me` on
  have hright : (me :: (R ++ suf)).Chain' (fun a b => a.value < b.value ∧ a.isRoot ≠ b.isRoot) ∧
      (∀ x ∈ (me :: (R ++ suf)).getLast?, x.isRoot = false) ∧
      (∀ x ∈ R, x.isNumeric = true) := by
    rcases hRs with ⟨h, q, hq1, hq2⟩ | ⟨r, h, hr1, hr2, hr3, hr4, hr5⟩
    · subst h
      obtain ⟨suf1, rfl⟩ : ∃ suf1, suf = q :: suf1 := by
        cases suf with
        | nil => simp at hq1
        | cons b suf1 => simp at hq1; exact ⟨suf1, by rw [hq1]⟩
      refine ⟨?_, ?_, by simp⟩
      · simp only [List.nil_append]
        exact List.Chain'.cons ⟨hsuf q (by simp), by rw [hroot, hq2]; decide⟩ hcs
      · simpa using hlast
    · subst h
      refine ⟨?_, ?_, by simpa using hr2⟩
      · simp only [List.singleton_append]
        refine List.Chain'.cons ⟨hr3, by rw [hroot, hr1]; decide⟩ ?_
        refine List.Chain'.cons' hcs ?_
        intro y hy
        exact ⟨hr4 y (List.mem_of_mem_head? hy), by rw [hr1, hr5 y hy]; decide⟩
      · cases suf with
        | nil => simpa using hr1
        | cons b suf1 => simpa using hlast
  refine ⟨⟨?_, ?_, ?_, ?_⟩, by simp⟩
  · rcases hLs with ⟨h, p, hp1, hp2⟩ | ⟨l, h, hl1, hl2, hl3, hl4, hl5⟩
    · subst h
      refine hcp.append hright.1 ?_
      intro x hx y hy
      simp at hy
      subst hy
      rw [hp1] at hx
      simp at hx
      subst hx
      exact ⟨hpre _ (List.mem_of_mem_getLast? hp1), by rw [hroot, hp2]; decide⟩
    · subst h
      refine hcp.append ?_ ?_
      · simp only [List.singleton_append]
        exact List.Chain'.cons ⟨hl3, by rw [hroot, hl1]; decide⟩ hright.1
      · intro x hx y hy
        simp at hy
        subst hy
        exact ⟨hl4 x (List.mem_of_mem_getLast? hx), by rw [hl1, hl5 x hx]; decide⟩
  · intro x hx
    cases pre with
    | nil =>
      rcases hLs with ⟨_, p, hp1, _⟩ | ⟨l, h, hl1, _⟩
      · simp at hp1
      · subst h
        simp at hx
        rw [← hx]; exact hl1
    | cons a pre1 =>
      simp at hx
      exact hhead a (by simp) ▸ (by rw [← hx])
  · intro x hx
    rw [← List.append_assoc, List.getLast?_append_of_ne_nil _ (by simp)] at hx
    exact hright.2.1 x hx
  · intro x hx
    simp only [List.mem_append, List.mem_cons] at hx
    rcases hx with hx | hx | hx | hx | hx
    · exact hnp x hx
    · rcases hLs with ⟨h, _⟩ | ⟨l, h, _, hl2, _⟩
      · subst h; simp at hx
      · subst h; simp at hx; rw [hx]; exact hl2
    · rw [hx]; exact hme
    · exact hright.2.2 x hx
    · exact hns x hx

theorem head?_of_append {α : Type} {pre rest : List α} {x : α} (h : x ∈ pre.head?) :
    x ∈ (pre ++ rest).head? := by
  cases pre with
  | nil => simp at h
  | cons a pre1 => simpa using h

theorem getLast?_of_append {α : Type} {rest suf : List α} {x : α} (h : x ∈ suf.getLast?) :
    x ∈ (rest ++ suf).getLast? := by
  have hne : suf ≠ [] := by
    intro hnil; subst hnil; simp at h
  rw [List.getLast?_append_of_ne_nil _ hne]
  exact h

theorem samplesStep_signInvariant {K : Type} [LinearOrderedRing K] (X : IntervalOperations K)
    (hsample : ∀ l r, l < r → l < X.sample l r ∧ X.sample l r < r)
    (bounds : X.Interval) (hinactive : (!X.isEmpty bounds && !X.unbounded bounds) = false)
    (st : SampleConstruction K) (i : RealAlgebraicNumber K)
    (hinv : st.currentSamples.SignInvariant) (hi : i.isRoot = true)
    (hin : i.isNumeric = true) :
    ∃ st1, samplesStep X bounds st i = some st1 ∧ st1.currentSamples.SignInvariant ∧
      ∃ y ∈ st1.currentSamples, y.value = i.value ∧ y.isRoot = true := by
  obtain ⟨pre, suf, h1, h2, ⟨h3, st1, h4, h5⟩ | ⟨x, hx, h3, h4⟩⟩ :=
    enterRoot_ordered st i (SignInvariant.ordered hinv) hi
  · rw [h3] at hinv
    obtain ⟨st2, h6, h7, h8⟩ := addIncrement_signInvariant X hsample bounds hinactive st1
      pre suf i h5 hi hin h1 h2 hinv.1.left_of_append hinv.1.right_of_append
      (fun y hy => hinv.2.1 y (head?_of_append hy))
      (fun y hy => hinv.2.2.1 y (getLast?_of_append hy))
      (fun a ha => hinv.2.2.2 a (by simp [ha])) (fun b hb => hinv.2.2.2 b (by simp [hb]))
    refine ⟨st2, ?_, h7, i, h8, rfl, hi⟩
    unfold samplesStep
    rw [h4]
    exact h6
  · rw [h3] at hinv
    have hxn : x.isNumeric = true := hinv.2.2.2 x (by simp)
    rcases h4 with ⟨hr, st1, h5, h6⟩ | ⟨_, hn, _⟩ | ⟨hr, _, h5⟩
    · obtain ⟨st2, h7, h8, h9⟩ := addIncrement_signInvariant X hsample bounds hinactive st1
        pre suf (x.setIsRoot true) h6 rfl hxn (by rw [show (x.setIsRoot true).value = i.value from hx]; exact h1)
        (by rw [show (x.setIsRoot true).value = i.value from hx]; exact h2)
        hinv.1.left_of_append hinv.1.right_of_append.tail
        (fun y hy => hinv.2.1 y (head?_of_append hy))
        (fun y hy => hinv.2.2.1 y
          (by rw [show pre ++ x :: suf = (pre ++ [x]) ++ suf by simp]
              exact getLast?_of_append hy))
        (fun a ha => hinv.2.2.2 a (by simp [ha])) (fun b hb => hinv.2.2.2 b (by simp [hb]))
      refine ⟨st2, ?_, h8, x.setIsRoot true, h9, hx, rfl⟩
      unfold samplesStep
      rw [h5]
      exact h7
    · rw [hxn] at hn
      exact absurd hn (by decide)
    · refine ⟨st, ?_, by rw [h3]; exact hinv, x, by rw [h3]; simp, hx, hr⟩
      unfold samplesStep
      rw [h5]

theorem samplesLoop_signInvariant {K : Type} [LinearOrderedRing K] (X : IntervalOperations K)
    (hsample : ∀ l r, l < r → l < X.sample l r ∧ X.sample l r < r)
    (bounds : X.Interval) (hinactive : (!X.isEmpty bounds && !X.unbounded bounds) = false) :
    ∀ (roots : List (RealAlgebraicNumber K)) (st : SampleConstruction K),
      st.currentSamples.SignInvariant →
      (∀ r ∈ roots, r.isRoot = true ∧ r.isNumeric = true) →
      ∃ st1, samplesLoop X bounds st roots = some st1 ∧ st1.currentSamples.SignInvariant ∧
        (∀ x ∈ st.currentSamples, ∃ y ∈ st1.currentSamples, x.upgradedTo y) ∧
        ∀ r ∈ roots, ∃ y ∈ st1.currentSamples, y.value = r.value ∧ y.isRoot = true := by
  intro roots
  induction roots with
  | nil =>
    intro st hinv _
    exact ⟨st, rfl, hinv, fun x hx => ⟨x, hx, upgradedTo_refl x⟩, by simp⟩
  | cons i roots ih =>
    intro st hinv hroots
    have hi := hroots i (by simp)
    obtain ⟨st1, h1, h2, y, hy1, hy2, hy3⟩ :=
      samplesStep_signInvariant X hsample bounds hinactive st i hinv hi.1 hi.2
    obtain ⟨st1', h1', _, hup⟩ :=
      samplesStep_upgrades X bounds st i (SignInvariant.ordered hinv) hi.1
    have hst : st1' = st1 := by
      rw [h1] at h1'; exact (Option.some.inj h1').symm
    subst hst
    obtain ⟨st2, h3, h4, h5, h6⟩ := ih st1' h2 (fun r hr => hroots r (by simp [hr]))
    refine ⟨st2, by simp only [samplesLoop, h1, h3], h4, ?_, ?_⟩
    · intro x hx
      obtain ⟨z, hz, hxz⟩ := hup x hx
      obtain ⟨w, hw, hzw⟩ := h5 z hz
      exact ⟨w, hw, upgradedTo_trans hxz hzw⟩
    · intro r hr
      rcases List.mem_cons.mp hr with rfl | hr
      · obtain ⟨w, hw, hyw⟩ := h5 y hy1
        exact ⟨w, hw, hyw.1.trans hy2, hyw.2.1 hy3⟩
      · exact h6 r hr

theorem samplesCalls_signInvariant {K : Type} [LinearOrderedRing K] (X : IntervalOperations K)
    (hsample : ∀ l r, l < r → l < X.sample l r ∧ X.sample l r < r) :
    ∀ (calls : List (List (RealAlgebraicNumber K) × X.Interval)) (currentSamples : SampleSet K),
      currentSamples.SignInvariant →
      (∀ call ∈ calls, (!X.isEmpty call.2 && !X.unbounded call.2) = false ∧
        ∀ r ∈ call.1, r.isRoot = true ∧ r.isNumeric = true) →
      ∃ final, samplesCalls X currentSamples calls = some final ∧ final.SignInvariant ∧
        (∀ x ∈ currentSamples, ∃ y ∈ final, x.upgradedTo y) ∧
        ∀ call ∈ calls, ∀ r ∈ call.1, ∃ y ∈ final, y.value = r.value ∧ y.isRoot = true := by
  intro calls
  induction calls with
  | nil =>
    intro cur hinv _
    exact ⟨cur, rfl, hinv, fun x hx => ⟨x, hx, upgradedTo_refl x⟩, by simp⟩
  | cons call calls ih =>
    intro cur hinv hcalls
    have hc := hcalls call (by simp)
    have hone : ∃ st, samples X call.1 cur call.2 = some st ∧
        st.currentSamples.SignInvariant ∧
        (∀ x ∈ cur, ∃ y ∈ st.currentSamples, x.upgradedTo y) ∧
        ∀ r ∈ call.1, ∃ y ∈ st.currentSamples, y.value = r.value ∧ y.isRoot = true := by
      unfold samples
      split
      · rename_i hempty
        refine ⟨_, rfl, hinv, fun x hx => ⟨x, hx, upgradedTo_refl x⟩, ?_⟩
        intro r hr
        have : call.1 = [] := by simpa using hempty
        rw [this] at hr
        simp at hr
      · exact samplesLoop_signInvariant X hsample call.2 hc.1 call.1
          { currentSamples := cur, newSampleSet := [], replacedSamples := [] } hinv hc.2
    obtain ⟨st, h1, h2, h3, h4⟩ := hone
    obtain ⟨final, h5, h6, h7, h8⟩ := ih st.currentSamples h2
      (fun c hcm => hcalls c (by simp [hcm]))
    refine ⟨final, by simp only [samplesCalls, h1, h5], h6, ?_, ?_⟩
    · intro x hx
      obtain ⟨z, hz, hxz⟩ := h3 x hx
      obtain ⟨w, hw, hzw⟩ := h7 z hz
      exact ⟨w, hw, upgradedTo_trans hxz hzw⟩
    · intro c hcm r hr
      rcases List.mem_cons.mp hcm with rfl | hcm
      · obtain ⟨y, hy1, hy2, hy3⟩ := h4 r hr
        obtain ⟨w, hw, hyw⟩ := h7 y hy1
        exact ⟨w, hw, hyw.1.trans hy2, hyw.2.1 hy3⟩
      · exact h8 c hcm r hr

/-- C15. Sign-invariance witnesses of sample construction: starting from the empty sample set,
any sequence of calls of `CAD::samples` without an active bound and with numeric roots returns,
and afterwards `currentSamples` holds every given root as a root sample, its samples increase
in value and alternate between non-root and root, and the least and the greatest sample are
non-roots: there is exactly one non-root sample strictly between two consecutive roots, one
below the least root and one above the greatest root. The sample of an open interval is taken
to lie strictly inside it. -/
theorem samples_sign_invariance {K : Type} [LinearOrderedRing K] (X : IntervalOperations K)
    (hsample : ∀ l r, l < r → l < X.sample l r ∧ X.sample l r < r)
    (calls : List (List (RealAlgebraicNumber K) × X.Interval))
    (hcalls : ∀ call ∈ calls, (X.isEmpty call.2 = true ∨ X.unbounded call.2 = true) ∧
      ∀ r ∈ call.1, r.isRoot = true ∧ r.isNumeric = true) :
    ∃ final, samplesCalls X [] calls = some final ∧ final.SignInvariant ∧
      ∀ call ∈ calls, ∀ r ∈ call.1, ∃ y ∈ final, y.value = r.value ∧ y.isRoot = true := by
  have hempty : SampleSet.SignInvariant ([] : SampleSet K) :=
    ⟨List.chain'_nil, by simp, by simp, by simp⟩
  obtain ⟨final, h1, h2, _, h4⟩ := samplesCalls_signInvariant X hsample calls [] hempty
    (fun call hc => ⟨by rcases (hcalls call hc).1 with h | h <;> simp [h], (hcalls call hc).2⟩)
  exact ⟨final, h1, h2, h4⟩

/-- C15 at two calls over the rationals with midpoints as interval samples: the root 10, then
the roots 50 and 11; the set afterwards is 9, 10, 21/2, 11, 61/2, 50, 51. -/
theorem samples_sign_invariance_witness :
    (∀ l r : ℚ, l < r → l < exampleIntervals.sample l r ∧ exampleIntervals.sample l r < r) ∧
    (∀ call ∈ exampleSampleCalls,
      (exampleIntervals.isEmpty call.2 = true ∨ exampleIntervals.unbounded call.2 = true) ∧
      ∀ r ∈ call.1, r.isRoot = true ∧ r.isNumeric = true) ∧
    (samplesCalls exampleIntervals [] exampleSampleCalls).map
      (fun s => s.map (fun x => (x.value, x.isRoot))) =
        some [(9, false), (10, true), (21 / 2, false), (11, true), (61 / 2, false),
          (50, true), (51, false)] ∧
    ∃ final, samplesCalls exampleIntervals [] exampleSampleCalls = some final ∧
      final.SignInvariant ∧
      ∀ call ∈ exampleSampleCalls, ∀ r ∈ call.1,
        ∃ y ∈ final, y.value = r.value ∧ y.isRoot = true :=
  have hs : ∀ l r : ℚ, l < r →
      l < exampleIntervals.sample l r ∧ exampleIntervals.sample l r < r := by
    intro l r h
    simp only [exampleIntervals]
    constructor <;> linarith
  have hc : ∀ call ∈ exampleSampleCalls,
      (exampleIntervals.isEmpty call.2 = true ∨ exampleIntervals.unbounded call.2 = true) ∧
      ∀ r ∈ call.1, r.isRoot = true ∧ r.isNumeric = true := by
    simp [exampleSampleCalls, exampleIntervals, RealAlgebraicNumberNR]
  ⟨hs, hc, by with_unfolding_all decide,
    samples_sign_invariance exampleIntervals hs exampleSampleCalls hc⟩

end CAD

/-! ## `storeSampleInTree` -/

theorem split_at_key {α K : Type} [LinearOrder K] (k : α → K) (v : K) :
    ∀ l : List α, l.Pairwise (fun a b => k a < k b) →
      ∃ pre suf, (∀ a ∈ pre, k a < v) ∧ (∀ b ∈ suf, v < k b) ∧
        (l = pre ++ suf ∨ ∃ x, k x = v ∧ l = pre ++ x :: suf) := by
  intro l
  induction l with
  | nil => intro _; exact ⟨[], [], by simp, by simp, Or.inl rfl⟩
  | cons a l ih =>
    intro hl
    have hl' := List.pairwise_cons.mp hl
    rcases lt_trichotomy (k a) v with hlt | heq | hgt
    · obtain ⟨pre, suf, h1, h2, h3⟩ := ih hl'.2
      refine ⟨a :: pre, suf, ?_, h2, ?_⟩
      · intro b hb
        rcases List.mem_cons.mp hb with rfl | hb
        · exact hlt
        · exact h1 b hb
      · rcases h3 with h3 | ⟨x, hx, h3⟩
        · exact Or.inl (by rw [h3]; rfl)
        · exact Or.inr ⟨x, hx, by rw [h3]; rfl⟩
    · refine ⟨[], l, by simp, ?_, Or.inr ⟨a, heq, rfl⟩⟩
      intro b hb
      rw [← heq]; exact hl'.1 b hb
    · refine ⟨[], a :: l, by simp, ?_, Or.inl rfl⟩
      intro b hb
      rcases List.mem_cons.mp hb with rfl | hb
      · exact hgt
      · exact lt_trans hgt (hl'.1 b hb)

theorem pairwise_key_index {α K : Type} [LinearOrder K] (k : α → K) (l : List α)
    (hl : l.Pairwise (fun a b => k a < k b)) (i j : Nat) (c d : α)
    (hi : l[i]? = some c) (hj : l[j]? = some d) (h : k c = k d) : i = j := by
  rw [List.pairwise_iff_getElem] at hl
  obtain ⟨hi1, hi2⟩ := List.getElem?_eq_some.mp hi
  obtain ⟨hj1, hj2⟩ := List.getElem?_eq_some.mp hj
  rcases Nat.lt_trichotomy i j with hlt | heq | hgt
  · have := hl i j hi1 hj1 hlt
    rw [hi2, hj2, h] at this
    exact absurd this (lt_irrefl _)
  · exact heq
  · have := hl j i hj1 hi1 hgt
    rw [hi2, hj2, h] at this
    exact absurd this (lt_irrefl _)

namespace SampleForest

/-- The children after `storeSampleInTree`, for children that strictly increase in value: the
children below the new sample, the returned node, and the children above it. -/
theorem storeSampleInTree_split {K S : Type} [LinearOrderedRing K] (leaf : S)
    (children : List (RealAlgebraicNumber K × S)) (newSample : RealAlgebraicNumber K)
    (hord : children.Pairwise (fun a b => a.1.value < b.1.value)) :
    ∃ pre suf sub, (∀ a ∈ pre, a.1.value < newSample.value) ∧
      (∀ b ∈ suf, newSample.value < b.1.value) ∧
      storeSampleInTree leaf children newSample =
        (pre ++ (newSample, sub) :: suf, pre.length) ∧
      (children = pre ++ suf ∨ ∃ x, x.1.value = newSample.value ∧ x.2 = sub ∧
        children = pre ++ x :: suf) := by
  obtain ⟨pre, suf, h1, h2, h3⟩ :=
    split_at_key (fun (c : RealAlgebraicNumber K × S) => c.1.value) newSample.value children hord
  rcases h3 with h3 | ⟨x, hx, h3⟩
  · refine ⟨pre, suf, leaf, h1, h2, ?_, Or.inl h3⟩
    have hlb := lower_bound_partitioned
      (fun (child : RealAlgebraicNumber K × S) sample => Less child.1 sample) pre suf newSample
      (by intro a ha; simpa [Less] using h1 a ha)
      (by intro b hb; simpa [Less] using le_of_lt (h2 b hb))
    unfold storeSampleInTree
    simp only
    rw [h3, hlb]
    cases suf with
    | nil => simp
    | cons q suf1 =>
      have hq : ¬ q.1.value = newSample.value := ne_of_gt (h2 q (by simp))
      rw [getElem?_append_length]
      simp [Equal, hq]
  · refine ⟨pre, suf, x.2, h1, h2, ?_, Or.inr ⟨x, hx, rfl, h3⟩⟩
    have hlb := lower_bound_partitioned
      (fun (child : RealAlgebraicNumber K × S) sample => Less child.1 sample) pre (x :: suf)
      newSample
      (by intro a ha; simpa [Less] using h1 a ha)
      (by
        intro b hb
        rcases List.mem_cons.mp hb with rfl | hb
        · simp [Less, hx]
        · simpa [Less] using le_of_lt (h2 b hb))
    unfold storeSampleInTree
    simp only
    rw [h3, hlb, getElem?_append_length]
    simp [Equal, hx]

/-- C19. `storeSampleInTree` keeps siblings strictly ordered: if the children of `node`
strictly increase in value before `storeSampleInTree(newSample, node)`, then afterwards they
strictly increase, the returned node carries `newSample`, it is the only child with the value
of `newSample`, and the other children are the earlier children of a different value,
unchanged and in the same order. -/
theorem storeSampleInTree_keeps_order {K S : Type} [LinearOrderedRing K] (leaf : S)
    (children : List (RealAlgebraicNumber K × S)) (newSample : RealAlgebraicNumber K)
    (hord : children.Pairwise (fun a b => a.1.value < b.1.value)) :
    (storeSampleInTree leaf children newSample).1.Pairwise
      (fun a b => a.1.value < b.1.value) ∧
    (∃ sub, (storeSampleInTree leaf children newSample).1[
        (storeSampleInTree leaf children newSample).2]? = some (newSample, sub)) ∧
    (∀ j c, (storeSampleInTree leaf children newSample).1[j]? = some c →
      c.1.value = newSample.value → j = (storeSampleInTree leaf children newSample).2) ∧
    (storeSampleInTree leaf children newSample).1.eraseIdx
        (storeSampleInTree leaf children newSample).2 =
      children.filter (fun c => !Equal c.1 newSample) := by
  obtain ⟨pre, suf, sub, h1, h2, h3, h4⟩ := storeSampleInTree_split leaf children newSample hord
  rw [h3]
  have hrest : (pre ++ suf).Pairwise (fun a b => a.1.value < b.1.value) := by
    rcases h4 with h4 | ⟨x, _, _, h4⟩
    · rw [← h4]; exact hord
    · rw [h4] at hord
      exact List.Pairwise.sublist
        (List.Sublist.append (List.Sublist.refl pre) (List.sublist_cons_self x suf)) hord
  have hnew : (pre ++ (newSample, sub) :: suf).Pairwise (fun a b => a.1.value < b.1.value) := by
    rw [List.pairwise_append] at hrest ⊢
    refine ⟨hrest.1, ?_, ?_⟩
    · rw [List.pairwise_cons]; exact ⟨h2, hrest.2.1⟩
    · intro a ha b hb
      rcases List.mem_cons.mp hb with rfl | hb
      · exact h1 a ha
      · exact hrest.2.2 a ha b hb
  have hfilter : ∀ l : List (RealAlgebraicNumber K × S),
      (∀ a ∈ l, a.1.value ≠ newSample.value) →
      l.filter (fun c => !Equal c.1 newSample) = l := by
    intro l hl
    rw [List.filter_eq_self]
    intro a ha
    simpa [Equal] using hl a ha
  refine ⟨hnew, ⟨sub, getElem?_append_length _ _ _⟩, ?_, ?_⟩
  · intro j c hj hc
    exact pairwise_key_index (fun (c : RealAlgebraicNumber K × S) => c.1.value) _ hnew j
      pre.length c (newSample, sub) hj (getElem?_append_length _ _ _) hc
  · dsimp only
    rw [eraseIdx_append_length]
    rcases h4 with h4 | ⟨x, hx, _, h4⟩
    · rw [h4, hfilter]
      intro a ha
      rcases List.mem_append.mp ha with ha | ha
      · exact ne_of_lt (h1 a ha)
      · exact ne_of_gt (h2 a ha)
    · rw [h4, List.filter_append, List.filter_cons, hfilter pre (fun a ha => ne_of_lt (h1 a ha)),
        hfilter suf (fun a ha => ne_of_gt (h2 a ha))]
      simp [Equal, hx]

/-- C19 at the children 1 and 3 and the new sample 3 flagged as a root. -/
theorem storeSampleInTree_keeps_order_witness :
    [(exampleNode 1, ()), (exampleNode 3, ())].Pairwise (fun a b => a.1.value < b.1.value) ∧
    (storeSampleInTree () [(exampleNode 1, ()), (exampleNode 3, ())]
      (RealAlgebraicNumberNR 3 true)).1 =
        [(exampleNode 1, ()), (RealAlgebraicNumberNR 3 true, ())] ∧
    (storeSampleInTree () [(exampleNode 1, ()), (exampleNode 3, ())]
      (RealAlgebraicNumberNR 3 true)).1.Pairwise (fun a b => a.1.value < b.1.value) :=
  ⟨by decide, by decide,
    (storeSampleInTree_keeps_order () [(exampleNode 1, ()), (exampleNode 3, ())]
      (RealAlgebraicNumberNR 3 true) (by decide)).1⟩

end SampleForest

/-! ## Shrinking the bounds to a satisfying point -/

namespace CAD

/-- The loop of `shrinkBounds` over the first `n` levels treats each level on its own. -/
theorem shrinkBounds_loop {K : Type}
    (refineAvoiding : RealAlgebraicNumber K → K → RealAlgebraicNumber K × Bool)
    (bounds : Nat → Option (ExactInterval K)) (r : List (RealAlgebraicNumber K)) :
    ∀ n, n ≤ r.length →
      ∃ bounds1 r1,
        (List.range n).foldlM (shrinkBoundsStep refineAvoiding) (bounds, r) =
          some (bounds1, r1) ∧
        r1.length = r.length ∧
        (∀ i, bounds1 i = if i < n then
            (bounds i).bind fun bd => r[i]?.map fun x => (shrinkBound refineAvoiding bd x).1
          else bounds i) ∧
        (∀ i, r1[i]? = if i < n then
            (match bounds i with
              | none => r[i]?
              | some bd => r[i]?.map fun x => (shrinkBound refineAvoiding bd x).2)
          else r[i]?) := by
  intro n
  induction n with
  | zero => intro _; exact ⟨bounds, r, rfl, rfl, by simp, by simp⟩
  | succ n ih =>
    intro hn
    obtain ⟨b1, r1, hfold, hlen, hb, hr⟩ := ih (by omega)
    have hbn : b1 n = bounds n := by rw [hb n, if_neg (lt_irrefl n)]
    have hrn : r1[n]? = r[n]? := by rw [hr n, if_neg (lt_irrefl n)]
    have hx : r[n]? = some (r[n]) := List.getElem?_eq_getElem (by omega)
    rw [List.range_succ, List.foldlM_append, hfold]
    simp only [Option.bind_eq_bind, Option.some_bind, List.foldlM_cons, List.foldlM_nil,
      shrinkBoundsStep, hbn, hrn, hx]
    cases hbd : bounds n with
    | none =>
      refine ⟨b1, r1, rfl, hlen, ?_, ?_⟩
      · intro i
        rw [hb i]
        rcases Nat.lt_trichotomy i n with h | h | h
        · rw [if_pos h, if_pos (by omega)]
        · subst h; simp [hbd]
        · rw [if_neg (by omega), if_neg (by omega)]
      · intro i
        rw [hr i]
        rcases Nat.lt_trichotomy i n with h | h | h
        · rw [if_pos h, if_pos (by omega)]
        · subst h; simp [hbd]
        · rw [if_neg (by omega), if_neg (by omega)]
    | some bd =>
      refine ⟨_, _, rfl, by simp [hlen], ?_, ?_⟩
      · intro i
        rcases Nat.lt_trichotomy i n with h | h | h
        · rw [Function.update_noteq (by omega), hb i, if_pos h, if_pos (by omega)]
        · subst h; simp [hbd, hx]
        · rw [Function.update_noteq (by omega), hb i, if_neg (by omega), if_neg (by omega)]
      · intro i
        rcases Nat.lt_trichotomy i n with h | h | h
        · rw [List.getElem?_set_ne (by omega), hr i, if_pos h, if_pos (by omega)]
        · subst h
          rw [List.getElem?_set_self (by omega), if_pos (by omega), hbd, hx]
          rfl
        · rw [List.getElem?_set_ne (by omega), hr i, if_neg (by omega), if_neg (by omega)]

theorem ExactInterval_contains_setPoint {K : Type} [LinearOrderedRing K] (i : ExactInterval K)
    (v z : K) : (i.setPoint v).contains z ↔ z = v := by
  simp only [ExactInterval.contains, ExactInterval.aboveLeft, ExactInterval.belowRight,
    ExactInterval.setPoint]
  constructor
  · rintro ⟨h1, h2⟩; exact le_antisymm h2 h1
  · rintro rfl; exact ⟨le_refl _, le_refl _⟩

theorem ExactInterval_contains_setOpen {K : Type} [LinearOrderedRing K] (i : ExactInterval K)
    (l r z : K) : (i.setOpen l r).contains z ↔ l < z ∧ z < r := by
  simp only [ExactInterval.contains, ExactInterval.aboveLeft, ExactInterval.belowRight,
    ExactInterval.setOpen]

/-- An open interval around a number of a bound that holds neither endpoint of the bound lies
within the bound. -/
theorem ExactInterval_open_subset {K : Type} [LinearOrderedRing K] (b : ExactInterval K)
    (l r v z : K) (hv : b.contains v) (hl : l < v) (hr : v < r)
    (hleft : ¬ (l < b.left ∧ b.left < r)) (hright : ¬ (l < b.right ∧ b.right < r))
    (hz : l < z ∧ z < r) : b.contains z := by
  obtain ⟨hv1, hv2⟩ := hv
  have hbl : b.leftType ≠ BoundType.INFTY → b.left ≤ l := by
    intro hne
    by_contra hcon
    push_neg at hcon
    apply hleft
    refine ⟨hcon, ?_⟩
    unfold ExactInterval.aboveLeft at hv1
    cases ht : b.leftType with
    | INFTY => exact absurd ht hne
    | STRICT => rw [ht] at hv1; exact lt_trans hv1 hr
    | WEAK => rw [ht] at hv1; exact lt_of_le_of_lt hv1 hr
  have hbr : b.rightType ≠ BoundType.INFTY → r ≤ b.right := by
    intro hne
    by_contra hcon
    push_neg at hcon
    apply hright
    refine ⟨?_, hcon⟩
    unfold ExactInterval.belowRight at hv2
    cases ht : b.rightType with
    | INFTY => exact absurd ht hne
    | STRICT => rw [ht] at hv2; exact lt_trans hl hv2
    | WEAK => rw [ht] at hv2; exact lt_of_lt_of_le hl hv2
  constructor
  · unfold ExactInterval.aboveLeft
    cases ht : b.leftType with
    | INFTY => trivial
    | STRICT => exact lt_of_le_of_lt (hbl (by rw [ht]; decide)) hz.1
    | WEAK => exact le_of_lt (lt_of_le_of_lt (hbl (by rw [ht]; decide)) hz.1)
  · unfold ExactInterval.belowRight
    cases ht : b.rightType with
    | INFTY => trivial
    | STRICT => exact lt_of_lt_of_le hz.2 (hbr (by rw [ht]; decide))
    | WEAK => exact le_of_lt (lt_of_lt_of_le hz.2 (hbr (by rw [ht]; decide)))

/-- What `shrinkBounds` does to one bound, for a refinement that keeps the number, and that,
when it returns false, leaves an isolating interval within the old one that does not hold the
number to avoid. -/
theorem shrinkBound_spec {K : Type} [LinearOrderedRing K]
    (refineAvoiding : RealAlgebraicNumber K → K → RealAlgebraicNumber K × Bool)
    (hvalue : ∀ x n, (refineAvoiding x n).1.value = x.value)
    (hrefined : ∀ x n, x.left < x.value → x.value < x.right → (refineAvoiding x n).2 = false →
      x.left ≤ (refineAvoiding x n).1.left ∧ (refineAvoiding x n).1.right ≤ x.right ∧
      (refineAvoiding x n).1.left < x.value ∧ x.value < (refineAvoiding x n).1.right ∧
      ¬ ((refineAvoiding x n).1.left < n ∧ n < (refineAvoiding x n).1.right))
    (b : ExactInterval K) (x : RealAlgebraicNumber K)
    (hwf : x.isNumeric = false → x.left < x.value ∧ x.value < x.right)
    (hin : b.contains x.value) :
    (shrinkBound refineAvoiding b x).2.value = x.value ∧
    (shrinkBound refineAvoiding b x).1.contains x.value ∧
    (∀ z, (shrinkBound refineAvoiding b x).1.contains z → b.contains z) ∧
    (x.isNumeric = true → (shrinkBound refineAvoiding b x).1 = b.setPoint x.value) ∧
    (x.isNumeric = false →
      ((refineAvoiding x b.left).2 = false ∧
        (refineAvoiding (refineAvoiding x b.left).1 b.right).2 = false ∧
        (shrinkBound refineAvoiding b x).1 =
          b.setOpen (shrinkBound refineAvoiding b x).2.left
            (shrinkBound refineAvoiding b x).2.right ∧
        x.left ≤ (shrinkBound refineAvoiding b x).2.left ∧
        (shrinkBound refineAvoiding b x).2.right ≤ x.right) ∨
      (((refineAvoiding x b.left).2 = true ∨
          (refineAvoiding (refineAvoiding x b.left).1 b.right).2 = true) ∧
        (shrinkBound refineAvoiding b x).1 = b.setPoint x.value)) := by
  have hpoint : ∀ z, (b.setPoint x.value).contains z → b.contains z := by
    intro z hz
    rw [ExactInterval_contains_setPoint] at hz
    rw [hz]; exact hin
  have hself : (b.setPoint x.value).contains x.value :=
    (ExactInterval_contains_setPoint b _ _).2 rfl
  cases hnum : x.isNumeric with
  | true =>
    have hs : shrinkBound refineAvoiding b x = (b.setPoint x.value, x) := by
      simp [shrinkBound, hnum]
    rw [hs]
    exact ⟨rfl, hself, hpoint, fun _ => rfl, fun h => absurd h (by decide)⟩
  | false =>
    obtain ⟨hl, hr⟩ := hwf hnum
    cases h1 : (refineAvoiding x b.left).2 with
    | true =>
      have hs : shrinkBound refineAvoiding b x =
          (b.setPoint x.value, (refineAvoiding x b.left).1) := by
        simp [shrinkBound, hnum, h1, hvalue]
      rw [hs]
      exact ⟨hvalue _ _, hself, hpoint, fun h => absurd h (by decide),
        fun _ => Or.inr ⟨Or.inl rfl, rfl⟩⟩
    | false =>
      obtain ⟨a1, a2, a3, a4, a5⟩ := hrefined x b.left hl hr h1
      have hv1 := hvalue x b.left
      cases h2 : (refineAvoiding (refineAvoiding x b.left).1 b.right).2 with
      | true =>
        have hs : shrinkBound refineAvoiding b x =
            (b.setPoint x.value, (refineAvoiding (refineAvoiding x b.left).1 b.right).1) := by
          simp [shrinkBound, hnum, h1, h2, hvalue]
        rw [hs]
        exact ⟨by rw [hvalue, hvalue], hself, hpoint, fun h => absurd h (by decide),
          fun _ => Or.inr ⟨Or.inr rfl, rfl⟩⟩
      | false =>
        obtain ⟨c1, c2, c3, c4, c5⟩ := hrefined (refineAvoiding x b.left).1 b.right
          (by rw [hv1]; exact a3) (by rw [hv1]; exact a4) h2
        rw [hv1] at c3 c4
        have hs : shrinkBound refineAvoiding b x =
            (b.setOpen (refineAvoiding (refineAvoiding x b.left).1 b.right).1.left
              (refineAvoiding (refineAvoiding x b.left).1 b.right).1.right,
              (refineAvoiding (refineAvoiding x b.left).1 b.right).1) := by
          simp [shrinkBound, hnum, h1, h2]
        rw [hs]
        refine ⟨by rw [hvalue, hvalue], ?_, ?_, fun h => absurd h (by decide),
          fun _ => Or.inl ⟨rfl, rfl, rfl, le_trans a1 c1, le_trans c2 a2⟩⟩
        · exact (ExactInterval_contains_setOpen b _ _ _).2 ⟨c3, c4⟩
        · intro z hz
          rw [ExactInterval_contains_setOpen] at hz
          refine ExactInterval_open_subset b _ _ x.value z hin c3 c4 ?_ c5 hz
          rintro ⟨e1, e2⟩
          exact a5 ⟨lt_of_le_of_lt c1 e1, lt_of_lt_of_le e2 c2⟩

theorem exampleRefineAvoiding_value (x : RealAlgebraicNumber ℚ) (n : ℚ) :
    (exampleRefineAvoiding x n).1.value = x.value := by
  unfold exampleRefineAvoiding
  split_ifs <;> rfl

theorem exampleRefineAvoiding_refined (x : RealAlgebraicNumber ℚ) (n : ℚ)
    (hl : x.left < x.value) (hr : x.value < x.right)
    (h : (exampleRefineAvoiding x n).2 = false) :
    x.left ≤ (exampleRefineAvoiding x n).1.left ∧ (exampleRefineAvoiding x n).1.right ≤ x.right ∧
    (exampleRefineAvoiding x n).1.left < x.value ∧ x.value < (exampleRefineAvoiding x n).1.right ∧
    ¬ ((exampleRefineAvoiding x n).1.left < n ∧ n < (exampleRefineAvoiding x n).1.right) := by
  unfold exampleRefineAvoiding
  split_ifs with h1 h2
  · exfalso
    simp [exampleRefineAvoiding, h1] at h
  · refine ⟨le_max_left _ _, le_refl _, max_lt hl h2, hr, ?_⟩
    rintro ⟨e1, _⟩
    exact absurd (lt_of_le_of_lt (le_max_right x.left n) e1) (lt_irrefl n)
  · have h3 : x.value < n := lt_of_le_of_ne (not_lt.1 h2) (Ne.symm h1)
    refine ⟨le_refl _, min_le_left _ _, hl, lt_min hr h3, ?_⟩
    rintro ⟨_, e2⟩
    exact absurd (lt_of_lt_of_le e2 (min_le_right x.right n)) (lt_irrefl n)

/-- Claim C21. `shrinkBounds(bounds, r)` for a point `r` whose components lie within the
bounds, with a refinement `refineAvoiding` that keeps the number and, when it returns false,
leaves an isolating interval within the old one without the number to avoid: the call returns;
a level without a bound gets none and a level beyond the point keeps its bound; each level
with a bound gets a bound that contains `r[level]` and is a subset of the old bound. If
`r[level]` is numeric the new bound is the closed point interval at its value. If it is
interval-represented the new bound is the open isolating interval of the refined number,
unless one of the two refinements returns true: then it is the closed point interval. -/
theorem shrinkBounds_monotone {K : Type} [LinearOrderedRing K]
    (refineAvoiding : RealAlgebraicNumber K → K → RealAlgebraicNumber K × Bool)
    (hvalue : ∀ x n, (refineAvoiding x n).1.value = x.value)
    (hrefined : ∀ x n, x.left < x.value → x.value < x.right → (refineAvoiding x n).2 = false →
      x.left ≤ (refineAvoiding x n).1.left ∧ (refineAvoiding x n).1.right ≤ x.right ∧
      (refineAvoiding x n).1.left < x.value ∧ x.value < (refineAvoiding x n).1.right ∧
      ¬ ((refineAvoiding x n).1.left < n ∧ n < (refineAvoiding x n).1.right))
    (mVariables : List Variable) (bounds : Nat → Option (ExactInterval K))
    (r : List (RealAlgebraicNumber K))
    (hsize : mVariables.length = r.length)
    (hwf : ∀ x ∈ r, x.isNumeric = false → x.left < x.value ∧ x.value < x.right)
    (hin : ∀ level b x, bounds level = some b → r[level]? = some x → b.contains x.value) :
    ∃ bounds1 r1,
      shrinkBounds refineAvoiding mVariables bounds r = some (bounds1, r1) ∧
      (∀ level, bounds level = none → bounds1 level = none) ∧
      (∀ level, r.length ≤ level → bounds1 level = bounds level) ∧
      (∀ level b x, bounds level = some b → r[level]? = some x →
        ∃ b1 x1, bounds1 level = some b1 ∧ r1[level]? = some x1 ∧
          x1.value = x.value ∧
          b1.contains x.value ∧
          (∀ z, b1.contains z → b.contains z) ∧
          (x.isNumeric = true → b1 = b.setPoint x.value) ∧
          (x.isNumeric = false →
            ((refineAvoiding x b.left).2 = false ∧
              (refineAvoiding (refineAvoiding x b.left).1 b.right).2 = false ∧
              b1 = b.setOpen x1.left x1.right ∧ x.left ≤ x1.left ∧ x1.right ≤ x.right) ∨
            (((refineAvoiding x b.left).2 = true ∨
                (refineAvoiding (refineAvoiding x b.left).1 b.right).2 = true) ∧
              b1 = b.setPoint x.value))) := by
  obtain ⟨b1, r1, hfold, _, hb, hr⟩ := shrinkBounds_loop refineAvoiding bounds r r.length
    (le_refl _)
  refine ⟨b1, r1, by rw [shrinkBounds, if_pos hsize, hfold], ?_, ?_, ?_⟩
  · intro level hnone
    rw [hb level, hnone]
    split_ifs <;> rfl
  · intro level hlevel
    rw [hb level, if_neg (by omega)]
  · intro level b x hbound hx
    obtain ⟨hlt, hget⟩ := List.getElem?_eq_some_iff.1 hx
    have hmem : x ∈ r := hget ▸ List.getElem_mem hlt
    refine ⟨(shrinkBound refineAvoiding b x).1, (shrinkBound refineAvoiding b x).2, ?_, ?_,
      shrinkBound_spec refineAvoiding hvalue hrefined b x (hwf x hmem)
        (hin level b x hbound hx)⟩
    · rw [hb level, if_pos hlt, hbound, hx]; rfl
    · rw [hr level, if_pos hlt, hbound, hx]; rfl

theorem shrinkBounds_monotone_witness :
    ∃ bounds1 r1,
      shrinkBounds exampleRefineAvoiding [0] (exampleBounds (exampleClosed (1 / 2) 5))
        [exampleIR] = some (bounds1, r1) ∧
      (∀ level, exampleBounds (exampleClosed (1 / 2) 5) level = none →
        bounds1 level = none) ∧
      (∀ level, [exampleIR].length ≤ level →
        bounds1 level = exampleBounds (exampleClosed (1 / 2) 5) level) ∧
      (∀ level b x, exampleBounds (exampleClosed (1 / 2) 5) level = some b →
        [exampleIR][level]? = some x →
        ∃ b1 x1, bounds1 level = some b1 ∧ r1[level]? = some x1 ∧
          x1.value = x.value ∧
          b1.contains x.value ∧
          (∀ z, b1.contains z → b.contains z) ∧
          (x.isNumeric = true → b1 = b.setPoint x.value) ∧
          (x.isNumeric = false →
            ((exampleRefineAvoiding x b.left).2 = false ∧
              (exampleRefineAvoiding (exampleRefineAvoiding x b.left).1 b.right).2 = false ∧
              b1 = b.setOpen x1.left x1.right ∧ x.left ≤ x1.left ∧ x1.right ≤ x.right) ∨
            (((exampleRefineAvoiding x b.left).2 = true ∨
                (exampleRefineAvoiding (exampleRefineAvoiding x b.left).1 b.right).2 = true) ∧
              b1 = b.setPoint x.value))) :=
  shrinkBounds_monotone exampleRefineAvoiding exampleRefineAvoiding_value
    exampleRefineAvoiding_refined [0] (exampleBounds (exampleClosed (1 / 2) 5)) [exampleIR] rfl
    (by
      intro x hx _
      rw [List.mem_singleton] at hx
      subst hx
      with_unfolding_all decide)
    (by
      intro level b x hb hx
      cases level with
      | zero =>
        simp only [exampleBounds, if_true, Option.some.injEq] at hb
        simp only [List.getElem?_cons_zero, Option.some.injEq] at hx
        subst hb hx
        with_unfolding_all decide
      | succ k => simp [exampleBounds] at hb)

/-- The bound of an interval-represented number need not become an open interval (claim C21):
with the bound [1, 5] and the number 1 represented with the isolating interval (0, 2), which
lies within the bound, the refinement avoiding the left endpoint 1 finds the number itself, and
`shrinkBounds` makes the bound the closed point interval [1, 1]. -/
theorem shrinkBounds_interval_represented_gets_point :
    exampleIR.isNumeric = false ∧
    (exampleClosed 1 5).contains exampleIR.value ∧
    (exampleRefineAvoiding exampleIR (exampleClosed 1 5).left).2 = true ∧
    (shrinkBounds exampleRefineAvoiding [0] (exampleBounds (exampleClosed 1 5))
        [exampleIR]).map (fun res => (res.1 0, res.2)) =
      some (some { left := 1, leftType := BoundType.WEAK, right := 1,
                   rightType := BoundType.WEAK },
        [{ exampleIR with isNumeric := true }]) := by
  with_unfolding_all decide

end CAD

/-! ## `trimVariables` and the order of siblings -/

/-- In a list that is non-decreasing in a key, the elements below a value form a prefix. -/
theorem dropWhile_key_ge {α K : Type} [LinearOrder K] (k : α → K) (v : K) :
    ∀ l : List α, l.Pairwise (fun a b => k a ≤ k b) →
      ∀ b ∈ l.dropWhile (fun a => decide (k a < v)), v ≤ k b := by
  intro l
  induction l with
  | nil => intro _ b hb; simp at hb
  | cons a l ih =>
    intro hl b hb
    have hl' := List.pairwise_cons.mp hl
    by_cases ha : k a < v
    · rw [List.dropWhile_cons, if_pos (by simpa using ha)] at hb
      exact ih hl'.2 b hb
    · rw [List.dropWhile_cons, if_neg (by simpa using ha)] at hb
      rcases List.mem_cons.mp hb with rfl | hb
      · exact not_lt.mp ha
      · exact le_trans (not_lt.mp ha) (hl'.1 b hb)

/-- Insertion at the lower bound keeps a list non-decreasing in the key. -/
theorem lower_bound_insert_sorted {α K : Type} [LinearOrder K] (k : α → K) (l : List α)
    (hl : l.Pairwise (fun a b => k a ≤ k b)) (x : α) :
    (l.take (lower_bound (fun a v => decide (k a < v)) l (k x)) ++
      x :: l.drop (lower_bound (fun a v => decide (k a < v)) l (k x))).Pairwise
        (fun a b => k a ≤ k b) := by
  have htw : ∀ a ∈ l.takeWhile (fun a => decide (k a < k x)), k a < k x := by
    intro a ha
    simpa using mem_takeWhile_sat _ l a ha
  have hdw := dropWhile_key_ge k (k x) l hl
  have hlb := lower_bound_partitioned (fun a v => decide (k a < v))
    (l.takeWhile (fun a => decide (k a < k x))) (l.dropWhile (fun a => decide (k a < k x)))
    (k x) (by intro a ha; simpa using htw a ha)
    (by intro b hb; simpa using hdw b hb)
  rw [List.takeWhile_append_dropWhile] at hlb
  rw [hlb, take_length_takeWhile, drop_length_takeWhile]
  have hsplit : (l.takeWhile (fun a => decide (k a < k x)) ++
      l.dropWhile (fun a => decide (k a < k x))).Pairwise (fun a b => k a ≤ k b) := by
    rw [List.takeWhile_append_dropWhile]; exact hl
  rw [List.pairwise_append] at hsplit ⊢
  refine ⟨hsplit.1, ?_, ?_⟩
  · rw [List.pairwise_cons]
    exact ⟨hdw, hsplit.2.1⟩
  · intro a ha b hb
    rcases List.mem_cons.mp hb with rfl | hb
    · exact le_of_lt (htw a ha)
    · exact hsplit.2.2 a ha b hb

theorem mem_lower_bound_insert {α β : Type} (comp : α → β → Bool) (l : List α) (v : β)
    (x y : α) :
    y ∈ l.take (lower_bound comp l v) ++ x :: l.drop (lower_bound comp l v) ↔ y = x ∨ y ∈ l := by
  generalize lower_bound comp l v = n
  simp only [List.mem_append, List.mem_cons]
  constructor
  · rintro (h | h | h)
    · exact Or.inr (List.mem_of_mem_take h)
    · exact Or.inl h
    · exact Or.inr (List.mem_of_mem_drop h)
  · rintro (h | h)
    · exact Or.inr (Or.inl h)
    · have h2 : y ∈ l.take n ++ l.drop n := by rw [List.take_append_drop]; exact h
      rcases List.mem_append.mp h2 with h3 | h3
      · exact Or.inl h3
      · exact Or.inr (Or.inr h3)

theorem lower_boundLoop_congr {α β γ : Type} (c1 : α → β → Bool) (c2 : α → γ → Bool)
    (l : List α) (v1 : β) (v2 : γ) (h : ∀ a, c1 a v1 = c2 a v2) :
    ∀ fuel first count,
      lower_boundLoop c1 l v1 fuel first count = lower_boundLoop c2 l v2 fuel first count := by
  intro fuel
  induction fuel with
  | zero => intro first count; rfl
  | succ fuel ih =>
    intro first count
    simp only [lower_boundLoop]
    split
    · rfl
    · split
      · rfl
      · rw [h]
        split
        · exact ih _ _
        · exact ih _ _

theorem lower_bound_congr {α β γ : Type} (c1 : α → β → Bool) (c2 : α → γ → Bool)
    (l : List α) (v1 : β) (v2 : γ) (h : ∀ a, c1 a v1 = c2 a v2) :
    lower_bound c1 l v1 = lower_bound c2 l v2 :=
  lower_boundLoop_congr c1 c2 l v1 v2 h _ _ _

namespace SampleForest

theorem reparentChild_eq {K T : Type} [LinearOrderedRing K]
    (siblings : List (Option Nat × RealAlgebraicNumber K × T))
    (child : RealAlgebraicNumber K × T) :
    reparentChild siblings child =
      siblings.take (lower_bound
          (fun (sibling : Option Nat × RealAlgebraicNumber K × T) v =>
            decide (sibling.2.1.value < v)) siblings child.1.value) ++
        (none, child.1, child.2) :: siblings.drop (lower_bound
          (fun (sibling : Option Nat × RealAlgebraicNumber K × T) v =>
            decide (sibling.2.1.value < v)) siblings child.1.value) := by
  have hlb : lower_bound
      (fun (sibling : Option Nat × RealAlgebraicNumber K × T) sample => Less sibling.2.1 sample)
      siblings child.1 =
    lower_bound (fun (sibling : Option Nat × RealAlgebraicNumber K × T) v =>
      decide (sibling.2.1.value < v)) siblings child.1.value :=
    lower_bound_congr _ _ siblings child.1 child.1.value (fun _ => rfl)
  unfold reparentChild
  simp only [hlb]
  split
  · rename_i h
    rw [h]; simp
  · rfl

theorem Ordered.weaklyOrdered {K : Type} [LinearOrderedRing K] :
    ∀ (n : Nat) (f : SampleForest K n), Ordered n f → WeaklyOrdered n f := by
  intro n
  induction n with
  | zero => intro f _; trivial
  | succ n ih =>
    intro f hf
    unfold Ordered at hf
    unfold WeaklyOrdered
    refine ⟨hf.1.imp (fun h => le_of_lt h), ?_⟩
    rw [List.forall_iff_forall_mem] at hf ⊢
    intro c hc
    exact ih c.2 (hf.2 c hc)

theorem WeaklyOrdered.lift {K : Type} [LinearOrderedRing K] :
    ∀ (n : Nat) (f : SampleForest K n), WeaklyOrdered n f →
      WeaklyOrdered (n + 1) (SampleForest.lift n f) := by
  intro n
  induction n with
  | zero =>
    intro f _
    unfold WeaklyOrdered SampleForest.lift nodes
    exact ⟨List.Pairwise.nil, by simp [List.Forall]⟩
  | succ n ih =>
    intro f hf
    unfold WeaklyOrdered at hf
    unfold WeaklyOrdered SampleForest.lift
    rw [List.forall_iff_forall_mem] at hf
    refine ⟨?_, ?_⟩
    · show List.Pairwise _ (List.map _ (nodes f))
      rw [List.pairwise_map]
      exact hf.1
    · rw [List.forall_iff_forall_mem]
      intro c hc
      have hc' : c ∈ List.map (fun c => (c.1, SampleForest.lift n c.2)) (nodes f) := hc
      rw [List.mem_map] at hc'
      obtain ⟨d, hd, rfl⟩ := hc'
      exact ih d.2 (hf.2 d hd)

/-- What the re-parenting keeps of a list of tagged siblings: the samples are non-decreasing and
every subtree has the property `P`. -/
theorem reparentChild_keeps {K T : Type} [LinearOrderedRing K] (P : T → Prop)
    (siblings : List (Option Nat × RealAlgebraicNumber K × T))
    (child : RealAlgebraicNumber K × T)
    (hs : siblings.Pairwise (fun a b => a.2.1.value ≤ b.2.1.value))
    (hp : ∀ s ∈ siblings, P s.2.2) (hc : P child.2) :
    (reparentChild siblings child).Pairwise (fun a b => a.2.1.value ≤ b.2.1.value) ∧
    ∀ s ∈ reparentChild siblings child, P s.2.2 := by
  rw [reparentChild_eq]
  refine ⟨lower_bound_insert_sorted
    (fun (s : Option Nat × RealAlgebraicNumber K × T) => s.2.1.value) siblings hs
    (none, child.1, child.2), ?_⟩
  intro s hmem
  rw [mem_lower_bound_insert] at hmem
  rcases hmem with rfl | hmem
  · exact hc
  · exact hp s hmem

theorem reparentNode_keeps {K T : Type} [LinearOrderedRing K] (P : T → Prop) (i : Nat) :
    ∀ (children : List (RealAlgebraicNumber K × T))
      (siblings : List (Option Nat × RealAlgebraicNumber K × T)),
      siblings.Pairwise (fun a b => a.2.1.value ≤ b.2.1.value) →
      (∀ s ∈ siblings, P s.2.2) → (∀ c ∈ children, P c.2) →
      (reparentNode siblings i children).Pairwise (fun a b => a.2.1.value ≤ b.2.1.value) ∧
      ∀ s ∈ reparentNode siblings i children, P s.2.2 := by
  have hfold : ∀ (children : List (RealAlgebraicNumber K × T))
      (siblings : List (Option Nat × RealAlgebraicNumber K × T)),
      siblings.Pairwise (fun a b => a.2.1.value ≤ b.2.1.value) →
      (∀ s ∈ siblings, P s.2.2) → (∀ c ∈ children, P c.2) →
      (children.foldl reparentChild siblings).Pairwise
        (fun a b => a.2.1.value ≤ b.2.1.value) ∧
      ∀ s ∈ children.foldl reparentChild siblings, P s.2.2 := by
    intro children
    induction children with
    | nil => intro siblings hs hp _; exact ⟨hs, hp⟩
    | cons c children ih =>
      intro siblings hs hp hc
      rw [List.foldl_cons]
      have h1 := reparentChild_keeps P siblings c hs hp (hc c (by simp))
      exact ih _ h1.1 h1.2 (fun d hd => hc d (by simp [hd]))
  intro children siblings hs hp hc
  have h := hfold children siblings hs hp hc
  unfold reparentNode
  exact ⟨List.Pairwise.sublist (List.filter_sublist _) h.1,
    fun s hmem => h.2 s (List.mem_of_mem_filter hmem)⟩

theorem removeChildren_keeps {K : Type} [LinearOrderedRing K] :
    ∀ (n : Nat) (layer : List (RealAlgebraicNumber K × SampleForest K n)),
      layer.Pairwise (fun a b => a.1.value ≤ b.1.value) →
      (∀ c ∈ layer, WeaklyOrdered n c.2) →
      (removeChildren n layer).Pairwise (fun a b => a.1.value ≤ b.1.value) ∧
      ∀ c ∈ removeChildren n layer, WeaklyOrdered n c.2 := by
  intro n
  cases n with
  | zero =>
    intro layer _ _
    unfold removeChildren
    exact ⟨List.Pairwise.nil, by simp⟩
  | succ n =>
    intro layer hl hw
    have hfold : ∀ (es : List (Nat × RealAlgebraicNumber K × SampleForest K (n + 1)))
        (siblings : List (Option Nat × RealAlgebraicNumber K × SampleForest K (n + 1))),
        (∀ e ∈ es, WeaklyOrdered (n + 1) e.2.2) →
        siblings.Pairwise (fun a b => a.2.1.value ≤ b.2.1.value) →
        (∀ s ∈ siblings, WeaklyOrdered (n + 1) s.2.2) →
        (es.foldl (fun siblings e =>
            reparentNode siblings e.1
              ((nodes e.2.2).map (fun c => (c.1, SampleForest.lift n c.2)))) siblings).Pairwise
          (fun a b => a.2.1.value ≤ b.2.1.value) ∧
        ∀ s ∈ es.foldl (fun siblings e =>
            reparentNode siblings e.1
              ((nodes e.2.2).map (fun c => (c.1, SampleForest.lift n c.2)))) siblings,
          WeaklyOrdered (n + 1) s.2.2 := by
      intro es
      induction es with
      | nil => intro siblings _ hs hp; exact ⟨hs, hp⟩
      | cons e es ih =>
        intro siblings he hs hp
        rw [List.foldl_cons]
        have hwe : WeaklyOrdered (n + 1) e.2.2 := he e (by simp)
        unfold WeaklyOrdered at hwe
        have hwe2 := List.forall_iff_forall_mem.mp hwe.2
        have h1 := reparentNode_keeps (WeaklyOrdered (n + 1)) e.1
          ((nodes e.2.2).map (fun c => (c.1, SampleForest.lift n c.2))) siblings hs hp
          (by
            intro c hc
            rw [List.mem_map] at hc
            obtain ⟨d, hd, rfl⟩ := hc
            exact WeaklyOrdered.lift n d.2 (hwe2 d hd))
        exact ih _ (fun e' he' => he e' (by simp [he'])) h1.1 h1.2
    have hsnd : layer.enum.map Prod.snd = layer := List.enum_map_snd layer
    have h := hfold layer.enum (layer.enum.map (fun e => (some e.1, e.2.1, e.2.2)))
      (by
        intro e he
        have : e.2 ∈ layer.enum.map Prod.snd := List.mem_map_of_mem _ he
        rw [hsnd] at this
        exact hw e.2 this)
      (by
        rw [List.pairwise_map]
        have : (layer.enum.map Prod.snd).Pairwise (fun a b => a.1.value ≤ b.1.value) := by
          rw [hsnd]; exact hl
        rw [List.pairwise_map] at this
        exact this)
      (by
        intro s hs
        rw [List.mem_map] at hs
        obtain ⟨e, he, rfl⟩ := hs
        have : e.2 ∈ layer.enum.map Prod.snd := List.mem_map_of_mem _ he
        rw [hsnd] at this
        exact hw e.2 this)
    unfold removeChildren
    dsimp only
    refine ⟨?_, ?_⟩
    · rw [List.pairwise_map]
      exact h.1
    · intro c hc
      rw [List.mem_map] at hc
      obtain ⟨s, hs, rfl⟩ := hc
      exact h.2 s hs

theorem removeLayer_weaklyOrdered {K : Type} [LinearOrderedRing K] :
    ∀ (n depth : Nat) (f : SampleForest K n), WeaklyOrdered n f →
      WeaklyOrdered n (removeLayer n depth f) := by
  intro n
  induction n with
  | zero => intro depth f hf; trivial
  | succ n ih =>
    intro depth f hf
    have hf' := hf
    unfold WeaklyOrdered at hf'
    have hf2 := List.forall_iff_forall_mem.mp hf'.2
    match depth with
    | 0 => exact hf
    | 1 =>
      have h := removeChildren_keeps n (nodes f) hf'.1 hf2
      unfold WeaklyOrdered
      exact ⟨h.1, List.forall_iff_forall_mem.mpr h.2⟩
    | depth + 2 =>
      unfold WeaklyOrdered
      refine ⟨?_, ?_⟩
      · show List.Pairwise _ (List.map _ (nodes f))
        rw [List.pairwise_map]
        exact hf'.1
      · rw [List.forall_iff_forall_mem]
        intro c hc
        have hc' : c ∈ List.map (fun c => (c.1, removeLayer n (depth + 1) c.2)) (nodes f) := hc
        rw [List.mem_map] at hc'
        obtain ⟨d, hd, rfl⟩ := hc'
        exact ih (depth + 1) d.2 (hf2 d hd)

end SampleForest

namespace CAD

theorem trimStep_weaklyOrdered {K : Type} [LinearOrderedRing K] {N : Nat}
    (has : UnivariatePolynomialPtr → Variable → Bool) (maxDepth : Int) (st st1 : TrimLoop K N)
    (h : trimStep has maxDepth st = some st1)
    (hw : SampleForest.WeaklyOrdered N st.members.sampleTree) :
    SampleForest.WeaklyOrdered N st1.members.sampleTree := by
  unfold trimStep at h
  dsimp only at h
  split at h
  · exact absurd h (by simp)
  · split at h
    · split at h
      · exact absurd h (by simp)
      · split at h
        · simp only [Option.some.injEq] at h
          subst h
          exact hw
        · exact absurd h (by simp)
      · split at h
        · split at h
          · simp only [Option.some.injEq] at h
            subst h
            dsimp only
            split
            · exact SampleForest.removeLayer_weaklyOrdered N _ _ hw
            · exact hw
          · exact absurd h (by simp)
        · exact absurd h (by simp)
    · split at h
      · simp only [Option.some.injEq] at h
        subst h
        exact hw
      · exact absurd h (by simp)

theorem trimLoop_weaklyOrdered {K : Type} [LinearOrderedRing K] {N : Nat}
    (has : UnivariatePolynomialPtr → Variable → Bool) (maxDepth : Int) :
    ∀ (fuel : Nat) (st : TrimLoop K N) (m : Members (SampleForest K N) (List Nat)),
      trimLoop has maxDepth fuel st = some m →
      SampleForest.WeaklyOrdered N st.members.sampleTree →
      SampleForest.WeaklyOrdered N m.sampleTree := by
  intro fuel
  induction fuel with
  | zero => intro st m h _; exact absurd h (by simp [trimLoop])
  | succ fuel ih =>
    intro st m h hw
    unfold trimLoop at h
    split at h
    · simp only [Option.some.injEq] at h
      subst h
      exact hw
    · split at h
      · exact absurd h (by simp)
      · rename_i st1 hst
        exact ih st1 m h (trimStep_weaklyOrdered has maxDepth st st1 hst hw)

theorem exampleTree_ordered : SampleForest.Ordered 4 exampleTree := by
  simp [SampleForest.Ordered, SampleForest.nodes, exampleTree, exampleNode,
    RealAlgebraicNumberNR, List.Forall]

theorem trimVariables_example :
    trimVariables exampleHas exampleMembers = some exampleTrimmedMembers := by
  rfl

/-- C20, counterexample. The engine has four variables and an empty third elimination level;
every node of its sample tree has strictly increasing children, and the two samples 0 and 1 at
depth 3 each have the one child 5. `trimVariables` returns, removes the layer at depth 3, and
its node 20 then has the two children 5 and 5: the children are not strictly increasing. -/
theorem trimVariables_makes_equal_siblings :
    SampleForest.Ordered 4 exampleMembers.sampleTree ∧
    SampleForest.values 4 exampleMembers.sampleTree = [[10], [20], [0, 1], [5], [5]] ∧
    trimVariables exampleHas exampleMembers = some exampleTrimmedMembers ∧
    SampleForest.values 4 exampleTrimmedMembers.sampleTree = [[10], [20], [5, 5], [], []] ∧
    ¬ SampleForest.Ordered 4 exampleTrimmedMembers.sampleTree := by
  refine ⟨exampleTree_ordered, by decide, trimVariables_example, by decide, ?_⟩
  simp [SampleForest.Ordered, SampleForest.nodes, exampleTrimmedMembers, exampleTrimmedTree,
    exampleNode, RealAlgebraicNumberNR, List.Forall]

/-- C20, amended. If every node's children are strictly increasing in value before
`trimVariables()`, then after it has removed the tree layers of the trimmed variables and
re-parented their children, every node's children are non-decreasing in value; re-parented
children of different nodes may have equal values. -/
theorem trimVariables_weakly_ordered {K : Type} [LinearOrderedRing K] {N : Nat}
    (has : UnivariatePolynomialPtr → Variable → Bool)
    (m m1 : Members (SampleForest K N) (List Nat))
    (h : trimVariables has m = some m1) (hord : SampleForest.Ordered N m.sampleTree) :
    SampleForest.WeaklyOrdered N m1.sampleTree := by
  have hw := SampleForest.Ordered.weaklyOrdered N m.sampleTree hord
  unfold trimVariables at h
  dsimp only at h
  split at h
  · exact absurd h (by simp)
  · split at h
    · simp only [Option.some.injEq] at h
      subst h
      exact hw
    · exact trimLoop_weaklyOrdered has _ _ _ m1 h hw

/-- The amended C20 at the engine with four variables and an empty third level. -/
theorem trimVariables_weakly_ordered_witness :
    trimVariables exampleHas exampleMembers = some exampleTrimmedMembers ∧
    SampleForest.Ordered 4 exampleMembers.sampleTree ∧
    SampleForest.WeaklyOrdered 4 exampleTrimmedMembers.sampleTree :=
  ⟨trimVariables_example, exampleTree_ordered,
    trimVariables_weakly_ordered exampleHas exampleMembers exampleTrimmedMembers
      trimVariables_example exampleTree_ordered⟩

end CAD

/-! ## Preparing the elimination -/

namespace Members

theorem extendTrace_spec {Node : Type} :
    ∀ (old : List Node) (j : Nat) (newTrace : List Node),
      j + old.length ≤ newTrace.length →
      ∃ t, extendTrace old j newTrace = some t ∧ t.length = newTrace.length ∧
        (∀ i, i < old.length → t[j + i]? = old[i]?) ∧
        (∀ i, i < j → t[i]? = newTrace[i]?) := by
  intro old
  induction old with
  | nil =>
    intro j newTrace _
    exact ⟨newTrace, rfl, rfl, by simp, fun _ _ => rfl⟩
  | cons x rest ih =>
    intro j newTrace h
    simp only [List.length_cons] at h
    obtain ⟨t, h1, h2, h3, h4⟩ := ih (j + 1) (newTrace.set j x)
      (by rw [List.length_set]; omega)
    refine ⟨t, ?_, by rw [h2, List.length_set], ?_, ?_⟩
    · rw [extendTrace, if_pos (by omega), h1]
    · intro i hi
      cases i with
      | zero =>
        rw [Nat.add_zero, h4 j (by omega), List.getElem?_set_self (by omega)]
        simp
      | succ i =>
        have := h3 i (by simpa using hi)
        rw [List.getElem?_cons_succ, ← this]
        congr 1
        omega
    · intro i hi
      rw [h4 i (by omega), List.getElem?_set_ne (by omega)]

theorem shiftSets_spec (k : Nat) :
    ∀ (count i : Nat) (state : List EliminationSet × List EliminationSet),
      k ≤ i → i + count ≤ state.1.length → (i - k) + count ≤ state.2.length →
      ∃ r, shiftSets k count i state = some r ∧ r.1.length = state.1.length ∧
        (∀ x, i ≤ x → x < i + count → r.1[x]? = state.2[x - k]?) ∧
        (∀ x, x < i → r.1[x]? = state.1[x]?) := by
  intro count
  induction count with
  | zero =>
    intro i state _ _ _
    exact ⟨state, rfl, rfl, fun x h1 h2 => absurd h2 (by omega), fun _ _ => rfl⟩
  | succ n ih =>
    intro i state hk h1 h2
    have ha : state.1[i]? = some (state.1[i]) := List.getElem?_eq_getElem (by omega)
    have hb : state.2[i - k]? = some (state.2[i - k]) := List.getElem?_eq_getElem (by omega)
    obtain ⟨r, e1, e2, e3, e4⟩ := ih (i + 1)
      (state.1.set i (state.2[i - k]), state.2.set (i - k) (state.1[i])) (by omega)
      (by simp only [List.length_set]; omega) (by simp only [List.length_set]; omega)
    refine ⟨r, ?_, by rw [e2, List.length_set], ?_, ?_⟩
    · rw [shiftSets, ha, hb]
      exact e1
    · intro x hx1 hx2
      rcases Nat.eq_or_lt_of_le hx1 with hx | hx
      · subst hx
        rw [e4 i (by omega), List.getElem?_set_self (by omega), hb]
      · rw [e3 x (by omega) (by omega), List.getElem?_set_ne (by omega)]
    · intro x hx
      rw [e4 x (by omega), List.getElem?_set_ne (by omega)]

theorem absorb_fold (less : PolynomialComparator)
    (toUnivariatePolynomial : UnivariatePolynomialPtr → UnivariatePolynomialPtr) :
    ∀ (scheduled polynomials : List UnivariatePolynomialPtr) (front : EliminationSet)
      (rest : List EliminationSet),
      ∃ front1,
        scheduled.foldlM (absorbStep less toUnivariatePolynomial)
          (polynomials, front :: rest) = some (polynomials ++ scheduled, front1 :: rest) := by
  intro scheduled
  induction scheduled with
  | nil => intro polynomials front rest; exact ⟨front, by simp⟩
  | cons p ps ih =>
    intro polynomials front rest
    obtain ⟨front1, h⟩ := ih (polynomials ++ [p])
      (EliminationSet.insert less front (toUnivariatePolynomial p) [nullptr] false).1 rest
    refine ⟨front1, ?_⟩
    rw [List.foldlM_cons]
    simp only [absorbStep, Option.bind_eq_bind, Option.some_bind]
    rw [h]
    simp

theorem introduceVariables_spec {Tree Node : Type} (order : PolynomialComparator)
    (root : Tree → Node) (m : Members Tree Node)
    (hsets : m.eliminationSets.length = m.mVariables.length)
    (htrace : m.trace.length ≤ m.mVariables.length + 1) :
    ∃ m1, introduceVariables order root m = some m1 ∧
      m1.mVariables = m.newVariables ++ m.mVariables ∧
      m1.eliminationSets.length = m1.mVariables.length ∧
      (∀ i, i < m.mVariables.length →
        m1.eliminationSets[i + m.newVariables.length]? = m.eliminationSets[i]?) ∧
      (∀ i, i < m.trace.length → m1.trace[i + m.newVariables.length]? = m.trace[i]?) ∧
      m1.newVariables = [] ∧ m1.scheduledPolynomials = m.scheduledPolynomials ∧
      m1.polynomials = m.polynomials ∧ m1.setting = m.setting := by
  obtain ⟨t, t1, _, t3, _⟩ := extendTrace_spec m.trace m.newVariables.length
    (List.replicate ((m.newVariables ++ m.mVariables).length + 1) (root m.sampleTree))
    (by simp only [List.length_replicate, List.length_append]; omega)
  obtain ⟨r, r1, r2, r3, _⟩ := shiftSets_spec m.newVariables.length
    ((List.replicate (m.newVariables ++ m.mVariables).length
      (EliminationSet.empty order order)).length - m.newVariables.length)
    m.newVariables.length
    (List.replicate (m.newVariables ++ m.mVariables).length (EliminationSet.empty order order),
      m.eliminationSets)
    (le_refl _)
    (by simp only [List.length_replicate, List.length_append]; omega)
    (by simp only [List.length_replicate, List.length_append]; omega)
  refine ⟨{ m with
      mVariables := m.newVariables ++ m.mVariables, newVariables := [], trace := t,
      eliminationSets := r.1 }, ?_, rfl, ?_, ?_, ?_, rfl, rfl, rfl, rfl⟩
  · unfold introduceVariables
    simp only [t1, r1]
  · simp only [r2, List.length_replicate]
  · intro i hi
    have := r3 (i + m.newVariables.length) (by omega)
      (by simp only [List.length_replicate, List.length_append]; omega)
    rw [Nat.add_sub_cancel] at this
    exact this
  · intro i hi
    have := t3 i hi
    rw [Nat.add_comm] at this
    exact this

/-- Claim C22. If new variables are pending, there is one elimination set per variable, and
the trace has at most one entry more than there are variables, then `prepareElimination()`
returns true and afterwards: the variable list is the new variables followed by the old ones,
there is one elimination set per variable, the elimination set of each old level `i` is at
level `i + k`, unchanged, the trace entry of each index `i` is at index `i + k`, and the
pending variables and the scheduled polynomials are empty; `k` is the number of new
variables. -/
theorem prepareElimination_prepends {Tree Node : Type} (less : PolynomialComparator)
    (X : EliminationOperations) (order : PolynomialComparator) (root : Tree → Node)
    (toUnivariatePolynomial : UnivariatePolynomialPtr → UnivariatePolynomialPtr)
    (m : Members Tree Node)
    (hnew : 0 < m.newVariables.length)
    (hsets : m.eliminationSets.length = m.mVariables.length)
    (htrace : m.trace.length ≤ m.mVariables.length + 1) :
    ∃ m1, prepareElimination less X order root toUnivariatePolynomial m = some (m1, true) ∧
      m1.mVariables = m.newVariables ++ m.mVariables ∧
      m1.eliminationSets.length = m1.mVariables.length ∧
      (∀ i, i < m.mVariables.length →
        m1.eliminationSets[i + m.newVariables.length]? = m.eliminationSets[i]?) ∧
      (∀ i, i < m.trace.length → m1.trace[i + m.newVariables.length]? = m.trace[i]?) ∧
      m1.newVariables = [] ∧ m1.scheduledPolynomials = [] := by
  obtain ⟨m1, e1, e2, e3, e4, e5, e6, e7, e8, e9⟩ :=
    introduceVariables_spec order root m hsets htrace
  have hne : m.newVariables.isEmpty = false := by
    cases h : m.newVariables with
    | nil => rw [h] at hnew; exact absurd hnew (by decide)
    | cons a l => rfl
  have hlen : 0 < m1.eliminationSets.length := by
    rw [e3, e2, List.length_append]; omega
  cases hs : m1.eliminationSets with
  | nil => rw [hs] at hlen; exact absurd hlen (by decide)
  | cons front rest =>
    obtain ⟨front1, hf⟩ := absorb_fold less toUnivariatePolynomial m1.scheduledPolynomials
      m1.polynomials front rest
    refine ⟨{ m1 with
        polynomials := m1.polynomials ++ m1.scheduledPolynomials,
        eliminationSets := simplifyFront X m1.setting m1.mVariables.length front1 :: rest,
        scheduledPolynomials := [] }, ?_, e2, ?_, ?_, e5, e6, rfl⟩
    · unfold prepareElimination
      simp only [hne, Bool.false_and, Bool.false_eq_true, if_false, Bool.not_false, if_true, e1,
        hs, hf]
      have : (m.newVariables.length != 0) = true := by
        simp only [bne_iff_ne, ne_eq]; omega
      rw [this]
    · simp only [List.length_cons]
      rw [← e3, hs, List.length_cons]
    · intro i hi
      have h := e4 i hi
      rw [hs] at h
      have hpos : i + m.newVariables.length = (i + m.newVariables.length - 1) + 1 := by omega
      rw [hpos] at h ⊢
      rw [List.getElem?_cons_succ] at h ⊢
      exact h

theorem prepareElimination_prepends_witness :
    ∃ m1, prepareElimination ascending exampleOperations ascending (fun _ => 0) id
        examplePending = some (m1, true) ∧
      m1.mVariables = examplePending.newVariables ++ examplePending.mVariables ∧
      m1.eliminationSets.length = m1.mVariables.length ∧
      (∀ i, i < examplePending.mVariables.length →
        m1.eliminationSets[i + examplePending.newVariables.length]? =
          examplePending.eliminationSets[i]?) ∧
      (∀ i, i < examplePending.trace.length →
        m1.trace[i + examplePending.newVariables.length]? = examplePending.trace[i]?) ∧
      m1.newVariables = [] ∧ m1.scheduledPolynomials = [] :=
  prepareElimination_prepends ascending exampleOperations ascending (fun _ => 0) id
    examplePending (by decide) (by decide) (by decide)

end Members

/-! ## One projection step -/

namespace Members

theorem eliminationLevel_spec (sets : List EliminationSet) :
    ∀ n, n ≤ sets.length →
      ∃ r, eliminationLevel sets n = some r ∧
        (r = none → ∀ l es, l < n → sets[l]? = some es →
          es.emptySingleEliminationQueue = true ∧ es.emptyPairedEliminationQueue = true) ∧
        (∀ l, r = some l → l < n ∧
          (∃ es, sets[l]? = some es ∧
            (es.emptySingleEliminationQueue = false ∨ es.emptyPairedEliminationQueue = false)) ∧
          ∀ k es, l < k → k < n → sets[k]? = some es →
            es.emptySingleEliminationQueue = true ∧ es.emptyPairedEliminationQueue = true) := by
  intro n
  induction n with
  | zero =>
    intro _
    exact ⟨none, rfl, fun _ l es h => absurd h (by omega), fun l h => Option.noConfusion h⟩
  | succ n ih =>
    intro hn
    have hget : sets[n]? = some (sets[n]) := List.getElem?_eq_getElem (by omega)
    by_cases hq : (sets[n]).emptySingleEliminationQueue = true ∧
        (sets[n]).emptyPairedEliminationQueue = true
    · obtain ⟨r, h1, h2, h3⟩ := ih (by omega)
      refine ⟨r, ?_, ?_, ?_⟩
      · rw [eliminationLevel, hget]
        simp only [hq.1, hq.2, Bool.and_self, if_true]
        exact h1
      · intro hr l es hl hes
        rcases Nat.lt_succ_iff_lt_or_eq.1 hl with h | h
        · exact h2 hr l es h hes
        · subst h
          rw [hget] at hes
          cases hes
          exact hq
      · intro l hr
        obtain ⟨a, b, c⟩ := h3 l hr
        refine ⟨by omega, b, ?_⟩
        intro k es hk1 hk2 hes
        rcases Nat.lt_succ_iff_lt_or_eq.1 hk2 with h | h
        · exact c k es hk1 h hes
        · subst h
          rw [hget] at hes
          cases hes
          exact hq
    · refine ⟨some n, ?_, fun h => Option.noConfusion h, ?_⟩
      · rw [eliminationLevel, hget]
        have : ((sets[n]).emptySingleEliminationQueue &&
            (sets[n]).emptyPairedEliminationQueue) = false := by
          cases h1 : (sets[n]).emptySingleEliminationQueue <;>
            cases h2 : (sets[n]).emptyPairedEliminationQueue <;> simp_all
        simp only [this, Bool.false_eq_true, if_false]
      · intro l hl
        cases hl
        refine ⟨by omega, ⟨sets[n], hget, ?_⟩, fun k es h1 h2 => absurd h2 (by omega)⟩
        cases h1 : (sets[n]).emptySingleEliminationQueue
        · exact Or.inl rfl
        · cases h2 : (sets[n]).emptyPairedEliminationQueue
          · exact Or.inr rfl
          · exact absurd ⟨h1, h2⟩ hq

theorem moveConstantsLoop_total {Tree Node Bounds : Type}
    (P : ProjectionOperations Tree Node Bounds) (mVariables : List Variable) :
    ∀ (count l : Nat) (sets : List EliminationSet),
      0 < l → l + count ≤ sets.length → sets.length ≤ mVariables.length →
      ∃ moved, moveConstantsLoop P mVariables count l sets = some moved ∧
        moved.length = sets.length := by
  intro count
  induction count with
  | zero => intro l sets _ _ _; exact ⟨sets, rfl, rfl⟩
  | succ n ih =>
    intro l sets hl h1 h2
    have ha : sets[l - 1]? = some (sets[l - 1]) := List.getElem?_eq_getElem (by omega)
    have hb : sets[l]? = some (sets[l]) := List.getElem?_eq_getElem (by omega)
    have hc : mVariables[l]? = some (mVariables[l]) := List.getElem?_eq_getElem (by omega)
    obtain ⟨moved, e1, e2⟩ := ih (l + 1)
      ((sets.set (l - 1) (P.moveConstants (sets[l - 1]) (sets[l]) (mVariables[l])).1).set l
        (P.moveConstants (sets[l - 1]) (sets[l]) (mVariables[l])).2)
      (by omega) (by simp only [List.length_set]; omega)
      (by simp only [List.length_set]; omega)
    refine ⟨moved, ?_, by rw [e2]; simp only [List.length_set]⟩
    rw [moveConstantsLoop, if_neg (by omega), ha, hb, hc]
    exact e1

theorem sweepConstants_total {Tree Node Bounds : Type}
    (P : ProjectionOperations Tree Node Bounds) (mVariables : List Variable) (l : Nat)
    (sets : List EliminationSet) (hl : 0 < l) (h1 : l < sets.length)
    (h2 : sets.length ≤ mVariables.length) :
    ∃ swept, sweepConstants P mVariables l sets = some swept ∧ swept.length = sets.length := by
  obtain ⟨moved, e1, e2⟩ := moveConstantsLoop_total P mVariables (sets.length - l) l sets hl
    (by omega) h2
  have hne : moved ≠ [] := by
    intro h
    rw [h] at e2
    simp only [List.length_nil] at e2
    omega
  obtain ⟨back, hback⟩ : ∃ back, moved.getLast? = some back :=
    ⟨moved.getLast hne, List.getLast?_eq_getLast _ hne⟩
  refine ⟨moved.set (moved.length - 1) (P.removeConstants back), ?_, by
    rw [List.length_set, e2]⟩
  rw [sweepConstants, e1]
  simp only [hback]

/-- Claim C23. With bounds inactive and `level` a level of the engine, `eliminate(level, bounds,
false)` returns within one pass of its loop. If the lifting queue at `level` is not empty it
returns `level` and changes nothing. Otherwise, if `l` is the greatest level below `level`
with a non-empty single- or paired-elimination queue, it performs one `eliminateNextInto` from
level `l` into level `l + 1` (followed, under `removeConstants`, by the sweep of the
constants), sets `iscomplete` to false and returns `l + 1`. Otherwise it returns -1 and changes
nothing. -/
theorem eliminate_one_step {Tree Node Bounds : Type}
    (P : ProjectionOperations Tree Node Bounds) (inner fuel : Nat) (m : Members Tree Node)
    (level : Nat) (bounds : Bounds)
    (hlevel : level < m.eliminationSets.length)
    (hvars : m.eliminationSets.length ≤ m.mVariables.length) :
    ∃ res, eliminate P inner (fuel + 1) m level bounds false = some res ∧
      eliminate P inner 1 m level bounds false = some res ∧
      (∀ es, m.eliminationSets[level]? = some es → es.emptyLiftingQueue = false →
        res = (m, (level : Int))) ∧
      (∀ es, m.eliminationSets[level]? = some es → es.emptyLiftingQueue = true →
        (∀ l source, l < level → m.eliminationSets[l]? = some source →
          (source.emptySingleEliminationQueue = false ∨
            source.emptyPairedEliminationQueue = false) →
          (∀ k set, l < k → k < level → m.eliminationSets[k]? = some set →
            set.emptySingleEliminationQueue = true ∧
              set.emptyPairedEliminationQueue = true) →
          ∃ destination v sets1,
            m.eliminationSets[l + 1]? = some destination ∧ m.mVariables[l + 1]? = some v ∧
            (if m.setting.removeConstants then
                sweepConstants P m.mVariables (l + 1)
                  ((m.eliminationSets.set l
                      (P.eliminateNextInto source destination v m.setting (some false)).1).set
                    (l + 1)
                    (P.eliminateNextInto source destination v m.setting (some false)).2)
              else
                some ((m.eliminationSets.set l
                    (P.eliminateNextInto source destination v m.setting (some false)).1).set
                  (l + 1)
                  (P.eliminateNextInto source destination v m.setting (some false)).2)) =
              some sets1 ∧
            res = ({ m with eliminationSets := sets1, iscomplete := false },
              ((l + 1 : Nat) : Int))) ∧
        ((∀ l set, l < level → m.eliminationSets[l]? = some set →
            set.emptySingleEliminationQueue = true ∧
              set.emptyPairedEliminationQueue = true) →
          res = (m, -1))) := by
  have hget : m.eliminationSets[level]? = some (m.eliminationSets[level]) :=
    List.getElem?_eq_getElem hlevel
  obtain ⟨r, hr, hnone, hsome⟩ := eliminationLevel_spec m.eliminationSets level (by omega)
  cases hq : (m.eliminationSets[level]).emptyLiftingQueue with
  | false =>
    have key : ∀ f, eliminate P inner (f + 1) m level bounds false = some (m, (level : Int)) := by
      intro f
      simp only [eliminate, eliminateLoop, hget, hq, Bool.not_false, if_true]
    refine ⟨(m, (level : Int)), key fuel, key 0, fun _ _ _ => rfl, ?_⟩
    intro es hes hempty
    rw [hget] at hes
    cases hes
    rw [hq] at hempty
    exact absurd hempty (by decide)
  | true =>
    cases r with
    | none =>
      have key : ∀ f, eliminate P inner (f + 1) m level bounds false = some (m, -1) := by
        intro f
        simp only [eliminate, eliminateLoop, hget, hq, Bool.not_true, Bool.false_eq_true,
          if_false, hr]
      refine ⟨(m, -1), key fuel, key 0, ?_, ?_⟩
      · intro es hes hempty
        rw [hget] at hes
        cases hes
        rw [hq] at hempty
        exact absurd hempty (by decide)
      · intro es _ _
        refine ⟨?_, fun _ => rfl⟩
        intro l source hl hsource hne _
        have := hnone rfl l source hl hsource
        rcases hne with h | h
        · rw [this.1] at h; exact absurd h (by decide)
        · rw [this.2] at h; exact absurd h (by decide)
    | some found =>
      obtain ⟨hfound, ⟨src, hsrc, hsrcne⟩, hbetween⟩ := hsome found rfl
      have hdst : m.eliminationSets[found + 1]? = some (m.eliminationSets[found + 1]) :=
        List.getElem?_eq_getElem (by omega)
      have hv : m.mVariables[found + 1]? = some (m.mVariables[found + 1]) :=
        List.getElem?_eq_getElem (by omega)
      obtain ⟨sets1, hsets1⟩ : ∃ sets1,
          (if m.setting.removeConstants then
              sweepConstants P m.mVariables (found + 1)
                ((m.eliminationSets.set found
                    (P.eliminateNextInto src (m.eliminationSets[found + 1])
                      (m.mVariables[found + 1]) m.setting (some false)).1).set (found + 1)
                  (P.eliminateNextInto src (m.eliminationSets[found + 1])
                    (m.mVariables[found + 1]) m.setting (some false)).2)
            else
              some ((m.eliminationSets.set found
                  (P.eliminateNextInto src (m.eliminationSets[found + 1])
                    (m.mVariables[found + 1]) m.setting (some false)).1).set (found + 1)
                (P.eliminateNextInto src (m.eliminationSets[found + 1])
                  (m.mVariables[found + 1]) m.setting (some false)).2)) = some sets1 := by
        split_ifs
        · obtain ⟨swept, e1, _⟩ := sweepConstants_total P m.mVariables (found + 1)
            ((m.eliminationSets.set found
                (P.eliminateNextInto src (m.eliminationSets[found + 1])
                  (m.mVariables[found + 1]) m.setting (some false)).1).set (found + 1)
              (P.eliminateNextInto src (m.eliminationSets[found + 1])
                (m.mVariables[found + 1]) m.setting (some false)).2)
            (by omega) (by simp only [List.length_set]; omega)
            (by simp only [List.length_set]; omega)
          exact ⟨swept, e1⟩
        · exact ⟨_, rfl⟩
      have key : ∀ f, eliminate P inner (f + 1) m level bounds false =
          some ({ m with eliminationSets := sets1, iscomplete := false },
            ((found + 1 : Nat) : Int)) := by
        intro f
        simp only [eliminate, eliminateLoop, hget, hq, Bool.not_true, Bool.false_eq_true,
          if_false, hr, Bool.false_and]
        rw [if_pos (by omega)]
        simp only [eliminateStep, Nat.add_sub_cancel, hsrc, hdst, hv]
        rw [if_neg (by omega)]
        simp only [hsets1]
      refine ⟨_, key fuel, key 0, ?_, ?_⟩
      · intro es hes hempty
        rw [hget] at hes
        cases hes
        rw [hq] at hempty
        exact absurd hempty (by decide)
      · intro es _ _
        constructor
        · intro l source hl hsource hne hbetween1
          have hlf : l = found := by
            rcases Nat.lt_trichotomy l found with h | h | h
            · have := hbetween1 found src h hfound hsrc
              rcases hsrcne with h1 | h1
              · rw [this.1] at h1; exact absurd h1 (by decide)
              · rw [this.2] at h1; exact absurd h1 (by decide)
            · exact h
            · have := hbetween l source h hl hsource
              rcases hne with h1 | h1
              · rw [this.1] at h1; exact absurd h1 (by decide)
              · rw [this.2] at h1; exact absurd h1 (by decide)
          subst hlf
          rw [hsrc] at hsource
          cases hsource
          exact ⟨_, _, sets1, hdst, hv, hsets1, rfl⟩
        · intro hall
          have := hall found src hfound hsrc
          rcases hsrcne with h1 | h1
          · rw [this.1] at h1; exact absurd h1 (by decide)
          · rw [this.2] at h1; exact absurd h1 (by decide)

theorem eliminate_one_step_witness :
    ∃ res, eliminate exampleProjection 0 (0 + 1) exampleTwoLevels 1 () false = some res ∧
      eliminate exampleProjection 0 1 exampleTwoLevels 1 () false = some res ∧
      (∀ es, exampleTwoLevels.eliminationSets[1]? = some es → es.emptyLiftingQueue = false →
        res = (exampleTwoLevels, ((1 : Nat) : Int))) ∧
      (∀ es, exampleTwoLevels.eliminationSets[1]? = some es → es.emptyLiftingQueue = true →
        (∀ l source, l < 1 → exampleTwoLevels.eliminationSets[l]? = some source →
          (source.emptySingleEliminationQueue = false ∨
            source.emptyPairedEliminationQueue = false) →
          (∀ k set, l < k → k < 1 → exampleTwoLevels.eliminationSets[k]? = some set →
            set.emptySingleEliminationQueue = true ∧
              set.emptyPairedEliminationQueue = true) →
          ∃ destination v sets1,
            exampleTwoLevels.eliminationSets[l + 1]? = some destination ∧ exampleTwoLevels.mVariables[l + 1]? = some v ∧
            (if exampleTwoLevels.setting.removeConstants then
                sweepConstants exampleProjection exampleTwoLevels.mVariables (l + 1)
                  ((exampleTwoLevels.eliminationSets.set l
                      (exampleProjection.eliminateNextInto source destination v exampleTwoLevels.setting (some false)).1).set
                    (l + 1)
                    (exampleProjection.eliminateNextInto source destination v exampleTwoLevels.setting (some false)).2)
              else
                some ((exampleTwoLevels.eliminationSets.set l
                    (exampleProjection.eliminateNextInto source destination v exampleTwoLevels.setting (some false)).1).set
                  (l + 1)
                  (exampleProjection.eliminateNextInto source destination v exampleTwoLevels.setting (some false)).2)) =
              some sets1 ∧
            res = ({ exampleTwoLevels with eliminationSets := sets1, iscomplete := false },
              ((l + 1 : Nat) : Int))) ∧
        ((∀ l set, l < 1 → exampleTwoLevels.eliminationSets[l]? = some set →
            set.emptySingleEliminationQueue = true ∧
              set.emptyPairedEliminationQueue = true) →
          res = (exampleTwoLevels, -1))) :=
  eliminate_one_step exampleProjection 0 0 exampleTwoLevels 1 () (by decide) (by decide)

end Members

/-! ## The end of the lifting loop under `equationsOnly` and `inequalitiesOnly` -/

namespace CAD

/-- The loop of `CAD.tpp:1553-1556` stores the next sample of the set and pops none: entered
with a non-empty set, it does not end. -/
theorem storeUnused_diverges (X : Collaborators) (node : X.Node) (increment : X.SampleSet)
    (hne : X.empty increment = false) :
    ∀ (fuel : Nat) (s : CheckState X), storeUnused X node fuel increment s = none := by
  intro fuel
  induction fuel with
  | zero => intro s; rfl
  | succ n ih =>
    intro s
    rw [storeUnused]
    simp only [hne, Bool.not_false, if_true]
    exact ih _

/-- Phase 2 of `liftCheck` under the preset for inequalities is left by `break` when the
lifting queue is used up and only root samples are left. -/
theorem liftPhase2_break (X : Collaborators)
    (lift : LiftArgs X → CheckState X → Option (Bool × CheckState X))
    (a : LiftArgs X) (openVariableCount : Nat) (newVariables : List Variable) (fuel : Nat)
    (loc : LiftLocals X) (s : CheckState X) (es : EliminationSet)
    (hne : X.empty loc.sampleSetIncrement = false)
    (hroots : X.emptyNonroot loc.sampleSetIncrement = true)
    (hes : s.cad.eliminationSets[openVariableCount]? = some es)
    (hq : es.emptyLiftingQueue = true)
    (h1 : s.cad.setting.preferNRSamples = false)
    (h2 : s.cad.setting.preferSamplesByIsRoot = true)
    (h3 : s.cad.setting.preferNonrootSamples = true)
    (h4 : s.cad.setting.inequalitiesOnly = true) :
    liftPhase2 X lift a openVariableCount newVariables (fuel + 1) loc s =
      some (false, { loc with computeMoreSamples := true }, s) := by
  rw [liftPhase2]
  simp only [hne, Bool.not_false, if_true, hes, chooseSample, h1, h2, h3, h4, hroots, hq,
    Bool.not_true, Bool.false_eq_true, if_false, Bool.xor_true, Bool.and_self]

/-- The main loop of `liftCheck` under the preset for inequalities does not end once phase 1
leaves a used-up lifting queue and a non-empty sample set without non-root samples. -/
theorem liftLoop_diverges (X : Collaborators)
    (lift : LiftArgs X → CheckState X → Option (Bool × CheckState X))
    (a : LiftArgs X) (openVariableCount : Nat) (bound : Option X.Interval)
    (newVariables : List Variable) (fuel : Nat) (loc loc1 : LiftLocals X)
    (s s1 : CheckState X) (es : EliminationSet)
    (hphase1 : liftPhase1 X a openVariableCount bound (fuel + 1) loc s = some (loc1, s1))
    (hne : X.empty loc1.sampleSetIncrement = false)
    (hroots : X.emptyNonroot loc1.sampleSetIncrement = true)
    (hes : s1.cad.eliminationSets[openVariableCount]? = some es)
    (hq : es.emptyLiftingQueue = true)
    (h1 : s1.cad.setting.preferNRSamples = false)
    (h2 : s1.cad.setting.preferSamplesByIsRoot = true)
    (h3 : s1.cad.setting.preferNonrootSamples = true)
    (h4 : s1.cad.setting.inequalitiesOnly = true) :
    liftLoop X lift a openVariableCount bound newVariables (fuel + 2) loc s = none := by
  rw [liftLoop, hphase1]
  simp only [liftPhase2_break X lift a openVariableCount newVariables fuel loc1 s1 es hne hroots
    hes hq h1 h2 h3 h4, hes, hq, if_true, h4, Bool.or_true]
  rw [storeUnused_diverges X a.node loc1.sampleSetIncrement hne]

theorem exampleStartedEngine_step (n : Nat) :
    liftCheck exampleRootCollaborators (n + 1) exampleTopArgs exampleInequalitiesEngine =
      liftLoop exampleRootCollaborators (liftCheck exampleRootCollaborators n) exampleTopArgs 0
        none [0] n exampleTopLocals exampleStartedEngine :=
  rfl

theorem exampleStartedEngine_phase1 (n : Nat) :
    liftPhase1 exampleRootCollaborators exampleTopArgs 0 none (n + 2) exampleTopLocals
        exampleStartedEngine =
      liftPhase1 exampleRootCollaborators exampleTopArgs 0 none 2 exampleTopLocals
        exampleStartedEngine :=
  rfl

/-- Claim C24. `liftCheck` does not return for the engine with one variable, the polynomial
with the single root 2 and the setting of the preset `INEQUALITIESONLY_CADSETTING`, called as
`mainCheck` calls it on an empty sample tree: phase 1 of the main loop uses up the lifting
queue and leaves the root samples 0 and 2, phase 2 is left by `break` since there is no
non-root sample, and the loop of `CAD.tpp:1553-1556` then stores the same sample forever. In
the model no number of steps is enough for the call to return. -/
theorem liftCheck_inequalitiesOnly_never_returns :
    (∃ loc s,
      liftPhase1 exampleRootCollaborators exampleTopArgs 0 none 2 exampleTopLocals
        exampleStartedEngine = some (loc, s) ∧
      loc.sampleSetIncrement = [0, 2] ∧
      s.cad.eliminationSets.map (fun es => es.mLiftingQueue) = [[]] ∧
      s.cad.setting.inequalitiesOnly = true ∧
      (∀ fuel lift,
        liftPhase2 exampleRootCollaborators lift exampleTopArgs 0 [0] (fuel + 1) loc s =
          some (false, { loc with computeMoreSamples := true }, s)) ∧
      ∀ fuel, storeUnused exampleRootCollaborators none fuel loc.sampleSetIncrement s = none) ∧
    ∀ fuel,
      liftCheck exampleRootCollaborators fuel exampleTopArgs exampleInequalitiesEngine =
        none := by
  have hsome : (liftPhase1 exampleRootCollaborators exampleTopArgs 0 none 2 exampleTopLocals
      exampleStartedEngine).isSome = true := by decide
  obtain ⟨⟨loc, s⟩, hr⟩ := Option.isSome_iff_exists.1 hsome
  have hfacts : (liftPhase1 exampleRootCollaborators exampleTopArgs 0 none 2 exampleTopLocals
      exampleStartedEngine).map (fun r =>
        (r.1.sampleSetIncrement, r.2.cad.eliminationSets.map (fun es => es.mLiftingQueue),
          r.2.cad.setting)) =
      some ([0, 2], [[]],
        CADSettings.getSettings INEQUALITIESONLY_CADSETTING CADSettings.standard) := by
    decide
  rw [hr] at hfacts
  simp only [Option.map_some', Option.some.injEq, Prod.mk.injEq] at hfacts
  obtain ⟨hinc, hqueues, hsetting⟩ := hfacts
  have hne : exampleRootCollaborators.empty loc.sampleSetIncrement = false := by
    rw [hinc]; rfl
  obtain ⟨es, hes, hq⟩ : ∃ es, s.cad.eliminationSets[0]? = some es ∧
      es.emptyLiftingQueue = true := by
    cases hsets : s.cad.eliminationSets with
    | nil => rw [hsets] at hqueues; simp at hqueues
    | cons es rest =>
      rw [hsets] at hqueues
      simp only [List.map_cons, List.cons.injEq] at hqueues
      exact ⟨es, by simp, by rw [EliminationSet.emptyLiftingQueue, hqueues.1]; rfl⟩
  have h1 : s.cad.setting.preferNRSamples = false := by rw [hsetting]; decide
  have h2 : s.cad.setting.preferSamplesByIsRoot = true := by rw [hsetting]; decide
  have h3 : s.cad.setting.preferNonrootSamples = true := by rw [hsetting]; decide
  have h4 : s.cad.setting.inequalitiesOnly = true := by rw [hsetting]; decide
  refine ⟨⟨loc, s, hr, hinc, hqueues, h4, ?_, ?_⟩, ?_⟩
  · intro fuel lift
    exact liftPhase2_break exampleRootCollaborators lift exampleTopArgs 0 [0] fuel loc s es hne
      rfl hes hq h1 h2 h3 h4
  · intro fuel
    exact storeUnused_diverges exampleRootCollaborators none loc.sampleSetIncrement hne fuel s
  · intro fuel
    match fuel with
    | 0 => rfl
    | 1 => rfl
    | 2 => rfl
    | 3 => rfl
    | n + 4 =>
      rw [exampleStartedEngine_step (n + 3)]
      exact liftLoop_diverges exampleRootCollaborators _ exampleTopArgs 0 none [0] (n + 1)
        exampleTopLocals loc exampleStartedEngine s es
        ((exampleStartedEngine_phase1 n).trans hr) hne rfl hes hq h1 h2 h3 h4

end CAD

/-! ## The completeness flag -/

namespace CAD

end CAD

/-! ## Removing a polynomial -/

namespace Members

/-- A polynomial in the list of all polynomials and not scheduled: `removePolynomial` erases it
from that list and returns; the elimination sets stay as they are. -/
theorem removePolynomial_listed {Tree Node : Type}
    (toUnivariatePolynomial coprimeCoefficients :
      UnivariatePolynomialPtr → UnivariatePolynomialPtr)
    (removePolynomialAt : Members Tree Node → UnivariatePolynomialPtr → Nat → Members Tree Node)
    (m : Members Tree Node) (polynomial : UnivariatePolynomialPtr)
    (hs : polynomial ∉ m.scheduledPolynomials) (hp : polynomial ∈ m.polynomials) :
    (removePolynomial toUnivariatePolynomial coprimeCoefficients removePolynomialAt m
      polynomial).eliminationSets = m.eliminationSets := by
  unfold removePolynomial
  rw [if_neg hs, if_pos hp]

/-- Claim C26. Scheduling the polynomials 4 and 5 with the variable 1 on a fresh engine and
preparing the elimination puts both into the top-level elimination set and into the list of
all polynomials. `removePolynomial(5)` then erases 5 from the list of all polynomials and
returns: whatever the overload for the levels does, the top-level elimination set still holds
4 and 5, whereas the engine that scheduled 4 only holds 4 there. -/
theorem removePolynomial_keeps_absorbed_polynomial
    (removePolynomialAt : Members Unit Nat → UnivariatePolynomialPtr → Nat → Members Unit Nat) :
    (exampleAbsorbed [4, 5]).map
        (fun m => (m.eliminationSets.map (fun es => es.polynomials), m.polynomials)) =
      some ([[4, 5]], [4, 5]) ∧
    (exampleAbsorbed [4, 5]).map
        (fun m =>
          ((removePolynomial id id removePolynomialAt m 5).eliminationSets.map
              (fun es => es.polynomials),
            (removePolynomial id id removePolynomialAt m 5).polynomials)) =
      some ([[4, 5]], [4]) ∧
    (exampleAbsorbed [4]).map (fun m => m.eliminationSets.map (fun es => es.polynomials)) =
      some [[4]] := by
  exact ⟨by decide, rfl, by decide⟩

end Members

/-! ## Scheduling polynomials -/

namespace Members

/-- A loop that appends each element that is neither in the list yet nor excluded by `c`
appends the admissible elements, each once. -/
theorem appendNew_fold (c : Nat → Bool) (step : List Nat → Nat → List Nat)
    (hstep : ∀ acc p, step acc p = if p ∈ acc ∨ c p = true then acc else acc ++ [p]) :
    ∀ (l acc : List Nat), ∃ added,
      l.foldl step acc = acc ++ added ∧ added.Nodup ∧
      ∀ q, q ∈ added ↔ q ∈ l ∧ q ∉ acc ∧ c q = false := by
  intro l
  induction l with
  | nil => intro acc; exact ⟨[], by simp, List.nodup_nil, by simp⟩
  | cons p rest ih =>
    intro acc
    rw [List.foldl_cons, hstep]
    by_cases hp : p ∈ acc ∨ c p = true
    · rw [if_pos hp]
      obtain ⟨added, h1, h2, h3⟩ := ih acc
      refine ⟨added, h1, h2, ?_⟩
      intro q
      rw [h3 q, List.mem_cons]
      constructor
      · rintro ⟨a, b, d⟩; exact ⟨Or.inr a, b, d⟩
      · rintro ⟨a | a, b, d⟩
        · subst a
          rcases hp with hp | hp
          · exact absurd hp b
          · rw [d] at hp; exact absurd hp (by decide)
        · exact ⟨a, b, d⟩
    · rw [if_neg hp]
      push_neg at hp
      obtain ⟨added, h1, h2, h3⟩ := ih (acc ++ [p])
      refine ⟨p :: added, by rw [h1]; simp, ?_, ?_⟩
      · refine List.nodup_cons.2 ⟨?_, h2⟩
        intro hmem
        exact ((h3 p).1 hmem).2.1 (by simp)
      · intro q
        rw [List.mem_cons, h3 q, List.mem_cons]
        constructor
        · rintro (a | ⟨a, b, d⟩)
          · subst a
            exact ⟨Or.inl rfl, hp.1, by simpa using hp.2⟩
          · exact ⟨Or.inr a, fun hq => b (by simp [hq]), d⟩
        · rintro ⟨a, b, d⟩
          by_cases hqp : q = p
          · exact Or.inl hqp
          · rcases a with a | a
            · exact absurd a hqp
            · refine Or.inr ⟨a, ?_, d⟩
              simp only [List.mem_append, List.mem_singleton]
              rintro (h | h)
              · exact b h
              · exact hqp h

theorem schedule_fold (sets : List EliminationSet) :
    ∀ (l : List UnivariatePolynomialPtr) (state : List UnivariatePolynomialPtr × Bool),
      ∃ added,
        l.foldl (scheduleStep sets) state = (state.1 ++ added, state.2 && added.isEmpty) ∧
        added.Nodup ∧
        ∀ q, q ∈ added ↔ q ∈ l ∧ q ∉ state.1 ∧ inFront sets q = false := by
  intro l
  induction l with
  | nil => intro state; exact ⟨[], by simp, List.nodup_nil, by simp⟩
  | cons p rest ih =>
    intro state
    rw [List.foldl_cons]
    by_cases hp : p ∈ state.1 ∨ inFront sets p = true
    · have hs : scheduleStep sets state p = state := by
        unfold scheduleStep
        rcases hp with hp | hp
        · rw [if_pos hp]
        · split_ifs <;> rfl
      rw [hs]
      obtain ⟨added, h1, h2, h3⟩ := ih state
      refine ⟨added, h1, h2, ?_⟩
      intro q
      rw [h3 q, List.mem_cons]
      constructor
      · rintro ⟨a, b, d⟩; exact ⟨Or.inr a, b, d⟩
      · rintro ⟨a | a, b, d⟩
        · subst a
          rcases hp with hp | hp
          · exact absurd hp b
          · rw [d] at hp; exact absurd hp (by decide)
        · exact ⟨a, b, d⟩
    · push_neg at hp
      have hs : scheduleStep sets state p = (state.1 ++ [p], false) := by
        unfold scheduleStep
        rw [if_neg hp.1, if_neg hp.2]
      rw [hs]
      obtain ⟨added, h1, h2, h3⟩ := ih (state.1 ++ [p], false)
      refine ⟨p :: added, by rw [h1]; simp, ?_, ?_⟩
      · refine List.nodup_cons.2 ⟨?_, h2⟩
        intro hmem
        exact ((h3 p).1 hmem).2.1 (by simp)
      · intro q
        rw [List.mem_cons, h3 q, List.mem_cons]
        constructor
        · rintro (a | ⟨a, b, d⟩)
          · subst a
            exact ⟨Or.inl rfl, hp.1, by simpa using hp.2⟩
          · exact ⟨Or.inr a, fun hq => b (by simp [hq]), d⟩
        · rintro ⟨a, b, d⟩
          by_cases hqp : q = p
          · exact Or.inl hqp
          · rcases a with a | a
            · exact absurd a hqp
            · refine Or.inr ⟨a, ?_, d⟩
              simp only [List.mem_append, List.mem_singleton]
              rintro (h | h)
              · exact b h
              · exact hqp h

theorem inFront_eq_false (sets : List EliminationSet) (p : UnivariatePolynomialPtr)
    (hp : p ≠ nullptr) :
    inFront sets p = false ↔ ∀ front ∈ sets.head?, p ∉ front.polynomials := by
  cases sets with
  | nil => simp [inFront]
  | cons front rest =>
    simp only [inFront, EliminationSet.find, List.head?_cons, Option.mem_def,
      Option.some.injEq, forall_eq']
    by_cases h : p ∈ front.polynomials
    · simp [h, hp]
    · simp [h]

/-- Claim C27. `addPolynomials(first, last, v)` for non-null polynomials leaves the elimination
sets, the variables, the list of input polynomials and the sample tree as they are. It appends
to the scheduled polynomials exactly the given polynomials that are neither scheduled already
nor in the top-level elimination set, each once. It appends to the pending new variables only
variables of `v` that are neither in the variable list nor pending, each once; if no polynomial
was appended the pending new variables are unchanged, otherwise all such variables of `v` are
appended. -/
theorem addPolynomials_frame {Tree Node : Type} (m : Members Tree Node)
    (input : List UnivariatePolynomialPtr) (v : List Variable)
    (hinput : ∀ p ∈ input, p ≠ nullptr) :
    (m.addPolynomials input v).eliminationSets = m.eliminationSets ∧
    (m.addPolynomials input v).mVariables = m.mVariables ∧
    (m.addPolynomials input v).polynomials = m.polynomials ∧
    (m.addPolynomials input v).sampleTree = m.sampleTree ∧
    ∃ added addedVariables,
      (m.addPolynomials input v).scheduledPolynomials = m.scheduledPolynomials ++ added ∧
      added.Nodup ∧
      (∀ p, p ∈ added ↔
        p ∈ input ∧ p ∉ m.scheduledPolynomials ∧
          ∀ front ∈ m.eliminationSets.head?, p ∉ front.polynomials) ∧
      (m.addPolynomials input v).newVariables = m.newVariables ++ addedVariables ∧
      addedVariables.Nodup ∧
      (∀ x ∈ addedVariables, x ∈ v ∧ x ∉ m.mVariables ∧ x ∉ m.newVariables) ∧
      (added = [] → addedVariables = []) ∧
      (added ≠ [] → ∀ x, x ∈ v → x ∉ m.mVariables → x ∉ m.newVariables →
        x ∈ addedVariables) := by
  obtain ⟨added, h1, h2, h3⟩ := schedule_fold m.eliminationSets input
    (m.scheduledPolynomials, true)
  have h3a : ∀ p, p ∈ added ↔
      p ∈ input ∧ p ∉ m.scheduledPolynomials ∧
        ∀ front ∈ m.eliminationSets.head?, p ∉ front.polynomials := by
    intro p
    rw [h3 p]
    constructor
    · rintro ⟨a, b, d⟩
      exact ⟨a, b, (inFront_eq_false _ p (hinput p a)).1 d⟩
    · rintro ⟨a, b, d⟩
      exact ⟨a, b, (inFront_eq_false _ p (hinput p a)).2 d⟩
  obtain ⟨addedV, g1, g2, g3⟩ := appendNew_fold (fun x => decide (x ∈ m.mVariables))
    (newVariableStep m.mVariables)
    (by
      intro acc x
      unfold newVariableStep
      by_cases ha : x ∈ acc <;> by_cases hb : x ∈ m.mVariables <;> simp [ha, hb])
    v m.newVariables
  unfold addPolynomials
  simp only [h1, Bool.true_and]
  cases hadded : added with
  | nil =>
    simp only [List.isEmpty_nil, if_true, List.append_nil]
    refine ⟨trivial, trivial, trivial, trivial, [], [], by simp, List.nodup_nil, ?_, by simp,
      List.nodup_nil, by simp, fun _ => rfl, fun h => absurd rfl h⟩
    intro p
    rw [← h3a p, hadded]
  | cons a rest =>
    simp only [List.isEmpty_cons, Bool.false_eq_true, if_false]
    refine ⟨trivial, trivial, trivial, trivial, a :: rest, addedV, rfl, hadded ▸ h2, ?_, g1, g2, ?_,
      fun h => absurd h (by simp), ?_⟩
    · intro p
      rw [← h3a p, hadded]
    · intro x hx
      have := (g3 x).1 hx
      exact ⟨this.1, by simpa using this.2.2, this.2.1⟩
    · intro _ x hx hx1 hx2
      exact (g3 x).2 ⟨hx, hx2, by simpa using hx1⟩

theorem addPolynomials_frame_witness :
    (examplePending.addPolynomials [3, 9, 4, 9] [5, 6, 2]).eliminationSets =
      examplePending.eliminationSets ∧
    (examplePending.addPolynomials [3, 9, 4, 9] [5, 6, 2]).mVariables =
      examplePending.mVariables ∧
    (examplePending.addPolynomials [3, 9, 4, 9] [5, 6, 2]).polynomials =
      examplePending.polynomials ∧
    (examplePending.addPolynomials [3, 9, 4, 9] [5, 6, 2]).sampleTree =
      examplePending.sampleTree ∧
    ∃ added addedVariables,
      (examplePending.addPolynomials [3, 9, 4, 9] [5, 6, 2]).scheduledPolynomials =
        examplePending.scheduledPolynomials ++ added ∧
      added.Nodup ∧
      (∀ p, p ∈ added ↔
        p ∈ [3, 9, 4, 9] ∧ p ∉ examplePending.scheduledPolynomials ∧
          ∀ front ∈ examplePending.eliminationSets.head?, p ∉ front.polynomials) ∧
      (examplePending.addPolynomials [3, 9, 4, 9] [5, 6, 2]).newVariables =
        examplePending.newVariables ++ addedVariables ∧
      addedVariables.Nodup ∧
      (∀ x ∈ addedVariables,
        x ∈ [5, 6, 2] ∧ x ∉ examplePending.mVariables ∧ x ∉ examplePending.newVariables) ∧
      (added = [] → addedVariables = []) ∧
      (added ≠ [] → ∀ x, x ∈ [5, 6, 2] → x ∉ examplePending.mVariables →
        x ∉ examplePending.newVariables → x ∈ addedVariables) :=
  addPolynomials_frame examplePending [3, 9, 4, 9] [5, 6, 2] (by decide)

end Members

/-! ## Solving by bounds before the search -/

namespace CAD

/-- When the pre-solve step of `check` finds a constraint whose interval evaluation contradicts
its sign, the call returns false with the empty conflict graph, and the constraint list is the
list before the step with its last entry overwritten by that constraint. -/
theorem check_presolve (X : Collaborators) (fuel : Nat) (s : CheckState X)
    (constraints : List X.Constraint) (bounds : BoundMap X)
    (next checkTraceFirst checkBounds : Bool) (violated : X.Constraint)
    (hsetting : (checkEntry X s).cad.setting.preSolveByBounds = true)
    (hbounds : boundsByVariable X (checkEntry X s).cad.mVariables bounds ≠ [])
    (hviolated : presolveConflict X (boundsByVariable X (checkEntry X s).cad.mVariables bounds)
      (constraints ++ boundConstraints X (checkEntry X s).cad.mVariables bounds) =
        some violated) :
    ∃ res, check X fuel s constraints bounds next checkTraceFirst checkBounds = some res ∧
      res.satisfiable = false ∧ res.state.conflictGraph = X.emptyGraph ∧
      res.constraints =
        (constraints ++ boundConstraints X (checkEntry X s).cad.mVariables bounds).dropLast ++
          [violated] := by
  have hne : (constraints ++ boundConstraints X (checkEntry X s).cad.mVariables bounds) ≠
      [] := by
    intro h
    rw [h] at hviolated
    simp [presolveConflict] at hviolated
  have hm : (boundsByVariable X (checkEntry X s).cad.mVariables bounds).isEmpty = false := by
    cases h : boundsByVariable X (checkEntry X s).cad.mVariables bounds with
    | nil => exact absurd h hbounds
    | cons a l => rfl
  have he : (constraints ++
      boundConstraints X (checkEntry X s).cad.mVariables bounds).isEmpty = false := by
    cases h : constraints ++ boundConstraints X (checkEntry X s).cad.mVariables bounds with
    | nil => exact absurd h hne
    | cons a l => rfl
  refine ⟨CheckResult.mk false
    ((constraints ++ boundConstraints X (checkEntry X s).cad.mVariables bounds).dropLast ++
      [violated])
    bounds { checkEntry X s with conflictGraph := X.emptyGraph }, ?_, ?_, ?_, ?_⟩
  · unfold check
    simp only [he, Bool.false_eq_true, if_false, hsetting, hm, Bool.not_false, Bool.and_self,
      if_true, hviolated]
  · rfl
  · rfl
  · rfl

/-- Claim C28. With `preSolveByBounds` set, a bound for the variable, and the constraints
`x - 2 = 0` and `x - 1 > 0`, where the interval evaluation gives every polynomial the sign
`POSITIVE`, the first constraint is violated: `check` returns false with the empty conflict
graph, and the constraint list afterwards is `x - 2 = 0` twice. The constraint `x - 1 > 0`,
last before the call, is no longer in the list. -/
theorem check_presolve_overwrites_last_constraint :
    examplePresolveEngine.cad.setting.preSolveByBounds = true ∧
    presolveConflict examplePositiveCollaborators [(0, ())]
      [(2, Sign.ZERO), (1, Sign.POSITIVE)] = some (2, Sign.ZERO) ∧
    (check examplePositiveCollaborators 0 examplePresolveEngine
        [(2, Sign.ZERO), (1, Sign.POSITIVE)] [(0, ())] false false false).map
      (fun res => (res.satisfiable, res.constraints, res.state.conflictGraph)) =
      some (false, [(2, Sign.ZERO), (2, Sign.ZERO)], []) := by
  decide

end CAD

/-! ## The presets of `CADSettings::getSettings` -/

namespace CADSettings

/-- Claim C29. `getSettings` does not give the flag that comes last in the enumeration
`CADSettingsType` the last word: the block of `EQUATIONSONLY_CADSETTING` (8) runs after the
blocks of `EQUATIONDETECT_CADSETTING` (32) and `BOUNDED_CADSETTING` (256), which come later in
the enumeration. Each of the two later flags alone sets `autoSeparateEquations` to true, the
earlier flag alone sets it to false, and for both bitmasks `8 | 32` and `8 | 256` applied to
the default settings the returned `autoSeparateEquations` is false. -/
theorem getSettings_earlier_flag_wins :
    EQUATIONSONLY_CADSETTING < EQUATIONDETECT_CADSETTING ∧
    EQUATIONSONLY_CADSETTING < BOUNDED_CADSETTING ∧
    (getSettings EQUATIONDETECT_CADSETTING standard).autoSeparateEquations = true ∧
    (getSettings BOUNDED_CADSETTING standard).autoSeparateEquations = true ∧
    (getSettings EQUATIONSONLY_CADSETTING standard).autoSeparateEquations = false ∧
    (getSettings (EQUATIONSONLY_CADSETTING ||| EQUATIONDETECT_CADSETTING)
      standard).autoSeparateEquations = false ∧
    (getSettings (EQUATIONSONLY_CADSETTING ||| BOUNDED_CADSETTING)
      standard).autoSeparateEquations = false := by
  decide

/-- The policies that the blocks of the sample and bound presets leave untouched. -/
theorem policies_off_standard :
    standard.preferSamplesByIsRoot = false ∧ standard.equationsOnly = false ∧
      standard.inequalitiesOnly = false := by
  decide

theorem policies_off_sample (c : Prop) [Decidable c] (auto nr : Bool) (s : CADSettings)
    (h : s.preferSamplesByIsRoot = false ∧ s.equationsOnly = false ∧
      s.inequalitiesOnly = false) :
    (if c then { s with autoSeparateEquations := auto, preferNRSamples := nr }
      else s).preferSamplesByIsRoot = false ∧
    (if c then { s with autoSeparateEquations := auto, preferNRSamples := nr }
      else s).equationsOnly = false ∧
    (if c then { s with autoSeparateEquations := auto, preferNRSamples := nr }
      else s).inequalitiesOnly = false := by
  split_ifs <;> exact h

theorem policies_off_detect (c : Prop) [Decidable c] (s : CADSettings)
    (h : s.preferSamplesByIsRoot = false ∧ s.equationsOnly = false ∧
      s.inequalitiesOnly = false) :
    (if c then { s with autoSeparateEquations := true } else s).preferSamplesByIsRoot = false ∧
    (if c then { s with autoSeparateEquations := true } else s).equationsOnly = false ∧
    (if c then { s with autoSeparateEquations := true } else s).inequalitiesOnly = false := by
  split_ifs <;> exact h

theorem policies_off_bound (c : Prop) [Decidable c] (b : Bool) (s : CADSettings)
    (h : s.preferSamplesByIsRoot = false ∧ s.equationsOnly = false ∧
      s.inequalitiesOnly = false) :
    (if c then s.boundPreset b else s).preferSamplesByIsRoot = false ∧
    (if c then s.boundPreset b else s).equationsOnly = false ∧
    (if c then s.boundPreset b else s).inequalitiesOnly = false := by
  split_ifs <;> exact h

theorem exclusive_equationsOnly (c : Prop) [Decidable c] (s t : CADSettings)
    (h : s.preferSamplesByIsRoot = false ∧ s.equationsOnly = false ∧
      s.inequalitiesOnly = false)
    (ht : t = if c then
      { s with
        autoSeparateEquations := false, preferNRSamples := false, equationsOnly := true,
        inequalitiesOnly := false, preferSamplesByIsRoot := true,
        preferNonrootSamples := false }
      else s) :
    ¬ (t.preferNRSamples = true ∧ t.preferSamplesByIsRoot = true) ∧
      ¬ (t.equationsOnly = true ∧ t.inequalitiesOnly = true) := by
  subst ht
  obtain ⟨h1, h2, h3⟩ := h
  split_ifs <;> simp [h1, h2, h3]

theorem exclusive_inequalitiesOnly (c : Prop) [Decidable c] (s t : CADSettings)
    (h : ¬ (s.preferNRSamples = true ∧ s.preferSamplesByIsRoot = true) ∧
      ¬ (s.equationsOnly = true ∧ s.inequalitiesOnly = true))
    (ht : t = if c then
      { s with
        preferNRSamples := false, equationsOnly := false, inequalitiesOnly := true,
        preferSamplesByIsRoot := true, preferNonrootSamples := true }
      else s) :
    ¬ (t.preferNRSamples = true ∧ t.preferSamplesByIsRoot = true) ∧
      ¬ (t.equationsOnly = true ∧ t.inequalitiesOnly = true) := by
  subst ht
  split_ifs
  · simp
  · exact h

theorem exclusive_zeroDim (c : Prop) [Decidable c] (s t : CADSettings)
    (h : ¬ (s.preferNRSamples = true ∧ s.preferSamplesByIsRoot = true) ∧
      ¬ (s.equationsOnly = true ∧ s.inequalitiesOnly = true))
    (ht : t = if c then { s with zeroDimEquations := true } else s) :
    ¬ (t.preferNRSamples = true ∧ t.preferSamplesByIsRoot = true) ∧
      ¬ (t.equationsOnly = true ∧ t.inequalitiesOnly = true) := by
  subst ht
  split_ifs <;> exact h

/-- Claim C30. For every bitmask of preset flags, the settings that `getSettings` returns for
the default-constructed settings never have `preferNRSamples` and `preferSamplesByIsRoot` both
true, and never have `equationsOnly` and `inequalitiesOnly` both true. -/
theorem getSettings_exclusive_policies (setting : Nat) :
    ¬ ((getSettings setting standard).preferNRSamples = true ∧
        (getSettings setting standard).preferSamplesByIsRoot = true) ∧
    ¬ ((getSettings setting standard).equationsOnly = true ∧
        (getSettings setting standard).inequalitiesOnly = true) :=
  exclusive_zeroDim _ _ _
    (exclusive_inequalitiesOnly _ _ _
      (exclusive_equationsOnly _ _ _
        (policies_off_bound _ false _
          (policies_off_bound _ true _
            (policies_off_detect _ _
              (policies_off_sample _ false false _
                (policies_off_sample _ false true _ policies_off_standard)))))
        rfl)
      rfl)
    rfl

end CADSettings

/-! ## C31: `check` on an engine that was complete before a polynomial was added -/

namespace CAD

/-- Claim C31. A false answer of `check` without bounds with `isComplete()` true afterwards
does not exclude a satisfying point: the one-variable engine with the polynomial `x - 2`
answers the unsatisfiable constraints `x - 2 > 0`, `x - 2 < 0` with false and is complete;
after `addPolynomials` for `x - 5`, which leaves the flag `iscomplete` set, the call for the
constraint `x - 5 = 0` takes the new polynomial into the elimination set, checks the two old
leaves, returns false at the test `isComplete()` before any lifting, and `isComplete()` is
still true, although the point `x = 5` satisfies the constraint. The same call on an engine
that was not complete before returns true with the point `x = 5`. -/
theorem check_false_and_complete_with_satisfying_point :
    (exampleFirstCheck.map fun res =>
        (res.satisfiable, res.state.cad.iscomplete, res.state.cad.sampleTree)) =
      some (false, true, [0, 2]) ∧
    (exampleExtendedEngine.map fun s =>
        (s.cad.scheduledPolynomials, s.cad.iscomplete)) = some ([3], true) ∧
    (exampleSecondCheck.map fun res =>
        (res.satisfiable, res.state.cad.iscomplete, res.state.cad.sampleTree,
          res.state.cad.eliminationSets.map fun es => es.polynomials)) =
      some (false, true, [0, 2], [[1, 3]]) ∧
    satisfies exampleSchedulingCollaborators [5] [(5, Sign.ZERO)] = true ∧
    (exampleFreshCheck.map fun res => (res.satisfiable, res.state.r)) = some (true, [5]) := by
  refine ⟨by decide, by decide, by decide, by decide, by decide⟩

end CAD

/-! ## The bounds of the nested engine in `vanishesInBox` -/

namespace Members

/-- Claim C32. The engine has the variables 10 and 11, both occur in `p`, and the box has a
bound for index 1 only. The nested engine gets both variables, so the variable 11 has index 1
there; the bound map it gets has the bound at index 0, the index of the variable 10, and none
at index 1. -/
theorem vanishesInBox_bound_at_wrong_index :
    (vanishesInBoxArguments (fun _ _ => true) [10, 11] 1
        (fun i => if i = 1 then some 9 else none) 0).map
      (fun res => (res.1, res.2 0, res.2 1)) =
      some ([10, 11], some 9, none) := by
  decide

end Members

/-! ## C33: the bound polynomials that `check` inserts and removes -/

namespace Members

/-- Claim C33. `check` does not remove every bound polynomial it added: for the bound [1, 3] of
level 1 of an engine with two variables and the setting `earlyLiftingPruningByBounds` off, the
block inserts the polynomials of both endpoints (41 and 43) into elimination set 1, but both
assignments go to the member `first` of `boundPolynomials[1]`, so only the right one (43) is
recorded and the member `second` stays null; the restoring block then passes only 43 to
`removePolynomial`, and the left bound polynomial 41 remains in elimination set 1 afterwards,
which held no polynomial before. With the setting `earlyLiftingPruningByBounds` on, as in the
standard settings, `removePolynomial` is called for the children only and both bound
polynomials remain. -/
theorem check_keeps_left_bound_polynomial :
    (exampleBoundedEngine.eliminationSets.map fun es => es.polynomials) = [[3], []] ∧
      ((insertBoundPolynomials ascending exampleOperations exampleBoundPolynomial
          exampleBoundedEngine exampleLevelBounds).map fun st =>
            (st.1.eliminationSets.map fun es => es.polynomials, st.2)) =
        some ([[3], [41, 43]], [(nullptr, nullptr), (43, nullptr)]) ∧
      ((insertBoundPolynomials ascending exampleOperations exampleBoundPolynomial
          exampleBoundedEngine exampleLevelBounds).bind fun st =>
            ((restoreAfterBounds exampleTreeOperations ascending 5 5 ascending id st.1
              st.2).bind fun r => r.toOption).map fun m =>
                m.eliminationSets.map fun es => es.polynomials) =
        some [[3], [41]] ∧
      exampleTwoLevels.setting.earlyLiftingPruningByBounds = true ∧
      ((insertBoundPolynomials ascending exampleOperations exampleBoundPolynomial
          exampleTwoLevels exampleLevelBounds).bind fun st =>
            ((restoreAfterBounds exampleTreeOperations ascending 5 5 ascending id st.1
              st.2).bind fun r => r.toOption).map fun m =>
                m.eliminationSets.map fun es => es.polynomials) =
        some [[3], [41, 43]] := by
  refine ⟨by decide, by decide, by decide, by decide, by decide⟩

end Members

end cad

/-! ## C34: `lazyDiv` on a divisor that is no factor of the factorization -/

/-- Claim C34. `lazyDiv` is not an exact division for every divisor: `A = x^2 - 1` and
`B = x - 1` share a cache, `B` is not zero and divides `A` (`(x - 1) * (x + 1) = x^2 - 1`), and
each of them is the only factor of its factorization. The loop finds no factor of `A` equal to
the factor `B`, so `resultFactorization` is the whole factorization of `A` with the coefficient
1, the product `B * R` is `(x - 1) * (x^2 - 1)` and not `A`, and the last assertion of `lazyDiv`
fails. -/
theorem lazyDiv_assertion_fails_for_dividing_polynomial :
    (FactorizedPolynomial.exampleCached 1 1).isZero = false ∧
      cacheEqual (FactorizedPolynomial.exampleCached 2 1).pCache
        (FactorizedPolynomial.exampleCached 1 1).pCache = true ∧
      FactorizedPolynomial.computePolynomial DensePolynomial.constant exampleContentPolynomial
            (FactorizedPolynomial.exampleCached 1 1) *
          ({ coefficients := [1, 1] } : DensePolynomial) =
        FactorizedPolynomial.computePolynomial DensePolynomial.constant
          exampleContentPolynomial (FactorizedPolynomial.exampleCached 2 1) ∧
      lazyDivLoop exampleContentLess 2 (exampleFactorization 2) (exampleFactorization 1) [] =
        some [(FactorizedPolynomial.exampleCached 2 1, 1)] ∧
      FactorizedPolynomial.computePolynomial DensePolynomial.constant exampleContentPolynomial
            (FactorizedPolynomial.exampleCached 1 1) *
          Factorization.computePolynomial DensePolynomial.constant exampleContentPolynomial
            [(FactorizedPolynomial.exampleCached 2 1, 1)] *
          DensePolynomial.constant (1 / 1) =
        { coefficients := [1, -1, -1, 1] } ∧
      FactorizedPolynomial.computePolynomial DensePolynomial.constant exampleContentPolynomial
          (FactorizedPolynomial.exampleCached 2 1) =
        { coefficients := [-1, 0, 1] } ∧
      lazyDiv exampleContentLess DensePolynomial.constant exampleContentPolynomial
          exampleFactorization exampleConstruct (FactorizedPolynomial.exampleCached 2 1)
          (FactorizedPolynomial.exampleCached 1 1) =
        none := by
  refine ⟨?_, ?_, ?_, ?_, ?_, ?_, ?_⟩ <;> with_unfolding_all decide

namespace cad
end cad

/-! ## C35: `commonDivisor` -/

namespace FactorizedPolynomial

theorem operator_lt_isSome {C : Type} (contentLess : C → C → Bool) (k : Nat)
    (a b : FactorizedPolynomial C)
    (ha : a.pCache = none ∨ a.pCache = some k) (hb : b.pCache = none ∨ b.pCache = some k) :
    operator_lt contentLess a b = some true ∨ operator_lt contentLess a b = some false := by
  rcases a with ⟨pa, ca, qa⟩
  rcases b with ⟨pb, cb, qb⟩
  simp only at ha hb
  rcases ha with rfl | rfl <;> rcases hb with rfl | rfl <;>
    simp [operator_lt, cacheEqual]
  exact lt_or_le _ _

theorem operator_eq_comm {C : Type} [DecidableEq C] (a b : FactorizedPolynomial C) :
    operator_eq a b = operator_eq b a := by
  rcases a with ⟨pa, ca, qa⟩
  rcases b with ⟨pb, cb, qb⟩
  cases pa <;> cases pb <;> simp [operator_eq, eq_comm]

theorem operator_lt_congr_left {C : Type} [DecidableEq C] (contentLess : C → C → Bool)
    (k : Nat) (a b y : FactorizedPolynomial C)
    (ha : a.pCache = none ∨ a.pCache = some k) (hb : b.pCache = none ∨ b.pCache = some k)
    (h : operator_eq a b = true) :
    operator_lt contentLess a y = operator_lt contentLess b y := by
  rcases a with ⟨pa, ca, qa⟩
  rcases b with ⟨pb, cb, qb⟩
  rcases y with ⟨py, cy, qy⟩
  simp only at ha hb
  rcases ha with rfl | rfl <;> rcases hb with rfl | rfl <;>
    simp [operator_eq] at h <;> cases py <;> simp [operator_lt, cacheEqual, h]

theorem operator_lt_congr_right {C : Type} [DecidableEq C] (contentLess : C → C → Bool)
    (k : Nat) (a b y : FactorizedPolynomial C)
    (ha : a.pCache = none ∨ a.pCache = some k) (hb : b.pCache = none ∨ b.pCache = some k)
    (h : operator_eq a b = true) :
    operator_lt contentLess y a = operator_lt contentLess y b := by
  rcases a with ⟨pa, ca, qa⟩
  rcases b with ⟨pb, cb, qb⟩
  rcases y with ⟨py, cy, qy⟩
  simp only at ha hb
  rcases ha with rfl | rfl <;> rcases hb with rfl | rfl <;>
    simp [operator_eq] at h <;> cases py <;> simp [operator_lt, cacheEqual, h]

theorem operator_eq_false_of_lt {C : Type} [DecidableEq C] (contentLess : C → C → Bool)
    (hirr : ∀ x, contentLess x x = false) (a b : FactorizedPolynomial C)
    (h : operator_lt contentLess a b = some true) : operator_eq a b = false := by
  rcases a with ⟨pa, ca, qa⟩
  rcases b with ⟨pb, cb, qb⟩
  cases pa <;> cases pb <;> simp [operator_lt, operator_eq, cacheEqual] at h ⊢
  · exact fun h1 => absurd h (by simp [h1])
  · intro _ h2
    subst h2
    simp [hirr] at h

theorem operator_lt_trans {C : Type} (contentLess : C → C → Bool)
    (htrans : ∀ x y z, contentLess x y = true → contentLess y z = true →
      contentLess x z = true)
    (k : Nat) (a b c : FactorizedPolynomial C)
    (ha : a.pCache = none ∨ a.pCache = some k) (hc : c.pCache = none ∨ c.pCache = some k)
    (hab : operator_lt contentLess a b = some true)
    (hbc : operator_lt contentLess b c = some true) :
    operator_lt contentLess a c = some true := by
  rcases a with ⟨pa, ca, qa⟩
  rcases b with ⟨pb, cb, qb⟩
  rcases c with ⟨pc, cc, qc⟩
  simp only at ha hc
  rcases ha with rfl | rfl <;> rcases hc with rfl | rfl <;> cases pb <;>
    simp [operator_lt, cacheEqual] at hab hbc ⊢
  · exact lt_trans hab hbc
  · exact htrans _ _ _ hab.2 hbc.2

theorem computePolynomial_eq_of_operator_eq {C P : Type} [DecidableEq C] [Mul P]
    (ofCoefficient : ℚ → P) (contentPolynomial : C → P) (a b : FactorizedPolynomial C)
    (h : operator_eq a b = true) :
    computePolynomial ofCoefficient contentPolynomial a =
      computePolynomial ofCoefficient contentPolynomial b := by
  rcases a with ⟨pa, ca, qa⟩
  rcases b with ⟨pb, cb, qb⟩
  cases pa <;> cases pb <;> simp [operator_eq] at h <;> simp [computePolynomial, h]

end FactorizedPolynomial

namespace CommonDivisor

theorem splits_nil_left {C M : Type} [DecidableEq C] [CommMonoid M]
    (value : FactorizedPolynomial C → M) (B : Factorization C) :
    Splits value [] B { resultFactorization := [], restA := [], restB := B } := by
  refine ⟨by simp, by simp, ?_, ?_, ?_, ?_, ?_⟩
  · intro d hd; simp at hd
  · intro a ha; simp at ha
  · intro x hx; simp at hx
  · intro y hy; exact ⟨y, hy, rfl⟩
  · intro x hx; simp at hx

theorem splits_nil_right {C M : Type} [DecidableEq C] [CommMonoid M]
    (value : FactorizedPolynomial C → M) (A : Factorization C) :
    Splits value A [] { resultFactorization := [], restA := A, restB := [] } := by
  refine ⟨by simp, by simp, ?_, ?_, ?_, ?_, ?_⟩
  · intro d hd; simp at hd
  · intro a _ b hb; simp at hb
  · intro x hx; exact ⟨x, hx, rfl⟩
  · intro y hy; simp at hy
  · intro x _ y hy; simp at hy

theorem splits_cons_left {C M : Type} [DecidableEq C] [CommMonoid M]
    (value : FactorizedPolynomial C → M) (a : FactorizedPolynomial C × Nat)
    (A B : Factorization C) (res : CommonDivisor C)
    (hfresh : ∀ y ∈ B, FactorizedPolynomial.operator_eq a.1 y.1 = false)
    (h : Splits value A B res) :
    Splits value (a :: A) B
      { resultFactorization := res.resultFactorization, restA := a :: res.restA,
        restB := res.restB } := by
  obtain ⟨h1, h2, h3, h4, h5, h6, h7⟩ := h
  refine ⟨?_, h2, ?_, ?_, ?_, h6, ?_⟩
  · simp only [List.map_cons, List.prod_cons, h1]
    exact mul_left_comm _ _ _
  · intro d hd
    obtain ⟨x, hx, y, hy, hxy⟩ := h3 d hd
    exact ⟨x, List.mem_cons_of_mem _ hx, y, hy, hxy⟩
  · intro x hx y hy hxy
    rcases List.mem_cons.1 hx with rfl | hx
    · rw [hfresh y hy] at hxy
      exact absurd hxy (by simp)
    · exact h4 x hx y hy hxy
  · intro x hx
    rcases List.mem_cons.1 hx with rfl | hx
    · exact ⟨x, List.mem_cons_self _ _, rfl⟩
    · obtain ⟨z, hz, hxz⟩ := h5 x hx
      exact ⟨z, List.mem_cons_of_mem _ hz, hxz⟩
  · intro x hx y hy
    rcases List.mem_cons.1 hx with rfl | hx
    · obtain ⟨z, hz, hyz⟩ := h6 y hy
      rw [hyz]
      exact hfresh z hz
    · exact h7 x hx y hy

theorem splits_cons_right {C M : Type} [DecidableEq C] [CommMonoid M]
    (value : FactorizedPolynomial C → M) (b : FactorizedPolynomial C × Nat)
    (A B : Factorization C) (res : CommonDivisor C)
    (hfresh : ∀ x ∈ A, FactorizedPolynomial.operator_eq x.1 b.1 = false)
    (h : Splits value A B res) :
    Splits value A (b :: B)
      { resultFactorization := res.resultFactorization, restA := res.restA,
        restB := b :: res.restB } := by
  obtain ⟨h1, h2, h3, h4, h5, h6, h7⟩ := h
  refine ⟨h1, ?_, ?_, ?_, h5, ?_, ?_⟩
  · simp only [List.map_cons, List.prod_cons, h2]
    exact mul_left_comm _ _ _
  · intro d hd
    obtain ⟨x, hx, y, hy, hxy⟩ := h3 d hd
    exact ⟨x, hx, y, List.mem_cons_of_mem _ hy, hxy⟩
  · intro x hx y hy hxy
    rcases List.mem_cons.1 hy with rfl | hy
    · rw [hfresh x hx] at hxy
      exact absurd hxy (by simp)
    · exact h4 x hx y hy hxy
  · intro y hy
    rcases List.mem_cons.1 hy with rfl | hy
    · exact ⟨y, List.mem_cons_self _ _, rfl⟩
    · obtain ⟨z, hz, hyz⟩ := h6 y hy
      exact ⟨z, List.mem_cons_of_mem _ hz, hyz⟩
  · intro x hx y hy
    rcases List.mem_cons.1 hy with rfl | hy
    · obtain ⟨z, hz, hxz⟩ := h5 x hx
      rw [hxz]
      exact hfresh z hz
    · exact h7 x hx y hy

theorem splits_cons_both {C M : Type} [DecidableEq C] [CommMonoid M]
    (value : FactorizedPolynomial C → M) (a b : FactorizedPolynomial C × Nat)
    (A B : Factorization C) (res : CommonDivisor C)
    (heq : FactorizedPolynomial.operator_eq a.1 b.1 = true)
    (hvalue : value a.1 = value b.1)
    (hfa : ∀ y ∈ B, FactorizedPolynomial.operator_eq a.1 y.1 = false)
    (hfb : ∀ x ∈ A, FactorizedPolynomial.operator_eq x.1 b.1 = false)
    (h : Splits value A B res) :
    Splits value (a :: A) (b :: B)
      { resultFactorization := (if a.2 ≤ b.2 then a else b) :: res.resultFactorization,
        restA := (if b.2 < a.2 then [(a.1, a.2 - b.2)] else []) ++ res.restA,
        restB := (if a.2 < b.2 then [(b.1, b.2 - a.2)] else []) ++ res.restB } := by
  obtain ⟨h1, h2, h3, h4, h5, h6, h7⟩ := h
  refine ⟨?_, ?_, ?_, ?_, ?_, ?_, ?_⟩
  · simp only [List.map_cons, List.prod_cons, h1]
    by_cases hle : a.2 ≤ b.2
    · simp [hle, not_lt.2 hle, mul_assoc]
    · have hlt : b.2 < a.2 := not_le.1 hle
      simp only [hle, if_false, hlt, if_true, List.singleton_append, List.map_cons,
        List.prod_cons]
      have hpow : value a.1 ^ a.2 = value b.1 ^ b.2 * value a.1 ^ (a.2 - b.2) := by
        rw [← hvalue, ← pow_add]
        congr 1
        omega
      rw [hpow]
      simp only [mul_assoc, mul_left_comm]
  · simp only [List.map_cons, List.prod_cons, h2]
    by_cases hlt : a.2 < b.2
    · simp only [le_of_lt hlt, if_true, hlt, List.singleton_append, List.map_cons,
        List.prod_cons]
      have hpow : value b.1 ^ b.2 = value a.1 ^ a.2 * value b.1 ^ (b.2 - a.2) := by
        rw [hvalue, ← pow_add]
        congr 1
        omega
      rw [hpow]
      simp only [mul_assoc, mul_left_comm]
    · simp only [hlt, if_false, List.nil_append]
      by_cases hle : a.2 ≤ b.2
      · have hab : a.2 = b.2 := le_antisymm hle (not_lt.1 hlt)
        simp [hvalue, hab, mul_assoc]
      · simp [hle, mul_assoc]
  · intro d hd
    rcases List.mem_cons.1 hd with rfl | hd
    · refine ⟨a, List.mem_cons_self _ _, b, List.mem_cons_self _ _, heq, ?_, ?_⟩
      · by_cases hle : a.2 ≤ b.2 <;> simp [hle]
      · by_cases hle : a.2 ≤ b.2
        · simp [hle]
        · simp [hle, le_of_lt (not_le.1 hle)]
    · obtain ⟨x, hx, y, hy, hxy⟩ := h3 d hd
      exact ⟨x, List.mem_cons_of_mem _ hx, y, List.mem_cons_of_mem _ hy, hxy⟩
  · intro x hx y hy hxy
    rcases List.mem_cons.1 hx with rfl | hx
    · rcases List.mem_cons.1 hy with rfl | hy
      · refine ⟨_, List.mem_cons_self _ _, ?_, ?_⟩
        · by_cases hle : x.2 ≤ y.2 <;> simp [hle]
        · by_cases hle : x.2 ≤ y.2
          · simp [hle]
          · simp [hle, le_of_lt (not_le.1 hle)]
      · rw [hfa y hy] at hxy
        exact absurd hxy (by simp)
    · rcases List.mem_cons.1 hy with rfl | hy
      · rw [hfb x hx] at hxy
        exact absurd hxy (by simp)
      · obtain ⟨d, hd, hdxy⟩ := h4 x hx y hy hxy
        exact ⟨d, List.mem_cons_of_mem _ hd, hdxy⟩
  · intro x hx
    rcases List.mem_append.1 hx with hx | hx
    · refine ⟨a, List.mem_cons_self _ _, ?_⟩
      by_cases hlt : b.2 < a.2
      · simp only [hlt, if_true, List.mem_singleton] at hx
        rw [hx]
      · simp [hlt] at hx
    · obtain ⟨z, hz, hxz⟩ := h5 x hx
      exact ⟨z, List.mem_cons_of_mem _ hz, hxz⟩
  · intro y hy
    rcases List.mem_append.1 hy with hy | hy
    · refine ⟨b, List.mem_cons_self _ _, ?_⟩
      by_cases hlt : a.2 < b.2
      · simp only [hlt, if_true, List.mem_singleton] at hy
        rw [hy]
      · simp [hlt] at hy
    · obtain ⟨z, hz, hyz⟩ := h6 y hy
      exact ⟨z, List.mem_cons_of_mem _ hz, hyz⟩
  · intro x hx y hy
    rcases List.mem_append.1 hx with hx | hx
    · by_cases hlt : b.2 < a.2
      · simp only [hlt, if_true, List.mem_singleton] at hx
        rcases List.mem_append.1 hy with hy | hy
        · simp [not_lt.2 (le_of_lt hlt)] at hy
        · obtain ⟨z, hz, hyz⟩ := h6 y hy
          rw [hx, hyz]
          exact hfa z hz
      · simp [hlt] at hx
    · rcases List.mem_append.1 hy with hy | hy
      · by_cases hlt : a.2 < b.2
        · simp only [hlt, if_true, List.mem_singleton] at hy
          obtain ⟨z, hz, hxz⟩ := h5 x hx
          rw [hy, hxz]
          exact hfb z hz
        · simp [hlt] at hy
      · exact h7 x hx y hy

end CommonDivisor

theorem power_eq_pow {M : Type} [Monoid M] (p : M) (n : Nat) : power p n = p ^ n := by
  induction n with
  | zero => simp [power]
  | succ n ih => simp [power, ih, pow_succ]

theorem Factorization.foldl_computePolynomial {C M : Type} [Monoid M]
    (value : FactorizedPolynomial C → M) (l : Factorization C) (x : M) :
    l.foldl (fun result factor => result * power (value factor.1) factor.2) x =
      x * (l.map fun e => value e.1 ^ e.2).prod := by
  induction l generalizing x with
  | nil => simp
  | cons e l ih =>
    rw [List.foldl_cons, ih, List.map_cons, List.prod_cons, power_eq_pow, mul_assoc]

theorem Factorization.computePolynomial_eq_prod {C M : Type} [Monoid M]
    (ofCoefficient : ℚ → M) (contentPolynomial : C → M) (l : Factorization C) :
    Factorization.computePolynomial ofCoefficient contentPolynomial l =
      (l.map fun e =>
        FactorizedPolynomial.computePolynomial ofCoefficient contentPolynomial e.1 ^ e.2).prod := by
  unfold Factorization.computePolynomial
  rw [Factorization.foldl_computePolynomial
    (FactorizedPolynomial.computePolynomial ofCoefficient contentPolynomial) l 1, one_mul]

theorem commonDivisorLoop_splits {C M : Type} [DecidableEq C] [CommMonoid M]
    (contentLess : C → C → Bool) (hirr : ∀ x, contentLess x x = false)
    (htrans : ∀ x y z, contentLess x y = true → contentLess y z = true →
      contentLess x z = true)
    (k : Nat) (value : FactorizedPolynomial C → M)
    (hvalue : ∀ a b, FactorizedPolynomial.operator_eq a b = true → value a = value b)
    (fuel : Nat) (A B : Factorization C) (acc : CommonDivisor C)
    (hfuel : A.length + B.length ≤ fuel)
    (hcacheA : ∀ f ∈ A, f.1.pCache = none ∨ f.1.pCache = some k)
    (hcacheB : ∀ f ∈ B, f.1.pCache = none ∨ f.1.pCache = some k)
    (hsortedA : A.Pairwise fun x y =>
      FactorizedPolynomial.operator_lt contentLess x.1 y.1 = some true)
    (hsortedB : B.Pairwise fun x y =>
      FactorizedPolynomial.operator_lt contentLess x.1 y.1 = some true) :
    ∃ res : CommonDivisor C,
      commonDivisorLoop contentLess fuel A B acc =
          some
            { resultFactorization := acc.resultFactorization ++ res.resultFactorization,
              restA := acc.restA ++ res.restA, restB := acc.restB ++ res.restB } ∧
        CommonDivisor.Splits value A B res := by
  induction fuel generalizing A B acc with
  | zero =>
    cases A with
    | nil =>
      exact ⟨{ resultFactorization := [], restA := [], restB := B },
        by simp [commonDivisorLoop], CommonDivisor.splits_nil_left value B⟩
    | cons a A =>
      cases B with
      | nil =>
        exact ⟨{ resultFactorization := [], restA := a :: A, restB := [] },
          by simp [commonDivisorLoop], CommonDivisor.splits_nil_right value (a :: A)⟩
      | cons b B => simp at hfuel
  | succ fuel ih =>
    cases A with
    | nil =>
      exact ⟨{ resultFactorization := [], restA := [], restB := B },
        by simp [commonDivisorLoop], CommonDivisor.splits_nil_left value B⟩
    | cons a A =>
      cases B with
      | nil =>
        exact ⟨{ resultFactorization := [], restA := a :: A, restB := [] },
          by simp [commonDivisorLoop], CommonDivisor.splits_nil_right value (a :: A)⟩
      | cons b B =>
        have hca := hcacheA a (List.mem_cons_self _ _)
        have hcb := hcacheB b (List.mem_cons_self _ _)
        have hcA : ∀ f ∈ A, f.1.pCache = none ∨ f.1.pCache = some k :=
          fun f hf => hcacheA f (List.mem_cons_of_mem _ hf)
        have hcB : ∀ f ∈ B, f.1.pCache = none ∨ f.1.pCache = some k :=
          fun f hf => hcacheB f (List.mem_cons_of_mem _ hf)
        obtain ⟨haA, hsA⟩ := List.pairwise_cons.1 hsortedA
        obtain ⟨hbB, hsB⟩ := List.pairwise_cons.1 hsortedB
        simp only [List.length_cons] at hfuel
        by_cases heq : FactorizedPolynomial.operator_eq a.1 b.1 = true
        · have hfa : ∀ y ∈ B, FactorizedPolynomial.operator_eq a.1 y.1 = false := by
            intro y hy
            apply FactorizedPolynomial.operator_eq_false_of_lt contentLess hirr
            rw [FactorizedPolynomial.operator_lt_congr_left contentLess k a.1 b.1 y.1 hca hcb
              heq]
            exact hbB y hy
          have hfb : ∀ x ∈ A, FactorizedPolynomial.operator_eq x.1 b.1 = false := by
            intro x hx
            rw [FactorizedPolynomial.operator_eq_comm]
            apply FactorizedPolynomial.operator_eq_false_of_lt contentLess hirr
            rw [← FactorizedPolynomial.operator_lt_congr_left contentLess k a.1 b.1 x.1 hca hcb
              heq]
            exact haA x hx
          obtain ⟨res, hres, hsplit⟩ := ih A B
            (if a.2 < b.2 then
              { acc with
                resultFactorization := acc.resultFactorization ++ [a],
                restB := acc.restB ++ [(b.1, b.2 - a.2)] }
            else if a.2 > b.2 then
              { acc with
                resultFactorization := acc.resultFactorization ++ [b],
                restA := acc.restA ++ [(a.1, a.2 - b.2)] }
            else { acc with resultFactorization := acc.resultFactorization ++ [a] })
            (by omega) hcA hcB hsA hsB
          refine ⟨_, ?_,
            CommonDivisor.splits_cons_both value a b A B res heq (hvalue _ _ heq) hfa hfb
              hsplit⟩
          simp only [commonDivisorLoop, heq, if_true]
          rw [hres]
          by_cases hlt : a.2 < b.2
          · simp [hlt, le_of_lt hlt, not_lt.2 (le_of_lt hlt)]
          · by_cases hgt : a.2 > b.2
            · simp [hlt, hgt, not_le.2 hgt]
            · have hle : a.2 ≤ b.2 := not_lt.1 hgt
              simp [hlt, hgt, hle]
        · have heqf : FactorizedPolynomial.operator_eq a.1 b.1 = false := by
            simpa using heq
          rcases FactorizedPolynomial.operator_lt_isSome contentLess k a.1 b.1 hca hcb with
            hlt | hlt
          · have hfresh : ∀ y ∈ b :: B, FactorizedPolynomial.operator_eq a.1 y.1 = false := by
              intro y hy
              rcases List.mem_cons.1 hy with rfl | hy
              · exact heqf
              · exact FactorizedPolynomial.operator_eq_false_of_lt contentLess hirr _ _
                  (FactorizedPolynomial.operator_lt_trans contentLess htrans k a.1 b.1 y.1 hca
                    (hcB y hy) hlt (hbB y hy))
            obtain ⟨res, hres, hsplit⟩ := ih A (b :: B)
              { acc with restA := acc.restA ++ [a] } (by simp only [List.length_cons]; omega)
              hcA hcacheB hsA hsortedB
            refine ⟨_, ?_, CommonDivisor.splits_cons_left value a A (b :: B) res hfresh hsplit⟩
            simp only [commonDivisorLoop, heqf, hlt]
            rw [hres]
            simp
          · have hfresh : ∀ x ∈ a :: A, FactorizedPolynomial.operator_eq x.1 b.1 = false := by
              intro x hx
              rcases List.mem_cons.1 hx with rfl | hx
              · exact heqf
              · by_contra hxb
                have hxb1 : FactorizedPolynomial.operator_eq x.1 b.1 = true := by
                  simpa using hxb
                have h1 := FactorizedPolynomial.operator_lt_congr_right contentLess k x.1 b.1 a.1
                  (hcA x hx) hcb hxb1
                rw [haA x hx, hlt] at h1
                simp at h1
            obtain ⟨res, hres, hsplit⟩ := ih (a :: A) B
              { acc with restB := acc.restB ++ [b] } (by simp only [List.length_cons]; omega)
              hcacheA hcB hsortedA hsB
            refine ⟨_, ?_, CommonDivisor.splits_cons_right value b (a :: A) B res hfresh hsplit⟩
            simp only [commonDivisorLoop, heqf, hlt]
            rw [hres]
            simp

/-- Claim C35. `commonDivisor` splits two factorizations exactly: for all non-empty
factorizations `A` and `B` whose factors lie in one cache and are in the strict order of the
map, over an irreflexive and transitive order of the cache entries, `commonDivisor` returns; the
polynomial of `A` is the product of those of the result and of `restA`, and the polynomial of
`B` is the product of those of the result and of `restB`; every entry of the result is a factor
of both `A` and `B` with the minimum of its two exponents, every factor of both has such an
entry, and `restA` and `restB` share no factor. -/
theorem commonDivisor_splits_exactly {C M : Type} [DecidableEq C] [CommMonoid M]
    [DecidableEq M] (contentLess : C → C → Bool) (ofCoefficient : ℚ → M)
    (contentPolynomial : C → M) (hirr : ∀ x, contentLess x x = false)
    (htrans : ∀ x y z, contentLess x y = true → contentLess y z = true →
      contentLess x z = true)
    (k : Nat) (A B : Factorization C) (hA : A ≠ []) (hB : B ≠ [])
    (hcacheA : ∀ f ∈ A, f.1.pCache = none ∨ f.1.pCache = some k)
    (hcacheB : ∀ f ∈ B, f.1.pCache = none ∨ f.1.pCache = some k)
    (hsortedA : A.Pairwise fun x y =>
      FactorizedPolynomial.operator_lt contentLess x.1 y.1 = some true)
    (hsortedB : B.Pairwise fun x y =>
      FactorizedPolynomial.operator_lt contentLess x.1 y.1 = some true) :
    ∃ res : CommonDivisor C,
      commonDivisor contentLess ofCoefficient contentPolynomial A B = some res ∧
        Factorization.computePolynomial ofCoefficient contentPolynomial A =
          Factorization.computePolynomial ofCoefficient contentPolynomial
              res.resultFactorization *
            Factorization.computePolynomial ofCoefficient contentPolynomial res.restA ∧
        Factorization.computePolynomial ofCoefficient contentPolynomial B =
          Factorization.computePolynomial ofCoefficient contentPolynomial
              res.resultFactorization *
            Factorization.computePolynomial ofCoefficient contentPolynomial res.restB ∧
        (∀ d ∈ res.resultFactorization, ∃ a ∈ A, ∃ b ∈ B,
          FactorizedPolynomial.operator_eq a.1 b.1 = true ∧ (d.1 = a.1 ∨ d.1 = b.1) ∧
            d.2 = min a.2 b.2) ∧
        (∀ a ∈ A, ∀ b ∈ B, FactorizedPolynomial.operator_eq a.1 b.1 = true →
          ∃ d ∈ res.resultFactorization, (d.1 = a.1 ∨ d.1 = b.1) ∧ d.2 = min a.2 b.2) ∧
        ∀ x ∈ res.restA, ∀ y ∈ res.restB,
          FactorizedPolynomial.operator_eq x.1 y.1 = false := by
  obtain ⟨res, hres, h1, h2, h3, h4, _, _, h7⟩ :=
    commonDivisorLoop_splits contentLess hirr htrans k
      (FactorizedPolynomial.computePolynomial ofCoefficient contentPolynomial)
      (FactorizedPolynomial.computePolynomial_eq_of_operator_eq ofCoefficient contentPolynomial)
      (A.length + B.length) A B { resultFactorization := [], restA := [], restB := [] }
      (le_refl _) hcacheA hcacheB hsortedA hsortedB
  simp only [List.nil_append] at hres
  have hpA : Factorization.computePolynomial ofCoefficient contentPolynomial A =
      Factorization.computePolynomial ofCoefficient contentPolynomial
          res.resultFactorization *
        Factorization.computePolynomial ofCoefficient contentPolynomial res.restA := by
    simp only [Factorization.computePolynomial_eq_prod]
    exact h1
  have hpB : Factorization.computePolynomial ofCoefficient contentPolynomial B =
      Factorization.computePolynomial ofCoefficient contentPolynomial
          res.resultFactorization *
        Factorization.computePolynomial ofCoefficient contentPolynomial res.restB := by
    simp only [Factorization.computePolynomial_eq_prod]
    exact h2
  refine ⟨res, ?_, hpA, hpB, h3, h4, h7⟩
  have hAe : A.isEmpty = false := by
    cases A with
    | nil => exact absurd rfl hA
    | cons a A => rfl
  have hBe : B.isEmpty = false := by
    cases B with
    | nil => exact absurd rfl hB
    | cons b B => rfl
  unfold commonDivisor
  rw [hAe, hBe, hres]
  simp only [Bool.or_self, Bool.false_eq_true, if_false]
  rw [if_pos ⟨hpA, hpB⟩]

/-- The theorem `commonDivisor_splits_exactly` applies to the factorizations
`(x - 1)^2 * (x^2 - 1)` and `(x - 1) * x` over the cache of the examples, with polynomials over
the rational numbers. -/
theorem commonDivisor_splits_exactly_witness :
    ([(FactorizedPolynomial.exampleCached 1 1, 2), (FactorizedPolynomial.exampleCached 2 1, 1)] :
        Factorization Nat) ≠ [] ∧
      ([(FactorizedPolynomial.exampleCached 1 1, 1),
        (FactorizedPolynomial.exampleCached 3 1, 1)] : Factorization Nat) ≠ [] ∧
      ([(FactorizedPolynomial.exampleCached 1 1, 2), (FactorizedPolynomial.exampleCached 2 1, 1)] :
        Factorization Nat).Pairwise (fun x y =>
          FactorizedPolynomial.operator_lt exampleContentLess x.1 y.1 = some true) ∧
      ([(FactorizedPolynomial.exampleCached 1 1, 1),
        (FactorizedPolynomial.exampleCached 3 1, 1)] : Factorization Nat).Pairwise (fun x y =>
          FactorizedPolynomial.operator_lt exampleContentLess x.1 y.1 = some true) ∧
      ∃ res : CommonDivisor Nat,
        commonDivisor exampleContentLess (fun q => (Polynomial.C q : Polynomial ℚ))
            (fun c => if c = 1 then Polynomial.X - 1 else if c = 2 then Polynomial.X ^ 2 - 1
              else Polynomial.X)
            [(FactorizedPolynomial.exampleCached 1 1, 2),
              (FactorizedPolynomial.exampleCached 2 1, 1)]
            [(FactorizedPolynomial.exampleCached 1 1, 1),
              (FactorizedPolynomial.exampleCached 3 1, 1)] = some res ∧
          ∀ x ∈ res.restA, ∀ y ∈ res.restB,
            FactorizedPolynomial.operator_eq x.1 y.1 = false :=
  ⟨by simp, by simp, by decide, by decide,
    (commonDivisor_splits_exactly exampleContentLess
      (fun q => (Polynomial.C q : Polynomial ℚ))
      (fun c => if c = 1 then Polynomial.X - 1 else if c = 2 then Polynomial.X ^ 2 - 1
        else Polynomial.X)
      (fun x => by simp [exampleContentLess])
      (fun x y z hxy hyz => by
        simp only [exampleContentLess, decide_eq_true_eq] at hxy hyz ⊢
        omega)
      0
      [(FactorizedPolynomial.exampleCached 1 1, 2),
        (FactorizedPolynomial.exampleCached 2 1, 1)]
      [(FactorizedPolynomial.exampleCached 1 1, 1),
        (FactorizedPolynomial.exampleCached 3 1, 1)]
      (by simp) (by simp)
      (by simp [FactorizedPolynomial.exampleCached])
      (by simp [FactorizedPolynomial.exampleCached])
      (by decide) (by decide)).imp fun _ h => ⟨h.1, h.2.2.2.2.2⟩⟩

namespace cad

/-! ## The queues after `removeByParent` -/

namespace EliminationSet

/-- Claim C36. The set holds the original input 6 and the polynomial 4 with the only parent 7,
inserted with `avoidSingle`; the single-elimination queue holds 6 only. `removeByParent(7)`
deletes 4 and keeps 6 in the set, but it erases the entry at the lower bound of 4 in the
single-elimination queue, which is 6: the queue is empty afterwards. `erase(4)` on the same set
leaves the queue as it is. -/
theorem removeByParent_erases_queue_entry_of_kept_polynomial :
    exampleAvoidSingle.polynomials = [6, 4] ∧
    exampleAvoidSingle.mSingleEliminationQueue = [6] ∧
    (exampleAvoidSingle.removeByParent 7).2 = [4] ∧
    (exampleAvoidSingle.removeByParent 7).1.polynomials = [6] ∧
    (exampleAvoidSingle.removeByParent 7).1.mSingleEliminationQueue = [] ∧
    (exampleAvoidSingle.removeByParent 7).1.mLiftingQueue = [6] ∧
    (exampleAvoidSingle.erase 4).1.polynomials = [6] ∧
    (exampleAvoidSingle.erase 4).1.mSingleEliminationQueue = [6] := by
  decide

end EliminationSet

/-! ## The settings after `check` -/

namespace CAD

/-- The settings after `check` are the settings that the entry of `check` leaves, on every
return path: the specialisation to equations or inequalities is undone, the write of
`trimVariables` at the entry is not. -/
theorem check_setting (X : Collaborators) (fuel : Nat) (s : CheckState X)
    (constraints : List X.Constraint) (bounds : BoundMap X)
    (next checkTraceFirst checkBounds : Bool) (res : CheckResult X)
    (h : check X fuel s constraints bounds next checkTraceFirst checkBounds = some res) :
    res.state.cad.setting = (checkEntry X s).cad.setting := by
  unfold check at h
  dsimp only at h
  split at h
  · simp only [Option.some.injEq] at h
    subst h
    rfl
  · split at h
    · simp only [Option.some.injEq] at h
      subst h
      rfl
    · unfold checkSearch at h
      dsimp only at h
      split at h
      · simp at h
      · simp only [Option.some.injEq] at h
        subst h
        rfl

/-- Claim C37. An engine whose setting `trimVariables` is on has it off after `check`: the
entry of `check` writes `trimVariables = false` before the backup of the settings is taken,
so the restore at the end brings back the changed value. -/
theorem check_switches_trimVariables_off :
    exampleTrimEngine.cad.setting.trimVariables = true ∧
    (check (exampleCollaborators neverInterrupted) 10 exampleTrimEngine [(2, Sign.ZERO)] []
        false false false).map
      (fun res => (res.satisfiable, res.state.cad.setting.trimVariables,
        decide (res.state.cad.setting = exampleTrimEngine.cad.setting))) =
      some (true, false, false) := by
  decide

end CAD

/-! ## C38: the cleaning loop of `removePolynomial` at level 0 -/

namespace Members

/-- With `level = 0` the condition `l >= level` of the cleaning loop holds for every value of
the counter, so the loop never hands the engine back. -/
theorem cleanLoop_level_zero_not_ok {Tree Node : Type} (T : TreeOperations Tree Node)
    (inner dim : Nat) (maxDepth : Int) (sampleTreeRoot : Node) (fuel l : Nat)
    (m m1 : Members Tree Node) :
    cleanLoop T inner 0 dim maxDepth sampleTreeRoot fuel l m ≠ some (Except.ok m1) := by
  induction fuel generalizing l m with
  | zero => simp [cleanLoop]
  | succ fuel ih =>
    unfold cleanLoop
    simp only [Nat.zero_le, if_true]
    cases hget : m.eliminationSets[l]? with
    | none => simp
    | some es =>
      simp only
      by_cases hempty : es.isEmpty = true
      · simp only [hempty, if_true]
        cases hclean : cleanLevel T inner dim maxDepth sampleTreeRoot m.sampleTree l with
        | none => simp
        | some tree => exact ih _ _
      · simp only [hempty]
        exact ih _ _

/-- Claim C38. `removePolynomial(p, level, childrenOnly)` is not safe at level 0: with
`level = 0` the cleaning loop `for (unsigned l = dim - 1; l >= level; l--)` never ends by its
condition, for any engine, tree and number of passes; and on an engine with two elimination
levels, where the call removes the children of the polynomial 3 of level 0, the counter goes
from 0 to 2^32 - 1 and the loop reads `eliminationSets[4294967295]`, outside the two levels.
At level 1 the same call returns. -/
theorem removePolynomialAt_level_zero_reads_outside :
    (∀ (Tree Node : Type) (T : TreeOperations Tree Node) (inner dim : Nat) (maxDepth : Int)
        (sampleTreeRoot : Node) (fuel l : Nat) (m m1 : Members Tree Node),
        cleanLoop T inner 0 dim maxDepth sampleTreeRoot fuel l m ≠ some (Except.ok m1)) ∧
      exampleTwoLevels.eliminationSets.length = 2 ∧
      indexOutside (removePolynomialAt exampleTreeOperations ascending 5 5 exampleTwoLevels 3 0
        true) = some 4294967295 ∧
      indexOutside (removePolynomialAt exampleTreeOperations ascending 5 5 exampleTwoLevels 3 0
        false) = some 4294967295 ∧
      ((removePolynomialAt exampleTreeOperations ascending 5 5 exampleTwoLevels 3 1
        true).map fun r => r.toBool) = some true :=
  ⟨fun _ _ T inner dim maxDepth sampleTreeRoot fuel l m m1 =>
      cleanLoop_level_zero_not_ok T inner dim maxDepth sampleTreeRoot fuel l m m1,
    by decide, by decide, by decide, by decide⟩

end Members

end cad

/-! ## Equality of factorized polynomials -/

namespace FactorizedPolynomial

/-- When `operator!=` is not the negation of `operator==`: both polynomials have a cache, the
same cache entry and different coefficients. -/
theorem operator_ne_eq_not_operator_eq_iff {C : Type} [DecidableEq C]
    (fpolyA fpolyB : FactorizedPolynomial C)
    (hcache : cacheEqual fpolyA.pCache fpolyB.pCache = true) :
    operator_ne fpolyA fpolyB = some (!operator_eq fpolyA fpolyB) ↔
      ¬ (fpolyA.pCache ≠ none ∧ fpolyB.pCache ≠ none ∧ fpolyA.content = fpolyB.content ∧
        fpolyA.coefficient ≠ fpolyB.coefficient) := by
  unfold operator_ne operator_eq
  rw [if_pos hcache]
  by_cases h1 : fpolyA.pCache = none ∧ fpolyB.pCache = none
  · rw [if_pos h1, if_pos h1]
    simp [h1.1]
  · rw [if_neg h1, if_neg h1]
    by_cases h2 : fpolyA.pCache ≠ none ∧ fpolyB.pCache ≠ none
    · rw [if_pos h2, if_pos h2]
      by_cases h3 : fpolyA.coefficient = fpolyB.coefficient
      · simp [h3]
      · by_cases h4 : fpolyA.content = fpolyB.content
        · simp [h2.1, h2.2, h3, h4]
        · simp [h3, h4]
    · rw [if_neg h2, if_neg h2]
      have : ¬ (fpolyA.pCache ≠ none ∧ fpolyB.pCache ≠ none ∧
          fpolyA.content = fpolyB.content ∧ fpolyA.coefficient ≠ fpolyB.coefficient) :=
        fun h => h2 ⟨h.1, h.2.1⟩
      simp [this]

/-- Claim C39. For the polynomials with the same cache, the same cache entry and the
coefficients 2 and 3, `operator==` gives false and `operator!=` gives false as well:
`operator!=` compares the cache entries only, `operator==` the coefficients first. -/
theorem operator_ne_ignores_coefficient :
    cacheEqual (exampleCached 7 2).pCache (exampleCached 7 3).pCache = true ∧
    operator_eq (exampleCached 7 2) (exampleCached 7 3) = false ∧
    operator_ne (exampleCached 7 2) (exampleCached 7 3) = some false := by
  with_unfolding_all decide

end FactorizedPolynomial

namespace cad

end cad
end carl
